import Mathlib

/-!
Azul rules engine: a shallow embedding and its verified properties.

The Go packages `game` (tiles.go, bag.go, factory.go, player.go, game.go) and `ai`
(ai.go) are translated function by function.  Conventions of the embedding:

* Go `int` is `Int` and its arithmetic is exact, where the 64-bit `int` of Go
  wraps around.  The two agree as long as every value computed is between
  `MinInt64` and `MaxInt64`: the statements on `PlaceTiles`, on the scoring
  methods and on `EndRound` for boards that no invariant bounds carry that
  range as a hypothesis and show that the results stay inside it.
* A slice is a `List` (index 0 is the head, `append` adds at the end); a fixed
  array `[5]T` is `Arr5 T`.
* A method that mutates its receiver returns the new receiver value.
* A runtime fault (index out of range, division by zero, negative capacity)
  is the result `none`; a Go `error` return is the Boolean component
  of the result of `Game.ApplyMove`.
* The generator of `math/rand` is outside the repository: it is the
  parameter `raw` (see `Rand`).
* The recursive method `minimax` takes the number of nested calls it may make
  as an additional first argument and is `none` once that is used up; its
  result does not depend on that number once it exceeds the depth.
* The `float64` values of `evaluateState` are rationals, each operation being
  rounded to 53 significant bits (see `float64`).
-/

namespace Azul

/-! ## tiles.go -/

/-- The enumeration `TileColor` of tiles.go, in `iota` order. -/
inductive TileColor where
  | Blue
  | Yellow
  | Red
  | Black
  | White
  | FirstPlayerMarker
  | NoTile
deriving DecidableEq, Repr

/-- The function `AllColors` of tiles.go. -/
def AllColors : List TileColor :=
  [TileColor.Blue, TileColor.Yellow, TileColor.Red, TileColor.Black, TileColor.White]

/-- One of the five real colours, that is, a member of `AllColors`. -/
def TileColor.IsReal (c : TileColor) : Bool :=
  match c with
  | TileColor.Blue => true
  | TileColor.Yellow => true
  | TileColor.Red => true
  | TileColor.Black => true
  | TileColor.White => true
  | TileColor.FirstPlayerMarker => false
  | TileColor.NoTile => false

/-! ## Fixed arrays and slice indexing -/

/-- A Go array of length five. -/
structure Arr5 (α : Type) where
  e0 : α
  e1 : α
  e2 : α
  e3 : α
  e4 : α
deriving DecidableEq, Repr

namespace Arr5

variable {α : Type}

/-- Read `a[i]` for a Go `int` index; `none` is the index-out-of-range fault. -/
def get? (a : Arr5 α) (i : Int) : Option α :=
  if i = 0 then some a.e0
  else if i = 1 then some a.e1
  else if i = 2 then some a.e2
  else if i = 3 then some a.e3
  else if i = 4 then some a.e4
  else none

/-- Write `a[i] = v` for a Go `int` index; `none` is the index-out-of-range fault. -/
def set? (a : Arr5 α) (i : Int) (v : α) : Option (Arr5 α) :=
  if i = 0 then some { a with e0 := v }
  else if i = 1 then some { a with e1 := v }
  else if i = 2 then some { a with e2 := v }
  else if i = 3 then some { a with e3 := v }
  else if i = 4 then some { a with e4 := v }
  else none

/-- The entries in index order. -/
def toList (a : Arr5 α) : List α := [a.e0, a.e1, a.e2, a.e3, a.e4]

/-- Read `a[i]` for a loop index known to lie in `0..4`. -/
def get (a : Arr5 α) (i : Fin 5) : α :=
  if i.val = 0 then a.e0
  else if i.val = 1 then a.e1
  else if i.val = 2 then a.e2
  else if i.val = 3 then a.e3
  else a.e4

/-- Read `w[r][c]` in a five by five array. -/
def get2? (w : Arr5 (Arr5 α)) (r c : Int) : Option α :=
  match w.get? r with
  | none => none
  | some row => row.get? c

/-- Write `w[r][c] = v` in a five by five array. -/
def set2? (w : Arr5 (Arr5 α)) (r c : Int) (v : α) : Option (Arr5 (Arr5 α)) :=
  match w.get? r with
  | none => none
  | some row =>
    match row.set? c v with
    | none => none
    | some row1 => w.set? r row1

end Arr5

/-- Read `l[i]` in a slice for a Go `int` index; `none` is the fault. -/
def idx? {α : Type} (l : List α) (i : Int) : Option α :=
  if i < 0 then none else l[i.toNat]?

/-- The loop indices of `for i := 0; i < 5; i++`, as Go `int` values. -/
def range5 : List Int := [0, 1, 2, 3, 4]

/-- The loop indices of `for i := 0; i < 5; i++`, used only to index an array. -/
def fin5 : List (Fin 5) := [0, 1, 2, 3, 4]

/-! ## player.go: pattern lines -/

/-- The array `WallPattern` of player.go. -/
def WallPattern : Arr5 (Arr5 TileColor) :=
  { e0 := ⟨TileColor.Blue, TileColor.Yellow, TileColor.Red, TileColor.Black, TileColor.White⟩
    e1 := ⟨TileColor.White, TileColor.Blue, TileColor.Yellow, TileColor.Red, TileColor.Black⟩
    e2 := ⟨TileColor.Black, TileColor.White, TileColor.Blue, TileColor.Yellow, TileColor.Red⟩
    e3 := ⟨TileColor.Red, TileColor.Black, TileColor.White, TileColor.Blue, TileColor.Yellow⟩
    e4 := ⟨TileColor.Yellow, TileColor.Red, TileColor.Black, TileColor.White, TileColor.Blue⟩ }

/-- The struct `PatternLine` of player.go. -/
structure PatternLine where
  Size : Int
  Color : TileColor
  Filled : Int
deriving DecidableEq, Repr

namespace PatternLine

/-- The method `IsFull`. -/
def IsFull (p : PatternLine) : Bool := decide (p.Filled = p.Size)

/-- The method `IsEmpty`. -/
def IsEmpty (p : PatternLine) : Bool := decide (p.Filled = 0)

/-- The method `CanAccept`. -/
def CanAccept (p : PatternLine) (color : TileColor) : Bool :=
  if p.IsFull then false
  else if p.IsEmpty then true
  else decide (p.Color = color)

/-- The method `Add`: the updated line and the overflow count.  The arithmetic is exact:
it is that of the code as long as `Size - Filled`, `Filled + toPlace` and
`count - toPlace` are values of `int`. -/
def Add (p : PatternLine) (color : TileColor) (count : Int) : PatternLine × Int :=
  let p1 : PatternLine := if p.IsEmpty then { p with Color := color } else p
  let space := p1.Size - p1.Filled
  let toPlace := min count space
  ({ p1 with Filled := p1.Filled + toPlace }, count - toPlace)

/-- The method `Clear`: the cleared line, then the colour and count it held. -/
def Clear (p : PatternLine) : PatternLine × TileColor × Int :=
  ({ p with Color := TileColor.NoTile, Filled := 0 }, p.Color, p.Filled)

end PatternLine

/-! ## player.go: player boards -/

/-- The struct `PlayerBoard` of player.go. -/
structure PlayerBoard where
  PatternLines : Arr5 PatternLine
  Wall : Arr5 (Arr5 Bool)
  FloorLine : List TileColor
  Score : Int
deriving DecidableEq, Repr

/-- The table `FloorPenalties` of player.go. -/
def FloorPenalties : List Int := [-1, -1, -2, -2, -2, -3, -3]

/-- The constructor `NewPlayerBoard`. -/
def NewPlayerBoard : PlayerBoard :=
  { PatternLines :=
      ⟨⟨1, TileColor.NoTile, 0⟩, ⟨2, TileColor.NoTile, 0⟩, ⟨3, TileColor.NoTile, 0⟩,
       ⟨4, TileColor.NoTile, 0⟩, ⟨5, TileColor.NoTile, 0⟩⟩
    Wall :=
      ⟨⟨false, false, false, false, false⟩, ⟨false, false, false, false, false⟩,
       ⟨false, false, false, false, false⟩, ⟨false, false, false, false, false⟩,
       ⟨false, false, false, false, false⟩⟩
    FloorLine := []
    Score := 0 }

/-- The column loop of `GetWallColumn` over one row of the pattern:
the first column holding `color`, or `-1`. -/
def wallColumnLoop (rowPat : Arr5 TileColor) (color : TileColor) : List Int → Int
  | [] => -1
  | col :: cols =>
    if rowPat.get? col = some color then col else wallColumnLoop rowPat color cols

namespace PlayerBoard

/-- The method `GetWallColumn`; `WallPattern[row]` faults when `row` is out of range. -/
def GetWallColumn (_pb : PlayerBoard) (row : Int) (color : TileColor) : Option Int :=
  match WallPattern.get? row with
  | none => none
  | some rowPat => some (wallColumnLoop rowPat color range5)

/-- The method `CanPlaceOnLine`. -/
def CanPlaceOnLine (pb : PlayerBoard) (lineIdx : Int) (color : TileColor) : Option Bool :=
  if lineIdx < 0 ∨ lineIdx ≥ 5 then some false
  else
    match pb.PatternLines.get? lineIdx with
    | none => none
    | some pl =>
      if !pl.CanAccept color then some false
      else
        match pb.GetWallColumn lineIdx color with
        | none => none
        | some wallCol =>
          match pb.Wall.get2? lineIdx wallCol with
          | none => none
          | some occupied => if occupied then some false else some true

/-- The method `PlaceTiles`. -/
def PlaceTiles (pb : PlayerBoard) (lineIdx : Int) (color : TileColor) (count : Int) :
    Option PlayerBoard :=
  if lineIdx = -1 then
    some { pb with FloorLine := pb.FloorLine ++ List.replicate count.toNat color }
  else
    match pb.PatternLines.get? lineIdx with
    | none => none
    | some pl =>
      match pb.PatternLines.set? lineIdx (pl.Add color count).1 with
      | none => none
      | some lines =>
        some { pb with
          PatternLines := lines
          FloorLine := pb.FloorLine ++ List.replicate (pl.Add color count).2.toNat color }

/-- The method `AddToFloor`. -/
def AddToFloor (pb : PlayerBoard) (color : TileColor) : PlayerBoard :=
  { pb with FloorLine := pb.FloorLine ++ [color] }

end PlayerBoard

/-- The loop `for c := start; c >= 0 && cell(c); c--` adding one to `acc` per round;
the first argument is `start + 1`, so `0` means the index has dropped below zero. -/
def runBack (cell : Int → Option Bool) : Nat → Int → Option Int
  | 0, acc => some acc
  | k + 1, acc =>
    match cell (k : Int) with
    | none => none
    | some true => runBack cell k (acc + 1)
    | some false => some acc

/-- The loop `for c := start; c < 5 && cell(c); c++` adding one to `acc` per round;
the first argument is `5 - c`, so `0` means the index has reached five. -/
def runFwd (cell : Int → Option Bool) : Nat → Int → Int → Option Int
  | 0, _, acc => some acc
  | n + 1, c, acc =>
    match cell c with
    | none => none
    | some true => runFwd cell n (c + 1) (acc + 1)
    | some false => some acc

/-- The final case distinction of `ScoreWallTile` on the two run lengths. -/
def scorePoints (hCount vCount : Int) : Int :=
  if hCount = 1 ∧ vCount = 1 then 1
  else
    let p1 : Int := if hCount > 1 then 0 + hCount else 0
    let p2 : Int := if vCount > 1 then p1 + vCount else p1
    if p2 = 0 then 1 else p2

/-- One round of the floor loop of `ScoreFloorLine`: index `i`, running score, discards. -/
def scoreFloorLoop : List TileColor → Nat → Int → List TileColor → Int × List TileColor
  | [], _, score, discards => (score, discards)
  | tile :: rest, i, score, discards =>
    scoreFloorLoop rest (i + 1)
      (if i < FloorPenalties.length then score + FloorPenalties.getD i 0 else score)
      (if tile ≠ TileColor.FirstPlayerMarker then discards ++ [tile] else discards)

/-- The inner loop `complete` over the columns of one wall row. -/
def rowComplete (w : Arr5 (Arr5 Bool)) (row : Fin 5) : Bool :=
  fin5.all (fun col => (w.get row).get col)

/-- The inner loop `complete` over the rows of one wall column. -/
def colComplete (w : Arr5 (Arr5 Bool)) (col : Fin 5) : Bool :=
  fin5.all (fun row => (w.get row).get col)

namespace PlayerBoard

/-- The method `ScoreWallTile`. -/
def ScoreWallTile (pb : PlayerBoard) (row col : Int) : Option Int := do
  let h1 ← runBack (fun c => pb.Wall.get2? row c) col.toNat 1
  let hCount ← runFwd (fun c => pb.Wall.get2? row c) (5 - (col + 1)).toNat (col + 1) h1
  let v1 ← runBack (fun r => pb.Wall.get2? r col) row.toNat 1
  let vCount ← runFwd (fun r => pb.Wall.get2? r col) (5 - (row + 1)).toNat (row + 1) v1
  pure (scorePoints hCount vCount)

/-- The body of the row loop of `TileWall`, on the board and the discards so far.  The
addition to the score is exact: it is that of the code as long as the score stays at or
below `MaxInt64`. -/
def tileWallRow (s : PlayerBoard × List TileColor) (row : Int) :
    Option (PlayerBoard × List TileColor) := do
  let pl ← s.1.PatternLines.get? row
  if !pl.IsFull then pure s
  else do
    let lines ← s.1.PatternLines.set? row pl.Clear.1
    let col ← s.1.GetWallColumn row pl.Clear.2.1
    let wall ← s.1.Wall.set2? row col true
    let pb2 : PlayerBoard := { s.1 with PatternLines := lines, Wall := wall }
    let pts ← pb2.ScoreWallTile row col
    pure ({ pb2 with Score := pb2.Score + pts },
          s.2 ++ List.replicate (pl.Clear.2.2 - 1).toNat pl.Clear.2.1)

/-- The method `TileWall`: the board afterwards and the tiles to discard. -/
def TileWall (pb : PlayerBoard) : Option (PlayerBoard × List TileColor) :=
  range5.foldlM tileWallRow (pb, [])

/-- The method `ScoreFloorLine`: the board afterwards and the tiles to discard.  The
additions to the score are exact: they are those of the code as long as the score stays at
or above `MinInt64`, which it does from `MinInt64 + 14` on. -/
def ScoreFloorLine (pb : PlayerBoard) : PlayerBoard × List TileColor :=
  let r := scoreFloorLoop pb.FloorLine 0 pb.Score []
  ({ pb with Score := if r.1 < 0 then 0 else r.1, FloorLine := [] }, r.2)

/-- The colour loop body of `ScoreEndGame`: how many of the five cells of `color`
are occupied. -/
def colorCount (pb : PlayerBoard) (color : TileColor) : Option Int :=
  range5.foldlM (fun (count : Int) (row : Int) => do
    let col ← pb.GetWallColumn row color
    let occupied ← pb.Wall.get2? row col
    pure (if occupied then count + 1 else count)) 0

/-- The method `ScoreEndGame`.  The additions to the score are exact: they are those of
the code as long as the score stays at or below `MaxInt64`, which it does up to
`MaxInt64 - 95`. -/
def ScoreEndGame (pb : PlayerBoard) : Option PlayerBoard := do
  let s1 := fin5.foldl (fun (s : Int) row => if rowComplete pb.Wall row then s + 2 else s) pb.Score
  let s2 := fin5.foldl (fun (s : Int) col => if colComplete pb.Wall col then s + 7 else s) s1
  let s3 ← AllColors.foldlM (fun (s : Int) color => do
    let count ← pb.colorCount color
    pure (if count = 5 then s + 10 else s)) s2
  pure { pb with Score := s3 }

/-- The method `HasCompletedRow`. -/
def HasCompletedRow (pb : PlayerBoard) : Bool :=
  fin5.any (fun row => rowComplete pb.Wall row)

/-- The loop of `GetValidPlacements` over the remaining line indices. -/
def placementsLoop (pb : PlayerBoard) (color : TileColor) :
    List Int → List Int → Option (List Int)
  | [], valid => some valid
  | i :: rest, valid =>
    match pb.CanPlaceOnLine i color with
    | none => none
    | some true => placementsLoop pb color rest (valid ++ [i])
    | some false => placementsLoop pb color rest valid

/-- The method `GetValidPlacements`. -/
def GetValidPlacements (pb : PlayerBoard) (color : TileColor) : Option (List Int) :=
  match placementsLoop pb color range5 [] with
  | none => none
  | some valid => some (valid ++ [-1])

end PlayerBoard

/-! ## bag.go -/

/-- Modelled from the spec: the seeded deterministic random source of the bag, which the
repository takes from `math/rand`.  A generator is its seed and the number of values
drawn so far; the value stream of each seed is the parameter `raw` of the functions
below, so every statement holds for whatever the generator produces. -/
structure Rand where
  seed : Int
  pos : Nat
deriving DecidableEq, Repr

/-- The closure passed to `rng.Shuffle` in `Bag.Shuffle`: exchange entries `i` and `j`. -/
def swapTiles (ts : List TileColor) (i j : Nat) : List TileColor :=
  match ts[i]?, ts[j]? with
  | some a, some b => (ts.set i b).set j a
  | _, _ => ts

/-- The loop of `rand.Shuffle`: for `i` from `n - 1` down to `1` it draws `j` in `0..i`
and calls the closure on `(i, j)`.  The first argument is the current `i`. -/
def shuffleLoop (raw : Int → Nat → Nat) : Nat → List TileColor → Rand → List TileColor × Rand
  | 0, ts, r => (ts, r)
  | i + 1, ts, r =>
    shuffleLoop raw i (swapTiles ts (i + 1) (raw r.seed r.pos % (i + 2))) ⟨r.seed, r.pos + 1⟩

/-- The struct `Bag` of bag.go. -/
structure Bag where
  tiles : List TileColor
  discards : List TileColor
  rng : Rand
  seed : Int
deriving DecidableEq, Repr

namespace Bag

/-- The method `Shuffle`. -/
def Shuffle (raw : Int → Nat → Nat) (b : Bag) : Bag :=
  let r := shuffleLoop raw (b.tiles.length - 1) b.tiles b.rng
  { b with tiles := r.1, rng := r.2 }

/-- The constructor `NewBag`. -/
def NewBag (raw : Int → Nat → Nat) (seed : Int) : Bag :=
  Shuffle raw
    { tiles := AllColors.foldl (fun ts color => ts ++ List.replicate 20 color) []
      discards := []
      rng := ⟨seed, 0⟩
      seed := seed }

/-- The method `RefillFromDiscards`. -/
def RefillFromDiscards (raw : Int → Nat → Nat) (b : Bag) : Bag :=
  Shuffle raw { b with tiles := b.tiles ++ b.discards, discards := [] }

/-- The loop of `Draw`: rounds left, the bag, the tiles drawn so far. -/
def drawLoop (raw : Int → Nat → Nat) : Nat → Bag → List TileColor → Bag × List TileColor
  | 0, b, drawn => (b, drawn)
  | k + 1, b, drawn =>
    let b1 := if b.tiles.length = 0 then RefillFromDiscards raw b else b
    match b1.tiles.getLast? with
    | none => (b1, drawn)
    | some t => drawLoop raw k { b1 with tiles := b1.tiles.dropLast } (drawn ++ [t])

/-- The method `Draw`: the bag afterwards and the tiles drawn; `make` faults on a
negative capacity. -/
def Draw (raw : Int → Nat → Nat) (b : Bag) (n : Int) : Option (Bag × List TileColor) :=
  if n < 0 then none else some (drawLoop raw n.toNat b [])

/-- The method `Discard`. -/
def Discard (b : Bag) (tiles : List TileColor) : Bag :=
  { b with discards := b.discards ++ tiles }

/-- The method `TilesRemaining`. -/
def TilesRemaining (b : Bag) : Int := b.tiles.length

/-- The method `TotalTilesInPlay`. -/
def TotalTilesInPlay (b : Bag) : Int := b.tiles.length + b.discards.length

end Bag

/-! ## factory.go -/

/-- The loop shared by `Factory.GetColors` and `Center.GetColors`: the tiles left to
visit, the keys of the map `seen`, the slice `colors`. -/
def getColorsLoop : List TileColor → List TileColor → List TileColor → List TileColor
  | [], _, colors => colors
  | t :: ts, seen, colors =>
    if t ∈ seen then getColorsLoop ts seen colors
    else getColorsLoop ts (t :: seen) (colors ++ [t])

/-- The loop shared by `Factory.TakeColor` and `Center.TakeColor`: the tiles left to
visit, the slices `taken` and `remaining`. -/
def takeColorLoop (color : TileColor) :
    List TileColor → List TileColor → List TileColor → List TileColor × List TileColor
  | [], taken, remaining => (taken, remaining)
  | t :: ts, taken, remaining =>
    if t = color then takeColorLoop color ts (taken ++ [t]) remaining
    else takeColorLoop color ts taken (remaining ++ [t])

/-- The struct `Factory` of factory.go. -/
structure Factory where
  Tiles : List TileColor
deriving DecidableEq, Repr

namespace Factory

/-- The constructor `NewFactory`. -/
def NewFactory : Factory := ⟨[]⟩

/-- The method `Fill`. -/
def Fill (f : Factory) (tiles : List TileColor) : Factory := ⟨f.Tiles ++ tiles⟩

/-- The method `IsEmpty`. -/
def IsEmpty (f : Factory) : Bool := decide (f.Tiles.length = 0)

/-- The method `TakeColor`: the factory afterwards, the tiles taken, the remaining tiles. -/
def TakeColor (f : Factory) (color : TileColor) :
    Factory × List TileColor × List TileColor :=
  let r := takeColorLoop color f.Tiles [] []
  (⟨[]⟩, r.1, r.2)

/-- The method `HasColor`. -/
def HasColor (f : Factory) (color : TileColor) : Bool :=
  f.Tiles.any (fun t => decide (t = color))

/-- The method `GetColors`. -/
def GetColors (f : Factory) : List TileColor := getColorsLoop f.Tiles [] []

end Factory

/-- The struct `Center` of factory.go. -/
structure Center where
  Tiles : List TileColor
  HasFirstPlayerTile : Bool
deriving DecidableEq, Repr

namespace Center

/-- The constructor `NewCenter`. -/
def NewCenter : Center := ⟨[], true⟩

/-- The method `AddTiles`. -/
def AddTiles (c : Center) (tiles : List TileColor) : Center :=
  { c with Tiles := c.Tiles ++ tiles }

/-- The method `IsEmpty`. -/
def IsEmpty (c : Center) : Bool := decide (c.Tiles.length = 0)

/-- The method `TakeColor`: the center afterwards, the tiles taken, `tookFirstPlayer`. -/
def TakeColor (c : Center) (color : TileColor) : Center × List TileColor × Bool :=
  let r := takeColorLoop color c.Tiles [] []
  (⟨r.2, false⟩, r.1, c.HasFirstPlayerTile)

/-- The method `HasColor`. -/
def HasColor (c : Center) (color : TileColor) : Bool :=
  c.Tiles.any (fun t => decide (t = color))

/-- The method `GetColors`. -/
def GetColors (c : Center) : List TileColor := getColorsLoop c.Tiles [] []

end Center

/-! ## game.go -/

/-- The struct `Game` of game.go. -/
structure Game where
  Players : List PlayerBoard
  Factories : List Factory
  Center : Azul.Center
  Bag : Azul.Bag
  CurrentPlayer : Int
  FirstPlayer : Int
  Round : Int
  GameOver : Bool
  NumPlayers : Int
deriving DecidableEq, Repr

/-- The struct `Move` of game.go. -/
structure Move where
  FactoryIdx : Int
  Color : TileColor
  LineIdx : Int
deriving DecidableEq, Repr

/-- The factory loop of `SetupRound`: every factory is cleared and refilled with the
four tiles drawn for it, the bag being threaded through. -/
def setupLoop (raw : Int → Nat → Nat) : List Factory → Bag → Option (List Factory × Bag)
  | [], b => some ([], b)
  | _f :: fs, b =>
    match b.Draw raw 4 with
    | none => none
    | some d =>
      match setupLoop raw fs d.1 with
      | none => none
      | some r => some ((Factory.Fill ⟨[]⟩ d.2) :: r.1, r.2)

/-- The first player loop of `EndRound`: wall tiling and floor scoring of every board,
the discards going to the bag. -/
def endRoundLoop : List PlayerBoard → Bag → Option (List PlayerBoard × Bag)
  | [], b => some ([], b)
  | player :: rest, b =>
    match player.TileWall with
    | none => none
    | some tw =>
      let fl := tw.1.ScoreFloorLine
      match endRoundLoop rest ((b.Discard tw.2).Discard fl.2) with
      | none => none
      | some r => some (fl.1 :: r.1, r.2)

/-- The moves for one source: for each colour in turn, one move per valid placement. -/
def colorMoves (player : PlayerBoard) (fIdx : Int) : List TileColor → Option (List Move)
  | [] => some []
  | color :: cs =>
    match player.GetValidPlacements color with
    | none => none
    | some lines =>
      match colorMoves player fIdx cs with
      | none => none
      | some rest => some (lines.map (fun lineIdx => (⟨fIdx, color, lineIdx⟩ : Move)) ++ rest)

/-- The factory loop of `GetValidMoves`, `fIdx` being the index of the head factory. -/
def factoryMoves (player : PlayerBoard) : List Factory → Int → Option (List Move)
  | [], _ => some []
  | f :: fs, fIdx =>
    match colorMoves player fIdx f.GetColors with
    | none => none
    | some ms =>
      match factoryMoves player fs (fIdx + 1) with
      | none => none
      | some rest => some (ms ++ rest)

namespace Game

/-- The method `SetupRound`. -/
def SetupRound (raw : Int → Nat → Nat) (g : Game) : Option Game :=
  match setupLoop raw g.Factories g.Bag with
  | none => none
  | some r => some { g with Center := Center.NewCenter, Factories := r.1, Bag := r.2 }

/-- The constructor `NewGame`; `now` is the clock value `time.Now().UnixNano()`. -/
def NewGame (raw : Int → Nat → Nat) (now : Int) (numPlayers : Int) : Option Game :=
  let n1 := if numPlayers < 2 then 2 else numPlayers
  let n2 := if n1 > 4 then 4 else n1
  let numFactories := n2 * 2 + 1
  SetupRound raw
    { Players := List.replicate n2.toNat NewPlayerBoard
      Factories := List.replicate numFactories.toNat Factory.NewFactory
      Center := Center.NewCenter
      Bag := Bag.NewBag raw now
      CurrentPlayer := 0
      FirstPlayer := 0
      Round := 1
      GameOver := false
      NumPlayers := n2 }

/-- The constructor `NewGameWithSeed`. -/
def NewGameWithSeed (raw : Int → Nat → Nat) (now : Int) (numPlayers : Int) (seed : Int) :
    Option Game :=
  match NewGame raw now numPlayers with
  | none => none
  | some g => SetupRound raw { g with Bag := Bag.NewBag raw seed }

/-- The method `IsRoundOver`. -/
def IsRoundOver (g : Game) : Bool :=
  g.Factories.all (fun f => f.IsEmpty) && g.Center.IsEmpty

/-- The method `GetValidMoves`. -/
def GetValidMoves (g : Game) : Option (List Move) :=
  match idx? g.Players g.CurrentPlayer with
  | none => none
  | some player =>
    match factoryMoves player g.Factories 0 with
    | none => none
    | some fm =>
      match colorMoves player (-1) g.Center.GetColors with
      | none => none
      | some cm => some (fm ++ cm)

/-- The method `NextPlayer`; the remainder faults on a zero divisor. -/
def NextPlayer (g : Game) : Option Game :=
  if g.NumPlayers = 0 then none
  else some { g with CurrentPlayer := Int.tmod (g.CurrentPlayer + 1) g.NumPlayers }

/-- The player loop of `EndGame`. -/
def endGameLoop : List PlayerBoard → Option (List PlayerBoard)
  | [] => some []
  | player :: rest =>
    match player.ScoreEndGame with
    | none => none
    | some p1 =>
      match endGameLoop rest with
      | none => none
      | some r => some (p1 :: r)

/-- The method `EndGame`. -/
def EndGame (g : Game) : Option Game :=
  match endGameLoop g.Players with
  | none => none
  | some ps => some { g with GameOver := true, Players := ps }

/-- The method `EndRound`. -/
def EndRound (raw : Int → Nat → Nat) (g : Game) : Option Game :=
  match endRoundLoop g.Players g.Bag with
  | none => none
  | some r =>
    let g1 : Game := { g with Players := r.1, Bag := r.2 }
    if g1.Players.any (fun player => player.HasCompletedRow) then EndGame g1
    else SetupRound raw { g1 with Round := g1.Round + 1, CurrentPlayer := g1.FirstPlayer }

/-- Store the board of the current player back: the writes through the pointer
`player` of `ApplyMove`. -/
def setPlayer (g : Game) (pb : PlayerBoard) : Game :=
  { g with Players := g.Players.set g.CurrentPlayer.toNat pb }

/-- The first half of `ApplyMove`: the tiles are taken from the source.  The result is
the state after the take and the tiles obtained. -/
def takeTiles (g : Game) (player : PlayerBoard) (move : Move) :
    Option (Game × PlayerBoard × List TileColor) :=
  if move.FactoryIdx = -1 then
    let r := g.Center.TakeColor move.Color
    let g1 : Game := { g with Center := r.1 }
    if r.2.2 then
      let p1 := player.AddToFloor TileColor.FirstPlayerMarker
      some ({ setPlayer g1 p1 with FirstPlayer := g.CurrentPlayer }, p1, r.2.1)
    else some (g1, player, r.2.1)
  else
    match idx? g.Factories move.FactoryIdx with
    | none => none
    | some f =>
      let r := f.TakeColor move.Color
      some ({ g with
              Factories := g.Factories.set move.FactoryIdx.toNat r.1
              Center := g.Center.AddTiles r.2.2 }, player, r.2.1)

/-- The method `ApplyMove`: the state afterwards, and whether an error was returned. -/
def ApplyMove (raw : Int → Nat → Nat) (g : Game) (move : Move) : Option (Game × Bool) :=
  match idx? g.Players g.CurrentPlayer with
  | none => none
  | some player =>
    match takeTiles g player move with
    | none => none
    | some (g1, p1, tiles) =>
      if tiles.length = 0 then some (g1, true)
      else
        match p1.PlaceTiles move.LineIdx move.Color tiles.length with
        | none => none
        | some p2 =>
          let g2 := setPlayer g1 p2
          if g2.IsRoundOver then
            match EndRound raw g2 with
            | none => none
            | some g3 => some (g3, false)
          else
            match NextPlayer g2 with
            | none => none
            | some g3 => some (g3, false)

/-- The first loop of `GetWinner`: the boards left to visit, the index of the first of
them, and the variables `maxScore`, `winner`, `tie`. -/
def winnerLoop : List PlayerBoard → Int → Int × Int × Bool → Int × Int × Bool
  | [], _, s => s
  | player :: rest, i, (maxScore, winner, tie) =>
    if player.Score > maxScore then winnerLoop rest (i + 1) (player.Score, i, false)
    else if player.Score = maxScore then winnerLoop rest (i + 1) (maxScore, winner, true)
    else winnerLoop rest (i + 1) (maxScore, winner, tie)

/-- The row loop of the tiebreak of `GetWinner`: the variable `rows` of one board. -/
def completedRows (w : Arr5 (Arr5 Bool)) : Int :=
  fin5.foldl (fun (rows : Int) row => if rowComplete w row then rows + 1 else rows) 0

/-- The tiebreak loop of `GetWinner`: the boards left to visit, the index of the first
of them, and the variables `maxRows`, `winner`. -/
def tieLoop (maxScore : Int) : List PlayerBoard → Int → Int × Int → Int × Int
  | [], _, s => s
  | player :: rest, i, (maxRows, winner) =>
    if player.Score ≠ maxScore then tieLoop maxScore rest (i + 1) (maxRows, winner)
    else if completedRows player.Wall > maxRows then
      tieLoop maxScore rest (i + 1) (completedRows player.Wall, i)
    else tieLoop maxScore rest (i + 1) (maxRows, winner)

/-- The method `GetWinner`. -/
def GetWinner (g : Game) : Int :=
  if !g.GameOver then -1
  else
    let r := winnerLoop g.Players 0 (-1, -1, false)
    if r.2.2 then (tieLoop r.1 g.Players 0 (-1, r.2.1)).2 else r.2.1

end Game

/-! ## Predicates used to state the properties -/

/-- Representation invariant of the pattern line of row `i`: capacity `i + 1`, a fill
count within the capacity, and a real colour once the line is not empty. -/
def PatternLine.WellFormed (i : Int) (pl : PatternLine) : Prop :=
  pl.Size = i + 1 ∧ 0 ≤ pl.Filled ∧ pl.Filled ≤ pl.Size ∧
    (pl.Filled ≠ 0 → pl.Color.IsReal = true)

instance (i : Int) (pl : PatternLine) : Decidable (pl.WellFormed i) := by
  unfold PatternLine.WellFormed
  infer_instance

/-- Representation invariant of a board: each of its five lines is well formed. -/
def PlayerBoard.WellFormed (pb : PlayerBoard) : Prop :=
  pb.PatternLines.e0.WellFormed 0 ∧ pb.PatternLines.e1.WellFormed 1 ∧
  pb.PatternLines.e2.WellFormed 2 ∧ pb.PatternLines.e3.WellFormed 3 ∧
  pb.PatternLines.e4.WellFormed 4

instance (pb : PlayerBoard) : Decidable pb.WellFormed := by
  unfold PlayerBoard.WellFormed
  infer_instance

/-- Representation invariant of a game state: the current player indexes a board,
`NumPlayers` is the number of boards, the supply holds real colours only, and every
board is well formed. -/
def Game.WellFormed (g : Game) : Prop :=
  0 ≤ g.CurrentPlayer ∧ g.CurrentPlayer < g.Players.length ∧
  g.NumPlayers = g.Players.length ∧
  (∀ f ∈ g.Factories, ∀ t ∈ f.Tiles, t.IsReal = true) ∧
  (∀ t ∈ g.Center.Tiles, t.IsReal = true) ∧
  (∀ pb ∈ g.Players, pb.WellFormed)

instance (g : Game) : Decidable g.WellFormed := by
  unfold Game.WellFormed
  infer_instance

/-- The tiles held by the source a move declares: the center for `-1`, otherwise the
factory of that index (if there is one). -/
def Game.sourceTiles (g : Game) (fIdx : Int) : Option (List TileColor) :=
  if fIdx = -1 then some g.Center.Tiles
  else
    match idx? g.Factories fIdx with
    | none => none
    | some f => some f.Tiles

/-- The destination of a move is legal for a board: the floor, or a line on which
`CanPlaceOnLine` holds. -/
def Move.PlacementOk (player : PlayerBoard) (m : Move) : Prop :=
  m.LineIdx = -1 ∨ player.CanPlaceOnLine m.LineIdx m.Color = some true

/-- One for an occupied wall cell, zero for a free one. -/
def cellCount (b : Bool) : Int := if b then 1 else 0

/-- The sum of `f` over the five entries of an array. -/
def Arr5.sum {α : Type} (f : α → Int) (a : Arr5 α) : Int :=
  f a.e0 + f a.e1 + f a.e2 + f a.e3 + f a.e4

/-- The number of occupied cells of a wall. -/
def wallCount (w : Arr5 (Arr5 Bool)) : Int := w.sum (fun row => row.sum cellCount)

/-- The tiles on a board: the fill counts of its pattern lines, the entries of its
floor line other than the first player marker, and its occupied wall cells. -/
def PlayerBoard.tileCount (pb : PlayerBoard) : Int :=
  pb.PatternLines.sum (fun pl => pl.Filled) +
    ((pb.FloorLine.filter (fun t => decide (t ≠ TileColor.FirstPlayerMarker))).length : Int) +
    wallCount pb.Wall

/-- The tiles of a game state: both pools of the bag, all factories, the center and
all boards. -/
def Game.tileCount (g : Game) : Int :=
  (g.Bag.tiles.length : Int) + (g.Bag.discards.length : Int) +
    (g.Factories.map (fun f => (f.Tiles.length : Int))).sum +
    (g.Center.Tiles.length : Int) +
    (g.Players.map (fun pb => pb.tileCount)).sum

/-- The states reachable from `NewGameWithSeed numPlayers seed` by successfully applying
moves taken from `GetValidMoves`. -/
inductive Reachable (raw : Int → Nat → Nat) (now numPlayers seed : Int) : Game → Prop
  | init (g : Game) :
      Game.NewGameWithSeed raw now numPlayers seed = some g →
      Reachable raw now numPlayers seed g
  | step (g g1 : Game) (ms : List Move) (m : Move) :
      Reachable raw now numPlayers seed g →
      g.GetValidMoves = some ms → m ∈ ms →
      Game.ApplyMove raw g m = some (g1, false) →
      Reachable raw now numPlayers seed g1

/-- The invariant of a board in play: every line of row `i` has capacity `i + 1` and a
fill count within it, an empty line has no colour, a line that is not empty holds a
real colour whose wall cell in that row is free, and the floor line holds real colours
and markers only. -/
structure PlayerBoard.Inv (pb : PlayerBoard) : Prop where
  lines : ∀ i pl, pb.PatternLines.get? i = some pl →
    pl.Size = i + 1 ∧ 0 ≤ pl.Filled ∧ pl.Filled ≤ pl.Size ∧
    (pl.Filled = 0 → pl.Color = TileColor.NoTile) ∧
    (pl.Filled ≠ 0 → pl.Color.IsReal = true ∧
      ∀ col, WallPattern.get2? i col = some pl.Color → pb.Wall.get2? i col = some false)
  floor : ∀ t ∈ pb.FloorLine, t.IsReal = true ∨ t = TileColor.FirstPlayerMarker

/-- The invariant of a game in play. -/
structure Game.Inv (g : Game) : Prop where
  cur0 : 0 ≤ g.CurrentPlayer
  cur1 : g.CurrentPlayer < g.Players.length
  num : g.NumPlayers = g.Players.length
  first0 : 0 ≤ g.FirstPlayer
  first1 : g.FirstPlayer < g.Players.length
  factories : ∀ f ∈ g.Factories, ∀ t ∈ f.Tiles, t.IsReal = true
  center : ∀ t ∈ g.Center.Tiles, t.IsReal = true
  bagTiles : ∀ t ∈ g.Bag.tiles, t.IsReal = true
  bagDiscards : ∀ t ∈ g.Bag.discards, t.IsReal = true
  boards : ∀ pb ∈ g.Players, pb.Inv
  count : g.tileCount = 100

/-- A generator whose every raw value is zero. -/
def rawZero : Int → Nat → Nat := fun _ _ => 0

/-- A two player state as it may stand right after the deal of round one: five
factories of four tiles, the center with the marker only, eighty tiles left in the bag. -/
def startGame : Game :=
  { Players := [NewPlayerBoard, NewPlayerBoard]
    Factories :=
      [⟨[TileColor.Yellow, TileColor.Black, TileColor.Yellow, TileColor.Black]⟩,
       ⟨[TileColor.Blue, TileColor.Red, TileColor.White, TileColor.Black]⟩,
       ⟨[TileColor.Red, TileColor.Red, TileColor.Red, TileColor.Blue]⟩,
       ⟨[TileColor.White, TileColor.White, TileColor.Red, TileColor.Yellow]⟩,
       ⟨[TileColor.White, TileColor.White, TileColor.White, TileColor.Black]⟩]
    Center := ⟨[], true⟩
    Bag :=
      ⟨List.replicate 18 TileColor.Blue ++ List.replicate 17 TileColor.Yellow ++
        List.replicate 15 TileColor.Red ++ List.replicate 16 TileColor.Black ++
        List.replicate 14 TileColor.White, [], ⟨42, 99⟩, 42⟩
    CurrentPlayer := 0
    FirstPlayer := 0
    Round := 1
    GameOver := false
    NumPlayers := 2 }

/-- The state after a move, or the state itself when `ApplyMove` yields none. -/
def playMove (raw : Int → Nat → Nat) (g : Game) (m : Move) : Game :=
  match Game.ApplyMove raw g m with
  | some r => r.1
  | none => g

/-- The two player game dealt by `NewGameWithSeed` under the generator `rawZero`. -/
def play0 : Game := (Game.NewGameWithSeed rawZero 0 2 42).getD startGame

/-- Round one of a sample play from `play0`: player 0 takes white from factory 0 to
line 2. -/
def play1 : Game := playMove rawZero play0 ⟨0, TileColor.White, 2⟩

/-- Player 1 takes white from factory 1 to line 3. -/
def play2 : Game := playMove rawZero play1 ⟨1, TileColor.White, 3⟩

/-- Player 0 takes white from factory 2 to line 3. -/
def play3 : Game := playMove rawZero play2 ⟨2, TileColor.White, 3⟩

/-- Player 1 takes white from factory 3 to line 4. -/
def play4 : Game := playMove rawZero play3 ⟨3, TileColor.White, 4⟩

/-- Player 0 takes white from factory 4 to line 4. -/
def play5 : Game := playMove rawZero play4 ⟨4, TileColor.White, 4⟩

/-- Player 1 takes the last tile, blue, from the center to line 0, which ends round
one: `play6` is the state after the deal of round two. -/
def play6 : Game := playMove rawZero play5 ⟨-1, TileColor.Blue, 0⟩

/-- A two player state whose factories and center hold no tile while the center still
holds the first player marker. -/
def markerOnly : Game :=
  { Players := [NewPlayerBoard, NewPlayerBoard]
    Factories := [⟨[]⟩, ⟨[]⟩, ⟨[]⟩, ⟨[]⟩, ⟨[]⟩]
    Center := ⟨[], true⟩
    Bag := ⟨[], [], ⟨0, 0⟩, 0⟩
    CurrentPlayer := 0
    FirstPlayer := 0
    Round := 1
    GameOver := false
    NumPlayers := 2 }

/-- Whether the wall cell `(r, c)` is occupied; a position outside the wall is not. -/
def occupied (w : Arr5 (Arr5 Bool)) (r c : Int) : Bool :=
  match w.get2? r c with
  | some b => b
  | none => false

/-- The number of leading occupied cells of a list of cells given nearest first. -/
def runLength (cells : List Bool) : Int := ((cells.takeWhile (fun b => b)).length : Int)

/-- The indices below `k`, nearest first: `k - 1, ..., 0`. -/
def indicesBelow (k : Int) : List Int := (List.range k.toNat).reverse.map (fun n : Nat => (n : Int))

/-- The indices above `k` up to four, nearest first: `k + 1, ..., 4`. -/
def indicesAbove (k : Int) : List Int :=
  (List.range (4 - k).toNat).map (fun n : Nat => k + 1 + (n : Int))

/-- The quantity H of the adjacency rule: one plus the contiguous occupied cells directly
left and directly right of `(row, col)` in its row. -/
def rowRun (w : Arr5 (Arr5 Bool)) (row col : Int) : Int :=
  1 + runLength ((indicesBelow col).map (fun c => occupied w row c)) +
    runLength ((indicesAbove col).map (fun c => occupied w row c))

/-- The quantity V of the adjacency rule: one plus the contiguous occupied cells directly
above and directly below `(row, col)` in its column. -/
def colRun (w : Arr5 (Arr5 Bool)) (row col : Int) : Int :=
  1 + runLength ((indicesBelow row).map (fun r => occupied w r col)) +
    runLength ((indicesAbove row).map (fun r => occupied w r col))

/-- A board whose wall shows the three cases of the adjacency rule: cell `(1, 1)` has one
neighbour to the left and one above, cell `(4, 2)` ends a row of three and has no
vertical neighbour, cell `(3, 4)` is isolated. -/
def scoreBoard : PlayerBoard :=
  { NewPlayerBoard with
    Wall :=
      ⟨⟨false, true, false, false, false⟩, ⟨true, true, false, false, false⟩,
       ⟨false, false, false, false, false⟩, ⟨false, false, false, false, true⟩,
       ⟨true, true, true, false, false⟩⟩ }

/-- Whether all five cells of wall row `r` are occupied. -/
def rowFull (w : Arr5 (Arr5 Bool)) (r : Int) : Bool := range5.all (fun c => occupied w r c)

/-- Whether all five cells of wall column `c` are occupied. -/
def colFull (w : Arr5 (Arr5 Bool)) (c : Int) : Bool := range5.all (fun r => occupied w r c)

/-- Whether every wall cell whose pattern colour is `color` is occupied. -/
def colorFull (w : Arr5 (Arr5 Bool)) (color : TileColor) : Bool :=
  range5.all (fun r => range5.all (fun c =>
    if WallPattern.get2? r c = some color then occupied w r c else true))

/-- The end of game bonus of a wall: 2 for each fully occupied row, 7 for each fully
occupied column, 10 for each colour whose five cells are all occupied. -/
def endGameBonus (w : Arr5 (Arr5 Bool)) : Int :=
  2 * ((range5.filter (fun r => rowFull w r)).length : Int) +
    7 * ((range5.filter (fun c => colFull w c)).length : Int) +
    10 * ((AllColors.filter (fun color => colorFull w color)).length : Int)

/-- The wall with all twenty five cells occupied. -/
def fullWall : Arr5 (Arr5 Bool) :=
  ⟨⟨true, true, true, true, true⟩, ⟨true, true, true, true, true⟩,
   ⟨true, true, true, true, true⟩, ⟨true, true, true, true, true⟩,
   ⟨true, true, true, true, true⟩⟩

/-- The tiles a full pattern line of row `i` sends to the discards when it is tiled: all
but one of its tiles, that is `Size - 1` copies of its colour; nothing for a line that
is not full. -/
def rowDiscards (pb : PlayerBoard) (i : Int) : List TileColor :=
  match pb.PatternLines.get? i with
  | some pl =>
    if pl.Filled = pl.Size then List.replicate (pl.Size - 1).toNat pl.Color else []
  | none => []

/-- The discards expected of `TileWall`: those of the full rows, in ascending row order. -/
def tileWallDiscards (pb : PlayerBoard) : List TileColor :=
  range5.flatMap (fun i => rowDiscards pb i)

/-- A board with two full lines (white in row 1, red in row 3), a partly filled line in
row 4, one wall cell occupied and a floor line. -/
def tilingBoard : PlayerBoard :=
  { PatternLines :=
      ⟨⟨1, TileColor.NoTile, 0⟩, ⟨2, TileColor.White, 2⟩, ⟨3, TileColor.NoTile, 0⟩,
       ⟨4, TileColor.Red, 4⟩, ⟨5, TileColor.Blue, 3⟩⟩
    Wall :=
      ⟨⟨false, false, false, false, false⟩, ⟨false, true, false, false, false⟩,
       ⟨false, false, false, false, false⟩, ⟨false, false, false, false, false⟩,
       ⟨false, false, false, false, false⟩⟩
    FloorLine := [TileColor.FirstPlayerMarker, TileColor.Yellow]
    Score := 3 }

/-- A new game: a state returned by `NewGame` or by `NewGameWithSeed`. -/
def IsNewGame (raw : Int → Nat → Nat) (g : Game) : Prop :=
  (∃ now numPlayers, Game.NewGame raw now numPlayers = some g) ∨
  (∃ now numPlayers seed, Game.NewGameWithSeed raw now numPlayers seed = some g)

/-- The states reachable from `g0` by successfully applying moves taken from
`GetValidMoves`. -/
inductive ValidPlay (raw : Int → Nat → Nat) (g0 : Game) : Game → Prop
  | start : ValidPlay raw g0 g0
  | step (g g1 : Game) (ms : List Move) (m : Move) :
      ValidPlay raw g0 g → g.GetValidMoves = some ms → m ∈ ms →
      Game.ApplyMove raw g m = some (g1, false) → ValidPlay raw g0 g1

/-- The states reachable from `g0` by calls of `ApplyMove` that return, whatever the
move and whether or not an error is returned. -/
inductive AnyPlay (raw : Int → Nat → Nat) (g0 : Game) : Game → Prop
  | start : AnyPlay raw g0 g0
  | step (g g1 : Game) (m : Move) (e : Bool) :
      AnyPlay raw g0 g → Game.ApplyMove raw g m = some (g1, e) → AnyPlay raw g0 g1

/-- A board one tile short of a full wall row: row 0 of the wall lacks only its blue cell,
and the pattern line of row 0 is full of blue. -/
def finalBoard : PlayerBoard :=
  { PatternLines :=
      ⟨⟨1, TileColor.Blue, 1⟩, ⟨2, TileColor.NoTile, 0⟩, ⟨3, TileColor.Red, 2⟩,
       ⟨4, TileColor.NoTile, 0⟩, ⟨5, TileColor.NoTile, 0⟩⟩
    Wall :=
      ⟨⟨false, true, true, true, true⟩, ⟨false, false, false, false, false⟩,
       ⟨false, false, false, false, false⟩, ⟨false, false, false, false, false⟩,
       ⟨false, false, false, false, false⟩⟩
    FloorLine := [TileColor.FirstPlayerMarker]
    Score := 20 }

/-- A two player state at the end of a round, all factories and the center taken empty,
in which the first board is `finalBoard`. -/
def finalRound : Game :=
  { Players := [finalBoard, tilingBoard]
    Factories := List.replicate 5 Factory.NewFactory
    Center := ⟨[], false⟩
    Bag := ⟨[TileColor.Red, TileColor.Blue], [TileColor.White], ⟨42, 7⟩, 42⟩
    CurrentPlayer := 1
    FirstPlayer := 0
    Round := 3
    GameOver := false
    NumPlayers := 2 }

/-- The boards of `finalRound` after wall tiling and floor scoring. -/
def finalBoards : List PlayerBoard :=
  [ { PatternLines :=
        ⟨⟨1, TileColor.NoTile, 0⟩, ⟨2, TileColor.NoTile, 0⟩, ⟨3, TileColor.Red, 2⟩,
         ⟨4, TileColor.NoTile, 0⟩, ⟨5, TileColor.NoTile, 0⟩⟩
      Wall :=
        ⟨⟨true, true, true, true, true⟩, ⟨false, false, false, false, false⟩,
         ⟨false, false, false, false, false⟩, ⟨false, false, false, false, false⟩,
         ⟨false, false, false, false, false⟩⟩
      FloorLine := []
      Score := 24 },
    (tilingBoard.TileWall.getD (tilingBoard, [])).1.ScoreFloorLine.1 ]

/-- The number of wall rows with all five cells occupied. -/
def fullRows (w : Arr5 (Arr5 Bool)) : Int := ((range5.filter (fun r => rowFull w r)).length : Int)

/-- A board with wall row 0 fully occupied and a score of 30. -/
def rowBoard : PlayerBoard :=
  { PatternLines :=
      ⟨⟨1, TileColor.NoTile, 0⟩, ⟨2, TileColor.NoTile, 0⟩, ⟨3, TileColor.Red, 2⟩,
       ⟨4, TileColor.NoTile, 0⟩, ⟨5, TileColor.NoTile, 0⟩⟩
    Wall :=
      ⟨⟨true, true, true, true, true⟩, ⟨false, true, false, false, false⟩,
       ⟨false, false, false, false, false⟩, ⟨false, false, false, false, false⟩,
       ⟨false, false, false, false, false⟩⟩
    FloorLine := []
    Score := 30 }

/-- A finished three player game whose first and third boards are equal, with the highest
score and one completed row each. -/
def tieGame : Game :=
  { Players := [rowBoard, tilingBoard, rowBoard]
    Factories := List.replicate 7 Factory.NewFactory
    Center := ⟨[], false⟩
    Bag := ⟨[TileColor.Red, TileColor.Blue], [TileColor.White], ⟨42, 7⟩, 42⟩
    CurrentPlayer := 1
    FirstPlayer := 0
    Round := 6
    GameOver := true
    NumPlayers := 3 }

/-- A finished three player game won on score by the second board. -/
def scoreGame : Game :=
  { tieGame with Players := [tilingBoard, rowBoard, tilingBoard] }

/-- A finished three player game in which the first and third boards share the highest
score and the third has more completed rows. -/
def rowsGame : Game :=
  { tieGame with Players := [{ tilingBoard with Score := 30 }, tilingBoard, rowBoard] }

/-- The integer value of a `TileColor` constant, in the `iota` order of tiles.go. -/
def TileColor.toInt (c : TileColor) : Int :=
  match c with
  | TileColor.Blue => 0
  | TileColor.Yellow => 1
  | TileColor.Red => 2
  | TileColor.Black => 3
  | TileColor.White => 4
  | TileColor.FirstPlayerMarker => 5
  | TileColor.NoTile => 6

/-- The bag and the tiles in hand after a sequence of draws and discards that starts from
a new bag: a draw adds its result to the hand, a discard returns part of the hand. -/
inductive BagPlay (raw : Int → Nat → Nat) (seed : Int) : Bag → List TileColor → Prop
  | start : BagPlay raw seed (Bag.NewBag raw seed) []
  | draw (b b1 : Bag) (hand drawn : List TileColor) (n : Int) :
      BagPlay raw seed b hand → b.Draw raw n = some (b1, drawn) →
      BagPlay raw seed b1 (hand ++ drawn)
  | discard (b : Bag) (hand ts rest : List TileColor) :
      BagPlay raw seed b hand → hand.Perm (ts ++ rest) →
      BagPlay raw seed (b.Discard ts) rest

/-- The number of tiles each of `n` factories receives in turn when `avail` tiles are
left in the bag and the discards together: four, or all that is left. -/
def fillCounts : Nat → Nat → List Nat
  | 0, _ => []
  | n + 1, avail => min 4 avail :: fillCounts n (avail - min 4 avail)

/-- The tiles the boards send to the discards at the end of a round, board after board:
the discards of `TileWall`, then those of `ScoreFloorLine`. -/
def roundDiscards (ps : List PlayerBoard) : List TileColor :=
  ps.flatMap (fun p =>
    match p.TileWall with
    | some tw => tw.2 ++ tw.1.ScoreFloorLine.2
    | none => [])

/-- A two player state at the end of a round, all factories and the center taken empty,
with six drawable tiles left and no board about to complete a wall row. -/
def midRound : Game :=
  { Players := [tilingBoard, NewPlayerBoard]
    Factories := List.replicate 5 Factory.NewFactory
    Center := ⟨[], false⟩
    Bag := ⟨[TileColor.Red, TileColor.Blue, TileColor.Blue, TileColor.Black, TileColor.White,
        TileColor.Yellow], [], ⟨42, 7⟩, 42⟩
    CurrentPlayer := 0
    FirstPlayer := 1
    Round := 3
    GameOver := false
    NumPlayers := 2 }

/-- The boards of `midRound` after wall tiling and floor scoring. -/
def midBoards : List PlayerBoard :=
  [(tilingBoard.TileWall.getD (tilingBoard, [])).1.ScoreFloorLine.1,
   (NewPlayerBoard.TileWall.getD (NewPlayerBoard, [])).1.ScoreFloorLine.1]

/-- The part of `ApplyMove` before the test of `IsRoundOver`: the state once the tiles
are taken from the source and placed on the board of the mover; `none` stands for a
fault and for the error return. -/
def Game.placeMove (g : Game) (move : Move) : Option Game :=
  match idx? g.Players g.CurrentPlayer with
  | none => none
  | some player =>
    match Game.takeTiles g player move with
    | none => none
    | some (g1, p1, tiles) =>
      if tiles.length = 0 then none
      else
        match p1.PlaceTiles move.LineIdx move.Color tiles.length with
        | none => none
        | some p2 => some (Game.setPlayer g1 p2)

/-- The number of first player markers on the floor line of a board. -/
def floorMarkers (pb : PlayerBoard) : Nat := pb.FloorLine.count TileColor.FirstPlayerMarker

/-- The number of first player markers on each floor line, board after board. -/
def Game.markers (g : Game) : List Nat := g.Players.map floorMarkers

/-- Whether one of the moves takes from the center. -/
def fromCenter (ms : List Move) : Bool := ms.any (fun m => decide (m.FactoryIdx = -1))

/-- The play inside one round: from the state `s` at the start of the round, the moves
`ms`, each taken from `GetValidMoves` and none of them ending the round, lead to `g`. -/
inductive RoundPlay (s : Game) : List Move → Game → Prop
  | start : RoundPlay s [] s
  | step (ms : List Move) (g : Game) (vs : List Move) (m : Move) (g2 g3 : Game) :
      RoundPlay s ms g → g.GetValidMoves = some vs → m ∈ vs →
      g.placeMove m = some g2 → g2.IsRoundOver = false → g2.NextPlayer = some g3 →
      RoundPlay s (ms ++ [m]) g3

/-- The states at the start of a round: a new game, or the state returned by a move of a
game played with moves from `GetValidMoves` when that move has raised `Round`. -/
def RoundStart (raw : Int → Nat → Nat) (s : Game) : Prop :=
  IsNewGame raw s ∨
  ∃ (g0 g : Game) (vs : List Move) (m : Move), IsNewGame raw g0 ∧ ValidPlay raw g0 g ∧
    g.GetValidMoves = some vs ∧ m ∈ vs ∧ Game.ApplyMove raw g m = some (s, false) ∧
    s.Round = g.Round + 1

/-- A generator under which the shuffle of a new bag of 100 tiles leaves it in order. -/
def rawId : Int → Nat → Nat := fun _ pos => 99 - pos

/-- The two player game dealt by `NewGameWithSeed` under the generator `rawId`: each of
the five factories holds four white tiles. -/
def mono0 : Game := (Game.NewGameWithSeed rawId 0 2 42).getD startGame

/-- Player 0 takes the four white tiles of factory 0 to line 3. -/
def mono1 : Game := playMove rawId mono0 ⟨0, TileColor.White, 3⟩

/-- Player 1 takes the four white tiles of factory 1 to line 3. -/
def mono2 : Game := playMove rawId mono1 ⟨1, TileColor.White, 3⟩

/-- Player 0 takes the four white tiles of factory 2 to line 4. -/
def mono3 : Game := playMove rawId mono2 ⟨2, TileColor.White, 4⟩

/-- Player 1 takes the four white tiles of factory 3 to line 4. -/
def mono4 : Game := playMove rawId mono3 ⟨3, TileColor.White, 4⟩

/-- Player 0 takes the four white tiles of factory 4 to line 2, which ends the round:
`monoEnd` is the state before the end of round scoring. -/
def monoEnd : Game := (mono4.placeMove ⟨4, TileColor.White, 2⟩).getD startGame

/-- The state of the sample play `play0..play5` once player 1 has taken the last tile,
blue, from the center to line 0, before the end of round scoring. -/
def playEnd : Game := (play5.placeMove ⟨-1, TileColor.Blue, 0⟩).getD startGame

/-- Where the first player marker is after the moves `ms` of a round begun in `s`: once a
move has taken from the center the marker is off the center, the floor line of exactly one
board holds exactly one marker and `FirstPlayer` is the index of that board; until then
the marker is on the center, no floor line holds a marker and `FirstPlayer` is as at the
start of the round. -/
def MarkerInv (s : Game) (ms : List Move) (g : Game) : Prop :=
  (fromCenter ms = true → g.Center.HasFirstPlayerTile = false ∧
    ∃ i : Nat, i < g.Players.length ∧ g.FirstPlayer = (i : Int) ∧
      g.markers = (List.replicate g.Players.length 0).set i 1) ∧
  (fromCenter ms = false → g.Center.HasFirstPlayerTile = true ∧
    g.markers = List.replicate g.Players.length 0 ∧ g.FirstPlayer = s.FirstPlayer)

/-! ## The `Clone` methods -/

/-- The method `Clone` of a pattern line. -/
def PatternLine.Clone (p : PatternLine) : PatternLine :=
  { Size := p.Size, Color := p.Color, Filled := p.Filled }

/-- The method `Clone` of a board: the wall array is copied by value, the floor line is
copied into a new slice of the same length, each pattern line is cloned. -/
def PlayerBoard.Clone (pb : PlayerBoard) : PlayerBoard :=
  { PatternLines :=
      ⟨pb.PatternLines.e0.Clone, pb.PatternLines.e1.Clone, pb.PatternLines.e2.Clone,
       pb.PatternLines.e3.Clone, pb.PatternLines.e4.Clone⟩
    Wall := pb.Wall
    FloorLine := pb.FloorLine
    Score := pb.Score }

/-- The method `Clone` of the bag: both pools are copied, and the generator is created
anew from the stored seed. -/
def Bag.Clone (b : Bag) : Bag :=
  { tiles := b.tiles, discards := b.discards, rng := ⟨b.seed, 0⟩, seed := b.seed }

/-- The method `Clone` of a factory. -/
def Factory.Clone (f : Factory) : Factory := ⟨f.Tiles⟩

/-- The method `Clone` of the center. -/
def Center.Clone (c : Center) : Center := ⟨c.Tiles, c.HasFirstPlayerTile⟩

/-- The method `Clone` of the game.  The slice of boards is made with length
`NumPlayers`, which faults when that is negative, and the loop over `g.Players` stores
the clone of board `i` at index `i`, which faults when there are more boards than
`NumPlayers`.  With fewer boards than `NumPlayers` the remaining entries stay `nil`: such
a state has no value in this embedding and is `none` as well. -/
def Game.Clone (g : Game) : Option Game :=
  if g.NumPlayers < 0 then none
  else if g.NumPlayers < g.Players.length then none
  else if (g.Players.length : Int) < g.NumPlayers then none
  else
    some
      { Players := g.Players.map (fun p => p.Clone)
        Factories := g.Factories.map (fun f => f.Clone)
        Center := g.Center.Clone
        Bag := g.Bag.Clone
        CurrentPlayer := g.CurrentPlayer
        FirstPlayer := g.FirstPlayer
        Round := g.Round
        GameOver := g.GameOver
        NumPlayers := g.NumPlayers }

/-- What holds of every state of a game, whatever moves are tried on it: the current and
the first player index a board, `NumPlayers` is the number of boards, `GameOver` tells
whether some board has a completed wall row, and once `GameOver` is set all factories and
the center hold no tiles. -/
structure Game.Settled (g : Game) : Prop where
  cur0 : 0 ≤ g.CurrentPlayer
  cur1 : g.CurrentPlayer < g.Players.length
  num : g.NumPlayers = g.Players.length
  first0 : 0 ≤ g.FirstPlayer
  first1 : g.FirstPlayer < g.Players.length
  over : g.GameOver = g.Players.any (fun p => p.HasCompletedRow)
  done : g.GameOver = true → g.IsRoundOver = true
/-- Round 1 of the play to the end of the game: player 0 takes the four
white tiles of factory 0 to line 0. -/
def over1 : Game := playMove rawId mono0 ⟨0, TileColor.White, 0⟩

/-- Round 1 of the play to the end of the game: player 1 takes the four
white tiles of factory 1 to the floor. -/
def over2 : Game := playMove rawId over1 ⟨1, TileColor.White, -1⟩

/-- Round 1 of the play to the end of the game: player 0 takes the four
white tiles of factory 2 to the floor. -/
def over3 : Game := playMove rawId over2 ⟨2, TileColor.White, -1⟩

/-- Round 1 of the play to the end of the game: player 1 takes the four
white tiles of factory 3 to the floor. -/
def over4 : Game := playMove rawId over3 ⟨3, TileColor.White, -1⟩

/-- Round 1 of the play to the end of the game: player 0 takes the four
white tiles of factory 4 to the floor. -/
def over5 : Game := playMove rawId over4 ⟨4, TileColor.White, -1⟩

/-- Round 2 of the play to the end of the game: player 0 takes the four
black tiles of factory 0 to line 0. -/
def over6 : Game := playMove rawId over5 ⟨0, TileColor.Black, 0⟩

/-- Round 2 of the play to the end of the game: player 1 takes the four
black tiles of factory 1 to the floor. -/
def over7 : Game := playMove rawId over6 ⟨1, TileColor.Black, -1⟩

/-- Round 2 of the play to the end of the game: player 0 takes the four
black tiles of factory 2 to the floor. -/
def over8 : Game := playMove rawId over7 ⟨2, TileColor.Black, -1⟩

/-- Round 2 of the play to the end of the game: player 1 takes the four
black tiles of factory 3 to the floor. -/
def over9 : Game := playMove rawId over8 ⟨3, TileColor.Black, -1⟩

/-- Round 2 of the play to the end of the game: player 0 takes the four
black tiles of factory 4 to the floor. -/
def over10 : Game := playMove rawId over9 ⟨4, TileColor.Black, -1⟩

/-- Round 3 of the play to the end of the game: player 0 takes the four
red tiles of factory 0 to line 0. -/
def over11 : Game := playMove rawId over10 ⟨0, TileColor.Red, 0⟩

/-- Round 3 of the play to the end of the game: player 1 takes the four
red tiles of factory 1 to the floor. -/
def over12 : Game := playMove rawId over11 ⟨1, TileColor.Red, -1⟩

/-- Round 3 of the play to the end of the game: player 0 takes the four
red tiles of factory 2 to the floor. -/
def over13 : Game := playMove rawId over12 ⟨2, TileColor.Red, -1⟩

/-- Round 3 of the play to the end of the game: player 1 takes the four
red tiles of factory 3 to the floor. -/
def over14 : Game := playMove rawId over13 ⟨3, TileColor.Red, -1⟩

/-- Round 3 of the play to the end of the game: player 0 takes the four
red tiles of factory 4 to the floor. -/
def over15 : Game := playMove rawId over14 ⟨4, TileColor.Red, -1⟩

/-- Round 4 of the play to the end of the game: player 0 takes the four
yellow tiles of factory 0 to line 0. -/
def over16 : Game := playMove rawId over15 ⟨0, TileColor.Yellow, 0⟩

/-- Round 4 of the play to the end of the game: player 1 takes the four
yellow tiles of factory 1 to the floor. -/
def over17 : Game := playMove rawId over16 ⟨1, TileColor.Yellow, -1⟩

/-- Round 4 of the play to the end of the game: player 0 takes the four
yellow tiles of factory 2 to the floor. -/
def over18 : Game := playMove rawId over17 ⟨2, TileColor.Yellow, -1⟩

/-- Round 4 of the play to the end of the game: player 1 takes the four
yellow tiles of factory 3 to the floor. -/
def over19 : Game := playMove rawId over18 ⟨3, TileColor.Yellow, -1⟩

/-- Round 4 of the play to the end of the game: player 0 takes the four
yellow tiles of factory 4 to the floor. -/
def over20 : Game := playMove rawId over19 ⟨4, TileColor.Yellow, -1⟩

/-- Round 5 of the play to the end of the game: player 0 takes the four
blue tiles of factory 0 to line 0. -/
def over21 : Game := playMove rawId over20 ⟨0, TileColor.Blue, 0⟩

/-- Round 5 of the play to the end of the game: player 1 takes the four
blue tiles of factory 1 to the floor. -/
def over22 : Game := playMove rawId over21 ⟨1, TileColor.Blue, -1⟩

/-- Round 5 of the play to the end of the game: player 0 takes the four
blue tiles of factory 2 to the floor. -/
def over23 : Game := playMove rawId over22 ⟨2, TileColor.Blue, -1⟩

/-- Round 5 of the play to the end of the game: player 1 takes the four
blue tiles of factory 3 to the floor. -/
def over24 : Game := playMove rawId over23 ⟨3, TileColor.Blue, -1⟩

/-- Round 5 of the play to the end of the game: player 0 takes the four
blue tiles of factory 4 to the floor. -/
def over25 : Game := playMove rawId over24 ⟨4, TileColor.Blue, -1⟩

/-! ## ai.go -/

/-- The constant `math.MinInt32`. -/
def MinInt32 : Int := -2147483648

/-- The constant `math.MaxInt32`. -/
def MaxInt32 : Int := 2147483647

/-- Modelled from the spec: the method `Intn` of a `math/rand` generator, which is outside
the repository.  It faults for `n <= 0` and otherwise yields a value below `n`, here the
next raw value of the generator reduced modulo `n`. -/
def Rand.Intn (raw : Int → Nat → Nat) (r : Rand) (n : Int) : Option Nat :=
  if n ≤ 0 then none else some (raw r.seed r.pos % n.toNat)

/-- Modelled from the spec: rounding to the nearest integer, ties to the even one. -/
def roundEven (q : ℚ) : Int :=
  if q - (⌊q⌋ : ℚ) < 1 / 2 then ⌊q⌋
  else if 1 / 2 < q - (⌊q⌋ : ℚ) then ⌊q⌋ + 1
  else if ⌊q⌋ % 2 = 0 then ⌊q⌋ else ⌊q⌋ + 1

/-- Modelled from the spec: the rounding of an exact value to Go's `float64`, which is
IEEE 754 binary64 (53 significant bits, round to nearest, ties to even).  The exponent
range is not modelled; the values rounded below lie between 1/5 and 25 or are zero. -/
def float64 (x : ℚ) : ℚ :=
  if x = 0 then 0
  else (roundEven (x * (2 : ℚ) ^ (52 - Int.log 2 |x|)) : ℚ) / (2 : ℚ) ^ (52 - Int.log 2 |x|)

/-- Modelled from the spec: the conversion `int(f)` of a `float64`, which discards the
fraction (truncation towards zero). -/
def truncInt (x : ℚ) : Int := if 0 ≤ x then ⌊x⌋ else ⌈x⌉

/-- The expression `int(progress * float64(i+1) * 5)` of `evaluateState` with
`progress := float64(pl.Filled) / float64(pl.Size)`, the argument `k` being `i + 1`.  A
division by a zero `float64` yields no finite value, for which `int` is not defined by
the language: it is `none`. -/
def progressCredit (filled size k : Int) : Option Int :=
  if float64 (size : ℚ) = 0 then none
  else
    some (truncInt (float64 (float64 (float64 (float64 (filled : ℚ) / float64 (size : ℚ)) *
      float64 (k : ℚ)) * float64 5)))

/-- The struct `AIPlayer` of ai.go; `difficulty` is one of the constants `Easy`,
`Medium`, `Hard` or any other integer. -/
structure AIPlayer where
  difficulty : Int
  playerIdx : Int
  rng : Rand
deriving DecidableEq, Repr

/-- The constant `Easy`. -/
def Easy : Int := 0

/-- The constant `Medium`. -/
def Medium : Int := 1

/-- The constant `Hard`. -/
def Hard : Int := 2

/-- The loops `for _, t := range tiles { if t == move.Color { tileCount++ } }` of
`evaluateMove`. -/
def countColor (tiles : List TileColor) (color : TileColor) : Int :=
  tiles.foldl (fun (n : Int) t => if t = color then n + 1 else n) 0

/-- The counting loops over the cells of one wall row in ai.go. -/
def rowFilled (w : Arr5 (Arr5 Bool)) (row : Fin 5) : Int :=
  fin5.foldl (fun (n : Int) col => if (w.get row).get col then n + 1 else n) 0

/-- The counting loops over the cells of one wall column in ai.go. -/
def colFilled (w : Arr5 (Arr5 Bool)) (col : Fin 5) : Int :=
  fin5.foldl (fun (n : Int) row => if (w.get row).get col then n + 1 else n) 0

/-- The counting loops `for c := 0; c < 5; c++ { if cell(c) { n++ } }` of
`evaluateBoardProgress`, over a row or over a column of the wall. -/
def cellLoop (cell : Int → Option Bool) : Option Int :=
  range5.foldlM (fun (n : Int) (c : Int) => do
    let b ← cell c
    pure (if b then n + 1 else n)) 0

namespace AIPlayer

/-- The method `randomMove`.  The generator of the player advances by one value, which
no result depends on: the embedding leaves the player as it is. -/
def randomMove (raw : Int → Nat → Nat) (ai : AIPlayer) (moves : List Move) : Option Move :=
  match ai.rng.Intn raw moves.length with
  | none => none
  | some i => moves[i]?

/-- The method `evaluateBoardProgress`. -/
def evaluateBoardProgress (_ai : AIPlayer) (player : PlayerBoard) (move : Move) : Option Int :=
  if move.LineIdx < 0 then some 0
  else do
    let col ← player.GetWallColumn move.LineIdx move.Color
    let rowN ← cellLoop (fun c => player.Wall.get2? move.LineIdx c)
    let s1 : Int := if rowN ≥ 3 then 0 + 10 else 0
    let colN ← cellLoop (fun r => player.Wall.get2? r col)
    let s2 : Int := if colN ≥ 3 then s1 + 15 else s1
    let colorN ← player.colorCount move.Color
    pure (if colorN ≥ 3 then s2 + 20 else s2)

/-- The method `evaluateMove`. -/
def evaluateMove (ai : AIPlayer) (g : Game) (move : Move) : Option Int := do
  let player ← idx? g.Players ai.playerIdx
  let s1 ←
    if move.LineIdx ≥ 0 then do
      let pl ← player.PatternLines.get? move.LineIdx
      let tilesNeeded := pl.Size - pl.Filled
      let tileCount ←
        if move.FactoryIdx = -1 then some (countColor g.Center.Tiles move.Color)
        else (idx? g.Factories move.FactoryIdx).map (fun f => countColor f.Tiles move.Color)
      let sa : Int := if tileCount ≥ tilesNeeded then 0 + (50 + (move.LineIdx + 1) * 10) else 0
      let sb : Int := if tileCount - tilesNeeded > 0 then sa - (tileCount - tilesNeeded) * 15 else sa
      pure (sb + move.LineIdx * 5)
    else pure (0 - 30)
  let s2 : Int :=
    if move.FactoryIdx = -1 ∧ g.Center.HasFirstPlayerTile = true then
      (if g.Center.Tiles.length < 5 then s1 - 20 else s1)
    else s1
  let bp ← ai.evaluateBoardProgress player move
  pure (s2 + bp)

/-- The loop of `heuristicMove`: the moves left to visit, `bestScore`, `bestMoves`. -/
def heuristicLoop (ai : AIPlayer) (g : Game) :
    List Move → Int → List Move → Option (Int × List Move)
  | [], bestScore, bestMoves => some (bestScore, bestMoves)
  | move :: rest, bestScore, bestMoves =>
    match ai.evaluateMove g move with
    | none => none
    | some score =>
      if score > bestScore then heuristicLoop ai g rest score [move]
      else if score = bestScore then heuristicLoop ai g rest bestScore (bestMoves ++ [move])
      else heuristicLoop ai g rest bestScore bestMoves

/-- The method `heuristicMove`. -/
def heuristicMove (raw : Int → Nat → Nat) (ai : AIPlayer) (g : Game) (moves : List Move) :
    Option Move :=
  match ai.heuristicLoop g moves MinInt32 [] with
  | none => none
  | some r =>
    match ai.rng.Intn raw r.2.length with
    | none => none
    | some i => r.2[i]?

/-- The method `evaluateWallPotential`. -/
def evaluateWallPotential (_ai : AIPlayer) (player : PlayerBoard) : Option Int := do
  let s1 := fin5.foldl (fun (score : Int) row =>
    if rowFilled player.Wall row ≥ 4 then score + 10
    else if rowFilled player.Wall row ≥ 3 then score + 5 else score) 0
  let s2 := fin5.foldl (fun (score : Int) col =>
    if colFilled player.Wall col ≥ 4 then score + 20
    else if colFilled player.Wall col ≥ 3 then score + 10 else score) s1
  AllColors.foldlM (fun (score : Int) color => do
    let count ← player.colorCount color
    pure (if count ≥ 4 then score + 25 else if count ≥ 3 then score + 12 else score)) s2

/-- The loop of `evaluateState` over the pattern lines, given with their indices. -/
def progressLoop : List (Int × PatternLine) → Int → Option Int
  | [], score => some score
  | (i, pl) :: rest, score =>
    if pl.Filled > 0 then
      match progressCredit pl.Filled pl.Size (i + 1) with
      | none => none
      | some c => progressLoop rest (score + c)
    else progressLoop rest score

/-- The loop of `evaluateState` over the boards: the boards left to visit, the index of
the first of them, the running score. -/
def opponentLoop (ai : AIPlayer) : List PlayerBoard → Int → Int → Int
  | [], _, score => score
  | player :: rest, i, score =>
    opponentLoop ai rest (i + 1) (if i ≠ ai.playerIdx then score - player.Score * 8 else score)

/-- The method `evaluateState`. -/
def evaluateState (ai : AIPlayer) (g : Game) : Option Int := do
  let myPlayer ← idx? g.Players ai.playerIdx
  let s1 ← progressLoop
    [(0, myPlayer.PatternLines.e0), (1, myPlayer.PatternLines.e1),
     (2, myPlayer.PatternLines.e2), (3, myPlayer.PatternLines.e3),
     (4, myPlayer.PatternLines.e4)] (myPlayer.Score * 10)
  let wp ← ai.evaluateWallPotential myPlayer
  let s3 := ai.opponentLoop g.Players 0 (s1 + wp * 2)
  pure (s3 - (myPlayer.FloorLine.length : Int) * 5)

/-- The loop of the maximizing branch of `minimax`: the moves left to visit, `alpha`,
`maxEval`, `anyValid`; `child` is the recursive call on the clone after the move. -/
def maxLoop (raw : Int → Nat → Nat) (child : Game → Int → Int → Option Int) (g : Game)
    (beta : Int) : List Move → Int → Int → Bool → Option (Int × Bool)
  | [], _, maxEval, anyValid => some (maxEval, anyValid)
  | move :: rest, alpha, maxEval, anyValid =>
    match g.Clone with
    | none => none
    | some clone =>
      match Game.ApplyMove raw clone move with
      | none => none
      | some (_, true) => maxLoop raw child g beta rest alpha maxEval anyValid
      | some (c1, false) =>
        match child c1 alpha beta with
        | none => none
        | some eval =>
          if beta ≤ max alpha eval then some (max maxEval eval, true)
          else maxLoop raw child g beta rest (max alpha eval) (max maxEval eval) true

/-- The loop of the minimizing branch of `minimax`: the moves left to visit, `beta`,
`minEval`, `anyValid`. -/
def minLoop (raw : Int → Nat → Nat) (child : Game → Int → Int → Option Int) (g : Game)
    (alpha : Int) : List Move → Int → Int → Bool → Option (Int × Bool)
  | [], _, minEval, anyValid => some (minEval, anyValid)
  | move :: rest, beta, minEval, anyValid =>
    match g.Clone with
    | none => none
    | some clone =>
      match Game.ApplyMove raw clone move with
      | none => none
      | some (_, true) => minLoop raw child g alpha rest beta minEval anyValid
      | some (c1, false) =>
        match child c1 alpha beta with
        | none => none
        | some eval =>
          if min beta eval ≤ alpha then some (min minEval eval, true)
          else minLoop raw child g alpha rest (min beta eval) (min minEval eval) true

/-- The method `minimax`.  The first argument bounds the number of nested calls: the
result is `none` when it is used up, and `none` also stands for a fault. -/
def minimax (raw : Int → Nat → Nat) (ai : AIPlayer) :
    Nat → Game → Int → Int → Int → Bool → Option Int
  | 0, _, _, _, _, _ => none
  | fuel + 1, g, depth, alpha, beta, maximizing =>
    if depth = 0 ∨ g.GameOver = true ∨ g.IsRoundOver = true then ai.evaluateState g
    else
      match g.GetValidMoves with
      | none => none
      | some moves =>
        if moves.length = 0 then ai.evaluateState g
        else if maximizing then
          match maxLoop raw (fun c a b => minimax raw ai fuel c (depth - 1) a b
              (decide (c.CurrentPlayer = ai.playerIdx))) g beta moves alpha MinInt32 false with
          | none => none
          | some r => if !r.2 then ai.evaluateState g else some r.1
        else
          match minLoop raw (fun c a b => minimax raw ai fuel c (depth - 1) a b
              (decide (c.CurrentPlayer = ai.playerIdx))) g alpha moves beta MaxInt32 false with
          | none => none
          | some r => if !r.2 then ai.evaluateState g else some r.1

/-- The loop of `minimaxMove`: the moves left to visit, `bestScore`, `bestMove`. -/
def minimaxMoveLoop (raw : Int → Nat → Nat) (ai : AIPlayer) (g : Game) (depth : Int) :
    List Move → Int → Move → Option Move
  | [], _, bestMove => some bestMove
  | move :: rest, bestScore, bestMove =>
    match g.Clone with
    | none => none
    | some clone =>
      match Game.ApplyMove raw clone move with
      | none => none
      | some (_, true) => minimaxMoveLoop raw ai g depth rest bestScore bestMove
      | some (c1, false) =>
        match ai.minimax raw depth.toNat c1 (depth - 1) MinInt32 MaxInt32
            (decide (c1.CurrentPlayer = ai.playerIdx)) with
        | none => none
        | some score =>
          if score > bestScore then minimaxMoveLoop raw ai g depth rest score move
          else minimaxMoveLoop raw ai g depth rest bestScore bestMove

/-- The method `minimaxMove`; `bestMove` starts as the zero value of `Move`. -/
def minimaxMove (raw : Int → Nat → Nat) (ai : AIPlayer) (g : Game) (moves : List Move) :
    Option Move :=
  ai.minimaxMoveLoop raw g (if moves.length > 20 then 3 else 4) moves MinInt32
    ⟨0, TileColor.Blue, 0⟩

/-- The method `ChooseMove`. -/
def ChooseMove (raw : Int → Nat → Nat) (ai : AIPlayer) (g : Game) (moves : List Move) :
    Option Move :=
  if moves.length = 0 then some ⟨0, TileColor.Blue, 0⟩
  else if ai.difficulty = Easy then ai.randomMove raw moves
  else if ai.difficulty = Medium then ai.heuristicMove raw g moves
  else if ai.difficulty = Hard then ai.minimaxMove raw g moves
  else ai.randomMove raw moves

end AIPlayer

/-! ## Predicates on the computer player -/

namespace AIPlayer

/-- The loop of the maximizing branch of `minimax` with the cut-off
`if beta <= alpha { break }` removed. -/
def maxLoopPlain (raw : Int → Nat → Nat) (child : Game → Int → Int → Option Int) (g : Game)
    (beta : Int) : List Move → Int → Int → Bool → Option (Int × Bool)
  | [], _, maxEval, anyValid => some (maxEval, anyValid)
  | move :: rest, alpha, maxEval, anyValid =>
    match g.Clone with
    | none => none
    | some clone =>
      match Game.ApplyMove raw clone move with
      | none => none
      | some (_, true) => maxLoopPlain raw child g beta rest alpha maxEval anyValid
      | some (c1, false) =>
        match child c1 alpha beta with
        | none => none
        | some eval =>
          maxLoopPlain raw child g beta rest (max alpha eval) (max maxEval eval) true

/-- The loop of the minimizing branch of `minimax` with the cut-off
`if beta <= alpha { break }` removed. -/
def minLoopPlain (raw : Int → Nat → Nat) (child : Game → Int → Int → Option Int) (g : Game)
    (alpha : Int) : List Move → Int → Int → Bool → Option (Int × Bool)
  | [], _, minEval, anyValid => some (minEval, anyValid)
  | move :: rest, beta, minEval, anyValid =>
    match g.Clone with
    | none => none
    | some clone =>
      match Game.ApplyMove raw clone move with
      | none => none
      | some (_, true) => minLoopPlain raw child g alpha rest beta minEval anyValid
      | some (c1, false) =>
        match child c1 alpha beta with
        | none => none
        | some eval =>
          minLoopPlain raw child g alpha rest (min beta eval) (min minEval eval) true

/-- The depth-limited max/min recursion of `minimax` with the two cut-offs removed: the
same body, every move of every node being visited. -/
def minimaxPlain (raw : Int → Nat → Nat) (ai : AIPlayer) :
    Nat → Game → Int → Int → Int → Bool → Option Int
  | 0, _, _, _, _, _ => none
  | fuel + 1, g, depth, alpha, beta, maximizing =>
    if depth = 0 ∨ g.GameOver = true ∨ g.IsRoundOver = true then ai.evaluateState g
    else
      match g.GetValidMoves with
      | none => none
      | some moves =>
        if moves.length = 0 then ai.evaluateState g
        else if maximizing then
          match maxLoopPlain raw (fun c a b => minimaxPlain raw ai fuel c (depth - 1) a b
              (decide (c.CurrentPlayer = ai.playerIdx))) g beta moves alpha MinInt32 false with
          | none => none
          | some r => if !r.2 then ai.evaluateState g else some r.1
        else
          match minLoopPlain raw (fun c a b => minimaxPlain raw ai fuel c (depth - 1) a b
              (decide (c.CurrentPlayer = ai.playerIdx))) g alpha moves beta MaxInt32 false with
          | none => none
          | some r => if !r.2 then ai.evaluateState g else some r.1

end AIPlayer

/-- What the search of the Hard tier relies on, in addition to `Game.Inv` and
`Game.Settled`: at most four boards, no negative score, no score above ten points per
occupied wall cell (plus the end of game bonus of at most 95 once `GameOver` is set), and
at most one first player marker in the center and on the floor lines together. -/
structure Game.Bounded (g : Game) : Prop where
  inv : g.Inv
  settled : g.Settled
  players : g.Players.length ≤ 4
  score0 : ∀ p ∈ g.Players, 0 ≤ p.Score
  score1 : ∀ p ∈ g.Players,
    p.Score ≤ 10 * wallCount p.Wall + (if g.GameOver = true then 95 else 0)
  marks : g.markers.sum + (if g.Center.HasFirstPlayerTile = true then 1 else 0) ≤ 1

/-- The states the search of `minimax` visits from `g0`: each step clones the state and
applies to the clone one of the moves `GetValidMoves` lists for the state, without an
error. -/
inductive Search (raw : Int → Nat → Nat) (g0 : Game) : Game → Prop
  | start : Search raw g0 g0
  | step (g clone g1 : Game) (ms : List Move) (m : Move) :
      Search raw g0 g → g.GetValidMoves = some ms → m ∈ ms → g.Clone = some clone →
      Game.ApplyMove raw clone m = some (g1, false) → Search raw g0 g1

/-- What a call of `minimax` with the window `(alpha, beta)` returns, `r`, against the
value `v` of the plain recursion: the value itself when it is inside the window, and a
bound on the same side when it is not. -/
def windowSpec (alpha beta v r : Int) : Prop :=
  (alpha < v → v < beta → r = v) ∧ (v ≤ alpha → r ≤ alpha) ∧ (beta ≤ v → beta ≤ r)

/-- The least value of Go's `int`, which has 64 bits on the supported platforms. -/
def MinInt64 : Int := -9223372036854775808

/-- The greatest value of Go's `int`. -/
def MaxInt64 : Int := 9223372036854775807

/-- A value that a Go `int` can hold. -/
def InInt64 (x : Int) : Prop := MinInt64 ≤ x ∧ x ≤ MaxInt64

instance (x : Int) : Decidable (InInt64 x) := by
  unfold InInt64
  infer_instance

/-! ## Basic facts on arrays and placement -/

theorem takeColorLoop_eq (color : TileColor) :
    ∀ (ts taken remaining : List TileColor),
      takeColorLoop color ts taken remaining =
        (taken ++ ts.filter (fun t => decide (t = color)),
          remaining ++ ts.filter (fun t => !decide (t = color))) := by
  intro ts
  induction ts with
  | nil => intro taken remaining; simp [takeColorLoop]
  | cons t ts ih =>
    intro taken remaining
    unfold takeColorLoop
    by_cases h : t = color
    · simp [h, ih]
    · simp [h, ih]

theorem factory_takeColor_eq (f : Factory) (color : TileColor) :
    f.TakeColor color =
      (⟨[]⟩, f.Tiles.filter (fun t => decide (t = color)),
        f.Tiles.filter (fun t => !decide (t = color))) := by
  simp [Factory.TakeColor, takeColorLoop_eq]

theorem center_takeColor_eq (c : Center) (color : TileColor) :
    c.TakeColor color =
      (⟨c.Tiles.filter (fun t => !decide (t = color)), false⟩,
        c.Tiles.filter (fun t => decide (t = color)), c.HasFirstPlayerTile) := by
  simp [Center.TakeColor, takeColorLoop_eq]

theorem Arr5.get?_isSome_iff {α : Type} (a : Arr5 α) (i : Int) :
    (∃ v, a.get? i = some v) ↔ (0 ≤ i ∧ i < 5) := by
  constructor
  · rintro ⟨v, hv⟩
    unfold Arr5.get? at hv
    split_ifs at hv <;> omega
  · rintro ⟨h0, h5⟩
    interval_cases i <;> simp [Arr5.get?]

theorem Arr5.get2?_range {α : Type} (w : Arr5 (Arr5 α)) (r c : Int) (v : α)
    (h : w.get2? r c = some v) : (0 ≤ r ∧ r < 5) ∧ (0 ≤ c ∧ c < 5) := by
  unfold Arr5.get2? at h
  cases hr : w.get? r with
  | none => simp [hr] at h
  | some row =>
    simp [hr] at h
    exact ⟨(Arr5.get?_isSome_iff w r).1 ⟨row, hr⟩, (Arr5.get?_isSome_iff row c).1 ⟨v, h⟩⟩

theorem wallColumn_real (row : Int) (color : TileColor) (h0 : 0 ≤ row) (h5 : row < 5)
    (hc : color.IsReal = true) (pb : PlayerBoard) :
    ∃ col, pb.GetWallColumn row color = some col ∧ 0 ≤ col ∧ col < 5 ∧
      WallPattern.get2? row col = some color ∧
      ∀ c, WallPattern.get2? row c = some color → c = col := by
  have key : ∀ c, WallPattern.get2? row c = some color → 0 ≤ c ∧ c < 5 :=
    fun c h => (Arr5.get2?_range _ _ _ _ h).2
  interval_cases row <;> cases color <;> simp [TileColor.IsReal] at hc <;>
    refine ⟨_, rfl, by decide, by decide, by decide, ?_⟩ <;>
    intro c hcc <;> obtain ⟨h1, h2⟩ := key c hcc <;> interval_cases c <;>
    revert hcc <;> decide

theorem canPlaceOnLine_spec (pb : PlayerBoard) (lineIdx : Int) (color : TileColor)
    (hc : color.IsReal = true) :
    ∃ b, pb.CanPlaceOnLine lineIdx color = some b ∧
      (b = true ↔
        (0 ≤ lineIdx ∧ lineIdx < 5 ∧
          ∃ pl, pb.PatternLines.get? lineIdx = some pl ∧ pl.Filled ≠ pl.Size ∧
            (pl.Filled = 0 ∨ pl.Color = color) ∧
            ∃ col, WallPattern.get2? lineIdx col = some color ∧
              pb.Wall.get2? lineIdx col = some false)) := by
  by_cases hr : lineIdx < 0 ∨ lineIdx ≥ 5
  · refine ⟨false, by simp [PlayerBoard.CanPlaceOnLine, hr], ?_⟩
    simp; intro h0 h5; omega
  · have h0 : 0 ≤ lineIdx := by omega
    have h5 : lineIdx < 5 := by omega
    obtain ⟨pl, hpl⟩ := (Arr5.get?_isSome_iff pb.PatternLines lineIdx).2 ⟨h0, h5⟩
    obtain ⟨col, hcol, hc0, hc5, hpat, huniq⟩ := wallColumn_real lineIdx color h0 h5 hc pb
    obtain ⟨wrow, hwrow⟩ := (Arr5.get?_isSome_iff pb.Wall lineIdx).2 ⟨h0, h5⟩
    obtain ⟨occ, hocc⟩ := (Arr5.get?_isSome_iff wrow col).2 ⟨hc0, hc5⟩
    have hw : pb.Wall.get2? lineIdx col = some occ := by simp [Arr5.get2?, hwrow, hocc]
    by_cases hacc : pl.CanAccept color = true
    · refine ⟨!occ, by cases occ <;> simp [PlayerBoard.CanPlaceOnLine, hr, hpl, hacc, hcol, hw], ?_⟩
      have hacc2 : pl.Filled ≠ pl.Size ∧ (pl.Filled = 0 ∨ pl.Color = color) := by
        unfold PatternLine.CanAccept PatternLine.IsFull PatternLine.IsEmpty at hacc
        split_ifs at hacc with h1 h2 <;> simp_all
      constructor
      · intro hb
        refine ⟨h0, h5, pl, hpl, hacc2.1, hacc2.2, col, hpat, ?_⟩
        simp at hb; simp [hw, hb]
      · rintro ⟨_, _, pl2, hpl2, _, _, c2, hp2, hw2⟩
        have := huniq c2 hp2
        subst this
        rw [hw] at hw2
        simp at hw2; simp [hw2]
    · refine ⟨false, by simp [PlayerBoard.CanPlaceOnLine, hr, hpl, hacc], ?_⟩
      simp
      intro _ _ pl2 hpl2 hne hor
      rw [hpl] at hpl2
      simp at hpl2; subst hpl2
      exfalso; apply hacc
      unfold PatternLine.CanAccept PatternLine.IsFull PatternLine.IsEmpty
      split_ifs with h1 h2 <;> simp_all

theorem canPlaceOnLine_isSome (pb : PlayerBoard) (lineIdx : Int) (color : TileColor)
    (hc : color.IsReal = true) : ∃ b, pb.CanPlaceOnLine lineIdx color = some b := by
  obtain ⟨b, hb, _⟩ := canPlaceOnLine_spec pb lineIdx color hc
  exact ⟨b, hb⟩

theorem placementsLoop_eq (pb : PlayerBoard) (color : TileColor) :
    ∀ (is valid : List Int), (∀ i ∈ is, ∃ b, pb.CanPlaceOnLine i color = some b) →
      pb.placementsLoop color is valid =
        some (valid ++ is.filter (fun i => decide (pb.CanPlaceOnLine i color = some true))) := by
  intro is
  induction is with
  | nil => intro valid _; simp [PlayerBoard.placementsLoop]
  | cons i rest ih =>
    intro valid h
    obtain ⟨b, hb⟩ := h i (List.mem_cons_self _ _)
    have hrest : ∀ j ∈ rest, ∃ b, pb.CanPlaceOnLine j color = some b :=
      fun j hj => h j (List.mem_cons_of_mem _ hj)
    cases b with
    | true => simp [PlayerBoard.placementsLoop, hb, ih _ hrest]
    | false => simp [PlayerBoard.placementsLoop, hb, ih _ hrest]

theorem getValidPlacements_eq (pb : PlayerBoard) (color : TileColor)
    (hc : color.IsReal = true) :
    pb.GetValidPlacements color =
      some (range5.filter (fun i => decide (pb.CanPlaceOnLine i color = some true)) ++ [-1]) := by
  unfold PlayerBoard.GetValidPlacements
  rw [placementsLoop_eq pb color range5 [] (fun i _ => canPlaceOnLine_isSome pb i color hc)]
  simp

theorem range5_sorted : List.Sorted (· < ·) range5 := by
  simp [range5]


/-! ## Facts on move enumeration -/

theorem getColorsLoop_mem (c : TileColor) :
    ∀ (ts seen colors : List TileColor),
      c ∈ getColorsLoop ts seen colors ↔ (c ∈ colors ∨ (c ∈ ts ∧ c ∉ seen)) := by
  intro ts
  induction ts with
  | nil => intro seen colors; simp [getColorsLoop]
  | cons t ts ih =>
    intro seen colors
    unfold getColorsLoop
    split_ifs with h
    · rw [ih]
      constructor
      · rintro (h1 | ⟨h1, h2⟩)
        · exact Or.inl h1
        · exact Or.inr ⟨List.mem_cons_of_mem _ h1, h2⟩
      · rintro (h1 | ⟨h1, h2⟩)
        · exact Or.inl h1
        · rcases List.mem_cons.1 h1 with h3 | h3
          · subst h3; exact absurd h h2
          · exact Or.inr ⟨h3, h2⟩
    · rw [ih]
      simp only [List.mem_append, List.mem_singleton, List.mem_cons, not_or, List.not_mem_nil, or_false]
      constructor
      · rintro ((h1 | h1) | ⟨h1, h2, h3⟩)
        · exact Or.inl h1
        · subst h1; exact Or.inr ⟨Or.inl rfl, h⟩
        · exact Or.inr ⟨Or.inr h1, h3⟩
      · rintro (h1 | ⟨h1 | h1, h2⟩)
        · exact Or.inl (Or.inl h1)
        · exact Or.inl (Or.inr h1)
        · by_cases hct : c = t
          · exact Or.inl (Or.inr hct)
          · exact Or.inr ⟨h1, hct, h2⟩

theorem getColorsLoop_nodup :
    ∀ (ts seen colors : List TileColor), colors.Nodup → (∀ c ∈ colors, c ∈ seen) →
      (getColorsLoop ts seen colors).Nodup := by
  intro ts
  induction ts with
  | nil => intro seen colors h _; simpa [getColorsLoop] using h
  | cons t ts ih =>
    intro seen colors hnd hsub
    unfold getColorsLoop
    split_ifs with h
    · exact ih _ _ hnd hsub
    · apply ih
      · rw [List.nodup_append]
        refine ⟨hnd, List.nodup_singleton _, ?_⟩
        intro a ha hb
        simp at hb; subst hb
        exact h (hsub _ ha)
      · intro c hc
        simp at hc
        rcases hc with hc | hc
        · exact List.mem_cons_of_mem _ (hsub _ hc)
        · subst hc; exact List.mem_cons_self _ _

theorem getColors_mem (ts : List TileColor) (c : TileColor) :
    c ∈ getColorsLoop ts [] [] ↔ c ∈ ts := by
  simp [getColorsLoop_mem]

theorem getColors_nodup (ts : List TileColor) : (getColorsLoop ts [] []).Nodup :=
  getColorsLoop_nodup ts [] [] List.nodup_nil (by simp)


theorem placementsLoop_some (pb : PlayerBoard) (color : TileColor) :
    ∀ (is valid l : List Int), pb.placementsLoop color is valid = some l →
      l = valid ++ is.filter (fun i => decide (pb.CanPlaceOnLine i color = some true)) := by
  intro is
  induction is with
  | nil => intro valid l h; simp [PlayerBoard.placementsLoop] at h; simp [h]
  | cons i rest ih =>
    intro valid l h
    unfold PlayerBoard.placementsLoop at h
    cases hb : pb.CanPlaceOnLine i color with
    | none => simp [hb] at h
    | some b =>
      cases b with
      | true => simp only [hb] at h; rw [ih _ _ h]; simp [hb]
      | false => simp only [hb] at h; rw [ih _ _ h]; simp [hb]

theorem getValidPlacements_some (pb : PlayerBoard) (color : TileColor) (l : List Int)
    (h : pb.GetValidPlacements color = some l) :
    l = range5.filter (fun i => decide (pb.CanPlaceOnLine i color = some true)) ++ [-1] := by
  unfold PlayerBoard.GetValidPlacements at h
  cases hp : pb.placementsLoop color range5 [] with
  | none => simp [hp] at h
  | some v =>
    simp only [hp, Option.some.injEq] at h
    rw [← h, placementsLoop_some pb color _ _ _ hp]
    simp

theorem canPlaceOnLine_true_range (pb : PlayerBoard) (i : Int) (color : TileColor)
    (h : pb.CanPlaceOnLine i color = some true) : 0 ≤ i ∧ i < 5 := by
  unfold PlayerBoard.CanPlaceOnLine at h
  split_ifs at h with h1
  · simp at h
  · omega

theorem mem_range5 (i : Int) : i ∈ range5 ↔ (0 ≤ i ∧ i < 5) := by
  simp [range5]; omega

theorem getValidPlacements_mem (pb : PlayerBoard) (color : TileColor) (l : List Int)
    (h : pb.GetValidPlacements color = some l) (line : Int) :
    line ∈ l ↔ (line = -1 ∨ pb.CanPlaceOnLine line color = some true) := by
  rw [getValidPlacements_some pb color l h]
  simp only [List.mem_append, List.mem_filter, mem_range5, decide_eq_true_eq,
    List.mem_singleton]
  constructor
  · rintro (⟨_, h2⟩ | h2)
    · exact Or.inr h2
    · exact Or.inl h2
  · rintro (h2 | h2)
    · exact Or.inr h2
    · exact Or.inl ⟨canPlaceOnLine_true_range pb line color h2, h2⟩

theorem getValidPlacements_nodup (pb : PlayerBoard) (color : TileColor) (l : List Int)
    (h : pb.GetValidPlacements color = some l) : l.Nodup := by
  rw [getValidPlacements_some pb color l h, List.nodup_append]
  refine ⟨List.Nodup.filter _ (by decide), List.nodup_singleton _, ?_⟩
  intro a ha hb
  simp only [List.mem_singleton] at hb
  subst hb
  have := (List.mem_filter.1 ha).1
  revert this; decide

theorem colorMoves_some (player : PlayerBoard) (fIdx : Int) :
    ∀ (cs : List TileColor) (ms : List Move), colorMoves player fIdx cs = some ms →
      (∀ m, m ∈ ms ↔ (m.FactoryIdx = fIdx ∧ m.Color ∈ cs ∧ m.PlacementOk player)) ∧
      (cs.Nodup → ms.Nodup) := by
  intro cs
  induction cs with
  | nil =>
    intro ms h
    simp [colorMoves] at h
    subst h
    simp
  | cons c cs ih =>
    intro ms h
    unfold colorMoves at h
    cases hl : player.GetValidPlacements c with
    | none => simp [hl] at h
    | some lines =>
      cases hr : colorMoves player fIdx cs with
      | none => simp [hl, hr] at h
      | some rest =>
        simp only [hl, hr, Option.some.injEq] at h
        subst h
        obtain ⟨ih1, ih2⟩ := ih rest hr
        constructor
        · intro m
          simp only [List.mem_append, List.mem_map, ih1, List.mem_cons]
          constructor
          · rintro (⟨line, hline, rfl⟩ | ⟨h1, h2, h3⟩)
            · exact ⟨rfl, Or.inl rfl, (getValidPlacements_mem player c lines hl line).1 hline⟩
            · exact ⟨h1, Or.inr h2, h3⟩
          · rintro ⟨h1, h2 | h2, h3⟩
            · left
              refine ⟨m.LineIdx, ?_, ?_⟩
              · rw [getValidPlacements_mem player c lines hl]
                rw [← h2]; exact h3
              · cases m; simp_all
            · exact Or.inr ⟨h1, h2, h3⟩
        · intro hnd
          rw [List.nodup_cons] at hnd
          rw [List.nodup_append]
          refine ⟨?_, ih2 hnd.2, ?_⟩
          · apply List.Nodup.map _ (getValidPlacements_nodup player c lines hl)
            intro a b hab
            simpa using hab
          · intro m hm1 hm2
            rw [List.mem_map] at hm1
            obtain ⟨line, _, rfl⟩ := hm1
            exact hnd.1 ((ih1 _).1 hm2).2.1

theorem factoryMoves_some (player : PlayerBoard) :
    ∀ (fs : List Factory) (k : Int) (ms : List Move), factoryMoves player fs k = some ms →
      (∀ m, m ∈ ms ↔
        (k ≤ m.FactoryIdx ∧ ∃ f, fs[(m.FactoryIdx - k).toNat]? = some f ∧
          m.Color ∈ f.Tiles ∧ m.PlacementOk player)) ∧ ms.Nodup := by
  intro fs
  induction fs with
  | nil =>
    intro k ms h
    simp [factoryMoves] at h
    subst h
    simp
  | cons f fs ih =>
    intro k ms h
    unfold factoryMoves at h
    cases hc : colorMoves player k f.GetColors with
    | none => simp [hc] at h
    | some cm =>
      cases hr : factoryMoves player fs (k + 1) with
      | none => simp [hc, hr] at h
      | some rest =>
        simp only [hc, hr, Option.some.injEq] at h
        subst h
        obtain ⟨c1, c2⟩ := colorMoves_some player k _ cm hc
        obtain ⟨ih1, ih2⟩ := ih (k + 1) rest hr
        constructor
        · intro m
          simp only [List.mem_append, c1, ih1, Factory.GetColors, getColors_mem]
          constructor
          · rintro (⟨h1, h2, h3⟩ | ⟨h1, g, h2, h3, h4⟩)
            · refine ⟨by omega, f, ?_, h2, h3⟩
              simp [h1]
            · refine ⟨by omega, g, ?_, h3, h4⟩
              have : (m.FactoryIdx - k).toNat = (m.FactoryIdx - (k + 1)).toNat + 1 := by omega
              rw [this]; simpa using h2
          · rintro ⟨h1, g, h2, h3, h4⟩
            by_cases hk : m.FactoryIdx = k
            · left
              simp [hk] at h2
              subst h2
              exact ⟨hk, h3, h4⟩
            · right
              refine ⟨by omega, g, ?_, h3, h4⟩
              have : (m.FactoryIdx - k).toNat = (m.FactoryIdx - (k + 1)).toNat + 1 := by omega
              rw [this] at h2; simpa using h2
        · rw [List.nodup_append]
          refine ⟨c2 (getColors_nodup _), ih2, ?_⟩
          intro m hm1 hm2
          have := ((c1 m).1 hm1).1
          have := ((ih1 m).1 hm2).1
          omega


theorem idx?_eq_some {α : Type} (l : List α) (i : Int) (v : α) :
    idx? l i = some v ↔ (0 ≤ i ∧ l[i.toNat]? = some v) := by
  unfold idx?
  split_ifs with h
  · simp; omega
  · simp; omega

theorem idx?_isSome {α : Type} (l : List α) (i : Int) (h0 : 0 ≤ i) (h1 : i < l.length) :
    ∃ v, idx? l i = some v := by
  have : i.toNat < l.length := by omega
  exact ⟨l[i.toNat], by simp [idx?_eq_some, h0, List.getElem?_eq_getElem this]⟩

theorem idx?_mem {α : Type} (l : List α) (i : Int) (v : α) (h : idx? l i = some v) :
    v ∈ l := by
  rw [idx?_eq_some] at h
  exact List.getElem?_mem h.2

theorem idx?_lt {α : Type} (l : List α) (i : Int) (v : α) (h : idx? l i = some v) :
    0 ≤ i ∧ i < l.length := by
  rw [idx?_eq_some] at h
  obtain ⟨h0, h1⟩ := h
  have := (List.getElem?_eq_some_iff.1 h1).1
  omega

theorem isRoundOver_iff (g : Game) :
    g.IsRoundOver = true ↔ ((∀ f ∈ g.Factories, f.Tiles = []) ∧ g.Center.Tiles = []) := by
  simp [Game.IsRoundOver, Factory.IsEmpty, Center.IsEmpty]

theorem getValidPlacements_isSome (pb : PlayerBoard) (color : TileColor)
    (hc : color.IsReal = true) : ∃ l, pb.GetValidPlacements color = some l :=
  ⟨_, getValidPlacements_eq pb color hc⟩

theorem colorMoves_isSome (player : PlayerBoard) (fIdx : Int) :
    ∀ cs : List TileColor, (∀ c ∈ cs, c.IsReal = true) →
      ∃ ms, colorMoves player fIdx cs = some ms := by
  intro cs
  induction cs with
  | nil => intro _; exact ⟨[], rfl⟩
  | cons c cs ih =>
    intro h
    obtain ⟨l, hl⟩ := getValidPlacements_isSome player c (h c (List.mem_cons_self _ _))
    obtain ⟨ms, hms⟩ := ih (fun c hc => h c (List.mem_cons_of_mem _ hc))
    simp [colorMoves, hl, hms]

theorem factoryMoves_isSome (player : PlayerBoard) :
    ∀ (fs : List Factory) (k : Int), (∀ f ∈ fs, ∀ t ∈ f.Tiles, t.IsReal = true) →
      ∃ ms, factoryMoves player fs k = some ms := by
  intro fs
  induction fs with
  | nil => intro _ _; exact ⟨[], rfl⟩
  | cons f fs ih =>
    intro k h
    obtain ⟨cm, hcm⟩ := colorMoves_isSome player k f.GetColors (by
      intro c hc
      exact h f (List.mem_cons_self _ _) c ((getColors_mem _ _).1 hc))
    obtain ⟨ms, hms⟩ := ih (k + 1) (fun f hf => h f (List.mem_cons_of_mem _ hf))
    simp [factoryMoves, hcm, hms]

theorem getValidMoves_isSome (g : Game) (hwf : g.WellFormed) :
    ∃ ms, g.GetValidMoves = some ms := by
  obtain ⟨h0, h1, _, hf, hc, _⟩ := hwf
  obtain ⟨player, hp⟩ := idx?_isSome g.Players g.CurrentPlayer h0 h1
  obtain ⟨fm, hfm⟩ := factoryMoves_isSome player g.Factories 0 hf
  obtain ⟨cm, hcm⟩ := colorMoves_isSome player (-1) g.Center.GetColors (by
    intro c hcc
    exact hc c ((getColors_mem _ _).1 hcc))
  simp [Game.GetValidMoves, hp, hfm, hcm]

theorem getValidMoves_some (g : Game) (ms : List Move) (h : g.GetValidMoves = some ms) :
    ∃ player fm cm, idx? g.Players g.CurrentPlayer = some player ∧
      factoryMoves player g.Factories 0 = some fm ∧
      colorMoves player (-1) g.Center.GetColors = some cm ∧ ms = fm ++ cm := by
  unfold Game.GetValidMoves at h
  cases hp : idx? g.Players g.CurrentPlayer with
  | none => simp [hp] at h
  | some player =>
    cases hf : factoryMoves player g.Factories 0 with
    | none => simp [hp, hf] at h
    | some fm =>
      cases hc : colorMoves player (-1) g.Center.GetColors with
      | none => simp [hp, hf, hc] at h
      | some cm =>
        simp only [hp, hf, hc, Option.some.injEq] at h
        exact ⟨player, fm, cm, rfl, hf, hc, h.symm⟩

theorem getValidMoves_char (g : Game) (ms : List Move) (h : g.GetValidMoves = some ms) :
    (∀ m : Move, m ∈ ms ↔
      (((0 ≤ m.FactoryIdx ∧ ∃ f, idx? g.Factories m.FactoryIdx = some f ∧ m.Color ∈ f.Tiles) ∨
        (m.FactoryIdx = -1 ∧ m.Color ∈ g.Center.Tiles)) ∧
       (m.LineIdx = -1 ∨ ∃ player, idx? g.Players g.CurrentPlayer = some player ∧
          player.CanPlaceOnLine m.LineIdx m.Color = some true))) ∧
    ms.Nodup ∧
    ∃ fm cm, ms = fm ++ cm ∧ (∀ m ∈ fm, 0 ≤ m.FactoryIdx) ∧ (∀ m ∈ cm, m.FactoryIdx = -1) := by
  obtain ⟨player, fm, cm, hp, hfm, hcm, rfl⟩ := getValidMoves_some g ms h
  obtain ⟨f1, f2⟩ := factoryMoves_some player g.Factories 0 fm hfm
  obtain ⟨c1, c2⟩ := colorMoves_some player (-1) _ cm hcm
  have hok : ∀ m : Move, m.PlacementOk player ↔
      (m.LineIdx = -1 ∨ ∃ player, idx? g.Players g.CurrentPlayer = some player ∧
          player.CanPlaceOnLine m.LineIdx m.Color = some true) := by
    intro m
    simp [Move.PlacementOk, hp]
  refine ⟨?_, ?_, fm, cm, rfl, fun m hm => ((f1 m).1 hm).1, fun m hm => ((c1 m).1 hm).1⟩
  · intro m
    rw [List.mem_append, f1, c1, ← hok, Center.GetColors, getColors_mem]
    constructor
    · rintro (⟨h0, f, hf, hc, hl⟩ | ⟨h0, hc, hl⟩)
      · refine ⟨Or.inl ⟨h0, f, ?_, hc⟩, hl⟩
        rw [idx?_eq_some]; exact ⟨h0, by simpa using hf⟩
      · exact ⟨Or.inr ⟨h0, hc⟩, hl⟩
    · rintro ⟨⟨h0, f, hf, hc⟩ | ⟨h0, hc⟩, hl⟩
      · left
        rw [idx?_eq_some] at hf
        exact ⟨h0, f, by simpa using hf.2, hc, hl⟩
      · exact Or.inr ⟨h0, hc, hl⟩
  · rw [List.nodup_append]
    refine ⟨f2, c2 (getColors_nodup _), ?_⟩
    intro m hm1 hm2
    have := ((f1 m).1 hm1).1
    have := ((c1 m).1 hm2).1
    omega

theorem floorMove_mem (g : Game) (ms : List Move) (h : g.GetValidMoves = some ms)
    (fIdx : Int) (tiles : List TileColor) (color : TileColor)
    (hs : g.sourceTiles fIdx = some tiles) (hc : color ∈ tiles) :
    (⟨fIdx, color, -1⟩ : Move) ∈ ms := by
  rw [(getValidMoves_char g ms h).1]
  refine ⟨?_, Or.inl rfl⟩
  unfold Game.sourceTiles at hs
  split_ifs at hs with h1
  · right
    simp only [Option.some.injEq] at hs
    subst hs
    exact ⟨h1, hc⟩
  · left
    cases hf : idx? g.Factories fIdx with
    | none => simp [hf] at hs
    | some f =>
      simp only [hf, Option.some.injEq] at hs
      subst hs
      exact ⟨(idx?_lt _ _ _ hf).1, f, rfl, hc⟩

theorem getValidMoves_nil_iff (g : Game) (ms : List Move) (h : g.GetValidMoves = some ms) :
    ms = [] ↔ ((∀ f ∈ g.Factories, f.Tiles = []) ∧ g.Center.Tiles = []) := by
  constructor
  · intro hnil
    subst hnil
    constructor
    · intro f hf
      by_contra hne
      obtain ⟨c, hc⟩ := List.exists_mem_of_ne_nil _ hne
      obtain ⟨i, hi, hfi⟩ := List.getElem_of_mem hf
      have hs : g.sourceTiles (i : Int) = some f.Tiles := by
        have h1 : idx? g.Factories (i : Int) = some f := by
          rw [idx?_eq_some]
          refine ⟨by omega, ?_⟩
          simp [List.getElem?_eq_getElem hi, hfi]
        unfold Game.sourceTiles
        rw [if_neg (by omega), h1]
      exact List.not_mem_nil _ (floorMove_mem g [] h _ _ c hs hc)
    · by_contra hne
      obtain ⟨c, hc⟩ := List.exists_mem_of_ne_nil _ hne
      have hs : g.sourceTiles (-1) = some g.Center.Tiles := by simp [Game.sourceTiles]
      exact List.not_mem_nil _ (floorMove_mem g [] h _ _ c hs hc)
  · rintro ⟨hf, hc⟩
    rw [List.eq_nil_iff_forall_not_mem]
    intro m hm
    rcases ((getValidMoves_char g ms h).1 m).1 hm with ⟨⟨_, f, hfi, hcol⟩ | ⟨_, hcol⟩, _⟩
    · rw [hf f (idx?_mem _ _ _ hfi)] at hcol
      exact List.not_mem_nil _ hcol
    · rw [hc] at hcol
      exact List.not_mem_nil _ hcol

/-! ## Facts on move application: absence of faults, the error path -/

theorem Arr5.set?_isSome {α : Type} (a : Arr5 α) (i : Int) (v : α) (h0 : 0 ≤ i) (h5 : i < 5) :
    ∃ a1, a.set? i v = some a1 := by
  interval_cases i <;> simp [Arr5.set?]

theorem Arr5.get2?_isSome {α : Type} (w : Arr5 (Arr5 α)) (r c : Int)
    (hr0 : 0 ≤ r) (hr5 : r < 5) (hc0 : 0 ≤ c) (hc5 : c < 5) : ∃ v, w.get2? r c = some v := by
  obtain ⟨row, hrow⟩ := (Arr5.get?_isSome_iff w r).2 ⟨hr0, hr5⟩
  obtain ⟨v, hv⟩ := (Arr5.get?_isSome_iff row c).2 ⟨hc0, hc5⟩
  exact ⟨v, by simp [Arr5.get2?, hrow, hv]⟩

theorem Arr5.set2?_isSome {α : Type} (w : Arr5 (Arr5 α)) (r c : Int) (v : α)
    (hr0 : 0 ≤ r) (hr5 : r < 5) (hc0 : 0 ≤ c) (hc5 : c < 5) : ∃ w1, w.set2? r c v = some w1 := by
  obtain ⟨row, hrow⟩ := (Arr5.get?_isSome_iff w r).2 ⟨hr0, hr5⟩
  obtain ⟨row1, hrow1⟩ := Arr5.set?_isSome row c v hc0 hc5
  obtain ⟨w1, hw1⟩ := Arr5.set?_isSome w r row1 hr0 hr5
  exact ⟨w1, by simp [Arr5.set2?, hrow, hrow1, hw1]⟩

theorem runBack_isSome (cell : Int → Option Bool) :
    ∀ (n : Nat) (acc : Int), (∀ k : Nat, k < n → ∃ b, cell (k : Int) = some b) →
      ∃ r, runBack cell n acc = some r := by
  intro n
  induction n with
  | zero => intro acc _; exact ⟨acc, rfl⟩
  | succ k ih =>
    intro acc h
    obtain ⟨b, hb⟩ := h k (Nat.lt_succ_self k)
    unfold runBack
    cases b with
    | true =>
      simp only [hb]
      exact ih _ (fun j hj => h j (Nat.lt_succ_of_lt hj))
    | false => simp [hb]

theorem runFwd_isSome (cell : Int → Option Bool) :
    ∀ (n : Nat) (c acc : Int), (∀ j : Int, c ≤ j → j < c + n → ∃ b, cell j = some b) →
      ∃ r, runFwd cell n c acc = some r := by
  intro n
  induction n with
  | zero => intro c acc _; exact ⟨acc, rfl⟩
  | succ k ih =>
    intro c acc h
    obtain ⟨b, hb⟩ := h c (le_refl c) (by push_cast; omega)
    unfold runFwd
    cases b with
    | true =>
      simp only [hb]
      exact ih _ _ (fun j hj1 hj2 => h j (by omega) (by push_cast; omega))
    | false => simp [hb]

theorem scoreWallTile_isSome (pb : PlayerBoard) (row col : Int)
    (hr0 : 0 ≤ row) (hr5 : row < 5) (hc0 : 0 ≤ col) (hc5 : col < 5) :
    ∃ pts, pb.ScoreWallTile row col = some pts := by
  obtain ⟨h1, e1⟩ := runBack_isSome (fun c => pb.Wall.get2? row c) col.toNat 1
    (fun k hk => Arr5.get2?_isSome _ _ _ hr0 hr5 (by omega) (by omega))
  obtain ⟨h2, e2⟩ := runFwd_isSome (fun c => pb.Wall.get2? row c) (5 - (col + 1)).toNat
    (col + 1) h1 (fun j hj1 hj2 => Arr5.get2?_isSome _ _ _ hr0 hr5 (by omega) (by omega))
  obtain ⟨v1, e3⟩ := runBack_isSome (fun r => pb.Wall.get2? r col) row.toNat 1
    (fun k hk => Arr5.get2?_isSome _ _ _ (by omega) (by omega) hc0 hc5)
  obtain ⟨v2, e4⟩ := runFwd_isSome (fun r => pb.Wall.get2? r col) (5 - (row + 1)).toNat
    (row + 1) v1 (fun j hj1 hj2 => Arr5.get2?_isSome _ _ _ (by omega) (by omega) hc0 hc5)
  exact ⟨scorePoints h2 v2, by simp [PlayerBoard.ScoreWallTile, e1, e2, e3, e4]⟩


theorem foldlM_inv {σ α : Type} (f : σ → α → Option σ) (P : σ → Prop) (l : List α)
    (hstep : ∀ s a, a ∈ l → P s → ∃ s', f s a = some s' ∧ P s') :
    ∀ s, P s → ∃ s', l.foldlM f s = some s' ∧ P s' := by
  induction l with
  | nil => intro s hs; exact ⟨s, rfl, hs⟩
  | cons a l ih =>
    intro s hs
    obtain ⟨s1, h1, hp1⟩ := hstep s a (List.mem_cons_self _ _) hs
    obtain ⟨s2, h2, hp2⟩ :=
      ih (fun s b hb hp => hstep s b (List.mem_cons_of_mem _ hb) hp) s1 hp1
    exact ⟨s2, by simp [List.foldlM, h1, h2], hp2⟩

theorem Arr5.get?_set? {α : Type} (a a1 : Arr5 α) (i : Int) (v : α)
    (h : a.set? i v = some a1) (j : Int) :
    a1.get? j = if j = i then some v else a.get? j := by
  unfold Arr5.set? at h
  split_ifs at h <;> simp only [Option.some.injEq] at h <;> subst h <;>
    simp only [Arr5.get?] <;> split_ifs <;> first | rfl | omega

theorem wellFormed_iff (pb : PlayerBoard) :
    pb.WellFormed ↔ ∀ i pl, pb.PatternLines.get? i = some pl → pl.WellFormed i := by
  constructor
  · intro h i pl hget
    obtain ⟨h0, h5⟩ := (Arr5.get?_isSome_iff _ _).1 ⟨pl, hget⟩
    obtain ⟨w0, w1, w2, w3, w4⟩ := h
    interval_cases i <;> simp [Arr5.get?] at hget <;> subst hget <;> assumption
  · intro h
    exact ⟨h 0 _ (by simp [Arr5.get?]), h 1 _ (by simp [Arr5.get?]),
      h 2 _ (by simp [Arr5.get?]), h 3 _ (by simp [Arr5.get?]), h 4 _ (by simp [Arr5.get?])⟩

theorem tileWallRow_notFull (s : PlayerBoard × List TileColor) (row : Int) (pl : PatternLine)
    (hpl : s.1.PatternLines.get? row = some pl) (hnf : pl.IsFull = false) :
    PlayerBoard.tileWallRow s row = some s := by
  simp [PlayerBoard.tileWallRow, hpl, hnf]

theorem tileWallRow_full (s : PlayerBoard × List TileColor) (row : Int) (pl : PatternLine)
    (hpl : s.1.PatternLines.get? row = some pl) (hf : pl.IsFull = true)
    (hreal : pl.Color.IsReal = true) :
    ∃ lines col wall pts,
      s.1.PatternLines.set? row ⟨pl.Size, TileColor.NoTile, 0⟩ = some lines ∧
      s.1.GetWallColumn row pl.Color = some col ∧ 0 ≤ col ∧ col < 5 ∧
      WallPattern.get2? row col = some pl.Color ∧
      s.1.Wall.set2? row col true = some wall ∧
      PlayerBoard.tileWallRow s row =
        some ({ PatternLines := lines, Wall := wall, FloorLine := s.1.FloorLine,
                Score := s.1.Score + pts },
              s.2 ++ List.replicate (pl.Filled - 1).toNat pl.Color) := by
  obtain ⟨h0, h5⟩ := (Arr5.get?_isSome_iff _ _).1 ⟨pl, hpl⟩
  obtain ⟨lines, hlines⟩ :=
    Arr5.set?_isSome s.1.PatternLines row ⟨pl.Size, TileColor.NoTile, 0⟩ h0 h5
  obtain ⟨col, hcol, hc0, hc5, hpat, _⟩ := wallColumn_real row pl.Color h0 h5 hreal s.1
  obtain ⟨wall, hwall⟩ := Arr5.set2?_isSome s.1.Wall row col true h0 h5 hc0 hc5
  obtain ⟨pts, hpts⟩ := scoreWallTile_isSome
    { s.1 with PatternLines := lines, Wall := wall } row col h0 h5 hc0 hc5
  refine ⟨lines, col, wall, pts, hlines, hcol, hc0, hc5, hpat, hwall, ?_⟩
  simp [PlayerBoard.tileWallRow, hpl, hf, PatternLine.Clear, hlines, hcol, hwall, hpts]

theorem tileWallRow_wellFormed (s : PlayerBoard × List TileColor) (row : Int)
    (hrow : row ∈ range5) (hwf : s.1.WellFormed) :
    ∃ s', PlayerBoard.tileWallRow s row = some s' ∧ s'.1.WellFormed := by
  obtain ⟨h0, h5⟩ := (mem_range5 row).1 hrow
  obtain ⟨pl, hpl⟩ := (Arr5.get?_isSome_iff s.1.PatternLines row).2 ⟨h0, h5⟩
  have hplwf := (wellFormed_iff s.1).1 hwf row pl hpl
  cases hf : pl.IsFull with
  | false => exact ⟨s, tileWallRow_notFull s row pl hpl hf, hwf⟩
  | true =>
    have hreal : pl.Color.IsReal = true := by
      apply hplwf.2.2.2
      have : pl.Filled = pl.Size := by simpa [PatternLine.IsFull] using hf
      have := hplwf.1
      omega
    obtain ⟨lines, col, wall, pts, hlines, _, _, _, _, _, hres⟩ :=
      tileWallRow_full s row pl hpl hf hreal
    refine ⟨_, hres, ?_⟩
    rw [wellFormed_iff]
    intro i pl2 hget
    simp only at hget
    rw [Arr5.get?_set? _ _ _ _ hlines] at hget
    split_ifs at hget with hi
    · simp only [Option.some.injEq] at hget
      subst hget; subst hi
      exact ⟨hplwf.1, le_refl _, by have := hplwf.1; simp only; omega, by simp⟩
    · exact (wellFormed_iff s.1).1 hwf i pl2 hget

theorem tileWall_wellFormed (pb : PlayerBoard) (hwf : pb.WellFormed) :
    ∃ r, pb.TileWall = some r ∧ r.1.WellFormed :=
  foldlM_inv PlayerBoard.tileWallRow (fun s => s.1.WellFormed) range5
    (fun s row hrow hs => tileWallRow_wellFormed s row hrow hs) (pb, []) hwf

theorem scoreFloorLine_wellFormed (pb : PlayerBoard) (hwf : pb.WellFormed) :
    pb.ScoreFloorLine.1.WellFormed := hwf

theorem endRoundLoop_wellFormed :
    ∀ (ps : List PlayerBoard) (b : Bag), (∀ p ∈ ps, p.WellFormed) →
      ∃ r, endRoundLoop ps b = some r ∧ (∀ p ∈ r.1, p.WellFormed) ∧ r.1.length = ps.length := by
  intro ps
  induction ps with
  | nil => intro b _; exact ⟨([], b), rfl, by simp, rfl⟩
  | cons p ps ih =>
    intro b h
    obtain ⟨tw, htw, hwf1⟩ := tileWall_wellFormed p (h p (List.mem_cons_self _ _))
    obtain ⟨r, hr, hwf2, hlen⟩ := ih ((b.Discard tw.2).Discard tw.1.ScoreFloorLine.2)
      (fun q hq => h q (List.mem_cons_of_mem _ hq))
    refine ⟨(tw.1.ScoreFloorLine.1 :: r.1, r.2), by simp [endRoundLoop, htw, hr], ?_, ?_⟩
    · intro q hq
      rcases List.mem_cons.1 hq with hq | hq
      · subst hq; exact scoreFloorLine_wellFormed _ hwf1
      · exact hwf2 q hq
    · simp [hlen]

theorem colorCount_isSome (pb : PlayerBoard) (color : TileColor) (hc : color.IsReal = true) :
    ∃ n, pb.colorCount color = some n := by
  obtain ⟨n, hn, _⟩ := foldlM_inv (fun (count : Int) (row : Int) =>
      (do
        let col ← pb.GetWallColumn row color
        let occupied ← pb.Wall.get2? row col
        pure (if occupied then count + 1 else count) : Option Int)) (fun _ => True) range5
    (by
      intro s row hrow _
      obtain ⟨h0, h5⟩ := (mem_range5 row).1 hrow
      obtain ⟨col, hcol, hc0, hc5, _, _⟩ := wallColumn_real row color h0 h5 hc pb
      obtain ⟨occ, hocc⟩ := Arr5.get2?_isSome pb.Wall row col h0 h5 hc0 hc5
      exact ⟨_, by simp [hcol, hocc]; rfl, trivial⟩) 0 trivial
  exact ⟨n, hn⟩

theorem scoreEndGame_isSome (pb : PlayerBoard) :
    ∃ p1, pb.ScoreEndGame = some p1 ∧ p1.PatternLines = pb.PatternLines ∧
      p1.Wall = pb.Wall ∧ p1.FloorLine = pb.FloorLine := by
  obtain ⟨s3, h3, _⟩ := foldlM_inv (fun (s : Int) color =>
      (do
        let count ← pb.colorCount color
        pure (if count = 5 then s + 10 else s) : Option Int)) (fun _ => True) AllColors
    (by
      intro s color hcol _
      have hreal : color.IsReal = true := by revert hcol; cases color <;> decide
      obtain ⟨n, hn⟩ := colorCount_isSome pb color hreal
      exact ⟨_, by simp [hn]; rfl, trivial⟩)
    (fin5.foldl (fun (s : Int) col => if colComplete pb.Wall col then s + 7 else s)
      (fin5.foldl (fun (s : Int) row => if rowComplete pb.Wall row then s + 2 else s) pb.Score))
    trivial
  refine ⟨{ pb with Score := s3 }, ?_, rfl, rfl, rfl⟩
  unfold PlayerBoard.ScoreEndGame
  simp only []
  rw [h3]
  rfl


theorem filter_eq_length (l : List TileColor) (c : TileColor) :
    (l.filter (fun t => decide (t = c))).length = l.count c := by
  induction l with
  | nil => rfl
  | cons a l ih =>
    by_cases h : a = c
    · subst h; simp [List.filter_cons, ih]
    · have h2 : (a == c) = false := by simpa using h
      simp [List.filter_cons, h, ih, List.count_cons, h2]

theorem filter_eq_nil_iff_count (l : List TileColor) (c : TileColor) :
    l.filter (fun t => decide (t = c)) = [] ↔ l.count c = 0 := by
  rw [← filter_eq_length, List.length_eq_zero]

theorem map_set_of_eq {α β : Type} (f : α → β) (l : List α) (i : Nat) (u v : α)
    (hi : l[i]? = some u) (hf : f v = f u) : (l.set i v).map f = l.map f := by
  induction l generalizing i with
  | nil => simp
  | cons a l ih =>
    cases i with
    | zero =>
      simp at hi
      subst hi
      simp [hf]
    | succ i =>
      simp at hi
      simp [ih i hi]

theorem takeTiles_center_marker (g : Game) (player : PlayerBoard) (m : Move)
    (hc : m.FactoryIdx = -1) (hm : g.Center.HasFirstPlayerTile = true) :
    Game.takeTiles g player m =
      some ({ g with
              Players := g.Players.set g.CurrentPlayer.toNat
                (player.AddToFloor TileColor.FirstPlayerMarker)
              Center := ⟨g.Center.Tiles.filter (fun t => !decide (t = m.Color)), false⟩
              FirstPlayer := g.CurrentPlayer },
            player.AddToFloor TileColor.FirstPlayerMarker,
            g.Center.Tiles.filter (fun t => decide (t = m.Color))) := by
  simp [Game.takeTiles, hc, hm, center_takeColor_eq, Game.setPlayer]

theorem takeTiles_center_plain (g : Game) (player : PlayerBoard) (m : Move)
    (hc : m.FactoryIdx = -1) (hm : g.Center.HasFirstPlayerTile = false) :
    Game.takeTiles g player m =
      some ({ g with
              Center := ⟨g.Center.Tiles.filter (fun t => !decide (t = m.Color)), false⟩ },
            player, g.Center.Tiles.filter (fun t => decide (t = m.Color))) := by
  simp [Game.takeTiles, hc, hm, center_takeColor_eq]

theorem takeTiles_factory (g : Game) (player : PlayerBoard) (m : Move) (f : Factory)
    (hc : m.FactoryIdx ≠ -1) (hf : idx? g.Factories m.FactoryIdx = some f) :
    Game.takeTiles g player m =
      some ({ g with
              Factories := g.Factories.set m.FactoryIdx.toNat ⟨[]⟩
              Center := ⟨g.Center.Tiles ++ f.Tiles.filter (fun t => !decide (t = m.Color)),
                g.Center.HasFirstPlayerTile⟩ },
            player, f.Tiles.filter (fun t => decide (t = m.Color))) := by
  simp [Game.takeTiles, hc, hf, factory_takeColor_eq, Center.AddTiles]

theorem takeTiles_factory_none (g : Game) (player : PlayerBoard) (m : Move)
    (hc : m.FactoryIdx ≠ -1) (hf : idx? g.Factories m.FactoryIdx = none) :
    Game.takeTiles g player m = none := by
  simp [Game.takeTiles, hc, hf]

theorem takeTiles_frame (g g1 : Game) (player p1 : PlayerBoard) (m : Move)
    (tiles : List TileColor) (hp : idx? g.Players g.CurrentPlayer = some player)
    (h : Game.takeTiles g player m = some (g1, p1, tiles)) :
    g1.CurrentPlayer = g.CurrentPlayer ∧ g1.Round = g.Round ∧ g1.GameOver = g.GameOver ∧
    g1.NumPlayers = g.NumPlayers ∧ g1.Bag = g.Bag ∧
    g1.Players.map (fun p => p.Score) = g.Players.map (fun p => p.Score) ∧
    g1.Players.map (fun p => p.PatternLines) = g.Players.map (fun p => p.PatternLines) ∧
    g1.Players.map (fun p => p.Wall) = g.Players.map (fun p => p.Wall) ∧
    g1.Players.length = g.Players.length ∧
    idx? g1.Players g1.CurrentPlayer = some p1 ∧
    p1.PatternLines = player.PatternLines ∧ p1.Wall = player.Wall ∧ p1.Score = player.Score ∧
    (∀ tiles0, g.sourceTiles m.FactoryIdx = some tiles0 →
      tiles = tiles0.filter (fun t => decide (t = m.Color))) := by
  obtain ⟨hp0, hp1⟩ := (idx?_eq_some _ _ _).1 hp
  by_cases hc : m.FactoryIdx = -1
  · cases hm : g.Center.HasFirstPlayerTile with
    | true =>
      rw [takeTiles_center_marker g player m hc hm] at h
      simp only [Option.some.injEq, Prod.mk.injEq] at h
      obtain ⟨rfl, rfl, rfl⟩ := h
      refine ⟨rfl, rfl, rfl, rfl, rfl, ?_, ?_, ?_, ?_, ?_, rfl, rfl, rfl, ?_⟩
      · exact map_set_of_eq _ _ _ _ _ hp1 rfl
      · exact map_set_of_eq _ _ _ _ _ hp1 rfl
      · exact map_set_of_eq _ _ _ _ _ hp1 rfl
      · simp
      · rw [idx?_eq_some]
        refine ⟨hp0, ?_⟩
        have hlt := (List.getElem?_eq_some_iff.1 hp1).1
        simp [List.getElem?_set, hlt]
      · intro tiles0 hs
        simp only [Game.sourceTiles, hc, if_true, Option.some.injEq] at hs
        subst hs
        rfl
    | false =>
      rw [takeTiles_center_plain g player m hc hm] at h
      simp only [Option.some.injEq, Prod.mk.injEq] at h
      obtain ⟨rfl, rfl, rfl⟩ := h
      refine ⟨rfl, rfl, rfl, rfl, rfl, rfl, rfl, rfl, rfl, hp, rfl, rfl, rfl, ?_⟩
      intro tiles0 hs
      simp only [Game.sourceTiles, hc, if_true, Option.some.injEq] at hs
      subst hs
      rfl
  · cases hf : idx? g.Factories m.FactoryIdx with
    | none => rw [takeTiles_factory_none g player m hc hf] at h; simp at h
    | some f =>
      rw [takeTiles_factory g player m f hc hf] at h
      simp only [Option.some.injEq, Prod.mk.injEq] at h
      obtain ⟨rfl, rfl, rfl⟩ := h
      refine ⟨rfl, rfl, rfl, rfl, rfl, rfl, rfl, rfl, rfl, hp, rfl, rfl, rfl, ?_⟩
      intro tiles0 hs
      simp only [Game.sourceTiles, hc, if_false, hf, Option.some.injEq] at hs
      subst hs
      rfl

theorem takeTiles_isSome (g : Game) (player : PlayerBoard) (m : Move)
    (tiles0 : List TileColor) (hs : g.sourceTiles m.FactoryIdx = some tiles0) :
    ∃ r, Game.takeTiles g player m = some r := by
  by_cases hc : m.FactoryIdx = -1
  · cases hm : g.Center.HasFirstPlayerTile with
    | true => exact ⟨_, takeTiles_center_marker g player m hc hm⟩
    | false => exact ⟨_, takeTiles_center_plain g player m hc hm⟩
  · cases hf : idx? g.Factories m.FactoryIdx with
    | none => simp [Game.sourceTiles, hc, hf] at hs
    | some f => exact ⟨_, takeTiles_factory g player m f hc hf⟩

theorem applyMove_error (raw : Int → Nat → Nat) (g g' : Game) (m : Move)
    (h : Game.ApplyMove raw g m = some (g', true)) :
    ∃ player p1, idx? g.Players g.CurrentPlayer = some player ∧
      Game.takeTiles g player m = some (g', p1, []) := by
  unfold Game.ApplyMove at h
  cases hp : idx? g.Players g.CurrentPlayer with
  | none => simp [hp] at h
  | some player =>
    cases ht : Game.takeTiles g player m with
    | none => simp [hp, ht] at h
    | some r =>
      obtain ⟨g1, p1, tiles⟩ := r
      simp only [hp, ht] at h
      split_ifs at h with hlen
      · simp only [Option.some.injEq, Prod.mk.injEq, and_true] at h
        subst h
        exact ⟨player, p1, rfl, by rw [ht, List.length_eq_zero.1 hlen]⟩
      · exfalso
        revert h
        cases p1.PlaceTiles m.LineIdx m.Color tiles.length with
        | none => simp
        | some p2 =>
          simp only
          split_ifs
          · cases Game.EndRound raw (Game.setPlayer g1 p2) <;> simp
          · cases Game.NextPlayer (Game.setPlayer g1 p2) <;> simp

theorem applyMove_of_empty (raw : Int → Nat → Nat) (g g1 : Game) (m : Move)
    (player p1 : PlayerBoard) (hp : idx? g.Players g.CurrentPlayer = some player)
    (ht : Game.takeTiles g player m = some (g1, p1, [])) :
    Game.ApplyMove raw g m = some (g1, true) := by
  simp [Game.ApplyMove, hp, ht]


theorem endGameLoop_isSome :
    ∀ ps : List PlayerBoard, ∃ r, Game.endGameLoop ps = some r ∧ r.length = ps.length := by
  intro ps
  induction ps with
  | nil => exact ⟨[], rfl, rfl⟩
  | cons p ps ih =>
    obtain ⟨p1, hp1, _⟩ := scoreEndGame_isSome p
    obtain ⟨r, hr, hlen⟩ := ih
    exact ⟨p1 :: r, by simp [Game.endGameLoop, hp1, hr], by simp [hlen]⟩

theorem setupLoop_isSome (raw : Int → Nat → Nat) :
    ∀ (fs : List Factory) (b : Bag), ∃ r, setupLoop raw fs b = some r := by
  intro fs
  induction fs with
  | nil => intro b; exact ⟨_, rfl⟩
  | cons f fs ih =>
    intro b
    obtain ⟨r, hr⟩ := ih (Bag.drawLoop raw 4 b []).1
    simp [setupLoop, Bag.Draw, hr]

theorem setupRound_isSome (raw : Int → Nat → Nat) (g : Game) :
    ∃ g1, Game.SetupRound raw g = some g1 := by
  obtain ⟨r, hr⟩ := setupLoop_isSome raw g.Factories g.Bag
  simp [Game.SetupRound, hr]

theorem endRound_isSome (raw : Int → Nat → Nat) (g : Game)
    (hwf : ∀ p ∈ g.Players, p.WellFormed) : ∃ g1, Game.EndRound raw g = some g1 := by
  obtain ⟨r, hr, _, _⟩ := endRoundLoop_wellFormed g.Players g.Bag hwf
  unfold Game.EndRound
  simp only [hr]
  split_ifs
  · obtain ⟨ps, hps, _⟩ := endGameLoop_isSome r.1
    simp [Game.EndGame, hps]
  · exact setupRound_isSome raw _

theorem add_wellFormed (pl : PatternLine) (i : Int) (color : TileColor) (count : Int)
    (hwf : pl.WellFormed i) (hc : color.IsReal = true) (hcount : 0 ≤ count) :
    (pl.Add color count).1.WellFormed i := by
  obtain ⟨h1, h2, h3, h4⟩ := hwf
  unfold PatternLine.Add PatternLine.IsEmpty
  by_cases he : pl.Filled = 0
  · simp only [he, decide_True, if_true]
    refine ⟨h1, ?_, ?_, fun _ => hc⟩ <;> simp only <;> omega
  · simp only [he, decide_False]
    refine ⟨h1, ?_, ?_, fun _ => h4 he⟩ <;> simp <;> omega

theorem placeTiles_wellFormed (pb : PlayerBoard) (lineIdx : Int) (color : TileColor)
    (count : Int) (hwf : pb.WellFormed) (hc : color.IsReal = true) (hcount : 0 ≤ count)
    (hl0 : -1 ≤ lineIdx) (hl4 : lineIdx ≤ 4) :
    ∃ p2, pb.PlaceTiles lineIdx color count = some p2 ∧ p2.WellFormed := by
  unfold PlayerBoard.PlaceTiles
  by_cases hfl : lineIdx = -1
  · exact ⟨{ pb with FloorLine := pb.FloorLine ++ List.replicate count.toNat color },
      by simp [hfl], hwf⟩
  · have h0 : 0 ≤ lineIdx := by omega
    have h5 : lineIdx < 5 := by omega
    obtain ⟨pl, hpl⟩ := (Arr5.get?_isSome_iff pb.PatternLines lineIdx).2 ⟨h0, h5⟩
    obtain ⟨lines, hlines⟩ :=
      Arr5.set?_isSome pb.PatternLines lineIdx (pl.Add color count).1 h0 h5
    refine ⟨{ pb with
        PatternLines := lines
        FloorLine := pb.FloorLine ++ List.replicate (pl.Add color count).2.toNat color },
      by simp [hfl, hpl, hlines], ?_⟩
    rw [wellFormed_iff]
    intro i pl2 hget
    simp only at hget
    rw [Arr5.get?_set? _ _ _ _ hlines] at hget
    split_ifs at hget with hi
    · simp only [Option.some.injEq] at hget
      subst hget; subst hi
      exact add_wellFormed pl _ color count ((wellFormed_iff pb).1 hwf _ pl hpl) hc hcount
    · exact (wellFormed_iff pb).1 hwf i pl2 hget

theorem mem_set_wellFormed (ps : List PlayerBoard) (i : Nat) (p : PlayerBoard)
    (h : ∀ q ∈ ps, q.WellFormed) (hp : p.WellFormed) : ∀ q ∈ ps.set i p, q.WellFormed := by
  intro q hq
  rcases List.mem_or_eq_of_mem_set hq with h1 | h1
  · exact h q h1
  · subst h1; exact hp

theorem applyMove_isSome (raw : Int → Nat → Nat) (g : Game) (m : Move) (hwf : g.WellFormed)
    (hf : m.FactoryIdx = -1 ∨ (0 ≤ m.FactoryIdx ∧ m.FactoryIdx < g.Factories.length))
    (hl0 : -1 ≤ m.LineIdx) (hl4 : m.LineIdx ≤ 4) :
    ∃ r, Game.ApplyMove raw g m = some r := by
  obtain ⟨h0, h1, hnum, hfs, hcs, hps⟩ := hwf
  obtain ⟨player, hp⟩ := idx?_isSome g.Players g.CurrentPlayer h0 h1
  have hsrc : ∃ tiles0, g.sourceTiles m.FactoryIdx = some tiles0 ∧
      ∀ t ∈ tiles0, t.IsReal = true := by
    unfold Game.sourceTiles
    rcases hf with hf | ⟨hf0, hf1⟩
    · exact ⟨_, by simp [hf], hcs⟩
    · obtain ⟨f, hfi⟩ := idx?_isSome g.Factories m.FactoryIdx hf0 hf1
      exact ⟨f.Tiles, by rw [if_neg (by omega), hfi], hfs f (idx?_mem _ _ _ hfi)⟩
  obtain ⟨tiles0, hs, hreal⟩ := hsrc
  obtain ⟨⟨g1, p1, tiles⟩, ht⟩ := takeTiles_isSome g player m tiles0 hs
  obtain ⟨e1, _, _, e4, _, _, e7, _, e9, e10, e11, _, _, e14⟩ :=
    takeTiles_frame g g1 player p1 m tiles hp ht
  unfold Game.ApplyMove
  simp only [hp, ht]
  split_ifs with hlen
  · exact ⟨_, rfl⟩
  · have hcol : m.Color.IsReal = true := by
      have hne : tiles ≠ [] := fun h => hlen (by simp [h])
      obtain ⟨t, ht1⟩ := List.exists_mem_of_ne_nil _ hne
      rw [e14 tiles0 hs] at ht1
      have := List.mem_filter.1 ht1
      have h2 : t = m.Color := by simpa using this.2
      rw [← h2]; exact hreal t this.1
    have hp1wf : p1.WellFormed := by
      have := hps player (idx?_mem _ _ _ hp)
      unfold PlayerBoard.WellFormed at this ⊢
      rw [e11]; exact this
    have hg1wf : ∀ q ∈ g1.Players, q.WellFormed := by
      intro q hq
      have hq2 : q.PatternLines ∈ g1.Players.map (fun p => p.PatternLines) :=
        List.mem_map_of_mem _ hq
      rw [e7, List.mem_map] at hq2
      obtain ⟨q0, hq0, heq⟩ := hq2
      have := hps q0 hq0
      unfold PlayerBoard.WellFormed at this ⊢
      rw [← heq]; exact this
    obtain ⟨p2, hp2, hp2wf⟩ := placeTiles_wellFormed p1 m.LineIdx m.Color tiles.length
      hp1wf hcol (by omega) hl0 hl4
    simp only [hp2]
    split_ifs with hro
    · obtain ⟨g3, hg3⟩ := endRound_isSome raw (Game.setPlayer g1 p2)
        (mem_set_wellFormed _ _ _ hg1wf hp2wf)
      simp [hg3]
    · have hn : (Game.setPlayer g1 p2).NumPlayers ≠ 0 := by
        show g1.NumPlayers ≠ 0
        rw [e4, hnum]; omega
      simp [Game.NextPlayer, hn]

/-! ## Claims on placement legality -/

/-- C9: for every board, every integer `lineIdx` and every real colour, `CanPlaceOnLine`
returns (without fault) a Boolean that is true exactly when `0 ≤ lineIdx < 5`, the
pattern line is not full, it is empty or already holds that colour, and the wall cell of
that colour in row `lineIdx` is unoccupied.  The source performs no write, so the
embedded function yields only the Boolean and the board is the one passed in. -/
theorem C9_canPlaceOnLine (pb : PlayerBoard) (lineIdx : Int) (color : TileColor)
    (hc : color.IsReal = true) :
    ∃ b, pb.CanPlaceOnLine lineIdx color = some b ∧
      (b = true ↔
        (0 ≤ lineIdx ∧ lineIdx < 5 ∧
          ∃ pl, pb.PatternLines.get? lineIdx = some pl ∧ pl.Filled ≠ pl.Size ∧
            (pl.Filled = 0 ∨ pl.Color = color) ∧
            ∃ col, WallPattern.get2? lineIdx col = some color ∧
              pb.Wall.get2? lineIdx col = some false)) :=
  canPlaceOnLine_spec pb lineIdx color hc

/-- Witness of C9 on the empty board, row 2, red. -/
theorem C9_canPlaceOnLine_witness :
    TileColor.Red.IsReal = true ∧
    ∃ b, NewPlayerBoard.CanPlaceOnLine 2 TileColor.Red = some b ∧
      (b = true ↔
        ((0 : Int) ≤ 2 ∧ (2 : Int) < 5 ∧
          ∃ pl, NewPlayerBoard.PatternLines.get? 2 = some pl ∧ pl.Filled ≠ pl.Size ∧
            (pl.Filled = 0 ∨ pl.Color = TileColor.Red) ∧
            ∃ col, WallPattern.get2? 2 col = some TileColor.Red ∧
              NewPlayerBoard.Wall.get2? 2 col = some false)) :=
  ⟨by decide, C9_canPlaceOnLine NewPlayerBoard 2 TileColor.Red (by decide)⟩

/-- C10: for every board and real colour, `GetValidPlacements` returns, in ascending
order, exactly the line indices in `0..4` on which `CanPlaceOnLine` holds, followed by
the floor sentinel `-1` as last element; the result is never empty. -/
theorem C10_getValidPlacements (pb : PlayerBoard) (color : TileColor) (hc : color.IsReal = true) :
    ∃ lines : List Int,
      lines = range5.filter (fun i => decide (pb.CanPlaceOnLine i color = some true)) ∧
      pb.GetValidPlacements color = some (lines ++ [-1]) ∧
      List.Sorted (· < ·) lines ∧
      (∀ i, i ∈ lines ↔ (0 ≤ i ∧ i < 5 ∧ pb.CanPlaceOnLine i color = some true)) ∧
      (lines ++ [-1]).getLast? = some (-1) ∧ lines ++ [-1] ≠ [] := by
  refine ⟨_, rfl, getValidPlacements_eq pb color hc, ?_, ?_, ?_, ?_⟩
  · exact List.Sorted.filter _ range5_sorted
  · intro i
    simp [range5]
    constructor
    · rintro ⟨h | h | h | h | h, h2⟩ <;> subst h <;> simp [h2]
    · rintro ⟨h0, h5, h2⟩
      refine ⟨?_, h2⟩
      omega
  · simp
  · simp

/-- Witness of C10 on the empty board and blue. -/
theorem C10_getValidPlacements_witness :
    TileColor.Blue.IsReal = true ∧
    ∃ lines : List Int,
      lines = range5.filter
        (fun i => decide (NewPlayerBoard.CanPlaceOnLine i TileColor.Blue = some true)) ∧
      NewPlayerBoard.GetValidPlacements TileColor.Blue = some (lines ++ [-1]) ∧
      List.Sorted (· < ·) lines ∧
      (∀ i, i ∈ lines ↔
        (0 ≤ i ∧ i < 5 ∧ NewPlayerBoard.CanPlaceOnLine i TileColor.Blue = some true)) ∧
      (lines ++ [-1]).getLast? = some (-1) ∧ lines ++ [-1] ≠ [] :=
  ⟨by decide, C10_getValidPlacements NewPlayerBoard TileColor.Blue (by decide)⟩

/-! ## Claims on move enumeration and round-over detection -/

/-- C6: `GetValidMoves` is exactly the cross product described.  On a well-formed state
it returns a list; and whenever it returns a list, a move `(f, color, line)` is in it
if and only if (`f` is a factory index whose factory holds a tile of `color`, or
`f = -1` and the center holds a tile of `color`) and (`line = -1` or `CanPlaceOnLine`
holds for the board of the current player); no move appears twice, and the factory
moves precede the center moves. -/
theorem C6_getValidMoves (g : Game) :
    (g.WellFormed → ∃ ms, g.GetValidMoves = some ms) ∧
    ∀ ms, g.GetValidMoves = some ms →
      (∀ m : Move, m ∈ ms ↔
        (((0 ≤ m.FactoryIdx ∧
            ∃ f, idx? g.Factories m.FactoryIdx = some f ∧ m.Color ∈ f.Tiles) ∨
          (m.FactoryIdx = -1 ∧ m.Color ∈ g.Center.Tiles)) ∧
         (m.LineIdx = -1 ∨ ∃ player, idx? g.Players g.CurrentPlayer = some player ∧
            player.CanPlaceOnLine m.LineIdx m.Color = some true))) ∧
      ms.Nodup ∧
      ∃ fm cm, ms = fm ++ cm ∧ (∀ m ∈ fm, 0 ≤ m.FactoryIdx) ∧
        (∀ m ∈ cm, m.FactoryIdx = -1) :=
  ⟨getValidMoves_isSome g, getValidMoves_char g⟩

/-- Witness of C6 on the state `startGame`. -/
theorem C6_getValidMoves_witness :
    startGame.WellFormed ∧
    ∃ ms, startGame.GetValidMoves = some ms ∧
      (∀ m : Move, m ∈ ms ↔
        (((0 ≤ m.FactoryIdx ∧
            ∃ f, idx? startGame.Factories m.FactoryIdx = some f ∧ m.Color ∈ f.Tiles) ∨
          (m.FactoryIdx = -1 ∧ m.Color ∈ startGame.Center.Tiles)) ∧
         (m.LineIdx = -1 ∨
            ∃ player, idx? startGame.Players startGame.CurrentPlayer = some player ∧
            player.CanPlaceOnLine m.LineIdx m.Color = some true))) ∧
      ms.Nodup ∧
      ∃ fm cm, ms = fm ++ cm ∧ (∀ m ∈ fm, 0 ≤ m.FactoryIdx) ∧
        (∀ m ∈ cm, m.FactoryIdx = -1) := by
  obtain ⟨ms, hms⟩ := (C6_getValidMoves startGame).1 (by decide)
  exact ⟨by decide, ms, hms, (C6_getValidMoves startGame).2 ms hms⟩

/-- C7: on every well-formed state `GetValidMoves` returns a list, which is empty if and
only if every factory is empty and the center holds no tiles, that is exactly when
`IsRoundOver` is true; and every colour present in a source contributes at least its
floor move. -/
theorem C7_getValidMoves_nonempty (g : Game) (hwf : g.WellFormed) :
    ∃ ms, g.GetValidMoves = some ms ∧
      (ms = [] ↔ ((∀ f ∈ g.Factories, f.Tiles = []) ∧ g.Center.Tiles = [])) ∧
      (ms = [] ↔ g.IsRoundOver = true) ∧
      (∀ fIdx tiles color, g.sourceTiles fIdx = some tiles → color ∈ tiles →
        (⟨fIdx, color, -1⟩ : Move) ∈ ms) := by
  obtain ⟨ms, hms⟩ := getValidMoves_isSome g hwf
  refine ⟨ms, hms, getValidMoves_nil_iff g ms hms, ?_, ?_⟩
  · rw [isRoundOver_iff]
    exact getValidMoves_nil_iff g ms hms
  · intro fIdx tiles color hs hc
    exact floorMove_mem g ms hms fIdx tiles color hs hc

/-- Witness of C7 on the state `startGame`. -/
theorem C7_getValidMoves_nonempty_witness :
    startGame.WellFormed ∧
    ∃ ms, startGame.GetValidMoves = some ms ∧
      (ms = [] ↔ ((∀ f ∈ startGame.Factories, f.Tiles = []) ∧ startGame.Center.Tiles = [])) ∧
      (ms = [] ↔ startGame.IsRoundOver = true) ∧
      (∀ fIdx tiles color, startGame.sourceTiles fIdx = some tiles → color ∈ tiles →
        (⟨fIdx, color, -1⟩ : Move) ∈ ms) :=
  ⟨by decide, C7_getValidMoves_nonempty startGame (by decide)⟩

/-- C8, as amended: `IsRoundOver` is true if and only if every factory is empty and the
center holds no tiles; whether the center still holds the first player marker plays no
part (`Center.IsEmpty` ignores the marker). -/
theorem C8_isRoundOver (g : Game) :
    g.IsRoundOver = true ↔ ((∀ f ∈ g.Factories, f.Tiles = []) ∧ g.Center.Tiles = []) :=
  isRoundOver_iff g

/-- C8, counterexample to the claim as stated: in `markerOnly` all factories are empty and
the center has no tiles but still holds the marker, and `IsRoundOver` is true. -/
theorem C8_isRoundOver_counterexample :
    ¬ (markerOnly.IsRoundOver = true ↔
        ((∀ f ∈ markerOnly.Factories, f.Tiles = []) ∧ markerOnly.Center.Tiles = [] ∧
          markerOnly.Center.HasFirstPlayerTile = false)) := by
  decide

/-! ## Claims on move application -/

theorem sourceTiles_of_valid (g : Game) (ms : List Move) (m : Move)
    (hms : g.GetValidMoves = some ms) (hm : m ∈ ms) :
    ∃ tiles0, g.sourceTiles m.FactoryIdx = some tiles0 ∧ m.Color ∈ tiles0 ∧
      (m.FactoryIdx = -1 ∨ (0 ≤ m.FactoryIdx ∧ m.FactoryIdx < g.Factories.length)) ∧
      -1 ≤ m.LineIdx ∧ m.LineIdx ≤ 4 ∧
      ∃ player, idx? g.Players g.CurrentPlayer = some player ∧ m.PlacementOk player := by
  obtain ⟨⟨player, fm, cm, hp, _, _, _⟩, hchar⟩ :=
    And.intro (getValidMoves_some g ms hms) ((getValidMoves_char g ms hms).1 m)
  obtain ⟨hsrc, hline⟩ := hchar.1 hm
  have hl : -1 ≤ m.LineIdx ∧ m.LineIdx ≤ 4 ∧ m.PlacementOk player := by
    rcases hline with h | ⟨p, hp2, h⟩
    · exact ⟨by omega, by omega, Or.inl h⟩
    · rw [hp] at hp2
      simp only [Option.some.injEq] at hp2
      subst hp2
      have := canPlaceOnLine_true_range _ _ _ h
      exact ⟨by omega, by omega, Or.inr h⟩
  rcases hsrc with ⟨h0, f, hf, hc⟩ | ⟨h0, hc⟩
  · refine ⟨f.Tiles, ?_, hc, Or.inr (idx?_lt _ _ _ hf), hl.1, hl.2.1, player, hp, hl.2.2⟩
    unfold Game.sourceTiles
    rw [if_neg (by omega), hf]
  · exact ⟨g.Center.Tiles, by simp [Game.sourceTiles, h0], hc, Or.inl h0, hl.1, hl.2.1,
      player, hp, hl.2.2⟩

theorem applyMove_error_iff (raw : Int → Nat → Nat) (g : Game) (m : Move)
    (tiles0 : List TileColor) (hcp0 : 0 ≤ g.CurrentPlayer)
    (hcp1 : g.CurrentPlayer < g.Players.length)
    (hs : g.sourceTiles m.FactoryIdx = some tiles0) :
    (∃ g', Game.ApplyMove raw g m = some (g', true)) ↔ tiles0.count m.Color = 0 := by
  obtain ⟨player, hp⟩ := idx?_isSome g.Players g.CurrentPlayer hcp0 hcp1
  constructor
  · rintro ⟨g', h⟩
    obtain ⟨player2, p1, hp2, ht⟩ := applyMove_error raw g g' m h
    have := (takeTiles_frame g g' player2 p1 m [] hp2 ht).2.2.2.2.2.2.2.2.2.2.2.2.2 tiles0 hs
    exact (filter_eq_nil_iff_count _ _).1 this.symm
  · intro hcount
    obtain ⟨⟨g1, p1, tiles⟩, ht⟩ := takeTiles_isSome g player m tiles0 hs
    have := (takeTiles_frame g g1 player p1 m tiles hp ht).2.2.2.2.2.2.2.2.2.2.2.2.2 tiles0 hs
    rw [(filter_eq_nil_iff_count _ _).2 hcount] at this
    subst this
    exact ⟨g1, applyMove_of_empty raw g g1 m player p1 hp ht⟩

theorem sourceTiles_isSome (g : Game) (fIdx : Int)
    (hf : fIdx = -1 ∨ (0 ≤ fIdx ∧ fIdx < g.Factories.length)) :
    ∃ tiles0, g.sourceTiles fIdx = some tiles0 := by
  unfold Game.sourceTiles
  rcases hf with hf | ⟨hf0, hf1⟩
  · exact ⟨g.Center.Tiles, by simp [hf]⟩
  · obtain ⟨f, hfi⟩ := idx?_isSome g.Factories fIdx hf0 hf1
    exact ⟨f.Tiles, by rw [if_neg (by omega), hfi]⟩

/-- C2: for every state whose current player indexes a board and every move whose
`FactoryIdx` is `-1` or a valid factory index and whose `LineIdx` lies in `-1..4`,
`ApplyMove` returns an error if and only if the declared source holds zero tiles of the
colour of the move; and on a well-formed state nothing else makes it fail: it always
returns, with the error flag set exactly in that case. -/
theorem C2_applyMove_error_iff (raw : Int → Nat → Nat) (g : Game) (m : Move)
    (hcp0 : 0 ≤ g.CurrentPlayer) (hcp1 : g.CurrentPlayer < g.Players.length)
    (hf : m.FactoryIdx = -1 ∨ (0 ≤ m.FactoryIdx ∧ m.FactoryIdx < g.Factories.length))
    (hl0 : -1 ≤ m.LineIdx) (hl4 : m.LineIdx ≤ 4) :
    ∃ tiles0, g.sourceTiles m.FactoryIdx = some tiles0 ∧
      ((∃ g', Game.ApplyMove raw g m = some (g', true)) ↔ tiles0.count m.Color = 0) ∧
      (g.WellFormed →
        ∃ g' e, Game.ApplyMove raw g m = some (g', e) ∧
          (e = true ↔ tiles0.count m.Color = 0)) := by
  obtain ⟨tiles0, hs⟩ := sourceTiles_isSome g m.FactoryIdx hf
  have hiff := applyMove_error_iff raw g m tiles0 hcp0 hcp1 hs
  refine ⟨tiles0, hs, hiff, ?_⟩
  intro hwf
  obtain ⟨⟨g', e⟩, hr⟩ := applyMove_isSome raw g m hwf hf hl0 hl4
  refine ⟨g', e, hr, ?_⟩
  constructor
  · intro he
    subst he
    exact hiff.1 ⟨g', hr⟩
  · intro hcount
    obtain ⟨g2, hg2⟩ := hiff.2 hcount
    rw [hr] at hg2
    simp only [Option.some.injEq, Prod.mk.injEq] at hg2
    exact hg2.2

/-- Witness of C2 on `startGame` and the move taking yellow from factory 0 to line 1. -/
theorem C2_applyMove_error_iff_witness :
    (0 ≤ startGame.CurrentPlayer ∧ startGame.CurrentPlayer < startGame.Players.length ∧
      (0 : Int) < startGame.Factories.length ∧ startGame.WellFormed) ∧
    ∃ tiles0, startGame.sourceTiles 0 = some tiles0 ∧
      ((∃ g', Game.ApplyMove rawZero startGame ⟨0, TileColor.Yellow, 1⟩ = some (g', true)) ↔
        tiles0.count TileColor.Yellow = 0) ∧
      (startGame.WellFormed →
        ∃ g' e, Game.ApplyMove rawZero startGame ⟨0, TileColor.Yellow, 1⟩ = some (g', e) ∧
          (e = true ↔ tiles0.count TileColor.Yellow = 0)) :=
  ⟨by decide, C2_applyMove_error_iff rawZero startGame ⟨0, TileColor.Yellow, 1⟩
    (by decide) (by decide) (Or.inr (by decide)) (by decide) (by decide)⟩

/-- C4: a rejected move does not consume the turn: whenever `ApplyMove` returns an
error, `CurrentPlayer`, `Round`, `GameOver`, every score, every pattern line, every wall
and the bag are as before the call. -/
theorem C4_applyMove_error_frame (raw : Int → Nat → Nat) (g g' : Game) (m : Move)
    (h : Game.ApplyMove raw g m = some (g', true)) :
    g'.CurrentPlayer = g.CurrentPlayer ∧ g'.Round = g.Round ∧ g'.GameOver = g.GameOver ∧
    g'.Players.map (fun p => p.Score) = g.Players.map (fun p => p.Score) ∧
    g'.Players.map (fun p => p.PatternLines) = g.Players.map (fun p => p.PatternLines) ∧
    g'.Players.map (fun p => p.Wall) = g.Players.map (fun p => p.Wall) ∧
    g'.Bag = g.Bag := by
  obtain ⟨player, p1, hp, ht⟩ := applyMove_error raw g g' m h
  obtain ⟨e1, e2, e3, _, e5, e6, e7, e8, _⟩ := takeTiles_frame g g' player p1 m [] hp ht
  exact ⟨e1, e2, e3, e6, e7, e8, e5⟩

/-- The state after the rejected move of the witness of C4. -/
theorem C4_applyMove_error_frame_witness :
    ∃ g', Game.ApplyMove rawZero startGame ⟨0, TileColor.White, -1⟩ = some (g', true) ∧
      g'.CurrentPlayer = startGame.CurrentPlayer ∧ g'.Round = startGame.Round ∧
      g'.GameOver = startGame.GameOver ∧
      g'.Players.map (fun p => p.Score) = startGame.Players.map (fun p => p.Score) ∧
      g'.Players.map (fun p => p.PatternLines) =
        startGame.Players.map (fun p => p.PatternLines) ∧
      g'.Players.map (fun p => p.Wall) = startGame.Players.map (fun p => p.Wall) ∧
      g'.Bag = startGame.Bag :=
  ⟨_, rfl, C4_applyMove_error_frame rawZero startGame _ ⟨0, TileColor.White, -1⟩ rfl⟩


theorem applyMove_valid_no_error (raw : Int → Nat → Nat) (g : Game) (ms : List Move)
    (m : Move) (hms : g.GetValidMoves = some ms) (hm : m ∈ ms) (g' : Game) (e : Bool)
    (h : Game.ApplyMove raw g m = some (g', e)) : e = false := by
  obtain ⟨tiles0, hs, hc, _, _, _, player, hp, _⟩ := sourceTiles_of_valid g ms m hms hm
  obtain ⟨hcp0, hcp1⟩ := idx?_lt _ _ _ hp
  cases e with
  | false => rfl
  | true =>
    have := (applyMove_error_iff raw g m tiles0 hcp0 hcp1 hs).1 ⟨g', h⟩
    exact absurd hc (List.count_eq_zero.1 this)

/-- C5: every legal move applies.  For every state and every move returned by
`GetValidMoves`, `ApplyMove` never returns an error (so the branches of the search that
skip a failed move are not taken on such moves); and on a well-formed state it does
return, with a new state and no error. -/
theorem C5_valid_move_applies (raw : Int → Nat → Nat) (g : Game) (ms : List Move) (m : Move)
    (hms : g.GetValidMoves = some ms) (hm : m ∈ ms) :
    (∀ g' e, Game.ApplyMove raw g m = some (g', e) → e = false) ∧
    (g.WellFormed → ∃ g', Game.ApplyMove raw g m = some (g', false)) := by
  refine ⟨fun g' e h => applyMove_valid_no_error raw g ms m hms hm g' e h, ?_⟩
  intro hwf
  obtain ⟨tiles0, _, _, hf, hl0, hl4, _⟩ := sourceTiles_of_valid g ms m hms hm
  obtain ⟨⟨g', e⟩, hr⟩ := applyMove_isSome raw g m hwf hf hl0 hl4
  have he := applyMove_valid_no_error raw g ms m hms hm g' e hr
  subst he
  exact ⟨g', hr⟩

/-- Witness of C5 on `startGame` and the move taking red from factory 2 to line 3. -/
theorem C5_valid_move_applies_witness :
    ∃ ms, startGame.GetValidMoves = some ms ∧ (⟨2, TileColor.Red, 2⟩ : Move) ∈ ms ∧
      (∀ g' e, Game.ApplyMove rawZero startGame ⟨2, TileColor.Red, 2⟩ = some (g', e) →
        e = false) ∧
      (startGame.WellFormed →
        ∃ g', Game.ApplyMove rawZero startGame ⟨2, TileColor.Red, 2⟩ = some (g', false)) :=
  ⟨_, rfl, by decide,
    C5_valid_move_applies rawZero startGame _ ⟨2, TileColor.Red, 2⟩ rfl (by decide)⟩

/-- C3, the code at a failing input: in `startGame` factory 0 holds no white tile and the
center holds no tile.  Asking for white from factory 0 returns an error, yet factory 0
has been emptied into the center; asking for blue from the center returns an error, yet
the marker has left the center, sits on the floor line of the player and `FirstPlayer`
has been written. -/
theorem C3_applyMove_error_mutates :
    (∃ g', Game.ApplyMove rawZero startGame ⟨0, TileColor.White, -1⟩ = some (g', true) ∧
      idx? startGame.Factories 0 =
        some ⟨[TileColor.Yellow, TileColor.Black, TileColor.Yellow, TileColor.Black]⟩ ∧
      idx? g'.Factories 0 = some ⟨[]⟩ ∧
      startGame.Center.Tiles = [] ∧
      g'.Center.Tiles =
        [TileColor.Yellow, TileColor.Black, TileColor.Yellow, TileColor.Black]) ∧
    (∃ g', Game.ApplyMove rawZero startGame ⟨-1, TileColor.Blue, -1⟩ = some (g', true) ∧
      startGame.Center.HasFirstPlayerTile = true ∧ g'.Center.HasFirstPlayerTile = false ∧
      (idx? startGame.Players 0).map (fun p => p.FloorLine) = some [] ∧
      (idx? g'.Players 0).map (fun p => p.FloorLine) =
        some [TileColor.FirstPlayerMarker]) :=
  ⟨⟨_, rfl, by decide, by decide, by decide, by decide⟩,
   ⟨_, rfl, by decide, by decide, by decide, by decide⟩⟩

/-! ## Facts on the bag, the boards and the invariant of play -/

theorem swapTiles_perm (ts : List TileColor) (i j : Nat) : (swapTiles ts i j).Perm ts := by
  unfold swapTiles
  cases hi : ts[i]? with
  | none => simp
  | some a =>
    cases hj : ts[j]? with
    | none => simp
    | some b =>
      simp only
      obtain ⟨hil, hia⟩ := List.getElem?_eq_some_iff.1 hi
      obtain ⟨hjl, hjb⟩ := List.getElem?_eq_some_iff.1 hj
      rw [List.perm_iff_count]
      intro x
      have hjl2 : j < (ts.set i b).length := by simpa using hjl
      rw [List.count_set _ _ _ _ hjl2, List.count_set _ _ _ _ hil]
      have hget : (ts.set i b)[j] = b := by
        rw [List.getElem_set]
        split_ifs with h
        · rfl
        · exact hjb
      rw [hget, hia]
      have ha : a ∈ ts := hia ▸ List.getElem_mem _
      have hex : a = x → 0 < List.count x ts := by
        intro h
        subst h
        exact List.count_pos_iff.2 ha
      by_cases h1 : a = x <;> by_cases h2 : b = x
      · simp only [h1, h2, beq_self_eq_true, if_true]
        have := hex h1; omega
      · have h2b : (b == x) = false := by simpa using h2
        simp only [h1, h2b, beq_self_eq_true, if_true]
        have := hex h1; simp; omega
      · have h1b : (a == x) = false := by simpa using h1
        simp only [h1b, h2, beq_self_eq_true, if_true]
        simp
      · have h1b : (a == x) = false := by simpa using h1
        have h2b : (b == x) = false := by simpa using h2
        simp [h1b, h2b]

theorem shuffleLoop_perm (raw : Int → Nat → Nat) :
    ∀ (i : Nat) (ts : List TileColor) (r : Rand), (shuffleLoop raw i ts r).1.Perm ts := by
  intro i
  induction i with
  | zero => intro ts r; exact List.Perm.refl _
  | succ i ih =>
    intro ts r
    unfold shuffleLoop
    exact (ih _ _).trans (swapTiles_perm _ _ _)

theorem shuffle_perm (raw : Int → Nat → Nat) (b : Bag) :
    (Bag.Shuffle raw b).tiles.Perm b.tiles ∧ (Bag.Shuffle raw b).discards = b.discards :=
  ⟨shuffleLoop_perm raw _ _ _, rfl⟩

theorem refill_perm (raw : Int → Nat → Nat) (b : Bag) :
    (Bag.RefillFromDiscards raw b).tiles.Perm (b.tiles ++ b.discards) ∧
      (Bag.RefillFromDiscards raw b).discards = [] :=
  ⟨shuffleLoop_perm raw _ _ _, rfl⟩

theorem drawLoop_perm (raw : Int → Nat → Nat) :
    ∀ (k : Nat) (b : Bag) (drawn : List TileColor),
      ((Bag.drawLoop raw k b drawn).2 ++ ((Bag.drawLoop raw k b drawn).1.tiles ++
        (Bag.drawLoop raw k b drawn).1.discards)).Perm (drawn ++ (b.tiles ++ b.discards)) := by
  intro k
  induction k with
  | zero => intro b drawn; exact List.Perm.refl _
  | succ k ih =>
    intro b drawn
    unfold Bag.drawLoop
    have hb1 : ∀ b1 : Bag, (b1.tiles ++ b1.discards).Perm (b.tiles ++ b.discards) →
        ((match b1.tiles.getLast? with
          | none => (b1, drawn)
          | some t => Bag.drawLoop raw k { b1 with tiles := b1.tiles.dropLast } (drawn ++ [t])).2 ++
         ((match b1.tiles.getLast? with
          | none => (b1, drawn)
          | some t => Bag.drawLoop raw k { b1 with tiles := b1.tiles.dropLast } (drawn ++ [t])).1.tiles ++
          (match b1.tiles.getLast? with
          | none => (b1, drawn)
          | some t => Bag.drawLoop raw k { b1 with tiles := b1.tiles.dropLast } (drawn ++ [t])).1.discards)).Perm
        (drawn ++ (b.tiles ++ b.discards)) := by
      intro b1 hperm
      cases hl : b1.tiles.getLast? with
      | none => exact List.Perm.append_left _ hperm
      | some t =>
        simp only
        refine (ih _ _).trans ?_
        have hsplit : b1.tiles.dropLast ++ [t] = b1.tiles :=
          List.dropLast_append_getLast? t (by simp [hl])
        have h2 : b1.tiles ++ b1.discards = b1.tiles.dropLast ++ t :: b1.discards := by
          conv_lhs => rw [← hsplit]
          simp
        rw [h2] at hperm
        simp only [List.append_assoc, List.singleton_append]
        exact List.Perm.append_left _ (List.perm_middle.symm.trans hperm)
    simp only
    split_ifs with h0
    · apply hb1
      have := (refill_perm raw b).1
      rw [(refill_perm raw b).2]
      simpa using this
    · exact hb1 b (List.Perm.refl _)


theorem draw_perm (raw : Int → Nat → Nat) (b : Bag) (n : Int) (hn : 0 ≤ n) :
    ∃ r, b.Draw raw n = some r ∧
      (r.2 ++ (r.1.tiles ++ r.1.discards)).Perm (b.tiles ++ b.discards) := by
  refine ⟨Bag.drawLoop raw n.toNat b [], ?_, ?_⟩
  · unfold Bag.Draw
    rw [if_neg (by omega)]
  · simpa using drawLoop_perm raw n.toNat b []

theorem setupLoop_perm (raw : Int → Nat → Nat) :
    ∀ (fs : List Factory) (b : Bag), ∃ r, setupLoop raw fs b = some r ∧
      r.1.length = fs.length ∧
      ((r.1.map (fun f => f.Tiles)).flatten ++ (r.2.tiles ++ r.2.discards)).Perm
        (b.tiles ++ b.discards) := by
  intro fs
  induction fs with
  | nil => intro b; exact ⟨([], b), rfl, rfl, by simp⟩
  | cons f fs ih =>
    intro b
    obtain ⟨d, hd, hdp⟩ := draw_perm raw b 4 (by omega)
    obtain ⟨r, hr, hlen, hrp⟩ := ih d.1
    refine ⟨((Factory.Fill ⟨[]⟩ d.2) :: r.1, r.2), by simp [setupLoop, hd, hr], by simp [hlen], ?_⟩
    simp only [List.map_cons, List.flatten_cons, Factory.Fill, List.nil_append, List.append_assoc]
    exact (List.Perm.append_left _ hrp).trans hdp

theorem sum_map_length_flatten (ls : List (List TileColor)) :
    ((ls.map (fun l => (l.length : Int))).sum) = (ls.flatten.length : Int) := by
  induction ls with
  | nil => rfl
  | cons l ls ih => simp [ih]

theorem setupRound_spec (raw : Int → Nat → Nat) (g : Game) :
    ∃ fs b, Game.SetupRound raw g =
        some { g with Center := Center.NewCenter, Factories := fs, Bag := b } ∧
      fs.length = g.Factories.length ∧
      ((fs.map (fun f => f.Tiles)).flatten ++ (b.tiles ++ b.discards)).Perm
        (g.Bag.tiles ++ g.Bag.discards) := by
  obtain ⟨r, hr, hlen, hp⟩ := setupLoop_perm raw g.Factories g.Bag
  exact ⟨r.1, r.2, by simp [Game.SetupRound, hr], hlen, hp⟩


theorem Arr5.sum_set? {α : Type} (f : α → Int) (a a1 : Arr5 α) (i : Int) (u v : α)
    (h : a.set? i v = some a1) (hu : a.get? i = some u) :
    a1.sum f = a.sum f - f u + f v := by
  unfold Arr5.set? at h
  unfold Arr5.get? at hu
  split_ifs at h hu <;> simp only [Option.some.injEq] at h hu <;> subst h <;> subst hu <;>
    simp only [Arr5.sum] <;> omega

theorem Arr5.set2?_some {α : Type} (w w1 : Arr5 (Arr5 α)) (r c : Int) (v : α)
    (h : w.set2? r c v = some w1) :
    ∃ row row1, w.get? r = some row ∧ row.set? c v = some row1 ∧ w.set? r row1 = some w1 := by
  unfold Arr5.set2? at h
  cases hrow : w.get? r with
  | none => simp [hrow] at h
  | some row =>
    cases hrow1 : row.set? c v with
    | none => simp [hrow, hrow1] at h
    | some row1 =>
      simp only [hrow, hrow1] at h
      exact ⟨row, row1, rfl, hrow1, h⟩

theorem Arr5.get2?_set2? {α : Type} (w w1 : Arr5 (Arr5 α)) (r c : Int) (v : α)
    (h : w.set2? r c v = some w1) (r2 c2 : Int) :
    w1.get2? r2 c2 = if r2 = r ∧ c2 = c then some v else w.get2? r2 c2 := by
  obtain ⟨row, row1, h1, h2, h3⟩ := Arr5.set2?_some w w1 r c v h
  unfold Arr5.get2?
  rw [Arr5.get?_set? w w1 r row1 h3 r2]
  by_cases hr : r2 = r
  · subst hr
    simp only [if_true, h1, true_and]
    rw [Arr5.get?_set? row row1 c v h2 c2]
  · simp [hr]

theorem wallCount_set2? (w w1 : Arr5 (Arr5 Bool)) (r c : Int) (u v : Bool)
    (h : w.set2? r c v = some w1) (hu : w.get2? r c = some u) :
    wallCount w1 = wallCount w - cellCount u + cellCount v := by
  obtain ⟨row, row1, h1, h2, h3⟩ := Arr5.set2?_some w w1 r c v h
  have hu2 : row.get? c = some u := by simpa [Arr5.get2?, h1] using hu
  unfold wallCount
  rw [Arr5.sum_set? _ w w1 r row row1 h3 h1, Arr5.sum_set? cellCount row row1 c u v h2 hu2]
  omega

theorem scoreFloorLoop_discards :
    ∀ (l : List TileColor) (i : Nat) (score : Int) (d : List TileColor),
      (scoreFloorLoop l i score d).2 =
        d ++ l.filter (fun t => decide (t ≠ TileColor.FirstPlayerMarker)) := by
  intro l
  induction l with
  | nil => intro i score d; simp [scoreFloorLoop]
  | cons t l ih =>
    intro i score d
    unfold scoreFloorLoop
    rw [ih]
    by_cases h : t = TileColor.FirstPlayerMarker
    · simp [h]
    · simp [h, List.filter_cons]

theorem scoreFloorLine_spec (pb : PlayerBoard) :
    pb.ScoreFloorLine.1.PatternLines = pb.PatternLines ∧
    pb.ScoreFloorLine.1.Wall = pb.Wall ∧
    pb.ScoreFloorLine.1.FloorLine = [] ∧
    pb.ScoreFloorLine.2 =
      pb.FloorLine.filter (fun t => decide (t ≠ TileColor.FirstPlayerMarker)) := by
  refine ⟨rfl, rfl, rfl, ?_⟩
  simp [PlayerBoard.ScoreFloorLine, scoreFloorLoop_discards]

theorem scoreFloorLine_inv (pb : PlayerBoard) (h : pb.Inv) :
    pb.ScoreFloorLine.1.Inv ∧ (∀ t ∈ pb.ScoreFloorLine.2, t.IsReal = true) ∧
    pb.ScoreFloorLine.1.tileCount + (pb.ScoreFloorLine.2.length : Int) = pb.tileCount := by
  obtain ⟨e1, e2, e3, e4⟩ := scoreFloorLine_spec pb
  refine ⟨⟨?_, ?_⟩, ?_, ?_⟩
  · intro i pl hget
    rw [e1] at hget
    rw [e2]
    exact h.lines i pl hget
  · rw [e3]; simp
  · intro t ht
    rw [e4] at ht
    obtain ⟨ht1, ht2⟩ := List.mem_filter.1 ht
    rcases h.floor t ht1 with h1 | h1
    · exact h1
    · simp [h1] at ht2
  · unfold PlayerBoard.tileCount
    rw [e1, e2, e3, e4]
    simp
    omega


theorem real_of_mem_replicate (n : Nat) (c : TileColor) (hc : c.IsReal = true) :
    ∀ t ∈ List.replicate n c, t.IsReal = true := by
  intro t ht
  rw [(List.mem_replicate.1 ht).2]
  exact hc

theorem tileWallRow_inv (m0 : Int) (s : PlayerBoard × List TileColor) (row : Int)
    (hrow : row ∈ range5)
    (hs : s.1.Inv ∧ (∀ t ∈ s.2, t.IsReal = true) ∧ s.1.tileCount + (s.2.length : Int) = m0) :
    ∃ s', PlayerBoard.tileWallRow s row = some s' ∧
      (s'.1.Inv ∧ (∀ t ∈ s'.2, t.IsReal = true) ∧
        s'.1.tileCount + (s'.2.length : Int) = m0) := by
  obtain ⟨hinv, hreal, hcount⟩ := hs
  obtain ⟨h0, h5⟩ := (mem_range5 row).1 hrow
  obtain ⟨pl, hpl⟩ := (Arr5.get?_isSome_iff s.1.PatternLines row).2 ⟨h0, h5⟩
  obtain ⟨l1, l2, l3, l4, l5⟩ := hinv.lines row pl hpl
  cases hf : pl.IsFull with
  | false => exact ⟨s, tileWallRow_notFull s row pl hpl hf, hinv, hreal, hcount⟩
  | true =>
    have hfull : pl.Filled = pl.Size := by simpa [PatternLine.IsFull] using hf
    have hne : pl.Filled ≠ 0 := by omega
    obtain ⟨hcol, hfree⟩ := l5 hne
    obtain ⟨lines, col, wall, pts, hlines, _, _, _, hpat, hwall, hres⟩ :=
      tileWallRow_full s row pl hpl hf hcol
    refine ⟨_, hres, ⟨?_, ?_⟩, ?_, ?_⟩
    · intro i pl2 hget
      simp only at hget ⊢
      rw [Arr5.get?_set? _ _ _ _ hlines] at hget
      split_ifs at hget with hi
      · simp only [Option.some.injEq] at hget
        subst hget; subst hi
        exact ⟨l1, le_refl _, by simp only; omega, fun _ => rfl, fun h => absurd rfl h⟩
      · obtain ⟨k1, k2, k3, k4, k5⟩ := hinv.lines i pl2 hget
        refine ⟨k1, k2, k3, k4, fun h => ⟨(k5 h).1, ?_⟩⟩
        intro c hc
        rw [Arr5.get2?_set2? _ _ _ _ _ hwall]
        rw [if_neg (fun h2 => hi h2.1)]
        exact (k5 h).2 c hc
    · exact hinv.floor
    · intro t ht
      rcases List.mem_append.1 ht with h1 | h1
      · exact hreal t h1
      · exact real_of_mem_replicate _ _ hcol t h1
    · rw [← hcount]
      unfold PlayerBoard.tileCount
      simp only [List.length_append, List.length_replicate]
      rw [Arr5.sum_set? _ _ _ _ pl _ hlines hpl,
        wallCount_set2? _ _ _ _ false true hwall (hfree col hpat)]
      simp only [cellCount]
      push_cast
      have : ((pl.Filled - 1).toNat : Int) = pl.Filled - 1 := by omega
      rw [this]
      simp
      omega

theorem tileWall_inv (pb : PlayerBoard) (h : pb.Inv) :
    ∃ r, pb.TileWall = some r ∧ r.1.Inv ∧ (∀ t ∈ r.2, t.IsReal = true) ∧
      r.1.tileCount + (r.2.length : Int) = pb.tileCount :=
  foldlM_inv PlayerBoard.tileWallRow
    (fun s => s.1.Inv ∧ (∀ t ∈ s.2, t.IsReal = true) ∧
      s.1.tileCount + (s.2.length : Int) = pb.tileCount) range5
    (fun s row hrow hs => tileWallRow_inv pb.tileCount s row hrow hs) (pb, [])
    ⟨h, by simp, by simp⟩

theorem endRoundLoop_inv :
    ∀ (ps : List PlayerBoard) (b : Bag), (∀ p ∈ ps, p.Inv) →
      (∀ t ∈ b.discards, t.IsReal = true) →
      ∃ r, endRoundLoop ps b = some r ∧ (∀ p ∈ r.1, p.Inv) ∧ r.1.length = ps.length ∧
        r.2.tiles = b.tiles ∧ (∀ t ∈ r.2.discards, t.IsReal = true) ∧
        (r.1.map (fun p => p.tileCount)).sum + (r.2.discards.length : Int) =
          (ps.map (fun p => p.tileCount)).sum + (b.discards.length : Int) := by
  intro ps
  induction ps with
  | nil => intro b _ hb; exact ⟨([], b), rfl, by simp, rfl, rfl, hb, rfl⟩
  | cons p ps ih =>
    intro b h hb
    obtain ⟨tw, htw, hinv1, hreal1, hcount1⟩ := tileWall_inv p (h p (List.mem_cons_self _ _))
    obtain ⟨hinv2, hreal2, hcount2⟩ := scoreFloorLine_inv tw.1 hinv1
    obtain ⟨r, hr, hinv3, hlen, htiles, hreal3, hcount3⟩ :=
      ih ((b.Discard tw.2).Discard tw.1.ScoreFloorLine.2)
        (fun q hq => h q (List.mem_cons_of_mem _ hq))
        (by
          intro t ht
          simp only [Bag.Discard, List.mem_append] at ht
          rcases ht with (h1 | h1) | h1
          · exact hb t h1
          · exact hreal1 t h1
          · exact hreal2 t h1)
    refine ⟨(tw.1.ScoreFloorLine.1 :: r.1, r.2), by simp [endRoundLoop, htw, hr], ?_, ?_,
      ?_, hreal3, ?_⟩
    · intro q hq
      rcases List.mem_cons.1 hq with hq | hq
      · subst hq; exact hinv2
      · exact hinv3 q hq
    · simp [hlen]
    · rw [htiles]; rfl
    · simp only [List.map_cons, List.sum_cons]
      simp only [Bag.Discard, List.length_append] at hcount3
      push_cast at hcount3
      omega


theorem inv_congr (p p1 : PlayerBoard) (h1 : p1.PatternLines = p.PatternLines)
    (h2 : p1.Wall = p.Wall) (h3 : ∀ t ∈ p1.FloorLine, t.IsReal = true ∨
      t = TileColor.FirstPlayerMarker) (h : p.Inv) : p1.Inv := by
  refine ⟨?_, h3⟩
  intro i pl hget
  rw [h1] at hget
  rw [h2]
  exact h.lines i pl hget

theorem tileCount_congr (p p1 : PlayerBoard) (h1 : p1.PatternLines = p.PatternLines)
    (h2 : p1.Wall = p.Wall)
    (h3 : p1.FloorLine.filter (fun t => decide (t ≠ TileColor.FirstPlayerMarker)) =
      p.FloorLine.filter (fun t => decide (t ≠ TileColor.FirstPlayerMarker))) :
    p1.tileCount = p.tileCount := by
  unfold PlayerBoard.tileCount
  rw [h1, h2, h3]

theorem endGameLoop_inv :
    ∀ ps : List PlayerBoard, (∀ p ∈ ps, p.Inv) →
      ∃ r, Game.endGameLoop ps = some r ∧ (∀ p ∈ r, p.Inv) ∧ r.length = ps.length ∧
        (r.map (fun p => p.tileCount)).sum = (ps.map (fun p => p.tileCount)).sum := by
  intro ps
  induction ps with
  | nil => intro _; exact ⟨[], rfl, by simp, rfl, rfl⟩
  | cons p ps ih =>
    intro h
    obtain ⟨p1, hp1, e1, e2, e3⟩ := scoreEndGame_isSome p
    obtain ⟨r, hr, hinv, hlen, hsum⟩ := ih (fun q hq => h q (List.mem_cons_of_mem _ hq))
    refine ⟨p1 :: r, by simp [Game.endGameLoop, hp1, hr], ?_, by simp [hlen], ?_⟩
    · intro q hq
      rcases List.mem_cons.1 hq with hq | hq
      · subst hq
        exact inv_congr p _ e1 e2 (by rw [e3]; exact (h p (List.mem_cons_self _ _)).floor)
          (h p (List.mem_cons_self _ _))
      · exact hinv q hq
    · simp only [List.map_cons, List.sum_cons, hsum]
      rw [tileCount_congr p p1 e1 e2 (by rw [e3])]

theorem sum_map_set {α : Type} (f : α → Int) (l : List α) (i : Nat) (u v : α)
    (hi : l[i]? = some u) : ((l.set i v).map f).sum = (l.map f).sum - f u + f v := by
  induction l generalizing i with
  | nil => simp at hi
  | cons a l ih =>
    cases i with
    | zero =>
      simp at hi
      subst hi
      simp only [List.set_cons_zero, List.map_cons, List.sum_cons]
      omega
    | succ i =>
      simp at hi
      simp only [List.set_cons_succ, List.map_cons, List.sum_cons, ih i hi]
      omega

theorem filter_length_add (l : List TileColor) (c : TileColor) :
    ((l.filter (fun t => decide (t = c))).length : Int) +
      ((l.filter (fun t => !decide (t = c))).length : Int) = (l.length : Int) := by
  induction l with
  | nil => rfl
  | cons a l ih =>
    by_cases h : a = c
    · simp [List.filter_cons, h] at ih ⊢; omega
    · simp [List.filter_cons, h] at ih ⊢; omega

theorem canPlaceOnLine_congr (p p1 : PlayerBoard) (h1 : p1.PatternLines = p.PatternLines)
    (h2 : p1.Wall = p.Wall) (i : Int) (c : TileColor) :
    p1.CanPlaceOnLine i c = p.CanPlaceOnLine i c := by
  unfold PlayerBoard.CanPlaceOnLine PlayerBoard.GetWallColumn
  rw [h1, h2]

theorem filter_replicate_real (n : Nat) (c : TileColor)
    (hne : c ≠ TileColor.FirstPlayerMarker) :
    (List.replicate n c).filter (fun t => decide (t ≠ TileColor.FirstPlayerMarker)) =
      List.replicate n c := by
  rw [List.filter_eq_self]
  intro a ha
  rw [(List.mem_replicate.1 ha).2]
  simpa using hne

theorem placeTiles_inv (pb : PlayerBoard) (m : Move) (count : Int) (hcount : 1 ≤ count)
    (hinv : pb.Inv) (hreal : m.Color.IsReal = true) (hok : m.PlacementOk pb) :
    ∃ p2, pb.PlaceTiles m.LineIdx m.Color count = some p2 ∧ p2.Inv ∧
      p2.tileCount = pb.tileCount + count := by
  have hne : m.Color ≠ TileColor.FirstPlayerMarker := by
    intro h; rw [h] at hreal; simp [TileColor.IsReal] at hreal
  by_cases hfl : m.LineIdx = -1
  · refine ⟨{ pb with FloorLine := pb.FloorLine ++ List.replicate count.toNat m.Color },
      by simp [PlayerBoard.PlaceTiles, hfl], ⟨hinv.lines, ?_⟩, ?_⟩
    · intro t ht
      rcases List.mem_append.1 ht with h1 | h1
      · exact hinv.floor t h1
      · exact Or.inl (real_of_mem_replicate _ _ hreal t h1)
    · unfold PlayerBoard.tileCount
      simp only [List.filter_append, List.length_append]
      rw [filter_replicate_real _ _ hne]
      simp only [List.length_replicate]
      push_cast
      have : (count.toNat : Int) = count := by omega
      omega
  · have hcan : pb.CanPlaceOnLine m.LineIdx m.Color = some true := by
      rcases hok with h | h
      · exact absurd h hfl
      · exact h
    obtain ⟨b, hb, hiff⟩ := canPlaceOnLine_spec pb m.LineIdx m.Color hreal
    rw [hcan] at hb
    simp only [Option.some.injEq] at hb
    obtain ⟨h0, h5, pl, hpl, hnf, hcol, col, hpat, hfree⟩ := hiff.1 hb.symm
    obtain ⟨l1, l2, l3, l4, l5⟩ := hinv.lines _ pl hpl
    obtain ⟨lines, hlines⟩ :=
      Arr5.set?_isSome pb.PatternLines m.LineIdx (pl.Add m.Color count).1 h0 h5
    obtain ⟨_, _, _, _, _, huniq⟩ := wallColumn_real m.LineIdx m.Color h0 h5 hreal pb
    have hadd1 : (pl.Add m.Color count).1 =
        ⟨pl.Size, m.Color, pl.Filled + min count (pl.Size - pl.Filled)⟩ := by
      unfold PatternLine.Add PatternLine.IsEmpty
      by_cases he : pl.Filled = 0
      · simp [he]
      · have : pl.Color = m.Color := by
          rcases hcol with h | h
          · exact absurd h he
          · exact h
        simp [he, ← this]
    have hadd2 : (pl.Add m.Color count).2 = count - min count (pl.Size - pl.Filled) := by
      unfold PatternLine.Add PatternLine.IsEmpty
      by_cases he : pl.Filled = 0 <;> simp [he]
    have hmin1 : 1 ≤ min count (pl.Size - pl.Filled) := by
      rw [le_min_iff]; omega
    have hmin2 : min count (pl.Size - pl.Filled) ≤ count := min_le_left _ _
    have hmin3 : min count (pl.Size - pl.Filled) ≤ pl.Size - pl.Filled := min_le_right _ _
    refine ⟨{ pb with
        PatternLines := lines
        FloorLine := pb.FloorLine ++ List.replicate (pl.Add m.Color count).2.toNat m.Color },
      by simp [PlayerBoard.PlaceTiles, hfl, hpl, hlines], ⟨?_, ?_⟩, ?_⟩
    · intro i pl2 hget
      simp only at hget ⊢
      rw [Arr5.get?_set? _ _ _ _ hlines] at hget
      split_ifs at hget with hi
      · simp only [Option.some.injEq] at hget
        subst hget; subst hi
        rw [hadd1]
        refine ⟨l1, by simp only; omega, by simp only; omega,
          fun h => by simp only at h; omega, fun _ => ⟨hreal, ?_⟩⟩
        intro c hc
        simp only at hc
        rw [huniq c hc, ← huniq col hpat]
        exact hfree
      · exact hinv.lines i pl2 hget
    · intro t ht
      rcases List.mem_append.1 ht with h1 | h1
      · exact hinv.floor t h1
      · exact Or.inl (real_of_mem_replicate _ _ hreal t h1)
    · unfold PlayerBoard.tileCount
      simp only [List.filter_append, List.length_append]
      rw [filter_replicate_real _ _ hne]
      simp only [List.length_replicate]
      rw [Arr5.sum_set? _ _ _ _ pl _ hlines hpl, hadd1, hadd2]
      push_cast
      have : ((count - min count (pl.Size - pl.Filled)).toNat : Int) =
          count - min count (pl.Size - pl.Filled) := by omega
      rw [this]
      omega


theorem addToFloor_marker_inv (p : PlayerBoard) (h : p.Inv) :
    (p.AddToFloor TileColor.FirstPlayerMarker).Inv ∧
    (p.AddToFloor TileColor.FirstPlayerMarker).tileCount = p.tileCount := by
  constructor
  · refine inv_congr p _ rfl rfl ?_ h
    intro t ht
    simp only [PlayerBoard.AddToFloor, List.mem_append, List.mem_singleton] at ht
    rcases ht with h1 | h1
    · exact h.floor t h1
    · exact Or.inr h1
  · exact tileCount_congr p _ rfl rfl (by simp [PlayerBoard.AddToFloor, List.filter_append])

theorem mem_set_inv (ps : List PlayerBoard) (i : Nat) (p : PlayerBoard)
    (h : ∀ q ∈ ps, q.Inv) (hp : p.Inv) : ∀ q ∈ ps.set i p, q.Inv := by
  intro q hq
  rcases List.mem_or_eq_of_mem_set hq with h1 | h1
  · exact h q h1
  · subst h1; exact hp

theorem takeTiles_inv (g : Game) (hinv : g.Inv) (player : PlayerBoard)
    (hp : idx? g.Players g.CurrentPlayer = some player) (m : Move) (g1 : Game)
    (p1 : PlayerBoard) (tiles : List TileColor)
    (ht : Game.takeTiles g player m = some (g1, p1, tiles)) :
    0 ≤ g1.FirstPlayer ∧ g1.FirstPlayer < g1.Players.length ∧
    (∀ f ∈ g1.Factories, ∀ t ∈ f.Tiles, t.IsReal = true) ∧
    (∀ t ∈ g1.Center.Tiles, t.IsReal = true) ∧
    (∀ pb ∈ g1.Players, pb.Inv) ∧
    g1.Players[g.CurrentPlayer.toNat]? = some p1 ∧
    g1.tileCount + (tiles.length : Int) = g.tileCount := by
  obtain ⟨hp0, hp1⟩ := (idx?_eq_some _ _ _).1 hp
  have hpinv : player.Inv := hinv.boards player (idx?_mem _ _ _ hp)
  have hlt := (List.getElem?_eq_some_iff.1 hp1).1
  by_cases hc : m.FactoryIdx = -1
  · have hcen : ∀ t ∈ g.Center.Tiles.filter (fun t => !decide (t = m.Color)),
        t.IsReal = true := fun t ht => hinv.center t (List.mem_filter.1 ht).1
    have hlen := filter_length_add g.Center.Tiles m.Color
    cases hm : g.Center.HasFirstPlayerTile with
    | true =>
      rw [takeTiles_center_marker g player m hc hm] at ht
      simp only [Option.some.injEq, Prod.mk.injEq] at ht
      obtain ⟨rfl, rfl, rfl⟩ := ht
      obtain ⟨hi1, hi2⟩ := addToFloor_marker_inv player hpinv
      refine ⟨hinv.cur0, by simpa using hinv.cur1, hinv.factories, hcen,
        mem_set_inv _ _ _ hinv.boards hi1, by simp [List.getElem?_set, hlt], ?_⟩
      unfold Game.tileCount
      simp only
      rw [sum_map_set _ _ _ player _ hp1, hi2]
      omega
    | false =>
      rw [takeTiles_center_plain g player m hc hm] at ht
      simp only [Option.some.injEq, Prod.mk.injEq] at ht
      obtain ⟨rfl, rfl, rfl⟩ := ht
      refine ⟨hinv.first0, hinv.first1, hinv.factories, hcen, hinv.boards, hp1, ?_⟩
      unfold Game.tileCount
      simp only
      omega
  · cases hf : idx? g.Factories m.FactoryIdx with
    | none => rw [takeTiles_factory_none g player m hc hf] at ht; simp at ht
    | some f =>
      rw [takeTiles_factory g player m f hc hf] at ht
      simp only [Option.some.injEq, Prod.mk.injEq] at ht
      obtain ⟨rfl, rfl, rfl⟩ := ht
      obtain ⟨hf0, hf1⟩ := (idx?_eq_some _ _ _).1 hf
      have hfreal := hinv.factories f (idx?_mem _ _ _ hf)
      have hlen := filter_length_add f.Tiles m.Color
      refine ⟨hinv.first0, hinv.first1, ?_, ?_, hinv.boards, hp1, ?_⟩
      · intro f2 hf2 t ht
        rcases List.mem_or_eq_of_mem_set hf2 with h1 | h1
        · exact hinv.factories f2 h1 t ht
        · subst h1; simp at ht
      · intro t ht
        simp only [List.mem_append] at ht
        rcases ht with h1 | h1
        · exact hinv.center t h1
        · exact hfreal t (List.mem_filter.1 h1).1
      · unfold Game.tileCount
        simp only [List.length_append]
        rw [sum_map_set _ _ _ f _ hf1]
        push_cast
        simp only [List.length_nil, Nat.cast_zero]
        omega

theorem nextPlayer_inv (g g1 : Game) (hinv : g.Inv) (h : Game.NextPlayer g = some g1) :
    g1.Inv := by
  unfold Game.NextPlayer at h
  split_ifs at h with h0
  simp only [Option.some.injEq] at h
  subst h
  have hnum := hinv.num
  have hc0 := hinv.cur0
  have hc1 := hinv.cur1
  have hpos : 0 < g.NumPlayers := by omega
  have hmod : Int.tmod (g.CurrentPlayer + 1) g.NumPlayers =
      (g.CurrentPlayer + 1) % g.NumPlayers :=
    Int.tmod_eq_emod (by omega) (by omega)
  refine ⟨?_, ?_, hinv.num, hinv.first0, hinv.first1, hinv.factories, hinv.center,
    hinv.bagTiles, hinv.bagDiscards, hinv.boards, hinv.count⟩
  · simp only [hmod]
    exact Int.emod_nonneg _ (by omega)
  · simp only [hmod]
    have := Int.emod_lt_of_pos (g.CurrentPlayer + 1) hpos
    omega

theorem endRound_inv (raw : Int → Nat → Nat) (g g1 : Game) (hinv : g.Inv)
    (hover : g.IsRoundOver = true) (h : Game.EndRound raw g = some g1) : g1.Inv := by
  obtain ⟨hfs, hcs⟩ := (isRoundOver_iff g).1 hover
  obtain ⟨r, hr, hrinv, hrlen, hrtiles, hrreal, hrcount⟩ :=
    endRoundLoop_inv g.Players g.Bag hinv.boards hinv.bagDiscards
  have hfsum : (g.Factories.map (fun f => (f.Tiles.length : Int))).sum = 0 := by
    apply List.sum_eq_zero
    intro x hx
    obtain ⟨f, hf, rfl⟩ := List.mem_map.1 hx
    simp [hfs f hf]
  have hcount := hinv.count
  unfold Game.tileCount at hcount
  rw [hfsum, hcs] at hcount
  simp only [List.length_nil, Nat.cast_zero] at hcount
  unfold Game.EndRound at h
  simp only [hr] at h
  split_ifs at h with hany
  · obtain ⟨ps, hps, hpsinv, hpslen, hpssum⟩ := endGameLoop_inv r.1 hrinv
    simp only [Game.EndGame, hps, Option.some.injEq] at h
    subst h
    refine ⟨hinv.cur0, ?_, ?_, hinv.first0, ?_, hinv.factories, hinv.center, ?_, hrreal,
      hpsinv, ?_⟩
    · simp only [hpslen, hrlen]; exact hinv.cur1
    · simp only [hpslen, hrlen]; exact hinv.num
    · simp only [hpslen, hrlen]; exact hinv.first1
    · simp only [hrtiles]; exact hinv.bagTiles
    · unfold Game.tileCount
      simp only [hfsum, hcs, hpssum, hrtiles, List.length_nil, Nat.cast_zero]
      omega
  · obtain ⟨fs, b, hsetup, hfslen, hperm⟩ := setupRound_spec raw
      { g with Players := r.1, Bag := r.2, Round := g.Round + 1,
               CurrentPlayer := g.FirstPlayer }
    rw [hsetup] at h
    simp only [Option.some.injEq] at h
    subst h
    simp only at hperm
    have hbreal : ∀ t ∈ r.2.tiles ++ r.2.discards, t.IsReal = true := by
      intro t ht
      rcases List.mem_append.1 ht with h1 | h1
      · rw [hrtiles] at h1; exact hinv.bagTiles t h1
      · exact hrreal t h1
    have hall : ∀ t ∈ (fs.map (fun f => f.Tiles)).flatten ++ (b.tiles ++ b.discards),
        t.IsReal = true := fun t ht => hbreal t (hperm.mem_iff.1 ht)
    have hlen := hperm.length_eq
    simp only [List.length_append] at hlen
    have hfl : (fs.map (fun f => (f.Tiles.length : Int))).sum =
        ((fs.map (fun f => f.Tiles)).flatten.length : Int) := by
      rw [← sum_map_length_flatten, List.map_map]
      rfl
    refine ⟨hinv.first0, ?_, ?_, hinv.first0, ?_, ?_, ?_, ?_, ?_, hrinv, ?_⟩
    · simp only [hrlen]; exact hinv.first1
    · simp only [hrlen]; exact hinv.num
    · simp only [hrlen]; exact hinv.first1
    · intro f hf t ht
      apply hall t
      apply List.mem_append_left
      rw [List.mem_flatten]
      exact ⟨f.Tiles, List.mem_map_of_mem _ hf, ht⟩
    · intro t ht
      simp [Center.NewCenter] at ht
    · intro t ht
      exact hall t (List.mem_append_right _ (List.mem_append_left _ ht))
    · intro t ht
      exact hall t (List.mem_append_right _ (List.mem_append_right _ ht))
    · unfold Game.tileCount
      simp only [hfl, Center.NewCenter, List.length_nil, Nat.cast_zero]
      rw [hrtiles] at hlen
      omega


theorem applyMove_inv (raw : Int → Nat → Nat) (g g1 : Game) (ms : List Move) (m : Move)
    (hinv : g.Inv) (hms : g.GetValidMoves = some ms) (hm : m ∈ ms)
    (h : Game.ApplyMove raw g m = some (g1, false)) : g1.Inv := by
  obtain ⟨tiles0, hs, hc, _, _, _, player, hp, hok⟩ := sourceTiles_of_valid g ms m hms hm
  obtain ⟨hp0, hp1⟩ := (idx?_eq_some _ _ _).1 hp
  obtain ⟨⟨ga, p1, tiles⟩, ht⟩ := takeTiles_isSome g player m tiles0 hs
  obtain ⟨e1, _, _, e4, e5, _, _, _, e9, _, e11, e12, _, e14⟩ :=
    takeTiles_frame g ga player p1 m tiles hp ht
  obtain ⟨t1, t2, t3, t4, t5, t6, t7⟩ := takeTiles_inv g hinv player hp m ga p1 tiles ht
  have htiles : tiles = tiles0.filter (fun t => decide (t = m.Color)) := e14 tiles0 hs
  have hmem : m.Color ∈ tiles := by
    rw [htiles]; exact List.mem_filter.2 ⟨hc, by simp⟩
  have hlen : tiles.length ≠ 0 := by
    intro h0
    rw [List.length_eq_zero.1 h0] at hmem
    exact List.not_mem_nil _ hmem
  have hreal : m.Color.IsReal = true := by
    have hsrc : ∀ t ∈ tiles0, t.IsReal = true := by
      unfold Game.sourceTiles at hs
      split_ifs at hs with h1
      · simp only [Option.some.injEq] at hs
        subst hs; exact hinv.center
      · cases hf : idx? g.Factories m.FactoryIdx with
        | none => simp [hf] at hs
        | some f =>
          simp only [hf, Option.some.injEq] at hs
          subst hs
          exact hinv.factories f (idx?_mem _ _ _ hf)
    exact hsrc _ hc
  have hp1inv : p1.Inv := t5 p1 (List.getElem?_mem t6)
  have hok1 : m.PlacementOk p1 := by
    rcases hok with h1 | h1
    · exact Or.inl h1
    · right
      rw [canPlaceOnLine_congr player p1 e11 e12]
      exact h1
  obtain ⟨p2, hp2, hp2inv, hp2count⟩ :=
    placeTiles_inv p1 m (tiles.length : Int) (by omega) hp1inv hreal hok1
  have hg2 : (Game.setPlayer ga p2).Inv := by
    refine ⟨?_, ?_, ?_, t1, ?_, t3, t4, ?_, ?_, ?_, ?_⟩
    · show 0 ≤ ga.CurrentPlayer
      rw [e1]; exact hinv.cur0
    · show ga.CurrentPlayer < ((ga.Players.set _ p2).length : Int)
      rw [List.length_set, e1, e9]; exact hinv.cur1
    · show ga.NumPlayers = ((ga.Players.set _ p2).length : Int)
      rw [List.length_set, e4, e9]; exact hinv.num
    · show ga.FirstPlayer < ((ga.Players.set _ p2).length : Int)
      rw [List.length_set]; exact t2
    · show ∀ t ∈ ga.Bag.tiles, t.IsReal = true
      rw [e5]; exact hinv.bagTiles
    · show ∀ t ∈ ga.Bag.discards, t.IsReal = true
      rw [e5]; exact hinv.bagDiscards
    · exact mem_set_inv _ _ _ t5 hp2inv
    · have h7 := t7
      unfold Game.tileCount at h7 ⊢
      simp only [Game.setPlayer]
      rw [e1, sum_map_set _ _ _ p1 _ t6, hp2count]
      have hc100 := hinv.count
      unfold Game.tileCount at hc100
      omega
  unfold Game.ApplyMove at h
  simp only [hp, ht, hlen, if_false, hp2] at h
  split_ifs at h with hover
  · cases hr : Game.EndRound raw (Game.setPlayer ga p2) with
    | none => simp [hr] at h
    | some g3 =>
      simp only [hr, Option.some.injEq, Prod.mk.injEq, and_true] at h
      subst h
      exact endRound_inv raw _ _ hg2 hover hr
  · cases hr : Game.NextPlayer (Game.setPlayer ga p2) with
    | none => simp [hr] at h
    | some g3 =>
      simp only [hr, Option.some.injEq, Prod.mk.injEq, and_true] at h
      subst h
      exact nextPlayer_inv _ _ hg2 hr

theorem newPlayerBoard_inv : NewPlayerBoard.Inv ∧ NewPlayerBoard.tileCount = 0 := by
  refine ⟨⟨?_, by simp [NewPlayerBoard]⟩, by decide⟩
  intro i pl hget
  obtain ⟨h0, h5⟩ := (Arr5.get?_isSome_iff _ _).1 ⟨pl, hget⟩
  interval_cases i <;> simp [NewPlayerBoard, Arr5.get?] at hget <;> subst hget <;> simp

theorem newBag_spec (raw : Int → Nat → Nat) (seed : Int) :
    (Bag.NewBag raw seed).discards = [] ∧ (Bag.NewBag raw seed).tiles.length = 100 ∧
    ∀ t ∈ (Bag.NewBag raw seed).tiles, t.IsReal = true := by
  have hp := (shuffle_perm raw
    { tiles := AllColors.foldl (fun ts color => ts ++ List.replicate 20 color) []
      discards := []
      rng := ⟨seed, 0⟩
      seed := seed }).1
  refine ⟨rfl, ?_, ?_⟩
  · have h100 : (AllColors.foldl (fun ts color => ts ++ List.replicate 20 color)
        ([] : List TileColor)).length = 100 := by decide
    exact hp.length_eq.trans h100
  · intro t ht
    have := hp.mem_iff.1 ht
    revert this
    cases t <;> simp [AllColors, TileColor.IsReal]

theorem sum_replicate_zero {α : Type} (f : α → Int) (n : Nat) (a : α) (h : f a = 0) :
    ((List.replicate n a).map f).sum = 0 := by
  induction n with
  | zero => rfl
  | succ n ih => simp [List.replicate_succ, h, ih]

theorem newGameWithSeed_inv (raw : Int → Nat → Nat) (now numPlayers seed : Int) :
    ∃ g, Game.NewGameWithSeed raw now numPlayers seed = some g ∧ g.Inv := by
  have hn : ∃ n2 : Int, (if (if numPlayers < 2 then 2 else numPlayers) > 4 then 4
      else (if numPlayers < 2 then 2 else numPlayers)) = n2 ∧ 2 ≤ n2 ∧ n2 ≤ 4 := by
    refine ⟨_, rfl, ?_, ?_⟩ <;> split_ifs <;> omega
  obtain ⟨n2, hn2, hlo, hhi⟩ := hn
  unfold Game.NewGameWithSeed Game.NewGame
  simp only [hn2]
  obtain ⟨fs, b, hsetup, _, _⟩ := setupRound_spec raw
    { Players := List.replicate n2.toNat NewPlayerBoard
      Factories := List.replicate (n2 * 2 + 1).toNat Factory.NewFactory
      Center := Center.NewCenter
      Bag := Bag.NewBag raw now
      CurrentPlayer := 0
      FirstPlayer := 0
      Round := 1
      GameOver := false
      NumPlayers := n2 }
  rw [hsetup]
  simp only
  obtain ⟨fs2, b2, hsetup2, _, hperm⟩ := setupRound_spec raw
    { Players := List.replicate n2.toNat NewPlayerBoard
      Factories := fs
      Center := Center.NewCenter
      Bag := Bag.NewBag raw seed
      CurrentPlayer := 0
      FirstPlayer := 0
      Round := 1
      GameOver := false
      NumPlayers := n2 }
  rw [hsetup2]
  refine ⟨_, rfl, ?_⟩
  simp only at hperm
  obtain ⟨hd, hl, hreal⟩ := newBag_spec raw seed
  rw [hd, List.append_nil] at hperm
  have hall : ∀ t ∈ (fs2.map (fun f => f.Tiles)).flatten ++ (b2.tiles ++ b2.discards),
      t.IsReal = true := fun t ht => hreal t (hperm.mem_iff.1 ht)
  have hlen := hperm.length_eq
  simp only [List.length_append] at hlen
  have hfl : (fs2.map (fun f => (f.Tiles.length : Int))).sum =
      ((fs2.map (fun f => f.Tiles)).flatten.length : Int) := by
    rw [← sum_map_length_flatten, List.map_map]
    rfl
  refine ⟨le_refl _, ?_, ?_, le_refl _, ?_, ?_, ?_, ?_, ?_, ?_, ?_⟩
  · simp only [List.length_replicate]; omega
  · simp only [List.length_replicate]; omega
  · simp only [List.length_replicate]; omega
  · intro f hf t ht
    apply hall t
    apply List.mem_append_left
    rw [List.mem_flatten]
    exact ⟨f.Tiles, List.mem_map_of_mem _ hf, ht⟩
  · intro t ht
    simp [Center.NewCenter] at ht
  · intro t ht
    exact hall t (List.mem_append_right _ (List.mem_append_left _ ht))
  · intro t ht
    exact hall t (List.mem_append_right _ (List.mem_append_right _ ht))
  · intro pb hpb
    rw [(List.mem_replicate.1 hpb).2]
    exact newPlayerBoard_inv.1
  · unfold Game.tileCount
    simp only [hfl, Center.NewCenter, List.length_nil, Nat.cast_zero]
    rw [sum_replicate_zero _ _ _ newPlayerBoard_inv.2]
    omega

theorem reachable_inv (raw : Int → Nat → Nat) (now numPlayers seed : Int) (g : Game)
    (h : Reachable raw now numPlayers seed g) : g.Inv := by
  induction h with
  | init g hg =>
    obtain ⟨g0, hg0, hinv⟩ := newGameWithSeed_inv raw now numPlayers seed
    rw [hg] at hg0
    simp only [Option.some.injEq] at hg0
    subst hg0
    exact hinv
  | step g g1 ms m _ hms hm happ ih => exact applyMove_inv raw g g1 ms m ih hms hm happ

set_option maxRecDepth 1000000 in
theorem reachable_play6 :
    Reachable rawZero 0 2 42 play5 ∧ Reachable rawZero 0 2 42 play6 ∧ play6.Round = 2 := by
  have h0 : Reachable rawZero 0 2 42 play0 := Reachable.init _ (by decide)
  have h1 : Reachable rawZero 0 2 42 play1 :=
    Reachable.step play0 _ (play0.GetValidMoves.getD []) ⟨0, TileColor.White, 2⟩ h0
      (by decide) (by decide) (by decide)
  have h2 : Reachable rawZero 0 2 42 play2 :=
    Reachable.step play1 _ (play1.GetValidMoves.getD []) ⟨1, TileColor.White, 3⟩ h1
      (by decide) (by decide) (by decide)
  have h3 : Reachable rawZero 0 2 42 play3 :=
    Reachable.step play2 _ (play2.GetValidMoves.getD []) ⟨2, TileColor.White, 3⟩ h2
      (by decide) (by decide) (by decide)
  have h4 : Reachable rawZero 0 2 42 play4 :=
    Reachable.step play3 _ (play3.GetValidMoves.getD []) ⟨3, TileColor.White, 4⟩ h3
      (by decide) (by decide) (by decide)
  have h5 : Reachable rawZero 0 2 42 play5 :=
    Reachable.step play4 _ (play4.GetValidMoves.getD []) ⟨4, TileColor.White, 4⟩ h4
      (by decide) (by decide) (by decide)
  exact ⟨h5, Reachable.step play5 _ (play5.GetValidMoves.getD []) ⟨-1, TileColor.Blue, 0⟩ h5
    (by decide) (by decide) (by decide), by decide⟩

/-! ## Claim on tile conservation -/

/-- C1: tile conservation.  `NewGameWithSeed` returns a state, and in every state
reachable from it by successfully applying moves taken from `GetValidMoves` the tiles
in both pools of the bag, in all factories, in the center, on all pattern lines, on all
floor lines (markers excluded) and on all walls number exactly 100, whatever values
the random generator `raw` produces. -/
theorem C1_tile_conservation (raw : Int → Nat → Nat) (now numPlayers seed : Int) :
    (∃ g0, Game.NewGameWithSeed raw now numPlayers seed = some g0 ∧
      Reachable raw now numPlayers seed g0) ∧
    ∀ g, Reachable raw now numPlayers seed g → g.tileCount = 100 := by
  refine ⟨?_, fun g h => (reachable_inv raw now numPlayers seed g h).count⟩
  obtain ⟨g0, hg0, _⟩ := newGameWithSeed_inv raw now numPlayers seed
  exact ⟨g0, hg0, Reachable.init g0 hg0⟩

/-- Witness of C1 on `play6`, the state reached after the six moves of round one of the
sample play, the end of round scoring and the deal of round two. -/
theorem C1_tile_conservation_witness :
    Reachable rawZero 0 2 42 play6 ∧ play6.Round = 2 ∧ play6.tileCount = 100 :=
  ⟨reachable_play6.2.1, reachable_play6.2.2,
    (C1_tile_conservation rawZero 0 2 42).2 play6 reachable_play6.2.1⟩

/-! ## Claim on tile placement -/

theorem placeTiles_floor (pb : PlayerBoard) (color : TileColor) (count : Int) :
    pb.PlaceTiles (-1) color count =
      some { pb with FloorLine := pb.FloorLine ++ List.replicate count.toNat color } := by
  simp [PlayerBoard.PlaceTiles]

theorem placeTiles_line (pb : PlayerBoard) (lineIdx : Int) (color : TileColor) (count : Int)
    (h0 : 0 ≤ lineIdx) (h4 : lineIdx ≤ 4) :
    ∃ pl lines, pb.PatternLines.get? lineIdx = some pl ∧
      pb.PatternLines.set? lineIdx (pl.Add color count).1 = some lines ∧
      pb.PlaceTiles lineIdx color count =
        some { pb with
          PatternLines := lines
          FloorLine := pb.FloorLine ++ List.replicate (pl.Add color count).2.toNat color } := by
  obtain ⟨pl, hpl⟩ := (Arr5.get?_isSome_iff pb.PatternLines lineIdx).2 ⟨h0, by omega⟩
  obtain ⟨lines, hlines⟩ :=
    Arr5.set?_isSome pb.PatternLines lineIdx (pl.Add color count).1 h0 (by omega)
  refine ⟨pl, lines, hpl, hlines, ?_⟩
  have hne : lineIdx ≠ -1 := by omega
  simp [PlayerBoard.PlaceTiles, hne, hpl, hlines]

theorem add_spec (pl : PatternLine) (color : TileColor) (count : Int) :
    (pl.Add color count).1.Size = pl.Size ∧
    (pl.Add color count).1.Filled = min pl.Size (pl.Filled + count) ∧
    (pl.Add color count).1.Color = (if pl.Filled = 0 then color else pl.Color) ∧
    (pl.Add color count).2 = max 0 (pl.Filled + count - pl.Size) := by
  cases h : pl.IsEmpty with
  | true =>
    have he : pl.Filled = 0 := by simpa [PatternLine.IsEmpty] using h
    simp only [PatternLine.Add, h, if_true]
    refine ⟨trivial, ?_, by simp [he], ?_⟩ <;> omega
  | false =>
    have he : pl.Filled ≠ 0 := by simpa [PatternLine.IsEmpty] using h
    simp only [PatternLine.Add, h, if_false, Bool.false_eq_true]
    refine ⟨trivial, ?_, by simp [he], ?_⟩ <;> omega

/-! ## Claims on floor scoring -/

theorem scoreFloorLoop_score :
    ∀ (l : List TileColor) (i : Nat) (score : Int) (d : List TileColor),
      (scoreFloorLoop l i score d).1 =
        score + ((FloorPenalties.drop i).take l.length).sum := by
  intro l
  induction l with
  | nil => intro i score d; simp [scoreFloorLoop]
  | cons t l ih =>
    intro i score d
    unfold scoreFloorLoop
    rw [ih]
    by_cases hi : i < FloorPenalties.length
    · rw [if_pos hi]
      rw [List.drop_eq_getElem_cons hi]
      simp only [List.length_cons, List.take_succ_cons, List.sum_cons]
      rw [(List.getD_eq_getElem FloorPenalties 0 hi)]
      omega
    · rw [if_neg hi]
      have h1 : FloorPenalties.drop i = [] := List.drop_eq_nil_of_le (by omega)
      have h2 : FloorPenalties.drop (i + 1) = [] := List.drop_eq_nil_of_le (by omega)
      rw [h1, h2]
      simp

theorem scoreFloorLine_score (pb : PlayerBoard) :
    pb.ScoreFloorLine.1.Score =
      max 0 (pb.Score + (FloorPenalties.take (min pb.FloorLine.length 7)).sum) := by
  have h := scoreFloorLoop_score pb.FloorLine 0 pb.Score []
  simp only [List.drop_zero] at h
  have h7 : FloorPenalties.take (min pb.FloorLine.length 7) =
      FloorPenalties.take pb.FloorLine.length := by
    rcases le_total pb.FloorLine.length 7 with h1 | h1
    · rw [min_eq_left h1]
    · rw [min_eq_right h1, List.take_of_length_le (l := FloorPenalties) (i := pb.FloorLine.length)
        (by simpa [FloorPenalties] using h1)]
      rfl
  simp only [PlayerBoard.ScoreFloorLine, h, h7]
  split_ifs with hneg
  · rw [max_eq_left (by omega)]
  · rw [max_eq_right (by omega)]

theorem floorPenalties_take_bounds (n : Nat) :
    -14 ≤ (FloorPenalties.take n).sum ∧ (FloorPenalties.take n).sum ≤ 0 ∧
    (FloorPenalties.take (7 + n)).sum = -14 := by
  refine ⟨?_, ?_, ?_⟩
  · rcases Nat.lt_or_ge n 7 with h | h
    · interval_cases n <;> decide
    · rw [List.take_of_length_le (by simpa [FloorPenalties] using h)]; decide
  · rcases Nat.lt_or_ge n 7 with h | h
    · interval_cases n <;> decide
    · rw [List.take_of_length_le (by simpa [FloorPenalties] using h)]; decide
  · rw [List.take_of_length_le (by simp [FloorPenalties])]; decide

theorem filter_marker_length (l : List TileColor) :
    (l.filter (fun t => decide (t ≠ TileColor.FirstPlayerMarker))).length +
      l.count TileColor.FirstPlayerMarker = l.length := by
  induction l with
  | nil => rfl
  | cons a l ih =>
    by_cases h : a = TileColor.FirstPlayerMarker
    · subst h
      simp [List.filter_cons] at ih ⊢
      omega
    · have h2 : (a == TileColor.FirstPlayerMarker) = false := by simpa using h
      simp [List.filter_cons, h, List.count_cons, h2] at ih ⊢
      omega

/-- C17: for every board, `ScoreFloorLine` returns exactly the entries of the floor line
other than the first player marker, in their original order, so that the returned
length is the floor length minus the number of markers; it leaves the floor line empty
and changes neither the pattern lines nor the wall. -/
theorem C17_scoreFloorLine_discards (pb : PlayerBoard) :
    pb.ScoreFloorLine.2 =
      pb.FloorLine.filter (fun t => decide (t ≠ TileColor.FirstPlayerMarker)) ∧
    (pb.ScoreFloorLine.2.length : Int) =
      (pb.FloorLine.length : Int) - (pb.FloorLine.count TileColor.FirstPlayerMarker : Int) ∧
    pb.ScoreFloorLine.1.FloorLine = [] ∧
    pb.ScoreFloorLine.1.PatternLines = pb.PatternLines ∧
    pb.ScoreFloorLine.1.Wall = pb.Wall := by
  obtain ⟨e1, e2, e3, e4⟩ := scoreFloorLine_spec pb
  refine ⟨e4, ?_, e3, e1, e2⟩
  rw [e4]
  have := filter_marker_length pb.FloorLine
  omega

/-! ## Claims on adjacency scoring -/

theorem runBack_eq (cell : Int → Option Bool) (occ : Int → Bool) :
    ∀ (n : Nat) (acc : Int), (∀ k : Nat, k < n → cell (k : Int) = some (occ (k : Int))) →
      runBack cell n acc =
        some (acc + runLength ((List.range n).reverse.map (fun k : Nat => occ (k : Int)))) := by
  intro n
  induction n with
  | zero => intro acc _; simp [runBack, runLength]
  | succ n ih =>
    intro acc h
    unfold runBack
    rw [h n (Nat.lt_succ_self n)]
    rw [List.range_succ, List.reverse_append]
    cases hb : occ (n : Int) with
    | true =>
      simp only [List.reverse_cons, List.reverse_nil, List.nil_append, List.singleton_append,
        List.map_cons]
      rw [ih _ (fun k hk => h k (Nat.lt_succ_of_lt hk))]
      simp only [runLength, hb, List.takeWhile_cons, if_true, List.length_cons]
      congr 1
      push_cast
      omega
    | false =>
      simp [runLength, hb, List.takeWhile_cons]

theorem runFwd_eq (cell : Int → Option Bool) (occ : Int → Bool) :
    ∀ (n : Nat) (c acc : Int),
      (∀ k : Nat, k < n → cell (c + (k : Int)) = some (occ (c + (k : Int)))) →
      runFwd cell n c acc =
        some (acc + runLength ((List.range n).map (fun k : Nat => occ (c + (k : Int))))) := by
  intro n
  induction n with
  | zero => intro c acc _; simp [runFwd, runLength]
  | succ n ih =>
    intro c acc h
    unfold runFwd
    have h0 := h 0 (Nat.succ_pos n)
    simp only [Nat.cast_zero, add_zero] at h0
    rw [h0, List.range_succ_eq_map]
    cases hb : occ c with
    | true =>
      simp only [List.map_cons, List.map_map]
      rw [ih (c + 1) (acc + 1) (fun k hk => by
        have := h (k + 1) (Nat.succ_lt_succ hk)
        push_cast at this
        rw [show c + 1 + (k : Int) = c + ((k : Int) + 1) by omega]
        exact this)]
      simp only [runLength, Nat.cast_zero, add_zero, hb, List.takeWhile_cons, if_true,
        List.length_cons]
      have hfun : (fun k : Nat => occ (c + 1 + (k : Int))) =
          ((fun k : Nat => occ (c + (k : Int))) ∘ Nat.succ) := by
        funext k
        simp only [Function.comp, Nat.succ_eq_add_one]
        push_cast
        rw [show c + 1 + (k : Int) = c + ((k : Int) + 1) by omega]
      rw [hfun]
      congr 1
      push_cast
      omega
    | false =>
      simp [runLength, hb, List.takeWhile_cons]

theorem get2?_eq_occupied (w : Arr5 (Arr5 Bool)) (r c : Int)
    (hr0 : 0 ≤ r) (hr5 : r < 5) (hc0 : 0 ≤ c) (hc5 : c < 5) :
    w.get2? r c = some (occupied w r c) := by
  obtain ⟨v, hv⟩ := Arr5.get2?_isSome w r c hr0 hr5 hc0 hc5
  simp [occupied, hv]

theorem scorePoints_eq (h v : Int) (hh : 1 ≤ h) (hv : 1 ≤ v) :
    scorePoints h v =
      if h = 1 ∧ v = 1 then 1 else (if h > 1 then h else 0) + (if v > 1 then v else 0) := by
  unfold scorePoints
  by_cases h1 : h = 1 ∧ v = 1
  · simp [h1]
  · rw [if_neg h1, if_neg h1]
    by_cases h2 : h > 1
    · by_cases h3 : v > 1
      · simp only [h2, h3, if_true]
        rw [if_neg (by omega)]
        omega
      · simp only [h2, h3, if_true, if_false]
        rw [if_neg (by omega)]
        omega
    · have h3 : v > 1 := by
        by_contra h3
        exact h1 ⟨by omega, by omega⟩
      simp only [h2, h3, if_true, if_false]
      rw [if_neg (by omega)]

theorem runLength_nonneg (cells : List Bool) : 0 ≤ runLength cells := by
  unfold runLength
  omega

theorem scoreWallTile_eq (pb : PlayerBoard) (row col : Int)
    (hr0 : 0 ≤ row) (hr5 : row < 5) (hc0 : 0 ≤ col) (hc5 : col < 5) :
    pb.ScoreWallTile row col =
      some (scorePoints (rowRun pb.Wall row col) (colRun pb.Wall row col)) := by
  have e1 := runBack_eq (fun c => pb.Wall.get2? row c) (fun c => occupied pb.Wall row c)
    col.toNat 1 (fun k hk => get2?_eq_occupied _ _ _ hr0 hr5 (by omega) (by omega))
  have e2 := runFwd_eq (fun c => pb.Wall.get2? row c) (fun c => occupied pb.Wall row c)
    (5 - (col + 1)).toNat (col + 1)
    (1 + runLength ((List.range col.toNat).reverse.map (fun k : Nat => occupied pb.Wall row (k : Int))))
    (fun k hk => get2?_eq_occupied _ _ _ hr0 hr5 (by omega) (by omega))
  have e3 := runBack_eq (fun r => pb.Wall.get2? r col) (fun r => occupied pb.Wall r col)
    row.toNat 1 (fun k hk => get2?_eq_occupied _ _ _ (by omega) (by omega) hc0 hc5)
  have e4 := runFwd_eq (fun r => pb.Wall.get2? r col) (fun r => occupied pb.Wall r col)
    (5 - (row + 1)).toNat (row + 1)
    (1 + runLength ((List.range row.toNat).reverse.map (fun k : Nat => occupied pb.Wall (k : Int) col)))
    (fun k hk => get2?_eq_occupied _ _ _ (by omega) (by omega) hc0 hc5)
  have hn1 : (5 - (col + 1)).toNat = (4 - col).toNat := by omega
  have hn2 : (5 - (row + 1)).toNat = (4 - row).toNat := by omega
  rw [hn1] at e2
  rw [hn2] at e4
  simp only [PlayerBoard.ScoreWallTile, e1, hn1, hn2, e2, e3, e4, Option.bind_eq_bind,
    Option.some_bind, Option.pure_def, bind, pure]
  simp only [rowRun, colRun, indicesBelow, indicesAbove, List.map_map, Function.comp,
    List.map_reverse]
  rfl

theorem rowRun_pos (w : Arr5 (Arr5 Bool)) (row col : Int) : 1 ≤ rowRun w row col := by
  unfold rowRun
  have := runLength_nonneg ((indicesBelow col).map (fun c => occupied w row c))
  have := runLength_nonneg ((indicesAbove col).map (fun c => occupied w row c))
  omega

theorem colRun_pos (w : Arr5 (Arr5 Bool)) (row col : Int) : 1 ≤ colRun w row col := by
  unfold colRun
  have := runLength_nonneg ((indicesBelow row).map (fun r => occupied w r col))
  have := runLength_nonneg ((indicesAbove row).map (fun r => occupied w r col))
  omega

/-- C14: adjacency scoring.  For every wall and every cell `(row, col)` of it, with
`H = rowRun` (one plus the contiguous occupied cells directly left and right) and
`V = colRun` (one plus those directly above and below), `ScoreWallTile` returns 1 when
`H = V = 1` and otherwise `(H if H > 1 else 0) + (V if V > 1 else 0)`.  On the wall of
`scoreBoard` the isolated cell scores 1, the third cell of a row of three scores 3, and the
cell with `H = 2` and `V = 2` scores 4. -/
theorem C14_scoreWallTile (pb : PlayerBoard) (row col : Int)
    (hr0 : 0 ≤ row) (hr5 : row < 5) (hc0 : 0 ≤ col) (hc5 : col < 5) :
    pb.ScoreWallTile row col =
      some (if rowRun pb.Wall row col = 1 ∧ colRun pb.Wall row col = 1 then 1
        else (if rowRun pb.Wall row col > 1 then rowRun pb.Wall row col else 0) +
          (if colRun pb.Wall row col > 1 then colRun pb.Wall row col else 0)) ∧
    (rowRun scoreBoard.Wall 3 4 = 1 ∧ colRun scoreBoard.Wall 3 4 = 1 ∧
      scoreBoard.ScoreWallTile 3 4 = some 1) ∧
    (rowRun scoreBoard.Wall 4 2 = 3 ∧ colRun scoreBoard.Wall 4 2 = 1 ∧
      scoreBoard.ScoreWallTile 4 2 = some 3) ∧
    (rowRun scoreBoard.Wall 1 1 = 2 ∧ colRun scoreBoard.Wall 1 1 = 2 ∧
      scoreBoard.ScoreWallTile 1 1 = some 4) := by
  refine ⟨?_, by decide, by decide, by decide⟩
  rw [scoreWallTile_eq pb row col hr0 hr5 hc0 hc5,
    scorePoints_eq _ _ (rowRun_pos _ _ _) (colRun_pos _ _ _)]

/-- Witness of C14 at cell `(4, 2)` of `scoreBoard`. -/
theorem C14_scoreWallTile_witness :
    ((0 : Int) ≤ 4 ∧ (4 : Int) < 5 ∧ (0 : Int) ≤ 2 ∧ (2 : Int) < 5) ∧
    (scoreBoard.ScoreWallTile 4 2 =
      some (if rowRun scoreBoard.Wall 4 2 = 1 ∧ colRun scoreBoard.Wall 4 2 = 1 then 1
        else (if rowRun scoreBoard.Wall 4 2 > 1 then rowRun scoreBoard.Wall 4 2 else 0) +
          (if colRun scoreBoard.Wall 4 2 > 1 then colRun scoreBoard.Wall 4 2 else 0)) ∧
    (rowRun scoreBoard.Wall 3 4 = 1 ∧ colRun scoreBoard.Wall 3 4 = 1 ∧
      scoreBoard.ScoreWallTile 3 4 = some 1) ∧
    (rowRun scoreBoard.Wall 4 2 = 3 ∧ colRun scoreBoard.Wall 4 2 = 1 ∧
      scoreBoard.ScoreWallTile 4 2 = some 3) ∧
    (rowRun scoreBoard.Wall 1 1 = 2 ∧ colRun scoreBoard.Wall 1 1 = 2 ∧
      scoreBoard.ScoreWallTile 1 1 = some 4)) :=
  ⟨by decide, C14_scoreWallTile scoreBoard 4 2 (by decide) (by decide) (by decide) (by decide)⟩

/-- C15, as amended: for every wall and cell `(row, col)` of it, `ScoreWallTile` returns
one plus the contiguous occupied cells adjacent in the row plus those adjacent in the
column when the cell has such neighbours in at most one of the two directions, and one
more than that when it has neighbours in both directions (the cell then counts in the
row run and in the column run). -/
theorem C15_scoreWallTile_adjacent (pb : PlayerBoard) (row col : Int)
    (hr0 : 0 ≤ row) (hr5 : row < 5) (hc0 : 0 ≤ col) (hc5 : col < 5) :
    pb.ScoreWallTile row col =
      some (1 + (rowRun pb.Wall row col - 1) + (colRun pb.Wall row col - 1) +
        (if rowRun pb.Wall row col - 1 > 0 ∧ colRun pb.Wall row col - 1 > 0 then 1 else 0)) := by
  rw [scoreWallTile_eq pb row col hr0 hr5 hc0 hc5,
    scorePoints_eq _ _ (rowRun_pos _ _ _) (colRun_pos _ _ _)]
  have h1 := rowRun_pos pb.Wall row col
  have h2 := colRun_pos pb.Wall row col
  congr 1
  by_cases a : rowRun pb.Wall row col > 1 <;> by_cases b : colRun pb.Wall row col > 1
  · rw [if_neg (by omega), if_pos a, if_pos b, if_pos ⟨by omega, by omega⟩]; omega
  · rw [if_neg (by omega), if_pos a, if_neg b, if_neg (by omega)]; omega
  · rw [if_neg (by omega), if_neg a, if_pos b, if_neg (by omega)]; omega
  · rw [if_pos ⟨by omega, by omega⟩, if_neg (by omega)]; omega

/-- Witness of C15 as amended, at cell `(1, 1)` of `scoreBoard`. -/
theorem C15_scoreWallTile_adjacent_witness :
    ((0 : Int) ≤ 1 ∧ (1 : Int) < 5) ∧
    scoreBoard.ScoreWallTile 1 1 =
      some (1 + (rowRun scoreBoard.Wall 1 1 - 1) + (colRun scoreBoard.Wall 1 1 - 1) +
        (if rowRun scoreBoard.Wall 1 1 - 1 > 0 ∧ colRun scoreBoard.Wall 1 1 - 1 > 0
          then 1 else 0)) :=
  ⟨by decide, C15_scoreWallTile_adjacent scoreBoard 1 1 (by decide) (by decide) (by decide)
    (by decide)⟩

/-- C15, counterexample to the claim as stated: at cell `(1, 1)` of `scoreBoard` one cell
is adjacent in the row and one in the column, and `ScoreWallTile` returns 4, not
`1 + 1 + 1`. -/
theorem C15_scoreWallTile_adjacent_counterexample :
    rowRun scoreBoard.Wall 1 1 - 1 = 1 ∧ colRun scoreBoard.Wall 1 1 - 1 = 1 ∧
    scoreBoard.ScoreWallTile 1 1 = some 4 ∧
    ¬ (scoreBoard.ScoreWallTile 1 1 =
        some (1 + (rowRun scoreBoard.Wall 1 1 - 1) + (colRun scoreBoard.Wall 1 1 - 1))) := by
  decide

/-! ## Claim on the end of game bonus -/

theorem foldl_bonus {α : Type} (p : α → Bool) (k : Int) :
    ∀ (l : List α) (s0 : Int),
      l.foldl (fun (s : Int) a => if p a then s + k else s) s0 =
        s0 + k * ((l.filter p).length : Int) := by
  intro l
  induction l with
  | nil => intro s0; simp
  | cons a l ih =>
    intro s0
    simp only [List.foldl_cons, ih, List.filter_cons]
    cases p a with
    | true =>
      simp only [if_true, List.length_cons]
      push_cast
      ring
    | false => simp

theorem Arr5.get_lit {α : Type} (a : Arr5 α) :
    a.get 0 = a.e0 ∧ a.get 1 = a.e1 ∧ a.get 2 = a.e2 ∧ a.get 3 = a.e3 ∧ a.get 4 = a.e4 :=
  ⟨rfl, rfl, rfl, rfl, rfl⟩

theorem range5_eq_map : range5 = fin5.map (fun r : Fin 5 => ((r : Nat) : Int)) := by
  decide

theorem rowComplete_eq (w : Arr5 (Arr5 Bool)) :
    (fin5.filter (fun r => rowComplete w r)).length =
      (range5.filter (fun r => rowFull w r)).length := by
  have h : ∀ (r : Fin 5), rowComplete w r = rowFull w ((r : Nat) : Int) := by
    intro r
    fin_cases r <;>
      simp [rowComplete, rowFull, fin5, range5, occupied, Arr5.get_lit, Arr5.get2?, Arr5.get?]
  rw [range5_eq_map, List.filter_map, List.length_map]
  exact congrArg List.length (List.filter_congr (fun r _ => h r))

theorem colComplete_eq (w : Arr5 (Arr5 Bool)) :
    (fin5.filter (fun c => colComplete w c)).length =
      (range5.filter (fun c => colFull w c)).length := by
  have h : ∀ (c : Fin 5), colComplete w c = colFull w ((c : Nat) : Int) := by
    intro c
    fin_cases c <;>
      simp [colComplete, colFull, fin5, range5, occupied, Arr5.get_lit, Arr5.get2?, Arr5.get?]
  rw [range5_eq_map, List.filter_map, List.length_map]
  exact congrArg List.length (List.filter_congr (fun r _ => h r))
theorem colorCount_step (pb : PlayerBoard) (color : TileColor) (hc : color.IsReal = true)
    (r : Int) (h0 : 0 ≤ r) (h5 : r < 5) :
    ∃ col, pb.GetWallColumn r color = some col ∧
      pb.Wall.get2? r col = some (occupied pb.Wall r col) ∧
      (occupied pb.Wall r col = true ↔
        ∀ c ∈ range5, WallPattern.get2? r c = some color → occupied pb.Wall r c = true) := by
  obtain ⟨col, hcol, hc0, hc5, hpat, huniq⟩ := wallColumn_real r color h0 h5 hc pb
  refine ⟨col, hcol, get2?_eq_occupied _ _ _ h0 h5 hc0 hc5, ?_⟩
  constructor
  · intro h c _ hp
    rw [huniq c hp]; exact h
  · intro h
    exact h col ((mem_range5 col).2 ⟨hc0, hc5⟩) hpat

theorem foldlM_count {α : Type} (f : Int → α → Option Int) (p : α → Bool) (k : Int)
    (l : List α) (h : ∀ a ∈ l, ∀ s, f s a = some (if p a then s + k else s)) :
    ∀ s0 : Int, l.foldlM f s0 = some (s0 + k * ((l.filter p).length : Int)) := by
  induction l with
  | nil => intro s0; simp
  | cons a l ih =>
    intro s0
    rw [List.foldlM_cons, h a (List.mem_cons_self _ _) s0]
    show l.foldlM f (if p a then s0 + k else s0) = _
    rw [ih (fun b hb => h b (List.mem_cons_of_mem _ hb)), List.filter_cons]
    cases p a with
    | true =>
      simp only [if_true, List.length_cons]
      congr 1
      push_cast
      ring
    | false => simp

theorem colorCount_fold (pb : PlayerBoard) (color : TileColor) (hc : color.IsReal = true) :
    pb.colorCount color =
      some (0 + 1 * ((range5.filter (fun r => decide (∀ c ∈ range5,
        WallPattern.get2? r c = some color → occupied pb.Wall r c = true))).length : Int)) := by
  unfold PlayerBoard.colorCount
  apply foldlM_count
  intro r hr s
  obtain ⟨h0, h5⟩ := (mem_range5 r).1 hr
  obtain ⟨col, e1, e2, e3⟩ := colorCount_step pb color hc r h0 h5
  simp only [e1, e2, Option.bind_eq_bind, Option.some_bind, Option.pure_def, bind, pure]
  by_cases hocc : occupied pb.Wall r col = true
  · simp only [hocc, if_true, decide_eq_true (e3.1 hocc)]
  · have hd : ¬ ∀ c ∈ range5, WallPattern.get2? r c = some color →
        occupied pb.Wall r c = true := fun hh => hocc (e3.2 hh)
    simp only [hocc, decide_eq_false hd, if_false, Bool.false_eq_true]

theorem colorFull_iff (w : Arr5 (Arr5 Bool)) (color : TileColor) :
    colorFull w color = true ↔
      ∀ r ∈ range5, ∀ c ∈ range5, WallPattern.get2? r c = some color →
        occupied w r c = true := by
  unfold colorFull
  simp only [List.all_eq_true]
  constructor
  · intro h r hr c hcc hp
    have := h r hr c hcc
    rw [if_pos hp] at this
    exact this
  · intro h r hr c hcc
    split_ifs with hp
    · exact h r hr c hcc hp
    · rfl

theorem colorCount_eq (pb : PlayerBoard) (color : TileColor) (hc : color.IsReal = true) :
    ∃ n, pb.colorCount color = some n ∧ (n = 5 ↔ colorFull pb.Wall color = true) := by
  refine ⟨_, colorCount_fold pb color hc, ?_⟩
  rw [colorFull_iff]
  have hlen : (0 + 1 * ((range5.filter (fun r => decide (∀ c ∈ range5,
      WallPattern.get2? r c = some color → occupied pb.Wall r c = true))).length : Int)) = 5 ↔
      (range5.filter (fun r => decide (∀ c ∈ range5,
      WallPattern.get2? r c = some color → occupied pb.Wall r c = true))).length =
        range5.length := by
    have : range5.length = 5 := rfl
    omega
  rw [hlen, List.filter_length_eq_length]
  simp only [decide_eq_true_eq]

theorem scoreEndGame_eq (pb : PlayerBoard) :
    pb.ScoreEndGame = some { pb with Score := pb.Score + endGameBonus pb.Wall } := by
  have h3 := foldlM_count (fun (s : Int) color =>
      (do
        let count ← pb.colorCount color
        pure (if count = 5 then s + 10 else s) : Option Int))
    (fun color => colorFull pb.Wall color) 10 AllColors
    (by
      intro color hcol s
      have hreal : color.IsReal = true := by revert hcol; cases color <;> decide
      obtain ⟨n, hn, hiff⟩ := colorCount_eq pb color hreal
      simp only [hn, Option.bind_eq_bind, Option.some_bind, Option.pure_def, bind, pure]
      by_cases hp : colorFull pb.Wall color = true
      · simp only [hiff.2 hp, hp, if_true]
      · have hn5 : ¬ n = 5 := fun h5 => hp (hiff.1 h5)
        simp only [hn5, hp, if_false, Bool.false_eq_true])
    (fin5.foldl (fun (s : Int) col => if colComplete pb.Wall col then s + 7 else s)
      (fin5.foldl (fun (s : Int) row => if rowComplete pb.Wall row then s + 2 else s) pb.Score))
  unfold PlayerBoard.ScoreEndGame
  simp only []
  rw [h3]
  rw [foldl_bonus (fun c => colComplete pb.Wall c) 7, foldl_bonus (fun r => rowComplete pb.Wall r) 2,
    rowComplete_eq, colComplete_eq]
  simp only [endGameBonus, Option.bind_eq_bind, Option.some_bind, Option.pure_def, bind, pure]
  congr 2
  omega

/-! ## Claim on wall tiling -/

theorem foldlM_prefix {σ α : Type} (f : σ → α → Option σ) (P : List α → σ → Prop)
    (l : List α)
    (hstep : ∀ done a rest s, done ++ a :: rest = l → P done s →
      ∃ s', f s a = some s' ∧ P (done ++ [a]) s') :
    ∀ rest done s, done ++ rest = l → P done s →
      ∃ s', rest.foldlM f s = some s' ∧ P l s' := by
  intro rest
  induction rest with
  | nil =>
    intro done s hl hp
    rw [List.append_nil] at hl
    subst hl
    exact ⟨s, rfl, hp⟩
  | cons a rest ih =>
    intro done s hl hp
    obtain ⟨s1, h1, hp1⟩ := hstep done a rest s hl hp
    obtain ⟨s2, h2, hp2⟩ := ih (done ++ [a]) s1 (by simpa using hl) hp1
    exact ⟨s2, by rw [List.foldlM_cons, h1]; exact h2, hp2⟩

theorem range5_split (done rest : List Int) (row : Int) (h : done ++ row :: rest = range5) :
    0 ≤ row ∧ row < 5 ∧ row ∉ done := by
  have hmem : row ∈ range5 := by rw [← h]; simp
  have hnd : (done ++ row :: rest).Nodup := by rw [h]; decide
  refine ⟨((mem_range5 row).1 hmem).1, ((mem_range5 row).1 hmem).2, ?_⟩
  intro hd
  rw [List.nodup_append] at hnd
  exact hnd.2.2 hd (List.mem_cons_self _ _)

theorem scorePoints_pos (h v : Int) : 1 ≤ scorePoints h v := by
  simp only [scorePoints]
  split_ifs <;> omega

theorem scoreWallTile_pos (pb : PlayerBoard) (row col pts : Int)
    (h : pb.ScoreWallTile row col = some pts) : 1 ≤ pts := by
  unfold PlayerBoard.ScoreWallTile at h
  simp only [Option.bind_eq_bind, Option.pure_def, bind, pure, Option.bind_eq_some] at h
  obtain ⟨_, _, _, _, _, _, _, _, h5⟩ := h
  simp only [Option.some.injEq] at h5
  rw [← h5]
  exact scorePoints_pos _ _

/-- The state of the row loop of `TileWall` once the rows of `done` are processed. -/
theorem tileWallRow_step (pb : PlayerBoard)
    (hreal : ∀ i pl, pb.PatternLines.get? i = some pl → pl.Filled = pl.Size →
      pl.Color.IsReal = true)
    (done : List Int) (row : Int) (s : PlayerBoard × List TileColor)
    (hrow0 : 0 ≤ row) (hrow5 : row < 5) (hnot : row ∉ done)
    (hL : ∀ i pl, pb.PatternLines.get? i = some pl →
      s.1.PatternLines.get? i =
        some (if i ∈ done ∧ pl.Filled = pl.Size then ⟨pl.Size, TileColor.NoTile, 0⟩ else pl))
    (hWa : ∀ r pl c, r ∈ done → pb.PatternLines.get? r = some pl → pl.Filled = pl.Size →
      pb.GetWallColumn r pl.Color = some c → s.1.Wall.get2? r c = some true)
    (hWb : ∀ r c, ¬ (r ∈ done ∧ ∃ pl, pb.PatternLines.get? r = some pl ∧
      pl.Filled = pl.Size ∧ pb.GetWallColumn r pl.Color = some c) →
      s.1.Wall.get2? r c = pb.Wall.get2? r c)
    (hF : s.1.FloorLine = pb.FloorLine)
    (hD : s.2 = done.flatMap (fun i => rowDiscards pb i)) :
    ∃ s', PlayerBoard.tileWallRow s row = some s' ∧
      (∀ i pl, pb.PatternLines.get? i = some pl →
        s'.1.PatternLines.get? i =
          some (if i ∈ done ++ [row] ∧ pl.Filled = pl.Size
            then ⟨pl.Size, TileColor.NoTile, 0⟩ else pl)) ∧
      (∀ r pl c, r ∈ done ++ [row] → pb.PatternLines.get? r = some pl →
        pl.Filled = pl.Size → pb.GetWallColumn r pl.Color = some c →
        s'.1.Wall.get2? r c = some true) ∧
      (∀ r c, ¬ (r ∈ done ++ [row] ∧ ∃ pl, pb.PatternLines.get? r = some pl ∧
        pl.Filled = pl.Size ∧ pb.GetWallColumn r pl.Color = some c) →
        s'.1.Wall.get2? r c = pb.Wall.get2? r c) ∧
      s'.1.FloorLine = pb.FloorLine ∧
      s'.2 = (done ++ [row]).flatMap (fun i => rowDiscards pb i) := by
  obtain ⟨pl, hpl⟩ := (Arr5.get?_isSome_iff pb.PatternLines row).2 ⟨hrow0, hrow5⟩
  have hspl : s.1.PatternLines.get? row = some pl := by
    rw [hL row pl hpl, if_neg (fun h => hnot h.1)]
  by_cases hfull : pl.Filled = pl.Size
  · have hf : pl.IsFull = true := by simp [PatternLine.IsFull, hfull]
    obtain ⟨lines, col, wall, pts, hlines, hcol, _, _, _, hwall, hres⟩ :=
      tileWallRow_full s row pl hspl hf (hreal row pl hpl hfull)
    have hcol2 : pb.GetWallColumn row pl.Color = some col := hcol
    refine ⟨_, hres, ?_, ?_, ?_, hF, ?_⟩
    · intro i pl2 hget
      simp only
      rw [Arr5.get?_set? _ _ _ _ hlines]
      by_cases hi : i = row
      · subst hi
        rw [hpl] at hget
        simp only [Option.some.injEq] at hget
        subst hget
        simp [hfull]
      · rw [if_neg hi, hL i pl2 hget]
        simp [hi]
    · intro r pl2 c hr hget hfull2 hc
      simp only
      rw [Arr5.get2?_set2? _ _ _ _ _ hwall]
      by_cases hrr : r = row
      · subst hrr
        rw [hpl] at hget
        simp only [Option.some.injEq] at hget
        subst hget
        rw [hcol2] at hc
        simp only [Option.some.injEq] at hc
        simp [hc]
      · rw [if_neg (fun h => hrr h.1)]
        have hr2 : r ∈ done := by
          rcases List.mem_append.1 hr with h | h
          · exact h
          · exact absurd (List.mem_singleton.1 h) hrr
        exact hWa r pl2 c hr2 hget hfull2 hc
    · intro r c hno
      simp only
      rw [Arr5.get2?_set2? _ _ _ _ _ hwall]
      have hne : ¬ (r = row ∧ c = col) := by
        rintro ⟨h1, h2⟩
        subst h1; subst h2
        exact hno ⟨by simp, pl, hpl, hfull, hcol2⟩
      rw [if_neg hne]
      apply hWb
      rintro ⟨h1, h2⟩
      exact hno ⟨List.mem_append_left _ h1, h2⟩
    · simp only [List.flatMap_append, List.flatMap_cons, List.flatMap_nil, List.append_nil, hD]
      congr 1
      simp [rowDiscards, hpl, hfull]
  · have hf : pl.IsFull = false := by simp [PatternLine.IsFull, hfull]
    refine ⟨s, tileWallRow_notFull s row pl hspl hf, ?_, ?_, ?_, hF, ?_⟩
    · intro i pl2 hget
      rw [hL i pl2 hget]
      by_cases hi : i = row
      · subst hi
        rw [hpl] at hget
        simp only [Option.some.injEq] at hget
        subst hget
        simp [hfull]
      · simp [hi]
    · intro r pl2 c hr hget hfull2 hc
      have hr2 : r ∈ done := by
        rcases List.mem_append.1 hr with h | h
        · exact h
        · rw [List.mem_singleton.1 h, hpl] at hget
          simp only [Option.some.injEq] at hget
          subst hget
          exact absurd hfull2 hfull
      exact hWa r pl2 c hr2 hget hfull2 hc
    · intro r c hno
      apply hWb
      rintro ⟨h1, h2⟩
      exact hno ⟨List.mem_append_left _ h1, h2⟩
    · simp only [List.flatMap_append, List.flatMap_cons, List.flatMap_nil, List.append_nil, hD]
      simp [rowDiscards, hpl, hfull]

theorem tileWall_spec (pb : PlayerBoard)
    (hreal : ∀ i pl, pb.PatternLines.get? i = some pl → pl.Filled = pl.Size →
      pl.Color.IsReal = true) :
    ∃ r, pb.TileWall = some r ∧
      (∀ i pl, pb.PatternLines.get? i = some pl →
        r.1.PatternLines.get? i =
          some (if pl.Filled = pl.Size then ⟨pl.Size, TileColor.NoTile, 0⟩ else pl)) ∧
      (∀ i pl c, pb.PatternLines.get? i = some pl → pl.Filled = pl.Size →
        pb.GetWallColumn i pl.Color = some c → r.1.Wall.get2? i c = some true) ∧
      (∀ i c, ¬ (∃ pl, pb.PatternLines.get? i = some pl ∧ pl.Filled = pl.Size ∧
        pb.GetWallColumn i pl.Color = some c) → r.1.Wall.get2? i c = pb.Wall.get2? i c) ∧
      r.1.FloorLine = pb.FloorLine ∧ r.2 = tileWallDiscards pb := by
  obtain ⟨s', hs', hL, hWa, hWb, hF, hD⟩ := foldlM_prefix PlayerBoard.tileWallRow
    (fun done s =>
      (∀ i pl, pb.PatternLines.get? i = some pl →
        s.1.PatternLines.get? i =
          some (if i ∈ done ∧ pl.Filled = pl.Size
            then ⟨pl.Size, TileColor.NoTile, 0⟩ else pl)) ∧
      (∀ r pl c, r ∈ done → pb.PatternLines.get? r = some pl →
        pl.Filled = pl.Size → pb.GetWallColumn r pl.Color = some c →
        s.1.Wall.get2? r c = some true) ∧
      (∀ r c, ¬ (r ∈ done ∧ ∃ pl, pb.PatternLines.get? r = some pl ∧
        pl.Filled = pl.Size ∧ pb.GetWallColumn r pl.Color = some c) →
        s.1.Wall.get2? r c = pb.Wall.get2? r c) ∧
      s.1.FloorLine = pb.FloorLine ∧
      s.2 = done.flatMap (fun i => rowDiscards pb i))
    range5
    (by
      intro done row rest s hsplit hp
      obtain ⟨h0, h5, hnot⟩ := range5_split done rest row hsplit
      obtain ⟨hL, hWa, hWb, hF, hD⟩ := hp
      exact tileWallRow_step pb hreal done row s h0 h5 hnot hL hWa hWb hF hD)
    range5 [] (pb, []) rfl
    ⟨by intro i pl h; simp [h], by intro r pl c hr; simp at hr, by intro r c _; rfl, rfl,
      by simp⟩
  refine ⟨s', hs', ?_, ?_, ?_, hF, hD⟩
  · intro i pl hget
    rw [hL i pl hget]
    have hi : i ∈ range5 := (mem_range5 i).2 ((Arr5.get?_isSome_iff _ _).1 ⟨pl, hget⟩)
    simp [hi]
  · intro i pl c hget hfull hc
    exact hWa i pl c ((mem_range5 i).2 ((Arr5.get?_isSome_iff _ _).1 ⟨pl, hget⟩)) hget hfull hc
  · intro i c hno
    apply hWb
    rintro ⟨_, h⟩
    exact hno h
theorem tilingBoard_real : ∀ i pl, tilingBoard.PatternLines.get? i = some pl →
    pl.Filled = pl.Size → pl.Color.IsReal = true := by
  intro i pl hget hfull
  obtain ⟨h0, h5⟩ := (Arr5.get?_isSome_iff _ _).1 ⟨pl, hget⟩
  interval_cases i <;> simp [tilingBoard, Arr5.get?] at hget <;> subst hget <;>
    first | rfl | (simp at hfull)

/-- C13: `TileWall`.  For every board whose full lines hold real colours, `TileWall`
returns a board and a discard list such that: every line that was full is cleared
(`Filled = 0`, `Color = NoTile`, same `Size`) and the wall cell
`(row, GetWallColumn(row, colour))` is occupied; every line that was not full is
unchanged; no other wall cell and no floor entry changes; and the discard list is, for
the full rows in ascending order, `Size - 1` copies of the colour of the line, which is
row-index many copies when the line has capacity `row + 1`. -/
theorem C13_tileWall (pb : PlayerBoard)
    (hreal : ∀ i pl, pb.PatternLines.get? i = some pl → pl.Filled = pl.Size →
      pl.Color.IsReal = true) :
    ∃ pb' ds, pb.TileWall = some (pb', ds) ∧
      (∀ i pl, pb.PatternLines.get? i = some pl → pl.Filled = pl.Size →
        (∃ pl', pb'.PatternLines.get? i = some pl' ∧ pl'.Filled = 0 ∧
          pl'.Color = TileColor.NoTile ∧ pl'.Size = pl.Size) ∧
        ∃ c, pb.GetWallColumn i pl.Color = some c ∧ pb'.Wall.get2? i c = some true) ∧
      (∀ i pl, pb.PatternLines.get? i = some pl → pl.Filled ≠ pl.Size →
        pb'.PatternLines.get? i = some pl) ∧
      (∀ i c, ¬ (∃ pl, pb.PatternLines.get? i = some pl ∧ pl.Filled = pl.Size ∧
        pb.GetWallColumn i pl.Color = some c) → pb'.Wall.get2? i c = pb.Wall.get2? i c) ∧
      pb'.FloorLine = pb.FloorLine ∧
      ds = range5.flatMap (fun i => rowDiscards pb i) ∧
      (∀ i pl, pb.PatternLines.get? i = some pl →
        rowDiscards pb i =
          (if pl.Filled = pl.Size then List.replicate (pl.Size - 1).toNat pl.Color else []) ∧
        (pl.Size = i + 1 → (pl.Size - 1).toNat = i.toNat)) := by
  obtain ⟨r, hr, hL, hWa, hWb, hF, hD⟩ := tileWall_spec pb hreal
  refine ⟨r.1, r.2, hr, ?_, ?_, hWb, hF, hD, ?_⟩
  · intro i pl hget hfull
    obtain ⟨h0, h5⟩ := (Arr5.get?_isSome_iff _ _).1 ⟨pl, hget⟩
    obtain ⟨c, hc, _⟩ := wallColumn_real i pl.Color h0 h5 (hreal i pl hget hfull) pb
    refine ⟨⟨_, hL i pl hget, ?_, ?_, ?_⟩, c, hc, hWa i pl c hget hfull hc⟩ <;>
      simp [hfull]
  · intro i pl hget hnf
    rw [hL i pl hget, if_neg hnf]
  · intro i pl hget
    refine ⟨by simp [rowDiscards, hget], fun h => by omega⟩

/-- Witness of C13 on `tilingBoard`. -/
theorem C13_tileWall_witness :
    ∃ pb' ds, tilingBoard.TileWall = some (pb', ds) ∧
      (∀ i pl, tilingBoard.PatternLines.get? i = some pl → pl.Filled = pl.Size →
        (∃ pl', pb'.PatternLines.get? i = some pl' ∧ pl'.Filled = 0 ∧
          pl'.Color = TileColor.NoTile ∧ pl'.Size = pl.Size) ∧
        ∃ c, tilingBoard.GetWallColumn i pl.Color = some c ∧
          pb'.Wall.get2? i c = some true) ∧
      (∀ i pl, tilingBoard.PatternLines.get? i = some pl → pl.Filled ≠ pl.Size →
        pb'.PatternLines.get? i = some pl) ∧
      (∀ i c, ¬ (∃ pl, tilingBoard.PatternLines.get? i = some pl ∧ pl.Filled = pl.Size ∧
        tilingBoard.GetWallColumn i pl.Color = some c) →
        pb'.Wall.get2? i c = tilingBoard.Wall.get2? i c) ∧
      pb'.FloorLine = tilingBoard.FloorLine ∧
      ds = range5.flatMap (fun i => rowDiscards tilingBoard i) ∧
      (∀ i pl, tilingBoard.PatternLines.get? i = some pl →
        rowDiscards tilingBoard i =
          (if pl.Filled = pl.Size then List.replicate (pl.Size - 1).toNat pl.Color else []) ∧
        (pl.Size = i + 1 → (pl.Size - 1).toNat = i.toNat)) :=
  C13_tileWall tilingBoard tilingBoard_real

/-! ## Claim on the pattern-line invariant -/

theorem newGame_spec (raw : Int → Nat → Nat) (now numPlayers : Int) :
    ∃ (n2 : Int) (fs : List Factory) (b : Bag), 2 ≤ n2 ∧ n2 ≤ 4 ∧
      n2 = min 4 (max 2 numPlayers) ∧
      Game.NewGame raw now numPlayers =
        some { Players := List.replicate n2.toNat NewPlayerBoard
               Factories := fs
               Center := Center.NewCenter
               Bag := b
               CurrentPlayer := 0
               FirstPlayer := 0
               Round := 1
               GameOver := false
               NumPlayers := n2 } ∧
      fs.length = (n2 * 2 + 1).toNat ∧
      ((fs.map (fun f => f.Tiles)).flatten ++ (b.tiles ++ b.discards)).Perm
        ((Bag.NewBag raw now).tiles ++ (Bag.NewBag raw now).discards) := by
  have hn : ∃ n2 : Int, (if (if numPlayers < 2 then 2 else numPlayers) > 4 then 4
      else (if numPlayers < 2 then 2 else numPlayers)) = n2 ∧ 2 ≤ n2 ∧ n2 ≤ 4 ∧
      n2 = min 4 (max 2 numPlayers) := by
    refine ⟨_, rfl, ?_, ?_, ?_⟩ <;> split_ifs <;> omega
  obtain ⟨n2, hn2, hlo, hhi, hmin⟩ := hn
  unfold Game.NewGame
  simp only [hn2]
  obtain ⟨fs, b, hsetup, hlen, hperm⟩ := setupRound_spec raw
    { Players := List.replicate n2.toNat NewPlayerBoard
      Factories := List.replicate (n2 * 2 + 1).toNat Factory.NewFactory
      Center := Center.NewCenter
      Bag := Bag.NewBag raw now
      CurrentPlayer := 0
      FirstPlayer := 0
      Round := 1
      GameOver := false
      NumPlayers := n2 }
  exact ⟨n2, fs, b, hlo, hhi, hmin, hsetup, by simpa using hlen, hperm⟩

theorem newGame_inv (raw : Int → Nat → Nat) (now numPlayers : Int) (g : Game)
    (h : Game.NewGame raw now numPlayers = some g) : g.Inv := by
  obtain ⟨n2, fs, b, hlo, hhi, _, heq, _, hperm⟩ := newGame_spec raw now numPlayers
  rw [heq] at h
  simp only [Option.some.injEq] at h
  subst h
  obtain ⟨hd, hl, hreal⟩ := newBag_spec raw now
  rw [hd, List.append_nil] at hperm
  have hall : ∀ t ∈ (fs.map (fun f => f.Tiles)).flatten ++ (b.tiles ++ b.discards),
      t.IsReal = true := fun t ht => hreal t (hperm.mem_iff.1 ht)
  have hlen := hperm.length_eq
  simp only [List.length_append] at hlen
  have hfl : (fs.map (fun f => (f.Tiles.length : Int))).sum =
      ((fs.map (fun f => f.Tiles)).flatten.length : Int) := by
    rw [← sum_map_length_flatten, List.map_map]
    rfl
  refine ⟨le_refl _, ?_, ?_, le_refl _, ?_, ?_, ?_, ?_, ?_, ?_, ?_⟩
  · simp only [List.length_replicate]; omega
  · simp only [List.length_replicate]; omega
  · simp only [List.length_replicate]; omega
  · intro f hf t ht
    apply hall t
    apply List.mem_append_left
    rw [List.mem_flatten]
    exact ⟨f.Tiles, List.mem_map_of_mem _ hf, ht⟩
  · intro t ht
    simp [Center.NewCenter] at ht
  · intro t ht
    exact hall t (List.mem_append_right _ (List.mem_append_left _ ht))
  · intro t ht
    exact hall t (List.mem_append_right _ (List.mem_append_right _ ht))
  · intro pb hpb
    rw [(List.mem_replicate.1 hpb).2]
    exact newPlayerBoard_inv.1
  · unfold Game.tileCount
    simp only [hfl, Center.NewCenter, List.length_nil, Nat.cast_zero]
    rw [sum_replicate_zero _ _ _ newPlayerBoard_inv.2]
    omega

theorem isNewGame_inv (raw : Int → Nat → Nat) (g : Game) (h : IsNewGame raw g) : g.Inv := by
  rcases h with ⟨now, n, h⟩ | ⟨now, n, seed, h⟩
  · exact newGame_inv raw now n g h
  · obtain ⟨g0, hg0, hinv⟩ := newGameWithSeed_inv raw now n seed
    rw [h] at hg0
    simp only [Option.some.injEq] at hg0
    subst hg0
    exact hinv

theorem validPlay_inv (raw : Int → Nat → Nat) (g0 g : Game) (h0 : g0.Inv)
    (h : ValidPlay raw g0 g) : g.Inv := by
  induction h with
  | start => exact h0
  | step g g1 ms m _ hms hm happ ih => exact applyMove_inv raw g g1 ms m ih hms hm happ

theorem reachable_validPlay (raw : Int → Nat → Nat) (now numPlayers seed : Int) (g : Game)
    (h : Reachable raw now numPlayers seed g) :
    ∃ g0, Game.NewGameWithSeed raw now numPlayers seed = some g0 ∧ ValidPlay raw g0 g := by
  induction h with
  | init g hg => exact ⟨g, hg, ValidPlay.start⟩
  | step g g1 ms m _ hms hm happ ih =>
    obtain ⟨g0, hg0, hv⟩ := ih
    exact ⟨g0, hg0, ValidPlay.step g g1 ms m hv hms hm happ⟩

theorem validPlay_anyPlay (raw : Int → Nat → Nat) (g0 g : Game) (h : ValidPlay raw g0 g) :
    AnyPlay raw g0 g := by
  induction h with
  | start => exact AnyPlay.start
  | step g g1 ms m _ _ _ happ ih => exact AnyPlay.step g g1 m false ih happ

theorem inv_line (pb : PlayerBoard) (h : pb.Inv) (i : Int) (pl : PatternLine)
    (hget : pb.PatternLines.get? i = some pl) :
    0 ≤ i ∧ i < 5 ∧ pl.Size = i + 1 ∧ 0 ≤ pl.Filled ∧ pl.Filled ≤ pl.Size ∧
    (pl.Filled = 0 ↔ pl.Color = TileColor.NoTile) ∧
    (pl.Filled ≠ 0 → pl.Color.IsReal = true ∧
      ∃ c, WallPattern.get2? i c = some pl.Color ∧ pb.Wall.get2? i c = some false) := by
  obtain ⟨h0, h5⟩ := (Arr5.get?_isSome_iff _ _).1 ⟨pl, hget⟩
  obtain ⟨l1, l2, l3, l4, l5⟩ := h.lines i pl hget
  refine ⟨h0, h5, l1, l2, l3, ⟨l4, ?_⟩, ?_⟩
  · intro hno
    by_contra hne
    have := (l5 hne).1
    rw [hno] at this
    simp [TileColor.IsReal] at this
  · intro hne
    obtain ⟨hreal, hfree⟩ := l5 hne
    obtain ⟨c, _, _, _, hpat, _⟩ := wallColumn_real i pl.Color h0 h5 hreal pb
    exact ⟨hreal, c, hpat, hfree c hpat⟩

/-- C12: pattern-line invariant.  In every state reachable from a new game by applying
moves from `GetValidMoves`, every board has a line for each row `i` in `0..4`, and that
line has `Size = i + 1` and `0 ≤ Filled ≤ Size`, has `Filled = 0` if and only if its
colour is `NoTile`, and when not empty holds one of the five real colours whose wall cell
in row `i` is unoccupied. -/
theorem C12_patternLine_invariant (raw : Int → Nat → Nat) (g0 g : Game)
    (hnew : IsNewGame raw g0) (hplay : ValidPlay raw g0 g) :
    ∀ pb ∈ g.Players,
      (∀ i, 0 ≤ i → i < 5 → ∃ pl, pb.PatternLines.get? i = some pl) ∧
      ∀ i pl, pb.PatternLines.get? i = some pl →
        0 ≤ i ∧ i < 5 ∧ pl.Size = i + 1 ∧ 0 ≤ pl.Filled ∧ pl.Filled ≤ pl.Size ∧
        (pl.Filled = 0 ↔ pl.Color = TileColor.NoTile) ∧
        (pl.Filled ≠ 0 → pl.Color.IsReal = true ∧
          ∃ c, WallPattern.get2? i c = some pl.Color ∧ pb.Wall.get2? i c = some false) := by
  intro pb hpb
  have hinv := (validPlay_inv raw g0 g (isNewGame_inv raw g0 hnew) hplay).boards pb hpb
  exact ⟨fun i h0 h5 => (Arr5.get?_isSome_iff _ _).2 ⟨h0, h5⟩,
    fun i pl hget => inv_line pb hinv i pl hget⟩

/-- Witness of C12 on `play6`, reached from the new game `play0` by the six moves of round
one. -/
theorem C12_patternLine_invariant_witness :
    ∃ g0, IsNewGame rawZero g0 ∧ ValidPlay rawZero g0 play6 ∧
      ∀ pb ∈ play6.Players,
        (∀ i, 0 ≤ i → i < 5 → ∃ pl, pb.PatternLines.get? i = some pl) ∧
        ∀ i pl, pb.PatternLines.get? i = some pl →
          0 ≤ i ∧ i < 5 ∧ pl.Size = i + 1 ∧ 0 ≤ pl.Filled ∧ pl.Filled ≤ pl.Size ∧
          (pl.Filled = 0 ↔ pl.Color = TileColor.NoTile) ∧
          (pl.Filled ≠ 0 → pl.Color.IsReal = true ∧
            ∃ c, WallPattern.get2? i c = some pl.Color ∧
              pb.Wall.get2? i c = some false) := by
  obtain ⟨g0, hg0, hv⟩ := reachable_validPlay rawZero 0 2 42 play6 reachable_play6.2.1
  exact ⟨g0, Or.inr ⟨0, 2, 42, hg0⟩, hv,
    C12_patternLine_invariant rawZero g0 play6 (Or.inr ⟨0, 2, 42, hg0⟩) hv⟩

/-! ## Claim on scores never being negative -/

theorem tileWallRow_score (s s' : PlayerBoard × List TileColor) (row : Int)
    (h : PlayerBoard.tileWallRow s row = some s') : s.1.Score ≤ s'.1.Score := by
  unfold PlayerBoard.tileWallRow at h
  cases hpl : s.1.PatternLines.get? row with
  | none => simp [hpl] at h
  | some pl =>
    simp only [hpl, Option.bind_eq_bind, Option.some_bind, Option.pure_def, bind, pure] at h
    split_ifs at h with hf
    · simp only [Option.some.injEq] at h
      subst h
      exact le_refl _
    · simp only [Option.bind_eq_some] at h
      obtain ⟨lines, _, col, _, wall, _, pts, hpts, hres⟩ := h
      simp only [Option.some.injEq] at hres
      subst hres
      have := scoreWallTile_pos _ _ _ _ hpts
      simp only
      omega

theorem foldlM_mono {σ α : Type} (f : σ → α → Option σ) (m : σ → Int)
    (hstep : ∀ s a s', f s a = some s' → m s ≤ m s') :
    ∀ (l : List α) (s s' : σ), l.foldlM f s = some s' → m s ≤ m s' := by
  intro l
  induction l with
  | nil =>
    intro s s' h
    simp only [List.foldlM_nil, Option.pure_def, pure, Option.some.injEq] at h
    subst h
    exact le_refl _
  | cons a l ih =>
    intro s s' h
    rw [List.foldlM_cons] at h
    cases h1 : f s a with
    | none => simp [h1] at h
    | some s1 =>
      rw [h1] at h
      exact le_trans (hstep s a s1 h1) (ih s1 s' h)

theorem tileWall_score (pb : PlayerBoard) (r : PlayerBoard × List TileColor)
    (h : pb.TileWall = some r) : pb.Score ≤ r.1.Score :=
  foldlM_mono PlayerBoard.tileWallRow (fun s => s.1.Score)
    (fun s a s1 h1 => tileWallRow_score s s1 a h1) range5 (pb, []) r h

theorem endGameBonus_nonneg (w : Arr5 (Arr5 Bool)) : 0 ≤ endGameBonus w := by
  unfold endGameBonus
  omega

theorem endRoundLoop_score :
    ∀ (ps : List PlayerBoard) (b : Bag) (r : List PlayerBoard × Bag),
      endRoundLoop ps b = some r → ∀ p ∈ r.1, 0 ≤ p.Score := by
  intro ps
  induction ps with
  | nil =>
    intro b r h
    simp only [endRoundLoop, Option.some.injEq] at h
    subst h
    simp
  | cons p ps ih =>
    intro b r h
    unfold endRoundLoop at h
    cases htw : p.TileWall with
    | none => simp [htw] at h
    | some tw =>
      simp only [htw] at h
      cases hr : endRoundLoop ps ((b.Discard tw.2).Discard tw.1.ScoreFloorLine.2) with
      | none => simp [hr] at h
      | some r1 =>
        simp only [hr, Option.some.injEq] at h
        subst h
        intro q hq
        rcases List.mem_cons.1 hq with hq | hq
        · subst hq
          rw [scoreFloorLine_score]
          exact le_max_left _ _
        · exact ih _ r1 hr q hq

theorem endGameLoop_eq :
    ∀ ps : List PlayerBoard,
      Game.endGameLoop ps =
        some (ps.map (fun p => { p with Score := p.Score + endGameBonus p.Wall })) := by
  intro ps
  induction ps with
  | nil => rfl
  | cons p ps ih => simp [Game.endGameLoop, scoreEndGame_eq, ih]

theorem placeTiles_score (pb p2 : PlayerBoard) (lineIdx : Int) (color : TileColor)
    (count : Int) (h : pb.PlaceTiles lineIdx color count = some p2) : p2.Score = pb.Score := by
  unfold PlayerBoard.PlaceTiles at h
  split_ifs at h with hl
  · simp only [Option.some.injEq] at h
    subst h; rfl
  · cases hpl : pb.PatternLines.get? lineIdx with
    | none => simp [hpl] at h
    | some pl =>
      cases hset : pb.PatternLines.set? lineIdx (pl.Add color count).1 with
      | none => simp [hpl, hset] at h
      | some lines =>
        simp only [hpl, hset, Option.some.injEq] at h
        subst h; rfl

theorem endRound_score (raw : Int → Nat → Nat) (g g1 : Game)
    (h : Game.EndRound raw g = some g1) : ∀ p ∈ g1.Players, 0 ≤ p.Score := by
  unfold Game.EndRound at h
  cases hr : endRoundLoop g.Players g.Bag with
  | none => simp [hr] at h
  | some r =>
    have hsc := endRoundLoop_score g.Players g.Bag r hr
    simp only [hr] at h
    split_ifs at h with hany
    · simp only [Game.EndGame, endGameLoop_eq, Option.some.injEq] at h
      subst h
      intro p hp
      simp only [List.mem_map] at hp
      obtain ⟨q, hq, rfl⟩ := hp
      have := hsc q hq
      have := endGameBonus_nonneg q.Wall
      simp only
      omega
    · obtain ⟨fs, b, hsetup, _, _⟩ := setupRound_spec raw
        { g with Players := r.1, Bag := r.2, Round := g.Round + 1,
                 CurrentPlayer := g.FirstPlayer }
      rw [hsetup] at h
      simp only [Option.some.injEq] at h
      subst h
      exact hsc

theorem scores_of_map_eq (ps qs : List PlayerBoard)
    (h : ps.map (fun p => p.Score) = qs.map (fun p => p.Score))
    (hq : ∀ p ∈ qs, 0 ≤ p.Score) : ∀ p ∈ ps, 0 ≤ p.Score := by
  intro p hp
  have : p.Score ∈ qs.map (fun p => p.Score) := by
    rw [← h]; exact List.mem_map_of_mem _ hp
  obtain ⟨q, hq1, hq2⟩ := List.mem_map.1 this
  rw [← hq2]; exact hq q hq1

theorem applyMove_score (raw : Int → Nat → Nat) (g g1 : Game) (m : Move) (e : Bool)
    (hsc : ∀ p ∈ g.Players, 0 ≤ p.Score) (h : Game.ApplyMove raw g m = some (g1, e)) :
    ∀ p ∈ g1.Players, 0 ≤ p.Score := by
  unfold Game.ApplyMove at h
  cases hp : idx? g.Players g.CurrentPlayer with
  | none => simp [hp] at h
  | some player =>
    cases ht : Game.takeTiles g player m with
    | none => simp [hp, ht] at h
    | some r =>
      obtain ⟨ga, p1, tiles⟩ := r
      obtain ⟨_, _, _, _, _, e6, _, _, _, e10, _, _, e13, _⟩ :=
        takeTiles_frame g ga player p1 m tiles hp ht
      have hga : ∀ p ∈ ga.Players, 0 ≤ p.Score := scores_of_map_eq _ _ e6 hsc
      simp only [hp, ht] at h
      split_ifs at h with hlen
      · simp only [Option.some.injEq, Prod.mk.injEq] at h
        rw [← h.1]; exact hga
      · cases hpl : p1.PlaceTiles m.LineIdx m.Color tiles.length with
        | none => simp [hpl] at h
        | some p2 =>
          have hp2 : 0 ≤ p2.Score := by
            rw [placeTiles_score p1 p2 _ _ _ hpl]
            exact hga p1 (idx?_mem _ _ _ e10)
          have hg2 : ∀ p ∈ (Game.setPlayer ga p2).Players, 0 ≤ p.Score := by
            intro p hpm
            rcases List.mem_or_eq_of_mem_set hpm with h1 | h1
            · exact hga p h1
            · rw [h1]; exact hp2
          simp only [hpl] at h
          split_ifs at h with hover
          · cases hr : Game.EndRound raw (Game.setPlayer ga p2) with
            | none => simp [hr] at h
            | some g3 =>
              simp only [hr, Option.some.injEq, Prod.mk.injEq] at h
              rw [← h.1]
              exact endRound_score raw _ g3 hr
          · cases hr : Game.NextPlayer (Game.setPlayer ga p2) with
            | none => simp [hr] at h
            | some g3 =>
              simp only [hr, Option.some.injEq, Prod.mk.injEq] at h
              rw [← h.1]
              unfold Game.NextPlayer at hr
              split_ifs at hr
              simp only [Option.some.injEq] at hr
              rw [← hr]
              exact hg2

theorem anyPlay_score (raw : Int → Nat → Nat) (g0 g : Game)
    (h0 : ∀ p ∈ g0.Players, 0 ≤ p.Score) (h : AnyPlay raw g0 g) :
    ∀ p ∈ g.Players, 0 ≤ p.Score := by
  induction h with
  | start => exact h0
  | step g g1 m e _ happ ih => exact applyMove_score raw g g1 m e ih happ

theorem isNewGame_score (raw : Int → Nat → Nat) (g : Game) (h : IsNewGame raw g) :
    ∀ p ∈ g.Players, p.Score = 0 := by
  have key : ∀ (g1 g2 : Game), Game.SetupRound raw g1 = some g2 → g2.Players = g1.Players := by
    intro g1 g2 h
    obtain ⟨fs, b, hsetup, _, _⟩ := setupRound_spec raw g1
    rw [hsetup] at h
    simp only [Option.some.injEq] at h
    rw [← h]
  rcases h with ⟨now, n, h⟩ | ⟨now, n, seed, h⟩
  · obtain ⟨n2, fs, b, _, _, _, heq, _, _⟩ := newGame_spec raw now n
    rw [heq] at h
    simp only [Option.some.injEq] at h
    subst h
    intro p hp
    rw [(List.mem_replicate.1 hp).2]
    rfl
  · unfold Game.NewGameWithSeed at h
    obtain ⟨n2, fs, b, _, _, _, heq, _, _⟩ := newGame_spec raw now n
    rw [heq] at h
    simp only at h
    have := key _ _ h
    intro p hp
    rw [this] at hp
    simp only at hp
    rw [(List.mem_replicate.1 hp).2]
    rfl

theorem score_nonneg (raw : Int → Nat → Nat) (g0 g : Game)
    (hnew : IsNewGame raw g0) (hplay : AnyPlay raw g0 g) :
    (∀ p ∈ g.Players, 0 ≤ p.Score) ∧
    (∀ pb : PlayerBoard, 0 ≤ pb.ScoreFloorLine.1.Score) ∧
    (∀ (pb : PlayerBoard) (r : PlayerBoard × List TileColor),
      pb.TileWall = some r → pb.Score ≤ r.1.Score) ∧
    (∀ pb : PlayerBoard, pb.WellFormed → ∃ r, pb.TileWall = some r ∧ pb.Score ≤ r.1.Score) ∧
    (∀ pb : PlayerBoard, ∃ p1, pb.ScoreEndGame = some p1 ∧ pb.Score ≤ p1.Score) := by
  refine ⟨anyPlay_score raw g0 g ?_ hplay, ?_, tileWall_score, ?_, ?_⟩
  · intro p hp
    rw [isNewGame_score raw g0 hnew p hp]
  · intro pb
    rw [scoreFloorLine_score]
    exact le_max_left _ _
  · intro pb hwf
    obtain ⟨r, hr, _⟩ := tileWall_wellFormed pb hwf
    exact ⟨r, hr, tileWall_score pb r hr⟩
  · intro pb
    refine ⟨_, scoreEndGame_eq pb, ?_⟩
    have := endGameBonus_nonneg pb.Wall
    simp only
    omega

/-! ## Claim on the game-end transition -/

theorem hasCompletedRow_iff (pb : PlayerBoard) :
    pb.HasCompletedRow = true ↔ ∃ r ∈ range5, rowFull pb.Wall r = true := by
  have h : ∀ (r : Fin 5), rowComplete pb.Wall r = rowFull pb.Wall ((r : Nat) : Int) := by
    intro r
    fin_cases r <;>
      simp [rowComplete, rowFull, fin5, range5, occupied, Arr5.get_lit, Arr5.get2?, Arr5.get?]
  unfold PlayerBoard.HasCompletedRow
  rw [range5_eq_map, List.any_eq_true]
  constructor
  · rintro ⟨r, hr, hc⟩
    exact ⟨_, List.mem_map_of_mem _ hr, by rw [← h r]; exact hc⟩
  · rintro ⟨r, hr, hc⟩
    obtain ⟨q, hq, rfl⟩ := List.mem_map.1 hr
    exact ⟨q, hq, by rw [h q]; exact hc⟩

theorem endRoundLoop_forall₂ :
    ∀ (ps qs : List PlayerBoard) (b : Bag),
      List.Forall₂ (fun p q => ∃ tw, p.TileWall = some tw ∧ q = tw.1.ScoreFloorLine.1) ps qs →
      ∃ b1, endRoundLoop ps b = some (qs, b1) ∧ b1.tiles = b.tiles ∧ b1.rng = b.rng ∧
        b1.seed = b.seed := by
  intro ps qs b h
  induction h generalizing b with
  | nil => exact ⟨b, rfl, rfl, rfl, rfl⟩
  | cons hpq _ ih =>
    obtain ⟨tw, htw, rfl⟩ := hpq
    obtain ⟨b1, h1, h2, h3, h4⟩ := ih ((b.Discard tw.2).Discard tw.1.ScoreFloorLine.2)
    exact ⟨b1, by simp [endRoundLoop, htw, h1], h2, h3, h4⟩

theorem forall₂_scoreEndGame :
    ∀ ps : List PlayerBoard,
      List.Forall₂ (fun q p1 => q.ScoreEndGame = some p1) ps
        (ps.map (fun p => { p with Score := p.Score + endGameBonus p.Wall })) := by
  intro ps
  induction ps with
  | nil => exact List.Forall₂.nil
  | cons p ps ih => exact List.Forall₂.cons (scoreEndGame_eq p) ih

theorem endRound_gameOver (raw : Int → Nat → Nat) (g : Game) (ps : List PlayerBoard)
    (htile : List.Forall₂
      (fun p q => ∃ tw, p.TileWall = some tw ∧ q = tw.1.ScoreFloorLine.1) g.Players ps)
    (hrow : ∃ p ∈ ps, ∃ r ∈ range5, rowFull p.Wall r = true) :
    ∃ g1, Game.EndRound raw g = some g1 ∧ g1.GameOver = true ∧
      List.Forall₂ (fun q p1 => q.ScoreEndGame = some p1) ps g1.Players ∧
      g1.Players = ps.map (fun p => { p with Score := p.Score + endGameBonus p.Wall }) ∧
      g1.Round = g.Round ∧ g1.CurrentPlayer = g.CurrentPlayer ∧
      g1.FirstPlayer = g.FirstPlayer ∧ g1.NumPlayers = g.NumPlayers ∧
      g1.Bag.tiles = g.Bag.tiles ∧ g1.Bag.rng = g.Bag.rng ∧
      g1.Factories = g.Factories ∧ g1.Center = g.Center ∧
      ((∀ f ∈ g.Factories, f.Tiles = []) → ∀ f ∈ g1.Factories, f.Tiles = []) := by
  obtain ⟨b1, h1, h2, h3, _⟩ := endRoundLoop_forall₂ g.Players ps g.Bag htile
  have hany : ps.any (fun player => player.HasCompletedRow) = true := by
    obtain ⟨p, hp, hr⟩ := hrow
    exact List.any_eq_true.2 ⟨p, hp, (hasCompletedRow_iff p).2 hr⟩
  refine ⟨{ g with GameOver := true, Bag := b1,
                   Players := ps.map (fun p => { p with Score := p.Score + endGameBonus p.Wall }) },
    ?_, rfl, forall₂_scoreEndGame ps, rfl, rfl, rfl, rfl, rfl, h2, h3, rfl, rfl, fun h => h⟩
  unfold Game.EndRound
  simp only [h1, hany, if_true, Game.EndGame, endGameLoop_eq]

theorem finalRound_tiled :
    List.Forall₂ (fun p q => ∃ tw, p.TileWall = some tw ∧ q = tw.1.ScoreFloorLine.1)
      finalRound.Players finalBoards ∧
    (∃ p ∈ finalBoards, ∃ r ∈ range5, rowFull p.Wall r = true) ∧
    (∀ f ∈ finalRound.Factories, f.Tiles = []) := by
  refine ⟨List.Forall₂.cons ⟨(finalBoard.TileWall.getD (finalBoard, [])), by decide, by decide⟩
    (List.Forall₂.cons ⟨(tilingBoard.TileWall.getD (tilingBoard, [])), by decide, rfl⟩
      List.Forall₂.nil), ?_, by decide⟩
  exact ⟨_, List.mem_cons_self _ _, 0, by decide, by decide⟩

/-! ## Claims on the winner -/

theorem completedRows_eq (w : Arr5 (Arr5 Bool)) : Game.completedRows w = fullRows w := by
  unfold Game.completedRows fullRows
  rw [foldl_bonus (fun r => rowComplete w r) 1, rowComplete_eq]
  omega

theorem fullRows_nonneg (w : Arr5 (Arr5 Bool)) : 0 ≤ fullRows w := by
  unfold fullRows
  omega

theorem winnerLoop_le (M : Int) :
    ∀ (post : List PlayerBoard) (i w : Int) (t : Bool), (∀ q ∈ post, q.Score ≤ M) →
      Game.winnerLoop post i (M, w, t) =
        (M, w, t || post.any (fun q => decide (q.Score = M))) := by
  intro post
  induction post with
  | nil => intro i w t _; simp [Game.winnerLoop]
  | cons q post ih =>
    intro i w t h
    have hq := h q (List.mem_cons_self _ _)
    have hrest : ∀ r ∈ post, r.Score ≤ M := fun r hr => h r (List.mem_cons_of_mem _ hr)
    unfold Game.winnerLoop
    rw [if_neg (by omega)]
    by_cases he : q.Score = M
    · rw [if_pos he, ih _ _ _ hrest]
      simp [he]
    · rw [if_neg he, ih _ _ _ hrest]
      simp [he]

theorem winnerLoop_split (p : PlayerBoard) (post : List PlayerBoard)
    (hpost : ∀ q ∈ post, q.Score ≤ p.Score) :
    ∀ (pre : List PlayerBoard) (i m w : Int) (t : Bool), (∀ q ∈ pre, q.Score < p.Score) →
      m < p.Score →
      Game.winnerLoop (pre ++ p :: post) i (m, w, t) =
        (p.Score, i + (pre.length : Int),
          post.any (fun q => decide (q.Score = p.Score))) := by
  intro pre
  induction pre with
  | nil =>
    intro i m w t _ hm
    simp only [List.nil_append, Game.winnerLoop]
    rw [if_pos hm, winnerLoop_le _ _ _ _ _ hpost]
    simp
  | cons q pre ih =>
    intro i m w t h hm
    have hq := h q (List.mem_cons_self _ _)
    have hrest : ∀ r ∈ pre, r.Score < p.Score := fun r hr => h r (List.mem_cons_of_mem _ hr)
    have e : i + 1 + (pre.length : Int) = i + ((q :: pre).length : Int) := by
      rw [List.length_cons]; push_cast; ring
    rw [List.cons_append, Game.winnerLoop]
    split_ifs
    · rw [ih _ _ _ _ hrest hq, e]
    · rw [ih _ _ _ _ hrest hm, e]
    · rw [ih _ _ _ _ hrest hm, e]

theorem winnerLoop_tie (M : Int) :
    ∀ (ps : List PlayerBoard) (i m w : Int) (t : Bool), (∀ q ∈ ps, q.Score ≤ M) → m < M →
      2 ≤ ps.countP (fun q => decide (q.Score = M)) →
      (Game.winnerLoop ps i (m, w, t)).1 = M ∧ (Game.winnerLoop ps i (m, w, t)).2.2 = true := by
  intro ps
  induction ps with
  | nil => intro i m w t _ _ h; simp at h
  | cons q ps ih =>
    intro i m w t h hm hc
    have hq := h q (List.mem_cons_self _ _)
    have hrest : ∀ r ∈ ps, r.Score ≤ M := fun r hr => h r (List.mem_cons_of_mem _ hr)
    by_cases he : q.Score = M
    · have hc1 : 0 < ps.countP (fun q => decide (q.Score = M)) := by
        rw [List.countP_cons_of_pos _ _ (by simpa using he)] at hc
        omega
      obtain ⟨r, hr, hrM⟩ := List.countP_pos_iff.1 hc1
      unfold Game.winnerLoop
      rw [if_pos (by omega), he, winnerLoop_le M ps _ _ _ hrest]
      refine ⟨rfl, ?_⟩
      simp only [Bool.false_or, List.any_eq_true]
      exact ⟨r, hr, hrM⟩
    · rw [List.countP_cons_of_neg _ _ (by simpa using he)] at hc
      have hlt : q.Score < M := lt_of_le_of_ne hq he
      unfold Game.winnerLoop
      split_ifs
      · exact ih _ _ _ _ hrest hlt hc
      · exact ih _ _ _ _ hrest hm hc
      · exact ih _ _ _ _ hrest hm hc

theorem tieLoop_le (M : Int) :
    ∀ (post : List PlayerBoard) (i R w : Int),
      (∀ q ∈ post, q.Score = M → fullRows q.Wall ≤ R) →
      Game.tieLoop M post i (R, w) = (R, w) := by
  intro post
  induction post with
  | nil => intro i R w _; simp [Game.tieLoop]
  | cons q post ih =>
    intro i R w h
    have hq := h q (List.mem_cons_self _ _)
    have hrest : ∀ r ∈ post, r.Score = M → fullRows r.Wall ≤ R :=
      fun r hr => h r (List.mem_cons_of_mem _ hr)
    unfold Game.tieLoop
    by_cases he : q.Score = M
    · have := hq he
      rw [if_neg (by simpa using he), if_neg (by rw [completedRows_eq]; omega)]
      exact ih _ _ _ hrest
    · rw [if_pos he]
      exact ih _ _ _ hrest

theorem tieLoop_split (M : Int) (p : PlayerBoard) (post : List PlayerBoard)
    (hp : p.Score = M)
    (hpost : ∀ q ∈ post, q.Score = M → fullRows q.Wall ≤ fullRows p.Wall) :
    ∀ (pre : List PlayerBoard) (i R w : Int),
      (∀ q ∈ pre, q.Score = M → fullRows q.Wall < fullRows p.Wall) →
      R < fullRows p.Wall →
      Game.tieLoop M (pre ++ p :: post) i (R, w) = (fullRows p.Wall, i + (pre.length : Int)) := by
  intro pre
  induction pre with
  | nil =>
    intro i R w _ hR
    simp only [List.nil_append, Game.tieLoop]
    rw [if_neg (by simpa using hp), if_pos (by rw [completedRows_eq]; omega), completedRows_eq,
      tieLoop_le M post _ _ _ hpost]
    simp
  | cons q pre ih =>
    intro i R w h hR
    have hq := h q (List.mem_cons_self _ _)
    have hrest : ∀ r ∈ pre, r.Score = M → fullRows r.Wall < fullRows p.Wall :=
      fun r hr => h r (List.mem_cons_of_mem _ hr)
    have e : i + 1 + (pre.length : Int) = i + ((q :: pre).length : Int) := by
      rw [List.length_cons]; push_cast; ring
    rw [List.cons_append, Game.tieLoop]
    by_cases he : q.Score = M
    · have := hq he
      rw [if_neg (by simpa using he)]
      split_ifs
      · rw [ih _ _ _ hrest (by rw [completedRows_eq]; omega), e]
      · rw [ih _ _ _ hrest hR, e]
    · rw [if_pos he, ih _ _ _ hrest hR, e]

theorem getWinner_notOver (g : Game) (h : g.GameOver = false) : g.GetWinner = -1 := by
  simp [Game.GetWinner, h]

theorem getWinner_unique (g : Game) (hover : g.GameOver = true)
    (pre : List PlayerBoard) (p : PlayerBoard) (post : List PlayerBoard)
    (hsplit : g.Players = pre ++ p :: post) (h0 : 0 ≤ p.Score)
    (hlt : ∀ q ∈ pre ++ post, q.Score < p.Score) : g.GetWinner = (pre.length : Int) := by
  have hw := winnerLoop_split p post
    (fun q hq => le_of_lt (hlt q (List.mem_append_right _ hq))) pre 0 (-1) (-1) false
    (fun q hq => hlt q (List.mem_append_left _ hq)) (by omega)
  have hany : post.any (fun q => decide (q.Score = p.Score)) = false := by
    rw [List.any_eq_false]
    intro q hq
    have := hlt q (List.mem_append_right _ hq)
    simp only [decide_eq_true_eq]
    omega
  simp only [Game.GetWinner, hover, hsplit, hw, hany]
  simp

theorem count_two (l1 l2 : List PlayerBoard) (p : PlayerBoard) (M : Int) (hp : p.Score = M)
    (h : ∃ q ∈ l1 ++ l2, q.Score = M) :
    2 ≤ (l1 ++ p :: l2).countP (fun q => decide (q.Score = M)) := by
  obtain ⟨q, hq, hqM⟩ := h
  rw [List.countP_append, List.countP_cons_of_pos _ _ (by simpa using hp)]
  rcases List.mem_append.1 hq with h1 | h1
  · have : 0 < l1.countP (fun q => decide (q.Score = M)) :=
      List.countP_pos_iff.2 ⟨q, h1, by simpa using hqM⟩
    omega
  · have : 0 < l2.countP (fun q => decide (q.Score = M)) :=
      List.countP_pos_iff.2 ⟨q, h1, by simpa using hqM⟩
    omega

theorem getWinner_tied (g : Game) (hover : g.GameOver = true)
    (pre : List PlayerBoard) (p : PlayerBoard) (post : List PlayerBoard)
    (hsplit : g.Players = pre ++ p :: post) (h0 : 0 ≤ p.Score)
    (hmax : ∀ q ∈ pre ++ post, q.Score ≤ p.Score)
    (htie : ∃ q ∈ pre ++ post, q.Score = p.Score)
    (hpre : ∀ q ∈ pre, q.Score = p.Score → fullRows q.Wall < fullRows p.Wall)
    (hpost : ∀ q ∈ post, q.Score = p.Score → fullRows q.Wall ≤ fullRows p.Wall) :
    g.GetWinner = (pre.length : Int) := by
  have hall : ∀ q ∈ pre ++ p :: post, q.Score ≤ p.Score := by
    intro q hq
    rcases List.mem_append.1 hq with h1 | h1
    · exact hmax q (List.mem_append_left _ h1)
    · rcases List.mem_cons.1 h1 with h2 | h2
      · rw [h2]
      · exact hmax q (List.mem_append_right _ h2)
  obtain ⟨h1, h2⟩ := winnerLoop_tie p.Score (pre ++ p :: post) 0 (-1) (-1) false hall
    (by omega) (count_two pre post p p.Score rfl htie)
  have ht := tieLoop_split p.Score p post rfl hpost pre 0 (-1)
    (Game.winnerLoop (pre ++ p :: post) 0 (-1, -1, false)).2.1 hpre
    (by have := fullRows_nonneg p.Wall; omega)
  simp only [Game.GetWinner, hover, hsplit, h1, h2, ht]
  simp

/-- C22: `GetWinner`.  While `GameOver` is false the result is `-1`.  When the game is over
and the board `p` at index `len(pre)` has a score, not negative, strictly above that of
every other board, the result is that index.  When the game is over, `p` has the highest
score, not negative, shared with at least one other board, and `p` has strictly more fully
occupied wall rows than every other board with that score, the result is again the index
of `p`.  No score is negative in a state reached from a new game by `ApplyMove`. -/
theorem C22_getWinner (g : Game) :
    (g.GameOver = false → g.GetWinner = -1) ∧
    (g.GameOver = true → ∀ (pre : List PlayerBoard) (p : PlayerBoard) (post : List PlayerBoard),
      g.Players = pre ++ p :: post → 0 ≤ p.Score →
      (∀ q ∈ pre ++ post, q.Score < p.Score) → g.GetWinner = (pre.length : Int)) ∧
    (g.GameOver = true → ∀ (pre : List PlayerBoard) (p : PlayerBoard) (post : List PlayerBoard),
      g.Players = pre ++ p :: post → 0 ≤ p.Score →
      (∀ q ∈ pre ++ post, q.Score ≤ p.Score) →
      (∃ q ∈ pre ++ post, q.Score = p.Score) →
      (∀ q ∈ pre ++ post, q.Score = p.Score → fullRows q.Wall < fullRows p.Wall) →
      g.GetWinner = (pre.length : Int)) ∧
    (∀ (raw : Int → Nat → Nat) (g0 : Game), IsNewGame raw g0 → AnyPlay raw g0 g →
      ∀ p ∈ g.Players, 0 ≤ p.Score) := by
  refine ⟨getWinner_notOver g, ?_, ?_, ?_⟩
  · intro hover pre p post hsplit h0 hlt
    exact getWinner_unique g hover pre p post hsplit h0 hlt
  · intro hover pre p post hsplit h0 hmax htie hrows
    exact getWinner_tied g hover pre p post hsplit h0 hmax htie
      (fun q hq => hrows q (List.mem_append_left _ hq))
      (fun q hq he => le_of_lt (hrows q (List.mem_append_right _ hq) he))
  · intro raw g0 hnew hplay
    exact anyPlay_score raw g0 g
      (fun p hp => by rw [isNewGame_score raw g0 hnew p hp]) hplay

/-- Witness of C22: `finalRound` is not over; in `scoreGame` the second board wins on
score; in `rowsGame` the first and third boards share the highest score and the third has
more completed rows. -/
theorem C22_getWinner_witness :
    (finalRound.GameOver = false ∧ finalRound.GetWinner = -1) ∧
    (scoreGame.GameOver = true ∧ scoreGame.Players = [tilingBoard] ++ rowBoard :: [tilingBoard] ∧
      scoreGame.GetWinner = 1) ∧
    (rowsGame.GameOver = true ∧
      rowsGame.Players =
        [{ tilingBoard with Score := 30 }, tilingBoard] ++ rowBoard :: [] ∧
      rowsGame.GetWinner = 2) :=
  ⟨⟨rfl, (C22_getWinner finalRound).1 rfl⟩,
    ⟨rfl, rfl, (C22_getWinner scoreGame).2.1 rfl [tilingBoard] rowBoard [tilingBoard] rfl
      (by decide) (by decide)⟩,
    ⟨rfl, rfl, (C22_getWinner rowsGame).2.2.1 rfl [{ tilingBoard with Score := 30 }, tilingBoard]
      rowBoard [] rfl (by decide) (by decide) (by decide) (by decide)⟩⟩

/-- C23, what the code does on an unresolved tie: when the game is over and the board `p`
at index `len(pre)` has the highest score, not negative, and among the boards with that
score no earlier one has as many fully occupied wall rows and no later one has more, then
`GetWinner` returns the index of `p`, also when a later board has the same score and the
same number of rows; it does not return `-1`. -/
theorem C23_getWinner_tie (g : Game) (hover : g.GameOver = true)
    (pre : List PlayerBoard) (p : PlayerBoard) (post : List PlayerBoard)
    (hsplit : g.Players = pre ++ p :: post) (h0 : 0 ≤ p.Score)
    (hmax : ∀ q ∈ pre ++ post, q.Score ≤ p.Score)
    (hpre : ∀ q ∈ pre, q.Score = p.Score → fullRows q.Wall < fullRows p.Wall)
    (hpost : ∀ q ∈ post, q.Score = p.Score → fullRows q.Wall ≤ fullRows p.Wall)
    (htie : ∃ q ∈ post, q.Score = p.Score ∧ fullRows q.Wall = fullRows p.Wall) :
    g.GetWinner = (pre.length : Int) ∧ g.GetWinner ≠ -1 := by
  obtain ⟨q, hq, hqs, _⟩ := htie
  have h := getWinner_tied g hover pre p post hsplit h0 hmax
    ⟨q, List.mem_append_right _ hq, hqs⟩ hpre hpost
  refine ⟨h, ?_⟩
  rw [h]
  omega

/-- Witness of C23 on `tieGame`: its first and third boards are equal, with the highest
score and one completed row each, and `GetWinner` returns 0. -/
theorem C23_getWinner_tie_witness :
    tieGame.GameOver = true ∧ tieGame.Players = [] ++ rowBoard :: [tilingBoard, rowBoard] ∧
    tilingBoard.Score < rowBoard.Score ∧ fullRows rowBoard.Wall = 1 ∧
    tieGame.GetWinner = 0 ∧ tieGame.GetWinner ≠ -1 := by
  have h := C23_getWinner_tie tieGame rfl [] rowBoard [tilingBoard, rowBoard] rfl (by decide)
    (by decide) (by decide) (by decide) ⟨rowBoard, by decide, rfl, rfl⟩
  exact ⟨rfl, rfl, by decide, by decide, h.1, h.2⟩

/-! ## Claim on the wall pattern -/

theorem wallPattern_cell (r c : Int) (hr0 : 0 ≤ r) (hr5 : r < 5) (hc0 : 0 ≤ c) (hc5 : c < 5) :
    ∃ color, WallPattern.get2? r c = some color ∧ color.IsReal = true ∧
      color.toInt = (c - r) % 5 := by
  interval_cases r <;> interval_cases c <;> exact ⟨_, rfl, rfl, by decide⟩

theorem wallPattern_row_once (r : Int) (color : TileColor) (hr0 : 0 ≤ r) (hr5 : r < 5)
    (hc : color.IsReal = true) :
    (range5.filter (fun c => decide (WallPattern.get2? r c = some color))).length = 1 := by
  interval_cases r <;> cases color <;> simp [TileColor.IsReal] at hc <;> decide

theorem wallPattern_col_once (c : Int) (color : TileColor) (hc0 : 0 ≤ c) (hc5 : c < 5)
    (hc : color.IsReal = true) :
    (range5.filter (fun r => decide (WallPattern.get2? r c = some color))).length = 1 := by
  interval_cases c <;> cases color <;> simp [TileColor.IsReal] at hc <;> decide

theorem getWallColumn_eq (pb : PlayerBoard) (row : Int) (color : TileColor)
    (hr0 : 0 ≤ row) (hr5 : row < 5) (hc : color.IsReal = true) :
    pb.GetWallColumn row color = some ((color.toInt + row) % 5) := by
  interval_cases row <;> cases color <;> simp [TileColor.IsReal] at hc <;> rfl

/-- C24: wall pattern.  For all `r`, `c` in `0..4`, `WallPattern[r][c]` is the real colour
of index `(c - r) mod 5`; each of the five colours occurs exactly once in every row and in
every column; and for every row in `0..4` and every real colour `GetWallColumn` returns
`(colour + row) mod 5`, which lies in `0..4`, is the only column of the row holding the
colour, and is not the fallback `-1`. -/
theorem C24_wallPattern :
    (∀ r c : Int, 0 ≤ r → r < 5 → 0 ≤ c → c < 5 →
      ∃ color, WallPattern.get2? r c = some color ∧ color.IsReal = true ∧
        color.toInt = (c - r) % 5) ∧
    (∀ (r : Int) (color : TileColor), 0 ≤ r → r < 5 → color.IsReal = true →
      (range5.filter (fun c => decide (WallPattern.get2? r c = some color))).length = 1) ∧
    (∀ (c : Int) (color : TileColor), 0 ≤ c → c < 5 → color.IsReal = true →
      (range5.filter (fun r => decide (WallPattern.get2? r c = some color))).length = 1) ∧
    (∀ (pb : PlayerBoard) (row : Int) (color : TileColor), 0 ≤ row → row < 5 →
      color.IsReal = true →
      pb.GetWallColumn row color = some ((color.toInt + row) % 5) ∧
      0 ≤ (color.toInt + row) % 5 ∧ (color.toInt + row) % 5 < 5 ∧
      (color.toInt + row) % 5 ≠ -1 ∧
      WallPattern.get2? row ((color.toInt + row) % 5) = some color ∧
      ∀ c, WallPattern.get2? row c = some color → c = (color.toInt + row) % 5) := by
  refine ⟨wallPattern_cell, wallPattern_row_once, wallPattern_col_once, ?_⟩
  intro pb row color hr0 hr5 hc
  have h := getWallColumn_eq pb row color hr0 hr5 hc
  obtain ⟨col, hcol, h0, h5, hpat, huniq⟩ := wallColumn_real row color hr0 hr5 hc pb
  rw [h] at hcol
  simp only [Option.some.injEq] at hcol
  rw [← hcol] at h0 h5 hpat huniq
  exact ⟨h, h0, h5, by omega, hpat, huniq⟩

/-- Witness of C24 at row 1, column 3 and the colour red. -/
theorem C24_wallPattern_witness :
    (∃ color, WallPattern.get2? 1 3 = some color ∧ color.IsReal = true ∧
      color.toInt = (3 - 1) % 5) ∧
    (range5.filter (fun c => decide (WallPattern.get2? 1 c = some TileColor.Red))).length = 1 ∧
    (range5.filter (fun r => decide (WallPattern.get2? r 3 = some TileColor.Red))).length = 1 ∧
    NewPlayerBoard.GetWallColumn 1 TileColor.Red = some 3 ∧
    WallPattern.get2? 1 3 = some TileColor.Red :=
  ⟨C24_wallPattern.1 1 3 (by decide) (by decide) (by decide) (by decide),
    C24_wallPattern.2.1 1 TileColor.Red (by decide) (by decide) rfl,
    C24_wallPattern.2.2.1 3 TileColor.Red (by decide) (by decide) rfl,
    (C24_wallPattern.2.2.2 NewPlayerBoard 1 TileColor.Red (by decide) (by decide) rfl).1,
    (C24_wallPattern.2.2.2 NewPlayerBoard 1 TileColor.Red (by decide) (by decide) rfl).2.2.2.2.1⟩

/-! ## Claims on taking a colour from a factory or the center -/

theorem filter_length_partition (ts : List TileColor) (color : TileColor) :
    (ts.filter (fun t => decide (t = color))).length +
      (ts.filter (fun t => !decide (t = color))).length = ts.length := by
  induction ts with
  | nil => rfl
  | cons t ts ih =>
    by_cases h : t = color
    · simp [List.filter_cons, h] at ih ⊢
      omega
    · simp [List.filter_cons, h] at ih ⊢
      omega

theorem filter_ne_filter_eq (ts : List TileColor) (color : TileColor) :
    (ts.filter (fun t => !decide (t = color))).filter (fun t => decide (t = color)) = [] := by
  rw [List.filter_eq_nil_iff]
  intro t ht
  have := (List.mem_filter.1 ht).2
  simpa using this

theorem filter_ne_filter_ne (ts : List TileColor) (color : TileColor) :
    (ts.filter (fun t => !decide (t = color))).filter (fun t => !decide (t = color)) =
      ts.filter (fun t => !decide (t = color)) := by
  rw [List.filter_filter]
  simp

/-- C25: `Factory.TakeColor` is a partition.  For every factory and colour the tiles
returned as taken are the tiles of the factory equal to the colour, those returned as
remaining are the tiles different from it, both in their original order, the two lengths
add up to the number of tiles, and the factory is empty afterwards, whether or not the
colour was present. -/
theorem C25_factory_takeColor (f : Factory) (color : TileColor) :
    (f.TakeColor color).2.1 = f.Tiles.filter (fun t => decide (t = color)) ∧
    (f.TakeColor color).2.2 = f.Tiles.filter (fun t => decide (t ≠ color)) ∧
    (f.TakeColor color).2.1 = List.replicate (f.Tiles.count color) color ∧
    ((f.TakeColor color).2.1.length + (f.TakeColor color).2.2.length = f.Tiles.length) ∧
    (f.TakeColor color).1.Tiles = [] ∧
    (f.TakeColor color).1.IsEmpty = true := by
  rw [factory_takeColor_eq]
  refine ⟨rfl, ?_, ?_, filter_length_partition f.Tiles color, rfl, rfl⟩
  · simp
  · simp only
    rw [List.eq_replicate_iff]
    refine ⟨?_, ?_⟩
    · rw [List.count_eq_countP, List.countP_eq_length_filter]
      exact congrArg List.length (List.filter_congr (fun t _ => rfl))
    · intro t ht
      simpa using (List.mem_filter.1 ht).2

/-- C26: `Center.TakeColor`.  For every center and colour it returns the tiles of the
center equal to the colour and the marker flag as it was; afterwards the tiles of the
center are those different from the colour in their original order and the flag is false;
a second `TakeColor` of the same colour returns no tile and `false` and leaves the center
as it is. -/
theorem C26_center_takeColor (c : Center) (color : TileColor) :
    (c.TakeColor color).2.1 = c.Tiles.filter (fun t => decide (t = color)) ∧
    (c.TakeColor color).2.2 = c.HasFirstPlayerTile ∧
    (c.TakeColor color).1.Tiles = c.Tiles.filter (fun t => decide (t ≠ color)) ∧
    (c.TakeColor color).1.HasFirstPlayerTile = false ∧
    ((c.TakeColor color).1.TakeColor color).2.1 = [] ∧
    ((c.TakeColor color).1.TakeColor color).2.2 = false ∧
    ((c.TakeColor color).1.TakeColor color).1 = (c.TakeColor color).1 := by
  rw [center_takeColor_eq, center_takeColor_eq]
  refine ⟨rfl, rfl, ?_, rfl, filter_ne_filter_eq c.Tiles color, rfl, ?_⟩
  · simp
  · simp only [filter_ne_filter_ne]

/-! ## Claim on the number of tiles drawn -/

theorem refill_length (raw : Int → Nat → Nat) (b : Bag) :
    (Bag.RefillFromDiscards raw b).tiles.length = b.tiles.length + b.discards.length := by
  have := (refill_perm raw b).1.length_eq
  simpa using this

theorem drawLoop_succ (raw : Int → Nat → Nat) (k : Nat) (b : Bag) (drawn : List TileColor) :
    Bag.drawLoop raw (k + 1) b drawn =
      (match (if b.tiles.length = 0 then Bag.RefillFromDiscards raw b else b).tiles.getLast? with
        | none => (if b.tiles.length = 0 then Bag.RefillFromDiscards raw b else b, drawn)
        | some t =>
          Bag.drawLoop raw k
            { (if b.tiles.length = 0 then Bag.RefillFromDiscards raw b else b) with
              tiles := (if b.tiles.length = 0 then Bag.RefillFromDiscards raw b
                else b).tiles.dropLast }
            (drawn ++ [t])) := rfl

theorem drawLoop_step (raw : Int → Nat → Nat) (k : Nat) (b : Bag) (drawn : List TileColor) :
    ∃ b1 : Bag, b1.tiles.length + b1.discards.length = b.tiles.length + b.discards.length ∧
      (b.tiles ≠ [] → b1 = b) ∧ (b.tiles = [] → b1.discards = []) ∧
      ((b1.tiles = [] ∧ Bag.drawLoop raw (k + 1) b drawn = (b1, drawn)) ∨
       (∃ t init, b1.tiles = init ++ [t] ∧
         Bag.drawLoop raw (k + 1) b drawn =
           Bag.drawLoop raw k { b1 with tiles := init } (drawn ++ [t]))) := by
  have key : ∀ b1 : Bag,
      ((b1.tiles = [] ∧ (match b1.tiles.getLast? with
          | none => (b1, drawn)
          | some t => Bag.drawLoop raw k { b1 with tiles := b1.tiles.dropLast } (drawn ++ [t])) =
            (b1, drawn)) ∨
       (∃ t init, b1.tiles = init ++ [t] ∧
         (match b1.tiles.getLast? with
          | none => (b1, drawn)
          | some t => Bag.drawLoop raw k { b1 with tiles := b1.tiles.dropLast } (drawn ++ [t])) =
           Bag.drawLoop raw k { b1 with tiles := init } (drawn ++ [t]))) := by
    intro b1
    cases hl : b1.tiles.getLast? with
    | none => exact Or.inl ⟨by simpa using hl, rfl⟩
    | some t =>
      have hsplit : b1.tiles.dropLast ++ [t] = b1.tiles :=
        List.dropLast_append_getLast? t (by simp [hl])
      exact Or.inr ⟨t, b1.tiles.dropLast, hsplit.symm, rfl⟩
  by_cases h0 : b.tiles.length = 0
  · have hnil : b.tiles = [] := List.length_eq_zero.1 h0
    refine ⟨Bag.RefillFromDiscards raw b, ?_, fun h => absurd hnil h,
      fun _ => (refill_perm raw b).2, ?_⟩
    · rw [refill_length, (refill_perm raw b).2]; simp
    · have := key (Bag.RefillFromDiscards raw b)
      rw [drawLoop_succ]
      simpa only [h0, if_true] using this
  · refine ⟨b, rfl, fun _ => rfl, fun h => absurd (by simp [h]) h0, ?_⟩
    have := key b
    rw [drawLoop_succ]
    simpa only [h0, if_false] using this

theorem drawLoop_length (raw : Int → Nat → Nat) :
    ∀ (k : Nat) (b : Bag) (drawn : List TileColor),
      (Bag.drawLoop raw k b drawn).2.length =
        drawn.length + min k (b.tiles.length + b.discards.length) ∧
      (Bag.drawLoop raw k b drawn).1.tiles.length + (Bag.drawLoop raw k b drawn).1.discards.length =
        b.tiles.length + b.discards.length - min k (b.tiles.length + b.discards.length) := by
  intro k
  induction k with
  | zero => intro b drawn; simp [Bag.drawLoop]
  | succ k ih =>
    intro b drawn
    obtain ⟨b1, hlen, hsame, hdisc, hcase⟩ := drawLoop_step raw k b drawn
    rcases hcase with ⟨hnil, heq⟩ | ⟨t, init, hsplit, heq⟩
    · have hb : b.tiles = [] := by
        by_contra hne
        rw [hsame hne] at hnil
        exact hne hnil
      have hd := hdisc hb
      rw [heq]
      simp only [hnil, hd, List.length_nil] at hlen ⊢
      omega
    · obtain ⟨h1, h2⟩ := ih { b1 with tiles := init } (drawn ++ [t])
      rw [heq]
      simp only [hsplit, List.length_append, List.length_singleton] at hlen h1 h2 ⊢
      omega

theorem drawLoop_discards (raw : Int → Nat → Nat) :
    ∀ (k : Nat) (b : Bag) (drawn : List TileColor),
      (b.discards = [] ∨ b.tiles.length < k) → (Bag.drawLoop raw k b drawn).1.discards = [] := by
  intro k
  induction k with
  | zero =>
    intro b drawn h
    rcases h with h | h
    · simpa [Bag.drawLoop] using h
    · omega
  | succ k ih =>
    intro b drawn h
    obtain ⟨b1, hlen, hsame, hdisc, hcase⟩ := drawLoop_step raw k b drawn
    by_cases hb : b.tiles = []
    · have hd := hdisc hb
      rcases hcase with ⟨_, heq⟩ | ⟨t, init, _, heq⟩
      · rw [heq]; exact hd
      · rw [heq]; exact ih _ _ (Or.inl hd)
    · have e := hsame hb
      subst e
      rcases hcase with ⟨hnil, _⟩ | ⟨t, init, hsplit, heq⟩
      · exact absurd hnil hb
      · rw [heq]
        apply ih
        rcases h with h | h
        · exact Or.inl h
        · right
          simp only [hsplit, List.length_append, List.length_singleton] at h ⊢
          omega

theorem drawLoop_noRefill (raw : Int → Nat → Nat) :
    ∀ (k : Nat) (b : Bag) (drawn : List TileColor), k ≤ b.tiles.length →
      Bag.drawLoop raw k b drawn =
        ({ b with tiles := b.tiles.take (b.tiles.length - k) },
          drawn ++ (b.tiles.drop (b.tiles.length - k)).reverse) := by
  intro k
  induction k with
  | zero => intro b drawn _; simp [Bag.drawLoop]
  | succ k ih =>
    intro b drawn h
    have hb : b.tiles ≠ [] := by
      intro hnil
      rw [hnil] at h
      simp at h
    obtain ⟨b1, _, hsame, _, hcase⟩ := drawLoop_step raw k b drawn
    have e := hsame hb
    subst e
    rcases hcase with ⟨hnil, _⟩ | ⟨t, init, hsplit, heq⟩
    · exact absurd hnil hb
    · have hk : k ≤ init.length := by
        simp only [hsplit, List.length_append, List.length_singleton] at h
        omega
      rw [heq, ih _ _ hk]
      have e1 : b1.tiles.length - (k + 1) = init.length - k := by
        simp only [hsplit, List.length_append, List.length_singleton]
        omega
      have e2 : init.length - k ≤ init.length := by omega
      rw [e1, hsplit, List.take_append_of_le_length e2, List.drop_append_of_le_length e2]
      simp

theorem draw_eq (raw : Int → Nat → Nat) (b : Bag) (n : Int) (hn : 0 ≤ n) :
    b.Draw raw n = some (Bag.drawLoop raw n.toNat b []) := by
  unfold Bag.Draw
  rw [if_neg (by omega)]

theorem draw_spec (raw : Int → Nat → Nat) (b : Bag) (n : Int) (hn : 0 ≤ n) :
    ∃ b1 drawn, b.Draw raw n = some (b1, drawn) ∧
      (drawn.length : Int) = min n ((b.tiles.length : Int) + (b.discards.length : Int)) ∧
      (b1.tiles.length : Int) + (b1.discards.length : Int) =
        (b.tiles.length : Int) + (b.discards.length : Int) - (drawn.length : Int) ∧
      ((drawn.length : Int) < n → b1.tiles = [] ∧ b1.discards = []) ∧
      ((b.tiles.length : Int) < n → b1.discards = []) ∧
      (n ≤ (b.tiles.length : Int) →
        drawn = (b.tiles.drop (b.tiles.length - n.toNat)).reverse ∧
        b1.tiles = b.tiles.take (b.tiles.length - n.toNat) ∧
        b1.discards = b.discards ∧ b1.rng = b.rng) := by
  obtain ⟨h1, h2⟩ := drawLoop_length raw n.toNat b []
  refine ⟨(Bag.drawLoop raw n.toNat b []).1, (Bag.drawLoop raw n.toNat b []).2,
    draw_eq raw b n hn, ?_, ?_, ?_, ?_, ?_⟩
  · simp only [List.length_nil] at h1
    omega
  · simp only [List.length_nil] at h1
    omega
  · intro hlt
    simp only [List.length_nil] at h1
    have h0 : (Bag.drawLoop raw n.toNat b []).1.tiles.length +
        (Bag.drawLoop raw n.toNat b []).1.discards.length = 0 := by omega
    exact ⟨List.length_eq_zero.1 (by omega), List.length_eq_zero.1 (by omega)⟩
  · intro hlt
    exact drawLoop_discards raw _ _ _ (Or.inr (by omega))
  · intro hle
    rw [drawLoop_noRefill raw n.toNat b [] (by omega)]
    exact ⟨by simp, rfl, rfl, rfl⟩

/-- C28: count law of `Bag.Draw`.  For every bag and every `n >= 0`, `Draw(n)` returns, and
returns exactly `min(n, len(tiles) + len(discards))` tiles; when it returns fewer than `n`
both pools are empty afterwards; and when `n <= len(tiles)` the result is the last `n`
drawable tiles, the last one first, the drawable pool keeps its first `len(tiles) - n`
tiles and the discards are unchanged. -/
theorem C28_draw_count (raw : Int → Nat → Nat) (b : Bag) (n : Int) (hn : 0 ≤ n) :
    ∃ b1 drawn, b.Draw raw n = some (b1, drawn) ∧
      (drawn.length : Int) = min n ((b.tiles.length : Int) + (b.discards.length : Int)) ∧
      ((drawn.length : Int) < n → b1.tiles = [] ∧ b1.discards = []) ∧
      (n ≤ (b.tiles.length : Int) →
        drawn = (b.tiles.drop (b.tiles.length - n.toNat)).reverse ∧
        b1.tiles = b.tiles.take (b.tiles.length - n.toNat) ∧
        b1.discards = b.discards) := by
  obtain ⟨b1, drawn, h, h1, _, h3, _, h5⟩ := draw_spec raw b n hn
  exact ⟨b1, drawn, h, h1, h3, fun hle => ⟨(h5 hle).1, (h5 hle).2.1, (h5 hle).2.2.1⟩⟩

/-- Witness of C28 on the bag of `finalRound` (two drawable tiles, one discard), `n = 2`. -/
theorem C28_draw_count_witness :
    (0 : Int) ≤ 2 ∧
    ∃ b1 drawn, finalRound.Bag.Draw rawZero 2 = some (b1, drawn) ∧
      (drawn.length : Int) =
        min 2 ((finalRound.Bag.tiles.length : Int) + (finalRound.Bag.discards.length : Int)) ∧
      ((drawn.length : Int) < 2 → b1.tiles = [] ∧ b1.discards = []) ∧
      ((2 : Int) ≤ (finalRound.Bag.tiles.length : Int) →
        drawn = (finalRound.Bag.tiles.drop (finalRound.Bag.tiles.length - (2 : Int).toNat)).reverse ∧
        b1.tiles = finalRound.Bag.tiles.take (finalRound.Bag.tiles.length - (2 : Int).toNat) ∧
        b1.discards = finalRound.Bag.discards) :=
  ⟨by decide, C28_draw_count rawZero finalRound.Bag 2 (by decide)⟩

/-! ## Claim on bag conservation -/

theorem newBag_perm (raw : Int → Nat → Nat) (seed : Int) :
    (Bag.NewBag raw seed).tiles.Perm
      (AllColors.flatMap (fun color => List.replicate 20 color)) ∧
    (Bag.NewBag raw seed).discards = [] := by
  have hp := (shuffle_perm raw
    { tiles := AllColors.foldl (fun ts color => ts ++ List.replicate 20 color) []
      discards := []
      rng := ⟨seed, 0⟩
      seed := seed }).1
  exact ⟨hp, rfl⟩

theorem draw_some_perm (raw : Int → Nat → Nat) (b b1 : Bag) (n : Int) (drawn : List TileColor)
    (h : b.Draw raw n = some (b1, drawn)) :
    (drawn ++ (b1.tiles ++ b1.discards)).Perm (b.tiles ++ b.discards) := by
  unfold Bag.Draw at h
  split_ifs at h
  simp only [Option.some.injEq] at h
  have := drawLoop_perm raw n.toNat b []
  rw [h] at this
  simpa using this

theorem draw_nat (raw : Int → Nat → Nat) (b : Bag) (n : Int) (k : Nat) (h : n = (k : Int)) :
    b.Draw raw n = some ((Bag.drawLoop raw k b []).1, (Bag.drawLoop raw k b []).2) := by
  subst h
  rw [draw_eq raw b _ (by omega)]
  simp

theorem bagPlay_perm (raw : Int → Nat → Nat) (seed : Int) (b : Bag) (hand : List TileColor)
    (h : BagPlay raw seed b hand) :
    (hand ++ (b.tiles ++ b.discards)).Perm
      (AllColors.flatMap (fun color => List.replicate 20 color)) := by
  induction h with
  | start =>
    obtain ⟨h1, h2⟩ := newBag_perm raw seed
    simpa [h2] using h1
  | draw b b1 hand drawn n _ hdraw ih =>
    have hp := draw_some_perm raw b b1 n drawn hdraw
    rw [List.append_assoc]
    exact (List.Perm.append_left hand hp).trans ih
  | discard b hand ts rest _ hperm ih =>
    refine List.Perm.trans ?_ ih
    rw [List.perm_iff_count]
    intro a
    have := hperm.count_eq a
    simp only [Bag.Discard, List.count_append] at this ⊢
    omega

theorem bag_conservation (raw : Int → Nat → Nat) :
    (∀ (b : Bag) (n : Int), 0 ≤ n →
      ∃ b1 drawn, b.Draw raw n = some (b1, drawn) ∧
        (drawn ++ (b1.tiles ++ b1.discards)).Perm (b.tiles ++ b.discards) ∧
        ((b.tiles.length : Int) < n → b1.discards = [])) ∧
    (∀ (b : Bag) (ts : List TileColor),
      (b.Discard ts).discards = b.discards ++ ts ∧ (b.Discard ts).tiles = b.tiles) ∧
    (∀ seed : Int, (Bag.NewBag raw seed).tiles.length = 100 ∧
      (Bag.NewBag raw seed).discards = [] ∧
      ∀ color ∈ AllColors, (Bag.NewBag raw seed).tiles.count color = 20) ∧
    (∀ (seed : Int) (b : Bag) (hand : List TileColor), BagPlay raw seed b hand →
      hand.length + b.tiles.length + b.discards.length = 100 ∧
      ∀ color ∈ AllColors, hand.count color + b.tiles.count color + b.discards.count color = 20) := by
  have hcount : ∀ color ∈ AllColors,
      (AllColors.flatMap (fun color => List.replicate 20 color)).count color = 20 := by decide
  refine ⟨?_, fun b ts => ⟨rfl, rfl⟩, ?_, ?_⟩
  · intro b n hn
    obtain ⟨b1, drawn, h, _, _, _, h4, _⟩ := draw_spec raw b n hn
    exact ⟨b1, drawn, h, draw_some_perm raw b b1 n drawn h, h4⟩
  · intro seed
    obtain ⟨h1, h2⟩ := newBag_perm raw seed
    refine ⟨h1.length_eq.trans (by decide), h2, ?_⟩
    intro color hc
    rw [h1.count_eq]
    exact hcount color hc
  · intro seed b hand h
    have hp := bagPlay_perm raw seed b hand h
    refine ⟨?_, ?_⟩
    · have := hp.length_eq
      have h100 : (AllColors.flatMap (fun color => List.replicate 20 color)).length = 100 := by
        decide
      simp only [List.length_append] at this
      omega
    · intro color hc
      have := hp.count_eq color
      rw [hcount color hc] at this
      simp only [List.count_append] at this
      omega

/-- C29: bag conservation.  For every bag, every `n >= 0` and whatever values the random
source yields, `Draw(n)` returns, and its result together with the drawable and discard
pools afterwards is a rearrangement of the two pools before; when `n` exceeds the number
of drawable tiles, so that the draw had to refill, the discard pool is empty afterwards.
`Discard(ts)` appends `ts` to the discards and leaves the drawable pool unchanged.  A new
bag holds 100 drawable tiles, 20 of each colour, and no discards; hence after any sequence
of draws from a new bag and of discards of tiles in hand, the tiles in hand, the drawable
pool and the discards together count 100 tiles, 20 of each colour. -/
theorem C29_bag_conservation (raw : Int → Nat → Nat) :
    (∀ (b : Bag) (n : Int), 0 ≤ n →
      ∃ b1 drawn, b.Draw raw n = some (b1, drawn) ∧
        (drawn ++ (b1.tiles ++ b1.discards)).Perm (b.tiles ++ b.discards) ∧
        ((b.tiles.length : Int) < n → b1.discards = [])) ∧
    (∀ (b : Bag) (ts : List TileColor),
      (b.Discard ts).discards = b.discards ++ ts ∧ (b.Discard ts).tiles = b.tiles) ∧
    (∀ seed : Int, (Bag.NewBag raw seed).tiles.length = 100 ∧
      (Bag.NewBag raw seed).discards = [] ∧
      ∀ color ∈ AllColors, (Bag.NewBag raw seed).tiles.count color = 20) ∧
    (∀ (seed : Int) (b : Bag) (hand : List TileColor), BagPlay raw seed b hand →
      hand.length + b.tiles.length + b.discards.length = 100 ∧
      ∀ color ∈ AllColors, hand.count color + b.tiles.count color + b.discards.count color = 20) :=
  bag_conservation raw

/-- Witness of C29: a draw of three tiles from the bag of `finalRound`, which holds two
drawable tiles, and the state after drawing 40 tiles from a new bag and discarding them. -/
theorem C29_bag_conservation_witness :
    ((0 : Int) ≤ 3 ∧ (finalRound.Bag.tiles.length : Int) < 3 ∧
      ∃ b1 drawn, finalRound.Bag.Draw rawZero 3 = some (b1, drawn) ∧
        (drawn ++ (b1.tiles ++ b1.discards)).Perm
          (finalRound.Bag.tiles ++ finalRound.Bag.discards) ∧
        b1.discards = []) ∧
    (BagPlay rawZero 42
        ((Bag.drawLoop rawZero 40 (Bag.NewBag rawZero 42) []).1.Discard
          (Bag.drawLoop rawZero 40 (Bag.NewBag rawZero 42) []).2) [] ∧
      ([] : List TileColor).length +
          ((Bag.drawLoop rawZero 40 (Bag.NewBag rawZero 42) []).1.Discard
            (Bag.drawLoop rawZero 40 (Bag.NewBag rawZero 42) []).2).tiles.length +
          ((Bag.drawLoop rawZero 40 (Bag.NewBag rawZero 42) []).1.Discard
            (Bag.drawLoop rawZero 40 (Bag.NewBag rawZero 42) []).2).discards.length = 100) := by
  have hplay : BagPlay rawZero 42
      ((Bag.drawLoop rawZero 40 (Bag.NewBag rawZero 42) []).1.Discard
        (Bag.drawLoop rawZero 40 (Bag.NewBag rawZero 42) []).2) [] :=
    BagPlay.discard _ _ _ _
      (BagPlay.draw _ _ [] _ 40 BagPlay.start (draw_nat rawZero (Bag.NewBag rawZero 42) 40 40 rfl))
      (by simp)
  obtain ⟨b1, drawn, h1, h2, h3⟩ := (C29_bag_conservation rawZero).1 finalRound.Bag 3 (by decide)
  exact ⟨⟨by decide, by decide, b1, drawn, h1, h2, h3 (by decide)⟩, hplay,
    ((C29_bag_conservation rawZero).2.2.2 42 _ _ hplay).1⟩

/-! ## Claim on the next-round transition -/

theorem fillCounts_eq :
    ∀ (n avail : Nat),
      fillCounts n avail = (List.range n).map (fun k : Nat => min 4 (avail - 4 * k)) := by
  intro n
  induction n with
  | zero => intro avail; rfl
  | succ n ih =>
    intro avail
    rw [fillCounts, ih, List.range_succ_eq_map, List.map_cons, List.map_map]
    congr 1
    apply List.map_congr_left
    intro k _
    simp only [Function.comp]
    omega

theorem fillCounts_full : ∀ (n avail : Nat), 4 * n ≤ avail → fillCounts n avail = List.replicate n 4 := by
  intro n
  induction n with
  | zero => intro avail _; rfl
  | succ n ih =>
    intro avail h
    rw [fillCounts, ih _ (by omega), List.replicate_succ]
    congr 1
    omega

theorem fillCounts_sum :
    ∀ (n avail : Nat), (fillCounts n avail).sum = min (4 * n) avail := by
  intro n
  induction n with
  | zero => intro avail; simp [fillCounts]
  | succ n ih =>
    intro avail
    rw [fillCounts, List.sum_cons, ih]
    omega

theorem setupLoop_counts (raw : Int → Nat → Nat) :
    ∀ (fs : List Factory) (b : Bag), ∃ r, setupLoop raw fs b = some r ∧
      r.1.map (fun f => f.Tiles.length) =
        fillCounts fs.length (b.tiles.length + b.discards.length) ∧
      r.2.tiles.length + r.2.discards.length =
        b.tiles.length + b.discards.length - min (4 * fs.length) (b.tiles.length + b.discards.length) ∧
      (4 * fs.length ≤ b.tiles.length →
        r.2.tiles = b.tiles.take (b.tiles.length - 4 * fs.length) ∧ r.2.discards = b.discards ∧
        r.2.rng = b.rng ∧ r.2.seed = b.seed) := by
  intro fs
  induction fs with
  | nil => intro b; exact ⟨([], b), rfl, rfl, by simp, fun _ => by simp⟩
  | cons f fs ih =>
    intro b
    obtain ⟨b1, drawn, hd, hlen, hrest, _, _, hno⟩ := draw_spec raw b 4 (by omega)
    obtain ⟨r, hr, hc, hleft, hnr⟩ := ih b1
    refine ⟨((Factory.Fill ⟨[]⟩ drawn) :: r.1, r.2), by simp [setupLoop, hd, hr], ?_, ?_, ?_⟩
    · simp only [List.map_cons, Factory.Fill, List.nil_append, List.length_cons, fillCounts, hc]
      congr 1
      · omega
      · congr 1
        omega
    · simp only [List.length_cons]
      omega
    · intro h4
      simp only [List.length_cons] at h4
      obtain ⟨_, e2, e3, e4⟩ := hno (by omega)
      have hb1 : b1.tiles.length = b.tiles.length - 4 := by
        rw [e2, List.length_take]
        simp
      obtain ⟨f1, f2, f3, f4⟩ := hnr (by omega)
      refine ⟨?_, by rw [f2, e3], by rw [f3, e4], ?_⟩
      · rw [f1, e2, List.take_take]
        congr 1
        simp only [List.length_cons, List.length_take]
        simp
        omega
      · rw [f4]
        have := draw_eq raw b 4 (by omega)
        rw [hd] at this
        simp only [Option.some.injEq] at this
        have hs : ∀ (k : Nat) (b : Bag) (d : List TileColor),
            (Bag.drawLoop raw k b d).1.seed = b.seed := by
          intro k
          induction k with
          | zero => intro b d; rfl
          | succ k ihk =>
            intro b d
            rw [drawLoop_succ]
            split
            · split_ifs <;> rfl
            · rw [ihk]
              split_ifs <;> rfl
        have h5 := hs (4 : Int).toNat b []
        rw [← this] at h5
        exact h5

theorem endRoundLoop_bag :
    ∀ (ps qs : List PlayerBoard) (b : Bag),
      List.Forall₂ (fun p q => ∃ tw, p.TileWall = some tw ∧ q = tw.1.ScoreFloorLine.1) ps qs →
      endRoundLoop ps b = some (qs, { b with discards := b.discards ++ roundDiscards ps }) ∧
      ∀ q ∈ qs, q.FloorLine = [] := by
  intro ps qs b h
  induction h generalizing b with
  | nil => simp [endRoundLoop, roundDiscards]
  | cons hpq _ ih =>
    obtain ⟨tw, htw, rfl⟩ := hpq
    obtain ⟨h1, h2⟩ := ih ((b.Discard tw.2).Discard tw.1.ScoreFloorLine.2)
    refine ⟨?_, ?_⟩
    · simp only [Bag.Discard, List.append_assoc] at h1
      simp only [endRoundLoop, htw, roundDiscards, List.flatMap_cons, Bag.Discard,
        List.append_assoc]
      simp only [roundDiscards] at h1
      rw [h1]
    · intro q hq
      rcases List.mem_cons.1 hq with hq | hq
      · rw [hq]
        exact (scoreFloorLine_spec tw.1).2.2.1
      · exact h2 q hq

theorem endRound_nextRound (raw : Int → Nat → Nat) (g : Game) (ps : List PlayerBoard)
    (htile : List.Forall₂
      (fun p q => ∃ tw, p.TileWall = some tw ∧ q = tw.1.ScoreFloorLine.1) g.Players ps)
    (hrow : ∀ p ∈ ps, ∀ r ∈ range5, rowFull p.Wall r = false) :
    ∃ g1, Game.EndRound raw g = some g1 ∧ g1.GameOver = g.GameOver ∧
      g1.Round = g.Round + 1 ∧ g1.CurrentPlayer = g.FirstPlayer ∧
      g1.FirstPlayer = g.FirstPlayer ∧ g1.NumPlayers = g.NumPlayers ∧
      g1.Center = ⟨[], true⟩ ∧ g1.Players = ps ∧ (∀ p ∈ g1.Players, p.FloorLine = []) ∧
      g1.Factories.length = g.Factories.length ∧
      g1.Factories.map (fun f => f.Tiles.length) =
        fillCounts g.Factories.length
          (g.Bag.tiles.length + (g.Bag.discards ++ roundDiscards g.Players).length) ∧
      g1.Factories.map (fun f => f.Tiles.length) =
        (List.range g.Factories.length).map (fun k : Nat =>
          min 4 (g.Bag.tiles.length + (g.Bag.discards ++ roundDiscards g.Players).length - 4 * k)) ∧
      (4 * g.Factories.length ≤
          g.Bag.tiles.length + (g.Bag.discards ++ roundDiscards g.Players).length →
        ∀ f ∈ g1.Factories, f.Tiles.length = 4) ∧
      ((g1.Factories.map (fun f => f.Tiles)).flatten ++
          (g1.Bag.tiles ++ g1.Bag.discards)).Perm
        (g.Bag.tiles ++ (g.Bag.discards ++ roundDiscards g.Players)) := by
  obtain ⟨h1, hfloor⟩ := endRoundLoop_bag g.Players ps g.Bag htile
  have hany : ps.any (fun player => player.HasCompletedRow) = false := by
    rw [List.any_eq_false]
    intro p hp hc
    obtain ⟨r, hr, hfull⟩ := (hasCompletedRow_iff p).1 hc
    rw [hrow p hp r hr] at hfull
    exact Bool.noConfusion hfull
  obtain ⟨r, hr, hc, _, _⟩ := setupLoop_counts raw g.Factories
    { g.Bag with discards := g.Bag.discards ++ roundDiscards g.Players }
  obtain ⟨r2, hr2, hlen, hperm⟩ := setupLoop_perm raw g.Factories
    { g.Bag with discards := g.Bag.discards ++ roundDiscards g.Players }
  rw [hr] at hr2
  simp only [Option.some.injEq] at hr2
  subst hr2
  have hmaplen : (r.1.map (fun f => f.Tiles.length)).length = g.Factories.length := by
    rw [List.length_map, hlen]
  refine ⟨{ g with Players := ps
                   Bag := r.2
                   Round := g.Round + 1
                   CurrentPlayer := g.FirstPlayer
                   Center := Center.NewCenter
                   Factories := r.1 },
    ?_, rfl, rfl, rfl, rfl, rfl, rfl, rfl, hfloor, hlen, hc, ?_, ?_, hperm⟩
  · unfold Game.EndRound
    simp only [h1, hany, Game.SetupRound, hr]
    simp
  · rw [hc, fillCounts_eq]
  · intro h4 f hf
    have hrep := fillCounts_full _ _ h4
    simp only at hc
    rw [hrep] at hc
    have hmem : f.Tiles.length ∈ r.1.map (fun f => f.Tiles.length) :=
      List.mem_map_of_mem _ hf
    rw [hc] at hmem
    exact (List.mem_replicate.1 hmem).2

theorem midRound_tiled :
    List.Forall₂ (fun p q => ∃ tw, p.TileWall = some tw ∧ q = tw.1.ScoreFloorLine.1)
      midRound.Players midBoards ∧
    (∀ p ∈ midBoards, ∀ r ∈ range5, rowFull p.Wall r = false) ∧
    midRound.Bag.tiles.length + (midRound.Bag.discards ++ roundDiscards midRound.Players).length
      = 11 := by
  refine ⟨List.Forall₂.cons ⟨(tilingBoard.TileWall.getD (tilingBoard, [])), by decide, rfl⟩
    (List.Forall₂.cons ⟨(NewPlayerBoard.TileWall.getD (NewPlayerBoard, [])), by decide, rfl⟩
      List.Forall₂.nil), by decide, by decide⟩

/-! ## Claim on construction -/

theorem newGameWithSeed_spec (raw : Int → Nat → Nat) (now numPlayers seed : Int) :
    ∃ (n2 : Int) (fs : List Factory) (b : Bag), 2 ≤ n2 ∧ n2 ≤ 4 ∧
      n2 = min 4 (max 2 numPlayers) ∧
      Game.NewGameWithSeed raw now numPlayers seed =
        some { Players := List.replicate n2.toNat NewPlayerBoard
               Factories := fs
               Center := Center.NewCenter
               Bag := b
               CurrentPlayer := 0
               FirstPlayer := 0
               Round := 1
               GameOver := false
               NumPlayers := n2 } ∧
      fs.length = (n2 * 2 + 1).toNat ∧
      fs.map (fun f => f.Tiles.length) = List.replicate (n2 * 2 + 1).toNat 4 ∧
      b.tiles.length = 100 - 4 * (n2 * 2 + 1).toNat ∧ b.discards = [] ∧
      b.tiles = (Bag.NewBag raw seed).tiles.take (100 - 4 * (n2 * 2 + 1).toNat) := by
  obtain ⟨n2, fs0, b0, hlo, hhi, hmin, heq, hlen0, _⟩ := newGame_spec raw now numPlayers
  obtain ⟨hd, h100, _⟩ := newBag_spec raw seed
  have h4 : 4 * fs0.length ≤ (Bag.NewBag raw seed).tiles.length := by
    rw [hlen0, h100]
    omega
  obtain ⟨r, hr, hc, _, hnr⟩ := setupLoop_counts raw fs0 (Bag.NewBag raw seed)
  obtain ⟨r2, hr2, hlen, _⟩ := setupLoop_perm raw fs0 (Bag.NewBag raw seed)
  rw [hr] at hr2
  simp only [Option.some.injEq] at hr2
  subst hr2
  obtain ⟨f1, f2, _, _⟩ := hnr h4
  refine ⟨n2, r.1, r.2, hlo, hhi, hmin, ?_, by rw [hlen, hlen0], ?_, ?_, by rw [f2, hd], ?_⟩
  · unfold Game.NewGameWithSeed
    rw [heq]
    simp only [Game.SetupRound, hr]
  · rw [hc, fillCounts_full _ _ (by rw [hd]; simpa using h4), hlen0]
  · rw [f1, List.length_take, h100, hlen0]
    simp
  · rw [f1, h100, hlen0]

/-- C30: construction.  For every `numPlayers` and `seed` (and clock value),
`NewGameWithSeed` returns a state with `NumPlayers = min(4, max(2, numPlayers))`, that
many boards, each the empty board of `NewPlayerBoard` with score 0, `2 x NumPlayers + 1`
factories of exactly four tiles each, a center with no tiles and the first player marker,
a bag with `100 - 4 x (2 x NumPlayers + 1)` drawable tiles and no discards, `Round = 1`,
`CurrentPlayer = FirstPlayer = 0` and `GameOver = false`. -/
theorem C30_newGameWithSeed (raw : Int → Nat → Nat) (now numPlayers seed : Int) :
    ∃ g, Game.NewGameWithSeed raw now numPlayers seed = some g ∧
      g.NumPlayers = min 4 (max 2 numPlayers) ∧
      (g.Players.length : Int) = g.NumPlayers ∧
      g.Players = List.replicate g.Players.length NewPlayerBoard ∧
      NewPlayerBoard.Score = 0 ∧ NewPlayerBoard.FloorLine = [] ∧
      wallCount NewPlayerBoard.Wall = 0 ∧
      NewPlayerBoard.PatternLines.toList.map (fun pl => (pl.Color, pl.Filled)) =
        List.replicate 5 (TileColor.NoTile, 0) ∧
      (g.Factories.length : Int) = 2 * g.NumPlayers + 1 ∧
      g.Factories.map (fun f => f.Tiles.length) = List.replicate g.Factories.length 4 ∧
      g.Center = ⟨[], true⟩ ∧
      (g.Bag.tiles.length : Int) = 100 - 4 * (2 * g.NumPlayers + 1) ∧
      g.Bag.discards = [] ∧
      g.Round = 1 ∧ g.CurrentPlayer = 0 ∧ g.FirstPlayer = 0 ∧ g.GameOver = false := by
  obtain ⟨n2, fs, b, hlo, hhi, hmin, heq, hlen, hfour, hb, hd, _⟩ :=
    newGameWithSeed_spec raw now numPlayers seed
  refine ⟨_, heq, hmin, ?_, ?_, rfl, rfl, by decide, by decide, ?_, ?_, rfl, ?_, hd,
    rfl, rfl, rfl, rfl⟩
  · simp only [List.length_replicate]
    omega
  · simp only [List.length_replicate]
  · simp only [hlen]
    omega
  · simp only [hfour, hlen]
  · simp only [hb]
    omega

/-! ## Claim on the first player marker -/

theorem applyMove_placeMove (raw : Int → Nat → Nat) (g : Game) (m : Move) (g3 : Game) :
    Game.ApplyMove raw g m = some (g3, false) ↔
      ∃ g2, g.placeMove m = some g2 ∧
        (if g2.IsRoundOver then Game.EndRound raw g2 = some g3 else g2.NextPlayer = some g3) := by
  unfold Game.ApplyMove Game.placeMove
  cases hp : idx? g.Players g.CurrentPlayer with
  | none => simp
  | some player =>
    simp only []
    cases ht : Game.takeTiles g player m with
    | none => simp
    | some r =>
      obtain ⟨g1, p1, tiles⟩ := r
      simp only []
      by_cases hlen : tiles.length = 0
      · simp [hlen]
      · simp only [hlen, if_false]
        cases hpl : p1.PlaceTiles m.LineIdx m.Color tiles.length with
        | none => simp
        | some p2 =>
          simp only [Option.some.injEq, exists_eq_left']
          by_cases hover : (Game.setPlayer g1 p2).IsRoundOver = true
          · simp only [hover, if_true]
            cases hr : Game.EndRound raw (Game.setPlayer g1 p2) with
            | none => simp
            | some g4 => simp
          · simp only [hover, if_false]
            cases hr : Game.NextPlayer (Game.setPlayer g1 p2) with
            | none => simp
            | some g4 => simp

theorem count_marker_replicate (n : Nat) (color : TileColor)
    (h : color ≠ TileColor.FirstPlayerMarker) :
    (List.replicate n color).count TileColor.FirstPlayerMarker = 0 := by
  rw [List.count_replicate]
  simp [h]

theorem placeTiles_markers (pb p2 : PlayerBoard) (lineIdx : Int) (color : TileColor)
    (count : Int) (hc : color ≠ TileColor.FirstPlayerMarker)
    (h : pb.PlaceTiles lineIdx color count = some p2) : floorMarkers p2 = floorMarkers pb := by
  unfold PlayerBoard.PlaceTiles at h
  split_ifs at h with hl
  · simp only [Option.some.injEq] at h
    subst h
    simp [floorMarkers, List.count_append, count_marker_replicate _ _ hc]
  · cases hpl : pb.PatternLines.get? lineIdx with
    | none => simp [hpl] at h
    | some pl =>
      cases hset : pb.PatternLines.set? lineIdx (pl.Add color count).1 with
      | none => simp [hpl, hset] at h
      | some lines =>
        simp only [hpl, hset, Option.some.injEq] at h
        subst h
        simp [floorMarkers, List.count_append, count_marker_replicate _ _ hc]

theorem placeMove_markers (g g2 : Game) (m : Move)
    (hcol : m.Color ≠ TileColor.FirstPlayerMarker) (h : g.placeMove m = some g2) :
    ∃ player, idx? g.Players g.CurrentPlayer = some player ∧
      g2.CurrentPlayer = g.CurrentPlayer ∧ g2.Players.length = g.Players.length ∧
      g2.NumPlayers = g.NumPlayers ∧ g2.Round = g.Round ∧
      ((m.FactoryIdx = -1 ∧ g.Center.HasFirstPlayerTile = true) →
        g2.markers = g.markers.set g.CurrentPlayer.toNat (floorMarkers player + 1) ∧
        g2.FirstPlayer = g.CurrentPlayer ∧ g2.Center.HasFirstPlayerTile = false) ∧
      (¬ (m.FactoryIdx = -1 ∧ g.Center.HasFirstPlayerTile = true) →
        g2.markers = g.markers ∧ g2.FirstPlayer = g.FirstPlayer ∧
        g2.Center.HasFirstPlayerTile =
          (if m.FactoryIdx = -1 then false else g.Center.HasFirstPlayerTile)) := by
  unfold Game.placeMove at h
  cases hp : idx? g.Players g.CurrentPlayer with
  | none => simp [hp] at h
  | some player =>
    obtain ⟨hp0, hp1⟩ := (idx?_eq_some _ _ _).1 hp
    cases ht : Game.takeTiles g player m with
    | none => simp [hp, ht] at h
    | some r =>
      obtain ⟨g1, p1, tiles⟩ := r
      simp only [hp, ht] at h
      split_ifs at h with hlen
      cases hpl : p1.PlaceTiles m.LineIdx m.Color tiles.length with
      | none => simp [hpl] at h
      | some p2 =>
        simp only [hpl, Option.some.injEq] at h
        subst h
        have hfm := placeTiles_markers p1 p2 _ _ _ hcol hpl
        refine ⟨player, rfl, ?_⟩
        by_cases hc : m.FactoryIdx = -1
        · cases hm : g.Center.HasFirstPlayerTile with
          | true =>
            rw [takeTiles_center_marker g player m hc hm] at ht
            simp only [Option.some.injEq, Prod.mk.injEq] at ht
            obtain ⟨rfl, rfl, rfl⟩ := ht
            refine ⟨rfl, by simp [Game.setPlayer], rfl, rfl, ?_, ?_⟩
            · intro _
              refine ⟨?_, rfl, rfl⟩
              simp only [Game.markers, Game.setPlayer, List.set_set, List.map_set, hfm]
              simp [floorMarkers, PlayerBoard.AddToFloor, List.count_append]
            · intro hno
              exact absurd ⟨hc, rfl⟩ hno
          | false =>
            rw [takeTiles_center_plain g player m hc hm] at ht
            simp only [Option.some.injEq, Prod.mk.injEq] at ht
            obtain ⟨rfl, rfl, rfl⟩ := ht
            refine ⟨rfl, by simp [Game.setPlayer], rfl, rfl, ?_, ?_⟩
            · intro hyes
              exact absurd hyes.2 (by simp)
            · intro _
              refine ⟨?_, rfl, by simp [Game.setPlayer, hc]⟩
              simp only [Game.markers, Game.setPlayer]
              exact map_set_of_eq _ _ _ _ _ hp1 hfm
        · cases hf : idx? g.Factories m.FactoryIdx with
          | none =>
            rw [takeTiles_factory_none g player m hc hf] at ht
            exact Option.noConfusion ht
          | some f =>
            rw [takeTiles_factory g player m f hc hf] at ht
            simp only [Option.some.injEq, Prod.mk.injEq] at ht
            obtain ⟨rfl, rfl, rfl⟩ := ht
            refine ⟨rfl, by simp [Game.setPlayer], rfl, rfl, ?_, ?_⟩
            · intro hyes
              exact absurd hyes.1 hc
            · intro _
              refine ⟨?_, rfl, by simp [Game.setPlayer, hc]⟩
              simp only [Game.markers, Game.setPlayer]
              exact map_set_of_eq _ _ _ _ _ hp1 hfm

theorem endRoundLoop_floor :
    ∀ (ps : List PlayerBoard) (b : Bag) (r : List PlayerBoard × Bag),
      endRoundLoop ps b = some r → ∀ p ∈ r.1, p.FloorLine = [] := by
  intro ps
  induction ps with
  | nil =>
    intro b r h
    simp only [endRoundLoop, Option.some.injEq] at h
    subst h
    simp
  | cons p ps ih =>
    intro b r h
    unfold endRoundLoop at h
    cases htw : p.TileWall with
    | none => simp [htw] at h
    | some tw =>
      simp only [htw] at h
      cases hr : endRoundLoop ps ((b.Discard tw.2).Discard tw.1.ScoreFloorLine.2) with
      | none => simp [hr] at h
      | some r1 =>
        simp only [hr, Option.some.injEq] at h
        subst h
        intro q hq
        rcases List.mem_cons.1 hq with hq | hq
        · subst hq
          exact (scoreFloorLine_spec tw.1).2.2.1
        · exact ih _ r1 hr q hq

theorem validMove_real (g : Game) (hinv : g.Inv) (vs : List Move) (m : Move)
    (hvs : g.GetValidMoves = some vs) (hm : m ∈ vs) : m.Color.IsReal = true := by
  obtain ⟨tiles0, hs, hc, _, _, _, _, _, _⟩ := sourceTiles_of_valid g vs m hvs hm
  unfold Game.sourceTiles at hs
  split_ifs at hs with h1
  · simp only [Option.some.injEq] at hs
    subst hs
    exact hinv.center _ hc
  · cases hf : idx? g.Factories m.FactoryIdx with
    | none => simp [hf] at hs
    | some f =>
      simp only [hf, Option.some.injEq] at hs
      subst hs
      exact hinv.factories f (idx?_mem _ _ _ hf) _ hc

theorem real_ne_marker (c : TileColor) (h : c.IsReal = true) :
    c ≠ TileColor.FirstPlayerMarker := by
  intro he
  rw [he] at h
  exact Bool.noConfusion h

theorem fromCenter_append (ms : List Move) (m : Move) :
    fromCenter (ms ++ [m]) = (fromCenter ms || decide (m.FactoryIdx = -1)) := by
  simp [fromCenter]

theorem roundStart_spec (raw : Int → Nat → Nat) (s : Game) (h : RoundStart raw s) :
    s.Inv ∧ s.Center.HasFirstPlayerTile = true ∧ ∀ p ∈ s.Players, p.FloorLine = [] := by
  rcases h with hnew | ⟨g0, g, vs, m, hnew, hplay, hvs, hm, happ, hround⟩
  · refine ⟨isNewGame_inv raw s hnew, ?_⟩
    rcases hnew with ⟨now, n, h⟩ | ⟨now, n, seed, h⟩
    · obtain ⟨n2, fs, b, _, _, _, heq, _, _⟩ := newGame_spec raw now n
      rw [heq] at h
      simp only [Option.some.injEq] at h
      subst h
      refine ⟨rfl, ?_⟩
      intro p hp
      rw [(List.mem_replicate.1 hp).2]
      rfl
    · obtain ⟨n2, fs, b, _, _, _, heq, _, _⟩ := newGameWithSeed_spec raw now n seed
      rw [heq] at h
      simp only [Option.some.injEq] at h
      subst h
      refine ⟨rfl, ?_⟩
      intro p hp
      rw [(List.mem_replicate.1 hp).2]
      rfl
  · have hg : g.Inv := validPlay_inv raw g0 g (isNewGame_inv raw g0 hnew) hplay
    refine ⟨applyMove_inv raw g s vs m hg hvs hm happ, ?_⟩
    obtain ⟨g2, hplace, hbranch⟩ := (applyMove_placeMove raw g m s).1 happ
    obtain ⟨_, _, _, _, _, hr2, _, _⟩ := placeMove_markers g g2 m
      (real_ne_marker _ (validMove_real g hg vs m hvs hm)) hplace
    by_cases hover : g2.IsRoundOver = true
    · rw [if_pos hover] at hbranch
      unfold Game.EndRound at hbranch
      cases hl : endRoundLoop g2.Players g2.Bag with
      | none => simp [hl] at hbranch
      | some r =>
        have hfloor := endRoundLoop_floor _ _ r hl
        simp only [hl] at hbranch
        split_ifs at hbranch with hany
        · simp only [Game.EndGame, endGameLoop_eq, Option.some.injEq] at hbranch
          rw [← hbranch] at hround
          simp only at hround
          omega
        · obtain ⟨fs, b, hsetup, _, _⟩ := setupRound_spec raw
            { g2 with Players := r.1, Bag := r.2, Round := g2.Round + 1,
                      CurrentPlayer := g2.FirstPlayer }
          rw [hsetup] at hbranch
          simp only [Option.some.injEq] at hbranch
          subst hbranch
          exact ⟨rfl, hfloor⟩
    · rw [if_neg hover] at hbranch
      unfold Game.NextPlayer at hbranch
      split_ifs at hbranch
      simp only [Option.some.injEq] at hbranch
      rw [← hbranch] at hround
      simp only at hround
      omega

theorem marker_step (s g g2 : Game) (ms : List Move) (m : Move)
    (hcur0 : 0 ≤ g.CurrentPlayer) (hcur1 : g.CurrentPlayer < g.Players.length)
    (hcol : m.Color ≠ TileColor.FirstPlayerMarker) (hM : MarkerInv s ms g)
    (h : g.placeMove m = some g2) :
    MarkerInv s (ms ++ [m]) g2 ∧ g2.Players.length = g.Players.length ∧
    ((m.FactoryIdx = -1 ∧ fromCenter ms = false) →
      g.markers = List.replicate g.Players.length 0 ∧
      g2.markers = (List.replicate g.Players.length 0).set g.CurrentPlayer.toNat 1 ∧
      g2.FirstPlayer = g.CurrentPlayer) ∧
    (¬ (m.FactoryIdx = -1 ∧ fromCenter ms = false) →
      g2.markers = g.markers ∧ g2.FirstPlayer = g.FirstPlayer) := by
  obtain ⟨player, hp, _, hlen, _, _, hyes, hno⟩ := placeMove_markers g g2 m hcol h
  obtain ⟨hp0, hp1⟩ := (idx?_eq_some _ _ _).1 hp
  cases hfc : fromCenter ms with
  | true =>
    obtain ⟨hflag, i, hi, hfirst, hmark⟩ := hM.1 hfc
    have hnot : ¬ (m.FactoryIdx = -1 ∧ g.Center.HasFirstPlayerTile = true) := by
      rw [hflag]; simp
    obtain ⟨e1, e2, e3⟩ := hno hnot
    refine ⟨⟨?_, ?_⟩, hlen, ?_, ?_⟩
    · intro _
      refine ⟨?_, i, by omega, by rw [e2, hfirst], by rw [e1, hmark, hlen]⟩
      rw [e3, hflag]; simp
    · intro hf
      rw [fromCenter_append, hfc] at hf
      simp at hf
    · intro hx
      exact absurd hx.2 (by simp)
    · intro _
      exact ⟨e1, e2⟩
  | false =>
    obtain ⟨hflag, hmark, hfirst⟩ := hM.2 hfc
    by_cases hc : m.FactoryIdx = -1
    · obtain ⟨e1, e2, e3⟩ := hyes ⟨hc, hflag⟩
      have hzero : floorMarkers player = 0 := by
        have hmem : floorMarkers player ∈ g.markers :=
          List.mem_map_of_mem _ (idx?_mem _ _ _ hp)
        rw [hmark] at hmem
        exact (List.mem_replicate.1 hmem).2
      have hm2 : g2.markers =
          (List.replicate g.Players.length 0).set g.CurrentPlayer.toNat 1 := by
        rw [e1, hmark, hzero]
      refine ⟨⟨?_, ?_⟩, hlen, ?_, ?_⟩
      · intro _
        exact ⟨e3, g.CurrentPlayer.toNat, by omega, by rw [e2]; omega, by rw [hlen, hm2]⟩
      · intro hf
        rw [fromCenter_append, hfc] at hf
        simp [hc] at hf
      · intro _
        exact ⟨hmark, hm2, e2⟩
      · intro hx
        exact absurd ⟨hc, rfl⟩ hx
    · have hnot : ¬ (m.FactoryIdx = -1 ∧ g.Center.HasFirstPlayerTile = true) :=
        fun hx => hc hx.1
      obtain ⟨e1, e2, e3⟩ := hno hnot
      refine ⟨⟨?_, ?_⟩, hlen, ?_, ?_⟩
      · intro hf
        rw [fromCenter_append, hfc] at hf
        simp [hc] at hf
      · intro _
        refine ⟨?_, by rw [e1, hmark, hlen], by rw [e2, hfirst]⟩
        rw [e3, if_neg hc, hflag]
      · intro hx
        exact absurd hx.1 hc
      · intro _
        exact ⟨e1, e2⟩

theorem roundPlay_inv (raw : Int → Nat → Nat) (s g : Game) (ms : List Move)
    (hs : RoundStart raw s) (h : RoundPlay s ms g) : g.Inv ∧ MarkerInv s ms g := by
  induction h with
  | start =>
    obtain ⟨hinv, hflag, hfloor⟩ := roundStart_spec raw s hs
    refine ⟨hinv, fun hf => Bool.noConfusion hf, fun _ => ⟨hflag, ?_, rfl⟩⟩
    unfold Game.markers
    rw [List.eq_replicate_iff]
    refine ⟨by simp, ?_⟩
    intro k hk
    obtain ⟨p, hp, rfl⟩ := List.mem_map.1 hk
    simp [floorMarkers, hfloor p hp]
  | step ms g vs m g2 g3 _ hvs hm hplace hover hnext ih =>
    obtain ⟨hinv, hM⟩ := ih
    have happ : Game.ApplyMove raw g m = some (g3, false) :=
      (applyMove_placeMove raw g m g3).2 ⟨g2, hplace, by rw [if_neg (by simp [hover])]; exact hnext⟩
    refine ⟨applyMove_inv raw g g3 vs m hinv hvs hm happ, ?_⟩
    obtain ⟨hM2, _, _, _⟩ := marker_step s g g2 ms m hinv.cur0 hinv.cur1
      (real_ne_marker _ (validMove_real g hinv vs m hvs hm)) hM hplace
    unfold Game.NextPlayer at hnext
    split_ifs at hnext
    simp only [Option.some.injEq] at hnext
    subst hnext
    exact hM2

theorem marker_transfer (raw : Int → Nat → Nat) (s g g2 : Game) (ms vs : List Move) (m : Move)
    (hs : RoundStart raw s) (hplay : RoundPlay s ms g) (hvs : g.GetValidMoves = some vs)
    (hm : m ∈ vs) (hplace : g.placeMove m = some g2) :
    (∀ g3, Game.ApplyMove raw g m = some (g3, false) ↔
      (if g2.IsRoundOver then Game.EndRound raw g2 = some g3 else g2.NextPlayer = some g3)) ∧
    ((m.FactoryIdx = -1 ∧ fromCenter ms = false) →
      g.markers = List.replicate g.Players.length 0 ∧
      g2.markers = (List.replicate g.Players.length 0).set g.CurrentPlayer.toNat 1 ∧
      g2.FirstPlayer = g.CurrentPlayer ∧ g.CurrentPlayer.toNat < g.Players.length) ∧
    (¬ (m.FactoryIdx = -1 ∧ fromCenter ms = false) →
      g2.markers = g.markers ∧ g2.FirstPlayer = g.FirstPlayer) ∧
    (fromCenter (ms ++ [m]) = true →
      g2.Center.HasFirstPlayerTile = false ∧
      ∃ i : Nat, i < g2.Players.length ∧ g2.FirstPlayer = (i : Int) ∧
        g2.markers = (List.replicate g2.Players.length 0).set i 1) ∧
    (fromCenter (ms ++ [m]) = false →
      g2.Center.HasFirstPlayerTile = true ∧
      g2.markers = List.replicate g2.Players.length 0 ∧ g2.FirstPlayer = s.FirstPlayer) := by
  obtain ⟨hinv, hM⟩ := roundPlay_inv raw s g ms hs hplay
  obtain ⟨hM2, _, hyes, hno⟩ := marker_step s g g2 ms m hinv.cur0 hinv.cur1
    (real_ne_marker _ (validMove_real g hinv vs m hvs hm)) hM hplace
  refine ⟨?_, ?_, hno, hM2.1, hM2.2⟩
  · intro g3
    rw [applyMove_placeMove, hplace]
    simp
  · intro hx
    obtain ⟨a, b, c⟩ := hyes hx
    have h0 := hinv.cur0
    have h1 := hinv.cur1
    exact ⟨a, b, c, by omega⟩

/-- C27, as amended: in every round of a game played with moves from `GetValidMoves` the
marker transfer happens at most once.  Let `s` be the state at the start of a round, `ms`
the moves made since, leading to `g`, and `m` a further move from `GetValidMoves`, after
whose tiles are taken and placed the state is `g2` (`ApplyMove` then ends the round from
`g2` or passes the turn).  If `m` takes from the center and no move of `ms` did, one marker
is added to the floor line of the mover, no floor line having held one before, and
`FirstPlayer` becomes the index of the mover; on every other move the markers on the floor
lines and `FirstPlayer` are unchanged.  Hence at `g2`, and so at the end of the round:
when some move of the round took from the center, exactly one floor line holds exactly one
marker, that of the board `FirstPlayer`; when none did, no floor line holds a marker, the
marker is still on the center and `FirstPlayer` is as at the start of the round. -/
theorem C27_marker_transfer (raw : Int → Nat → Nat) (s g g2 : Game) (ms vs : List Move)
    (m : Move) (hs : RoundStart raw s) (hplay : RoundPlay s ms g)
    (hvs : g.GetValidMoves = some vs) (hm : m ∈ vs) (hplace : g.placeMove m = some g2) :
    (∀ g3, Game.ApplyMove raw g m = some (g3, false) ↔
      (if g2.IsRoundOver then Game.EndRound raw g2 = some g3 else g2.NextPlayer = some g3)) ∧
    ((m.FactoryIdx = -1 ∧ fromCenter ms = false) →
      g.markers = List.replicate g.Players.length 0 ∧
      g2.markers = (List.replicate g.Players.length 0).set g.CurrentPlayer.toNat 1 ∧
      g2.FirstPlayer = g.CurrentPlayer ∧ g.CurrentPlayer.toNat < g.Players.length) ∧
    (¬ (m.FactoryIdx = -1 ∧ fromCenter ms = false) →
      g2.markers = g.markers ∧ g2.FirstPlayer = g.FirstPlayer) ∧
    (fromCenter (ms ++ [m]) = true →
      g2.Center.HasFirstPlayerTile = false ∧
      ∃ i : Nat, i < g2.Players.length ∧ g2.FirstPlayer = (i : Int) ∧
        g2.markers = (List.replicate g2.Players.length 0).set i 1) ∧
    (fromCenter (ms ++ [m]) = false →
      g2.Center.HasFirstPlayerTile = true ∧
      g2.markers = List.replicate g2.Players.length 0 ∧ g2.FirstPlayer = s.FirstPlayer) :=
  marker_transfer raw s g g2 ms vs m hs hplay hvs hm hplace

set_option maxRecDepth 1000000 in
theorem roundPlay_play5 :
    RoundStart rawZero play0 ∧
    RoundPlay play0
      [⟨0, TileColor.White, 2⟩, ⟨1, TileColor.White, 3⟩, ⟨2, TileColor.White, 3⟩,
       ⟨3, TileColor.White, 4⟩, ⟨4, TileColor.White, 4⟩] play5 ∧
    play5.GetValidMoves = some (play5.GetValidMoves.getD []) ∧
    (⟨-1, TileColor.Blue, 0⟩ : Move) ∈ play5.GetValidMoves.getD [] ∧
    play5.placeMove ⟨-1, TileColor.Blue, 0⟩ = some playEnd ∧
    playEnd.IsRoundOver = true ∧ play5.CurrentPlayer = 1 ∧ play5.Players.length = 2 := by
  have h0 : RoundPlay play0 [] play0 := RoundPlay.start
  have h1 : RoundPlay play0 ([] ++ [⟨0, TileColor.White, 2⟩]) play1 :=
    RoundPlay.step [] play0 (play0.GetValidMoves.getD []) ⟨0, TileColor.White, 2⟩
      ((play0.placeMove ⟨0, TileColor.White, 2⟩).getD startGame) play1 h0
      (by decide) (by decide) (by decide) (by decide) (by decide)
  have h2 : RoundPlay play0 (([] ++ [⟨0, TileColor.White, 2⟩]) ++ [⟨1, TileColor.White, 3⟩])
      play2 :=
    RoundPlay.step _ play1 (play1.GetValidMoves.getD []) ⟨1, TileColor.White, 3⟩
      ((play1.placeMove ⟨1, TileColor.White, 3⟩).getD startGame) play2 h1
      (by decide) (by decide) (by decide) (by decide) (by decide)
  have h3 : RoundPlay play0 ((([] ++ [⟨0, TileColor.White, 2⟩]) ++ [⟨1, TileColor.White, 3⟩])
      ++ [⟨2, TileColor.White, 3⟩]) play3 :=
    RoundPlay.step _ play2 (play2.GetValidMoves.getD []) ⟨2, TileColor.White, 3⟩
      ((play2.placeMove ⟨2, TileColor.White, 3⟩).getD startGame) play3 h2
      (by decide) (by decide) (by decide) (by decide) (by decide)
  have h4 : RoundPlay play0 (((([] ++ [⟨0, TileColor.White, 2⟩]) ++ [⟨1, TileColor.White, 3⟩])
      ++ [⟨2, TileColor.White, 3⟩]) ++ [⟨3, TileColor.White, 4⟩]) play4 :=
    RoundPlay.step _ play3 (play3.GetValidMoves.getD []) ⟨3, TileColor.White, 4⟩
      ((play3.placeMove ⟨3, TileColor.White, 4⟩).getD startGame) play4 h3
      (by decide) (by decide) (by decide) (by decide) (by decide)
  have h5 : RoundPlay play0 ((((([] ++ [⟨0, TileColor.White, 2⟩]) ++
      [⟨1, TileColor.White, 3⟩]) ++ [⟨2, TileColor.White, 3⟩]) ++ [⟨3, TileColor.White, 4⟩])
      ++ [⟨4, TileColor.White, 4⟩]) play5 :=
    RoundPlay.step _ play4 (play4.GetValidMoves.getD []) ⟨4, TileColor.White, 4⟩
      ((play4.placeMove ⟨4, TileColor.White, 4⟩).getD startGame) play5 h4
      (by decide) (by decide) (by decide) (by decide) (by decide)
  exact ⟨Or.inl (Or.inr ⟨0, 2, 42, by decide⟩), h5, by decide, by decide, by decide, by decide,
    by decide, by decide⟩

/-- Witness of C27 as amended, on round one of the sample play: the first five moves take
from factories, the sixth, by player 1, takes from the center and ends the round; the
marker then lies on the floor line of player 1, who is `FirstPlayer`. -/
theorem C27_marker_transfer_witness :
    RoundStart rawZero play0 ∧
    RoundPlay play0
      [⟨0, TileColor.White, 2⟩, ⟨1, TileColor.White, 3⟩, ⟨2, TileColor.White, 3⟩,
       ⟨3, TileColor.White, 4⟩, ⟨4, TileColor.White, 4⟩] play5 ∧
    (⟨-1, TileColor.Blue, 0⟩ : Move) ∈ play5.GetValidMoves.getD [] ∧
    play5.placeMove ⟨-1, TileColor.Blue, 0⟩ = some playEnd ∧
    playEnd.IsRoundOver = true ∧ play5.CurrentPlayer = 1 ∧ play5.Players.length = 2 ∧
    play5.markers = List.replicate play5.Players.length 0 ∧
    playEnd.markers = (List.replicate play5.Players.length 0).set play5.CurrentPlayer.toNat 1 ∧
    playEnd.FirstPlayer = play5.CurrentPlayer ∧
    playEnd.Center.HasFirstPlayerTile = false := by
  obtain ⟨hs, hplay, hvs, hm, hplace, hover, hcur, hlen⟩ := roundPlay_play5
  obtain ⟨_, h2, _, h4, _⟩ := C27_marker_transfer rawZero play0 play5 playEnd _ _
    ⟨-1, TileColor.Blue, 0⟩ hs hplay hvs hm hplace
  obtain ⟨a, b, c, _⟩ := h2 ⟨rfl, rfl⟩
  exact ⟨hs, hplay, hm, hplace, hover, hcur, hlen, a, b, c, (h4 rfl).1⟩

set_option maxRecDepth 1000000 in
theorem roundPlay_mono4 :
    RoundStart rawId mono0 ∧
    RoundPlay mono0
      [⟨0, TileColor.White, 3⟩, ⟨1, TileColor.White, 3⟩, ⟨2, TileColor.White, 4⟩,
       ⟨3, TileColor.White, 4⟩] mono4 ∧
    mono4.GetValidMoves = some (mono4.GetValidMoves.getD []) ∧
    (⟨4, TileColor.White, 2⟩ : Move) ∈ mono4.GetValidMoves.getD [] ∧
    mono4.placeMove ⟨4, TileColor.White, 2⟩ = some monoEnd ∧
    monoEnd.IsRoundOver = true ∧
    [mono0.markers, mono1.markers, mono2.markers, mono3.markers, mono4.markers,
      monoEnd.markers] = List.replicate 6 [0, 0] ∧
    [mono0.FirstPlayer, mono1.FirstPlayer, mono2.FirstPlayer, mono3.FirstPlayer,
      mono4.FirstPlayer, monoEnd.FirstPlayer] = List.replicate 6 0 ∧
    monoEnd.Center.HasFirstPlayerTile = true ∧
    (∃ g3, Game.ApplyMove rawId mono4 ⟨4, TileColor.White, 2⟩ = some (g3, false) ∧
      g3.Round = 2 ∧ g3.GameOver = false) := by
  have h0 : RoundPlay mono0 [] mono0 := RoundPlay.start
  have h1 : RoundPlay mono0 ([] ++ [⟨0, TileColor.White, 3⟩]) mono1 :=
    RoundPlay.step [] mono0 (mono0.GetValidMoves.getD []) ⟨0, TileColor.White, 3⟩
      ((mono0.placeMove ⟨0, TileColor.White, 3⟩).getD startGame) mono1 h0
      (by decide) (by decide) (by decide) (by decide) (by decide)
  have h2 : RoundPlay mono0 (([] ++ [⟨0, TileColor.White, 3⟩]) ++ [⟨1, TileColor.White, 3⟩])
      mono2 :=
    RoundPlay.step _ mono1 (mono1.GetValidMoves.getD []) ⟨1, TileColor.White, 3⟩
      ((mono1.placeMove ⟨1, TileColor.White, 3⟩).getD startGame) mono2 h1
      (by decide) (by decide) (by decide) (by decide) (by decide)
  have h3 : RoundPlay mono0 ((([] ++ [⟨0, TileColor.White, 3⟩]) ++ [⟨1, TileColor.White, 3⟩])
      ++ [⟨2, TileColor.White, 4⟩]) mono3 :=
    RoundPlay.step _ mono2 (mono2.GetValidMoves.getD []) ⟨2, TileColor.White, 4⟩
      ((mono2.placeMove ⟨2, TileColor.White, 4⟩).getD startGame) mono3 h2
      (by decide) (by decide) (by decide) (by decide) (by decide)
  have h4 : RoundPlay mono0 (((([] ++ [⟨0, TileColor.White, 3⟩]) ++ [⟨1, TileColor.White, 3⟩])
      ++ [⟨2, TileColor.White, 4⟩]) ++ [⟨3, TileColor.White, 4⟩]) mono4 :=
    RoundPlay.step _ mono3 (mono3.GetValidMoves.getD []) ⟨3, TileColor.White, 4⟩
      ((mono3.placeMove ⟨3, TileColor.White, 4⟩).getD startGame) mono4 h3
      (by decide) (by decide) (by decide) (by decide) (by decide)
  exact ⟨Or.inl (Or.inr ⟨0, 2, 42, by decide⟩), h4, by decide, by decide, by decide, by decide,
    by decide, by decide, by decide,
    ⟨playMove rawId mono4 ⟨4, TileColor.White, 2⟩, by decide, by decide, by decide⟩⟩

/-- C27, counterexample to the claim as stated: under a shuffle that deals five factories
of four white tiles each, round one of the two player game is played with five moves from
`GetValidMoves`, each taking a whole factory.  No move takes from the center, the round is
over after the fifth, and at no point of the round does a floor line hold a marker: the
marker is still on the center, `FirstPlayer` was never written, and the game goes on to
round two. -/
theorem C27_marker_transfer_counterexample :
    RoundStart rawId mono0 ∧
    RoundPlay mono0
      [⟨0, TileColor.White, 3⟩, ⟨1, TileColor.White, 3⟩, ⟨2, TileColor.White, 4⟩,
       ⟨3, TileColor.White, 4⟩] mono4 ∧
    (⟨4, TileColor.White, 2⟩ : Move) ∈ mono4.GetValidMoves.getD [] ∧
    mono4.placeMove ⟨4, TileColor.White, 2⟩ = some monoEnd ∧
    monoEnd.IsRoundOver = true ∧
    [mono0.markers, mono1.markers, mono2.markers, mono3.markers, mono4.markers,
      monoEnd.markers] = List.replicate 6 [0, 0] ∧
    [mono0.FirstPlayer, mono1.FirstPlayer, mono2.FirstPlayer, mono3.FirstPlayer,
      mono4.FirstPlayer, monoEnd.FirstPlayer] = List.replicate 6 0 ∧
    monoEnd.Center.HasFirstPlayerTile = true ∧
    (¬ ∃ i : Nat, i < monoEnd.Players.length ∧
      monoEnd.markers = (List.replicate monoEnd.Players.length 0).set i 1) ∧
    (∃ g3, Game.ApplyMove rawId mono4 ⟨4, TileColor.White, 2⟩ = some (g3, false) ∧
      g3.Round = 2 ∧ g3.GameOver = false) := by
  obtain ⟨h1, h2, _, h4, h5, h6, h7, h8, h9, h10⟩ := roundPlay_mono4
  refine ⟨h1, h2, h4, h5, h6, h7, h8, h9, ?_, h10⟩
  rintro ⟨i, hlt, hi⟩
  have hm : monoEnd.markers = [0, 0] := by
    have := congrArg (fun l => l.getD 5 []) h7
    simpa using this
  have hl : monoEnd.Players.length = 2 := by
    have := congrArg List.length hm
    simpa [Game.markers] using this
  rw [hm, hl] at hi
  rw [hl] at hlt
  have hs := congrArg List.sum hi
  rcases i with _ | _ | i
  · simp at hs
  · simp at hs
  · omega

/-! ## Claim on turn rotation -/

theorem placeTiles_frame (pb p2 : PlayerBoard) (lineIdx : Int) (color : TileColor)
    (count : Int) (h : pb.PlaceTiles lineIdx color count = some p2) :
    p2.Score = pb.Score ∧ p2.Wall = pb.Wall := by
  unfold PlayerBoard.PlaceTiles at h
  split_ifs at h with hl
  · simp only [Option.some.injEq] at h
    subst h
    exact ⟨rfl, rfl⟩
  · cases hpl : pb.PatternLines.get? lineIdx with
    | none => simp [hpl] at h
    | some pl =>
      cases hset : pb.PatternLines.set? lineIdx (pl.Add color count).1 with
      | none => simp [hpl, hset] at h
      | some lines =>
        simp only [hpl, hset, Option.some.injEq] at h
        subst h
        exact ⟨rfl, rfl⟩

theorem getElem?_set_set_ne {α : Type} (l : List α) (c i : Nat) (a b : α) (h : i ≠ c) :
    ((l.set c a).set c b)[i]? = l[i]? := by
  rw [List.getElem?_set_ne (Ne.symm h), List.getElem?_set_ne (Ne.symm h)]

theorem placeMove_frame (g g2 : Game) (m : Move) (h : g.placeMove m = some g2) :
    0 ≤ g.CurrentPlayer ∧ g.CurrentPlayer < g.Players.length ∧
    g2.CurrentPlayer = g.CurrentPlayer ∧ g2.Round = g.Round ∧ g2.GameOver = g.GameOver ∧
    g2.NumPlayers = g.NumPlayers ∧ g2.Bag = g.Bag ∧
    g2.Players.map (fun p => p.Score) = g.Players.map (fun p => p.Score) ∧
    g2.Players.map (fun p => p.Wall) = g.Players.map (fun p => p.Wall) ∧
    g2.Players.length = g.Players.length ∧
    (∀ i : Nat, (i : Int) ≠ g.CurrentPlayer → g2.Players[i]? = g.Players[i]?) := by
  unfold Game.placeMove at h
  cases hp : idx? g.Players g.CurrentPlayer with
  | none => simp [hp] at h
  | some player =>
    obtain ⟨hp0, hp1⟩ := (idx?_eq_some _ _ _).1 hp
    obtain ⟨hlt0, hlt1⟩ := idx?_lt _ _ _ hp
    cases ht : Game.takeTiles g player m with
    | none => simp [hp, ht] at h
    | some r =>
      obtain ⟨g1, p1, tiles⟩ := r
      simp only [hp, ht] at h
      split_ifs at h with hlen
      cases hpl : p1.PlaceTiles m.LineIdx m.Color tiles.length with
      | none => simp [hpl] at h
      | some p2 =>
        simp only [hpl, Option.some.injEq] at h
        subst h
        obtain ⟨e1, e2, e3, e4, e5, e6, _, e8, e9, e10, _, e12, e13, _⟩ :=
          takeTiles_frame g g1 player p1 m tiles hp ht
        obtain ⟨f1, f2⟩ := placeTiles_frame p1 p2 _ _ _ hpl
        obtain ⟨q0, q1⟩ := (idx?_eq_some _ _ _).1 e10
        have hne : ∀ i : Nat, (i : Int) ≠ g.CurrentPlayer → i ≠ g.CurrentPlayer.toNat := by
          intro i hi hx
          apply hi
          rw [hx]
          omega
        refine ⟨hlt0, hlt1, e1, e2, e3, e4, e5, ?_, ?_, ?_, ?_⟩
        · rw [← e6]
          exact map_set_of_eq _ _ _ _ _ q1 f1
        · rw [← e8]
          exact map_set_of_eq _ _ _ _ _ q1 f2
        · simp [Game.setPlayer, e9]
        · intro i hi
          have hi2 := hne i hi
          simp only [Game.setPlayer, e1]
          rw [List.getElem?_set_ne (Ne.symm hi2)]
          by_cases hc : m.FactoryIdx = -1
          · cases hm : g.Center.HasFirstPlayerTile with
            | true =>
              rw [takeTiles_center_marker g player m hc hm] at ht
              simp only [Option.some.injEq, Prod.mk.injEq] at ht
              rw [← ht.1]
              simp only
              rw [List.getElem?_set_ne (Ne.symm hi2)]
            | false =>
              rw [takeTiles_center_plain g player m hc hm] at ht
              simp only [Option.some.injEq, Prod.mk.injEq] at ht
              rw [← ht.1]
          · cases hf : idx? g.Factories m.FactoryIdx with
            | none =>
              rw [takeTiles_factory_none g player m hc hf] at ht
              exact Option.noConfusion ht
            | some f =>
              rw [takeTiles_factory g player m f hc hf] at ht
              simp only [Option.some.injEq, Prod.mk.injEq] at ht
              rw [← ht.1]

theorem tmod_eq_emod_of_nonneg (a b : Int) (ha : 0 ≤ a) : Int.tmod a b = a % b := by
  rcases le_or_lt 0 b with hb | hb
  · exact Int.tmod_eq_emod ha hb
  · have h1 : Int.tmod a (- -b) = Int.tmod a (-b) := Int.tmod_neg a (-b)
    have h2 : a % (- -b) = a % (-b) := Int.emod_neg a (-b)
    rw [neg_neg] at h1 h2
    rw [h1, h2]
    exact Int.tmod_eq_emod ha (by omega)

theorem turn_rotation (raw : Int → Nat → Nat) (g g2 g3 : Game) (m : Move)
    (happ : Game.ApplyMove raw g m = some (g3, false)) (hplace : g.placeMove m = some g2)
    (hover : g2.IsRoundOver = false) :
    g3.CurrentPlayer = Int.tmod (g.CurrentPlayer + 1) g.NumPlayers ∧
    g3.CurrentPlayer = (g.CurrentPlayer + 1) % g.NumPlayers ∧
    g3.Round = g.Round ∧ g3.GameOver = g.GameOver ∧ g3.Bag = g.Bag ∧
    g3.Players.map (fun p => p.Score) = g.Players.map (fun p => p.Score) ∧
    g3.Players.map (fun p => p.Wall) = g.Players.map (fun p => p.Wall) ∧
    g3.Players.length = g.Players.length ∧
    (∀ i : Nat, (i : Int) ≠ g.CurrentPlayer → g3.Players[i]? = g.Players[i]?) := by
  obtain ⟨g2', hp2, hbranch⟩ := (applyMove_placeMove raw g m g3).1 happ
  rw [hplace] at hp2
  simp only [Option.some.injEq] at hp2
  subst hp2
  rw [if_neg (by simp [hover])] at hbranch
  obtain ⟨h0, _, e1, e2, e3, e4, e5, e6, e7, e8, e9⟩ := placeMove_frame g g2 m hplace
  unfold Game.NextPlayer at hbranch
  split_ifs at hbranch
  simp only [Option.some.injEq] at hbranch
  subst hbranch
  refine ⟨by simp only [e1, e4], ?_, e2, e3, e5, e6, e7, e8, e9⟩
  simp only [e1, e4]
  exact tmod_eq_emod_of_nonneg _ _ (by omega)

/-- C31: turn rotation and frame.  Whenever `ApplyMove` returns without an error and the
round is not over once the tiles are taken and placed (the state `g2`), `CurrentPlayer`
becomes `(CurrentPlayer + 1) mod NumPlayers`, the remainder of Go agreeing with the
mathematical one here; `Round`, `GameOver` and the bag are unchanged, every score and
every wall is unchanged, and every board other than that of the mover is unchanged. -/
theorem C31_turn_rotation (raw : Int → Nat → Nat) (g g2 g3 : Game) (m : Move)
    (happ : Game.ApplyMove raw g m = some (g3, false)) (hplace : g.placeMove m = some g2)
    (hover : g2.IsRoundOver = false) :
    g3.CurrentPlayer = Int.tmod (g.CurrentPlayer + 1) g.NumPlayers ∧
    g3.CurrentPlayer = (g.CurrentPlayer + 1) % g.NumPlayers ∧
    g3.Round = g.Round ∧ g3.GameOver = g.GameOver ∧ g3.Bag = g.Bag ∧
    g3.Players.map (fun p => p.Score) = g.Players.map (fun p => p.Score) ∧
    g3.Players.map (fun p => p.Wall) = g.Players.map (fun p => p.Wall) ∧
    g3.Players.length = g.Players.length ∧
    (∀ i : Nat, (i : Int) ≠ g.CurrentPlayer → g3.Players[i]? = g.Players[i]?) :=
  turn_rotation raw g g2 g3 m happ hplace hover

set_option maxRecDepth 1000000 in
theorem play1_step :
    Game.ApplyMove rawZero play0 ⟨0, TileColor.White, 2⟩ = some (play1, false) ∧
    play0.placeMove ⟨0, TileColor.White, 2⟩ =
      some ((play0.placeMove ⟨0, TileColor.White, 2⟩).getD startGame) ∧
    ((play0.placeMove ⟨0, TileColor.White, 2⟩).getD startGame).IsRoundOver = false ∧
    play0.CurrentPlayer = 0 ∧ play0.NumPlayers = 2 ∧ play1.CurrentPlayer = 1 := by
  refine ⟨by decide, by decide, by decide, by decide, by decide, by decide⟩

/-- Witness of C31 on the first move of the sample play: player 0 moves, player 1 is
next. -/
theorem C31_turn_rotation_witness :
    Game.ApplyMove rawZero play0 ⟨0, TileColor.White, 2⟩ = some (play1, false) ∧
    play0.CurrentPlayer = 0 ∧ play0.NumPlayers = 2 ∧ play1.CurrentPlayer = 1 ∧
    play1.CurrentPlayer = (play0.CurrentPlayer + 1) % play0.NumPlayers ∧
    play1.Round = play0.Round ∧ play1.GameOver = play0.GameOver ∧ play1.Bag = play0.Bag ∧
    play1.Players.map (fun p => p.Score) = play0.Players.map (fun p => p.Score) ∧
    play1.Players.map (fun p => p.Wall) = play0.Players.map (fun p => p.Wall) ∧
    (∀ i : Nat, (i : Int) ≠ play0.CurrentPlayer → play1.Players[i]? = play0.Players[i]?) := by
  obtain ⟨h1, h2, h3, h4, h5, h6⟩ := play1_step
  obtain ⟨_, e2, e3, e4, e5, e6, e7, _, e9⟩ :=
    C31_turn_rotation rawZero play0 _ play1 ⟨0, TileColor.White, 2⟩ h1 h2 h3
  exact ⟨h1, h4, h5, h6, e2, e3, e4, e5, e6, e7, e9⟩

/-! ## Claims on cloning and on index bounds -/

theorem playerBoard_clone (pb : PlayerBoard) : pb.Clone = pb := rfl

theorem factory_clone (f : Factory) : f.Clone = f := rfl

theorem center_clone (c : Center) : c.Clone = c := rfl

theorem clone_eq (g : Game) (hnum : g.NumPlayers = g.Players.length) :
    g.Clone = some { g with Bag := g.Bag.Clone } := by
  unfold Game.Clone
  rw [if_neg (by omega), if_neg (by omega), if_neg (by omega)]
  have h1 : g.Players.map (fun p => p.Clone) = g.Players := by
    simp [playerBoard_clone]
  have h2 : g.Factories.map (fun f => f.Clone) = g.Factories := by
    simp [factory_clone]
  rw [h1, h2, center_clone]

theorem clone_getValidMoves (g : Game) :
    ({ g with Bag := g.Bag.Clone } : Game).GetValidMoves = g.GetValidMoves := rfl

/-- C34: `Clone` is a faithful copy.  For every game state whose `NumPlayers` is its
number of boards, `Clone` returns a state with the same `NumPlayers`, `CurrentPlayer`,
`FirstPlayer`, `Round` and `GameOver`, the same factories with the same tile sequences,
the same center tiles and marker flag, the same drawable sequence, discard sequence and
seed in the bag, and the same boards (pattern lines, wall, floor line and score each);
hence `GetValidMoves` on the clone returns what it returns on the original. -/
theorem C34_clone (g : Game) (hnum : g.NumPlayers = g.Players.length) :
    ∃ c, g.Clone = some c ∧
      c.NumPlayers = g.NumPlayers ∧ c.CurrentPlayer = g.CurrentPlayer ∧
      c.FirstPlayer = g.FirstPlayer ∧ c.Round = g.Round ∧ c.GameOver = g.GameOver ∧
      c.Factories.map (fun f => f.Tiles) = g.Factories.map (fun f => f.Tiles) ∧
      c.Center.Tiles = g.Center.Tiles ∧
      c.Center.HasFirstPlayerTile = g.Center.HasFirstPlayerTile ∧
      c.Bag.tiles = g.Bag.tiles ∧ c.Bag.discards = g.Bag.discards ∧
      c.Bag.seed = g.Bag.seed ∧
      c.Players.map (fun p => p.PatternLines.toList.map (fun l => (l.Size, l.Color, l.Filled))) =
        g.Players.map (fun p => p.PatternLines.toList.map (fun l => (l.Size, l.Color, l.Filled))) ∧
      c.Players.map (fun p => p.Wall) = g.Players.map (fun p => p.Wall) ∧
      c.Players.map (fun p => p.FloorLine) = g.Players.map (fun p => p.FloorLine) ∧
      c.Players.map (fun p => p.Score) = g.Players.map (fun p => p.Score) ∧
      c.Players = g.Players ∧ c.Factories = g.Factories ∧
      c.GetValidMoves = g.GetValidMoves :=
  ⟨_, clone_eq g hnum, rfl, rfl, rfl, rfl, rfl, rfl, rfl, rfl, rfl, rfl, rfl, rfl, rfl, rfl,
    rfl, rfl, rfl, clone_getValidMoves g⟩

/-- Witness of C34 on `startGame`. -/
theorem C34_clone_witness :
    startGame.NumPlayers = startGame.Players.length ∧
    ∃ c, startGame.Clone = some c ∧ c.Players = startGame.Players ∧
      c.Factories = startGame.Factories ∧ c.Center = startGame.Center ∧
      c.Bag.tiles = startGame.Bag.tiles ∧ c.GetValidMoves = startGame.GetValidMoves := by
  obtain ⟨c, h, _, _, _, _, _, _, h8, h9, h10, _, _, _, _, _, _, h17, h18, h19⟩ :=
    C34_clone startGame (by decide)
  refine ⟨by decide, c, h, h17, h18, ?_, h10, h19⟩
  cases hc : c.Center
  cases hs : startGame.Center
  simp only [hc, hs] at h8 h9
  simp [h8, h9]

theorem applyMove_badFactory (raw : Int → Nat → Nat) (g : Game) (m : Move)
    (hc : m.FactoryIdx ≠ -1)
    (hbad : m.FactoryIdx < 0 ∨ (g.Factories.length : Int) ≤ m.FactoryIdx) :
    Game.ApplyMove raw g m = none := by
  have hf : idx? g.Factories m.FactoryIdx = none := by
    unfold idx?
    split_ifs with h0
    · rfl
    · rw [List.getElem?_eq_none_iff]
      omega
  unfold Game.ApplyMove
  cases hp : idx? g.Players g.CurrentPlayer with
  | none => rfl
  | some player =>
    simp only []
    rw [takeTiles_factory_none g player m hc hf]

theorem applyMove_badLine (raw : Int → Nat → Nat) (g : Game) (m : Move)
    (tiles0 : List TileColor) (hcp0 : 0 ≤ g.CurrentPlayer)
    (hcp1 : g.CurrentPlayer < g.Players.length)
    (hs : g.sourceTiles m.FactoryIdx = some tiles0) (hcol : m.Color ∈ tiles0)
    (hbad : m.LineIdx < -1 ∨ 4 < m.LineIdx) :
    Game.ApplyMove raw g m = none := by
  obtain ⟨player, hp⟩ := idx?_isSome g.Players g.CurrentPlayer hcp0 hcp1
  obtain ⟨⟨g1, p1, tiles⟩, ht⟩ := takeTiles_isSome g player m tiles0 hs
  have htiles := (takeTiles_frame g g1 player p1 m tiles hp ht).2.2.2.2.2.2.2.2.2.2.2.2.2
    tiles0 hs
  have hlen : tiles.length ≠ 0 := by
    intro h0
    have hmem : m.Color ∈ tiles := by
      rw [htiles]; exact List.mem_filter.2 ⟨hcol, by simp⟩
    rw [List.length_eq_zero.1 h0] at hmem
    exact List.not_mem_nil _ hmem
  have hget : p1.PatternLines.get? m.LineIdx = none := by
    unfold Arr5.get?
    split_ifs <;> first | rfl | omega
  have hplace : p1.PlaceTiles m.LineIdx m.Color tiles.length = none := by
    unfold PlayerBoard.PlaceTiles
    rw [if_neg (by omega), hget]
  unfold Game.ApplyMove
  simp only [hp, ht, hlen, if_false, hplace]

/-- C35, what the code does with an index out of range: `ApplyMove` checks neither bound.
In every state whose current player is in range, a move whose `FactoryIdx` is neither `-1`
nor the index of a factory makes `ApplyMove` fault on `g.Factories[move.FactoryIdx]`; and
a move whose `LineIdx` is outside `-1..4`, from a source that holds its colour, makes it
fault on `pb.PatternLines[lineIdx]` in `PlaceTiles`.  Both faults occur on `startGame`. -/
theorem C35_applyMove_bounds (raw : Int → Nat → Nat) (g : Game) (m : Move)
    (hcp0 : 0 ≤ g.CurrentPlayer) (hcp1 : g.CurrentPlayer < g.Players.length) :
    (m.FactoryIdx ≠ -1 → (m.FactoryIdx < 0 ∨ (g.Factories.length : Int) ≤ m.FactoryIdx) →
      Game.ApplyMove raw g m = none) ∧
    ((m.LineIdx < -1 ∨ 4 < m.LineIdx) → ∀ tiles0, g.sourceTiles m.FactoryIdx = some tiles0 →
      m.Color ∈ tiles0 → Game.ApplyMove raw g m = none) ∧
    Game.ApplyMove raw startGame ⟨5, TileColor.Yellow, 0⟩ = none ∧
    Game.ApplyMove raw startGame ⟨0, TileColor.Yellow, 5⟩ = none :=
  ⟨fun hc hbad => applyMove_badFactory raw g m hc hbad,
    fun hbad tiles0 hs hcol => applyMove_badLine raw g m tiles0 hcp0 hcp1 hs hcol hbad,
    applyMove_badFactory raw startGame _ (by decide) (by decide),
    applyMove_badLine raw startGame _ _ (by decide) (by decide) rfl (by decide) (by decide)⟩

/-- Witness of C35 on `startGame`: five factories, the move names factory 5; and the move
takes yellow from factory 0, which holds it, to line 5. -/
theorem C35_applyMove_bounds_witness :
    ((0 : Int) ≤ startGame.CurrentPlayer ∧ startGame.CurrentPlayer < startGame.Players.length) ∧
    startGame.Factories.length = 5 ∧
    Game.ApplyMove rawZero startGame ⟨5, TileColor.Yellow, 0⟩ = none ∧
    Game.ApplyMove rawZero startGame ⟨0, TileColor.Yellow, 5⟩ = none :=
  ⟨by decide, by decide,
    (C35_applyMove_bounds rawZero startGame ⟨5, TileColor.Yellow, 0⟩ (by decide) (by decide)).1
      (by decide) (by decide),
    (C35_applyMove_bounds rawZero startGame ⟨0, TileColor.Yellow, 5⟩ (by decide) (by decide)).2.1
      (by decide) _ rfl (by decide)⟩

/-! ## Claims on the end of the game -/

theorem any_completed_congr (ps qs : List PlayerBoard)
    (h : ps.map (fun p => p.Wall) = qs.map (fun p => p.Wall)) :
    ps.any (fun p => p.HasCompletedRow) = qs.any (fun p => p.HasCompletedRow) := by
  have e : ∀ l : List PlayerBoard, l.any (fun p => p.HasCompletedRow) =
      (l.map (fun p => p.Wall)).any (fun w => fin5.any (fun row => rowComplete w row)) := by
    intro l
    induction l with
    | nil => rfl
    | cons a l ih =>
      rw [List.any_cons, List.map_cons, List.any_cons, ih]
      rfl
  rw [e ps, e qs, h]

theorem endRoundLoop_length :
    ∀ (ps : List PlayerBoard) (b : Bag) (r : List PlayerBoard × Bag),
      endRoundLoop ps b = some r → r.1.length = ps.length := by
  intro ps
  induction ps with
  | nil =>
    intro b r h
    simp only [endRoundLoop, Option.some.injEq] at h
    subst h
    rfl
  | cons p ps ih =>
    intro b r h
    unfold endRoundLoop at h
    cases htw : p.TileWall with
    | none => simp [htw] at h
    | some tw =>
      simp only [htw] at h
      cases hr : endRoundLoop ps ((b.Discard tw.2).Discard tw.1.ScoreFloorLine.2) with
      | none => simp [hr] at h
      | some r1 =>
        simp only [hr, Option.some.injEq] at h
        subst h
        simp [ih _ r1 hr]

theorem takeTiles_supply (g g1 : Game) (player p1 : PlayerBoard) (m : Move)
    (tiles : List TileColor) (h : Game.takeTiles g player m = some (g1, p1, tiles)) :
    (g1.FirstPlayer = g.FirstPlayer ∨ g1.FirstPlayer = g.CurrentPlayer) ∧
    (g.IsRoundOver = true → g1.IsRoundOver = true ∧ tiles = []) := by
  by_cases hc : m.FactoryIdx = -1
  · cases hm : g.Center.HasFirstPlayerTile with
    | true =>
      rw [takeTiles_center_marker g player m hc hm] at h
      simp only [Option.some.injEq, Prod.mk.injEq] at h
      obtain ⟨rfl, rfl, rfl⟩ := h
      refine ⟨Or.inr rfl, ?_⟩
      intro hover
      obtain ⟨hf, hcen⟩ := (isRoundOver_iff g).1 hover
      refine ⟨(isRoundOver_iff _).2 ⟨hf, ?_⟩, ?_⟩
      · simp [hcen]
      · simp [hcen]
    | false =>
      rw [takeTiles_center_plain g player m hc hm] at h
      simp only [Option.some.injEq, Prod.mk.injEq] at h
      obtain ⟨rfl, rfl, rfl⟩ := h
      refine ⟨Or.inl rfl, ?_⟩
      intro hover
      obtain ⟨hf, hcen⟩ := (isRoundOver_iff g).1 hover
      refine ⟨(isRoundOver_iff _).2 ⟨hf, ?_⟩, ?_⟩
      · simp [hcen]
      · simp [hcen]
  · cases hf : idx? g.Factories m.FactoryIdx with
    | none =>
      rw [takeTiles_factory_none g player m hc hf] at h
      exact Option.noConfusion h
    | some f =>
      rw [takeTiles_factory g player m f hc hf] at h
      simp only [Option.some.injEq, Prod.mk.injEq] at h
      obtain ⟨rfl, rfl, rfl⟩ := h
      refine ⟨Or.inl rfl, ?_⟩
      intro hover
      obtain ⟨hfs, hcen⟩ := (isRoundOver_iff g).1 hover
      have hfe : f.Tiles = [] := hfs f (idx?_mem _ _ _ hf)
      refine ⟨(isRoundOver_iff _).2 ⟨?_, ?_⟩, ?_⟩
      · intro f2 hf2
        rcases List.mem_or_eq_of_mem_set hf2 with h1 | h1
        · exact hfs f2 h1
        · rw [h1]
      · simp [hcen, hfe]
      · simp [hfe]

theorem applyMove_settled (raw : Int → Nat → Nat) (g g' : Game) (m : Move) (e : Bool)
    (hs : g.Settled) (h : Game.ApplyMove raw g m = some (g', e)) :
    g'.Settled ∧ g'.Players.length = g.Players.length ∧
    (g.GameOver = true → e = true) ∧ (e = false → g.IsRoundOver = false) := by
  unfold Game.ApplyMove at h
  cases hp : idx? g.Players g.CurrentPlayer with
  | none => simp [hp] at h
  | some player =>
    cases ht : Game.takeTiles g player m with
    | none => simp [hp, ht] at h
    | some r =>
      obtain ⟨ga, p1, tiles⟩ := r
      obtain ⟨e1, e2, e3, e4, e5, e6, e7, e8, e9, e10, e11, e12, e13, e14⟩ :=
        takeTiles_frame g ga player p1 m tiles hp ht
      obtain ⟨hfirst, hsup⟩ := takeTiles_supply g ga player p1 m tiles ht
      have hga : ga.Settled := by
        refine ⟨by rw [e1]; exact hs.cur0, by rw [e1, e9]; exact hs.cur1, by rw [e4, e9]; exact hs.num,
          ?_, ?_, ?_, ?_⟩
        · rcases hfirst with hf | hf
          · rw [hf]; exact hs.first0
          · rw [hf]; exact hs.cur0
        · rcases hfirst with hf | hf
          · rw [hf, e9]; exact hs.first1
          · rw [hf, e9]; exact hs.cur1
        · rw [e3, hs.over]
          exact (any_completed_congr _ _ e8).symm
        · intro hover
          rw [e3] at hover
          exact (hsup (hs.done hover)).1
      simp only [hp, ht] at h
      split_ifs at h with hlen
      · simp only [Option.some.injEq, Prod.mk.injEq] at h
        obtain ⟨rfl, rfl⟩ := h
        exact ⟨hga, e9, fun _ => rfl, fun hx => Bool.noConfusion hx⟩
      · have hnotover : g.IsRoundOver = false := by
          cases hro : g.IsRoundOver with
          | false => rfl
          | true =>
            have := (hsup hro).2
            rw [this] at hlen
            exact absurd rfl hlen
        have hgo : g.GameOver = false := by
          cases hgo : g.GameOver with
          | false => rfl
          | true =>
            rw [hs.done hgo] at hnotover
            exact Bool.noConfusion hnotover
        cases hpl : p1.PlaceTiles m.LineIdx m.Color tiles.length with
        | none => simp [hpl] at h
        | some p2 =>
          obtain ⟨f1, f2⟩ := placeTiles_frame p1 p2 _ _ _ hpl
          obtain ⟨q0, q1⟩ := (idx?_eq_some _ _ _).1 e10
          have hwall2 : (Game.setPlayer ga p2).Players.map (fun p => p.Wall) =
              g.Players.map (fun p => p.Wall) := by
            rw [← e8]
            exact map_set_of_eq _ _ _ _ _ q1 f2
          have hlen2 : (Game.setPlayer ga p2).Players.length = g.Players.length := by
            simp [Game.setPlayer, e9]
          have hnone : g.Players.any (fun p => p.HasCompletedRow) = false := by
            rw [← hs.over]; exact hgo
          simp only [hpl] at h
          split_ifs at h with hover
          · cases hr : Game.EndRound raw (Game.setPlayer ga p2) with
            | none => simp [hr] at h
            | some g3 =>
              simp only [hr, Option.some.injEq, Prod.mk.injEq] at h
              obtain ⟨rfl, rfl⟩ := h
              refine ⟨?_, ?_, fun hx => by rw [hgo] at hx; exact Bool.noConfusion hx,
                fun _ => hnotover⟩
              · unfold Game.EndRound at hr
                cases hl : endRoundLoop (Game.setPlayer ga p2).Players (Game.setPlayer ga p2).Bag with
                | none => simp [hl] at hr
                | some r =>
                  have hrl := endRoundLoop_length _ _ r hl
                  simp only [hl] at hr
                  split_ifs at hr with hany
                  · simp only [Game.EndGame, endGameLoop_eq, Option.some.injEq] at hr
                    subst hr
                    have hlen3 : (r.1.map (fun p : PlayerBoard =>
                        { p with Score := p.Score + endGameBonus p.Wall })).length
                        = g.Players.length := by
                      rw [List.length_map, hrl, hlen2]
                    have hw : (r.1.map (fun p : PlayerBoard =>
                        { p with Score := p.Score + endGameBonus p.Wall })).map (fun p => p.Wall)
                        = r.1.map (fun p => p.Wall) := by
                      rw [List.map_map]
                      rfl
                    refine ⟨by simp only [Game.setPlayer, e1]; exact hs.cur0,
                      by simp only [Game.setPlayer, e1, hlen3]; exact hs.cur1,
                      by simp only [Game.setPlayer, e4, hlen3]; exact hs.num,
                      by simp only [Game.setPlayer]; exact hga.first0,
                      by simp only [Game.setPlayer, hlen3]; rw [← e9]; exact hga.first1,
                      ?_, ?_⟩
                    · simp only
                      rw [any_completed_congr _ _ hw]
                      exact hany.symm
                    · intro _
                      exact hover
                  · obtain ⟨fs, b, hsetup, _, _⟩ := setupRound_spec raw
                      { Game.setPlayer ga p2 with
                        Players := r.1, Bag := r.2, Round := (Game.setPlayer ga p2).Round + 1,
                        CurrentPlayer := (Game.setPlayer ga p2).FirstPlayer }
                    rw [hsetup] at hr
                    simp only [Option.some.injEq] at hr
                    subst hr
                    have hlen3 : r.1.length = g.Players.length := by rw [hrl, hlen2]
                    refine ⟨by simp only [Game.setPlayer]; exact hga.first0,
                      by simp only [Game.setPlayer, hlen3]; rw [← e9]; exact hga.first1,
                      by simp only [Game.setPlayer, e4, hlen3]; exact hs.num,
                      by simp only [Game.setPlayer]; exact hga.first0,
                      by simp only [Game.setPlayer, hlen3]; rw [← e9]; exact hga.first1,
                      ?_, ?_⟩
                    · simp only [Game.setPlayer, e3, hgo]
                      simp only [Bool.not_eq_true] at hany
                      exact hany.symm
                    · intro hx
                      simp only [Game.setPlayer, e3, hgo] at hx
                      exact Bool.noConfusion hx
              · unfold Game.EndRound at hr
                cases hl : endRoundLoop (Game.setPlayer ga p2).Players (Game.setPlayer ga p2).Bag with
                | none => simp [hl] at hr
                | some r =>
                  have hrl := endRoundLoop_length _ _ r hl
                  simp only [hl] at hr
                  split_ifs at hr with hany
                  · simp only [Game.EndGame, endGameLoop_eq, Option.some.injEq] at hr
                    subst hr
                    simp only [List.length_map, hrl, hlen2]
                  · obtain ⟨fs, b, hsetup, _, _⟩ := setupRound_spec raw
                      { Game.setPlayer ga p2 with
                        Players := r.1, Bag := r.2, Round := (Game.setPlayer ga p2).Round + 1,
                        CurrentPlayer := (Game.setPlayer ga p2).FirstPlayer }
                    rw [hsetup] at hr
                    simp only [Option.some.injEq] at hr
                    subst hr
                    simp only [hrl, hlen2]
          · cases hr : Game.NextPlayer (Game.setPlayer ga p2) with
            | none => simp [hr] at h
            | some g3 =>
              simp only [hr, Option.some.injEq, Prod.mk.injEq] at h
              obtain ⟨rfl, rfl⟩ := h
              unfold Game.NextPlayer at hr
              split_ifs at hr with hz
              simp only [Option.some.injEq] at hr
              subst hr
              have hnum : (Game.setPlayer ga p2).NumPlayers = g.Players.length := by
                simp only [Game.setPlayer, e4]; exact hs.num
              have hcur : (Game.setPlayer ga p2).CurrentPlayer = g.CurrentPlayer := by
                simp only [Game.setPlayer, e1]
              have hpos : (0 : Int) < g.Players.length := by
                have := hs.cur0; have := hs.cur1; omega
              have htm := tmod_eq_emod_of_nonneg (g.CurrentPlayer + 1) (g.Players.length : Int)
                (by have := hs.cur0; omega)
              refine ⟨⟨?_, ?_, ?_, ?_, ?_, ?_, ?_⟩, hlen2, fun hx => by rw [hgo] at hx; exact Bool.noConfusion hx,
                fun _ => hnotover⟩
              · simp only [hcur, hnum, htm]
                exact Int.emod_nonneg _ (by omega)
              · simp only [hcur, hnum, htm, hlen2]
                exact Int.emod_lt_of_pos _ hpos
              · simp only [hlen2]; exact hnum
              · simp only [Game.setPlayer]; exact hga.first0
              · simp only [hlen2]; rw [← e9]; exact hga.first1
              · simp only
                rw [any_completed_congr _ _ hwall2, hnone]
                simp only [Game.setPlayer, e3, hgo]
              · intro hx
                simp only [Game.setPlayer, e3, hgo] at hx
                exact Bool.noConfusion hx

theorem isNewGame_settled (raw : Int → Nat → Nat) (g : Game) (h : IsNewGame raw g) :
    g.Settled := by
  have key : ∀ (n2 : Int) (fs : List Factory) (b : Bag), 2 ≤ n2 →
      Game.Settled
        { Players := List.replicate n2.toNat NewPlayerBoard
          Factories := fs
          Center := Center.NewCenter
          Bag := b
          CurrentPlayer := 0
          FirstPlayer := 0
          Round := 1
          GameOver := false
          NumPlayers := n2 } := by
    intro n2 fs b hn
    refine ⟨le_refl _, ?_, ?_, le_refl _, ?_, ?_, fun hx => Bool.noConfusion hx⟩
    · simp only [List.length_replicate]; omega
    · simp only [List.length_replicate]; omega
    · simp only [List.length_replicate]; omega
    · symm
      rw [List.any_eq_false]
      intro p hp
      rw [(List.mem_replicate.1 hp).2]
      decide
  rcases h with ⟨now, n, h⟩ | ⟨now, n, seed, h⟩
  · obtain ⟨n2, fs, b, hlo, _, _, heq, _, _⟩ := newGame_spec raw now n
    rw [heq] at h
    simp only [Option.some.injEq] at h
    subst h
    exact key n2 fs b hlo
  · obtain ⟨n2, fs, b, hlo, _, _, heq, _, _⟩ := newGameWithSeed_spec raw now n seed
    rw [heq] at h
    simp only [Option.some.injEq] at h
    subst h
    exact key n2 fs b hlo

theorem anyPlay_settled (raw : Int → Nat → Nat) (g0 g : Game) (h0 : g0.Settled)
    (h : AnyPlay raw g0 g) : g.Settled := by
  induction h with
  | start => exact h0
  | step g g1 m e _ happ ih => exact (applyMove_settled raw g g1 m e ih happ).1

theorem settled_rows (g : Game) (hs : g.Settled) :
    (g.GameOver = true ↔ ∃ p ∈ g.Players, p.HasCompletedRow = true) ∧
    (g.GameOver = true ↔ ∃ p ∈ g.Players, ∃ r ∈ range5, rowFull p.Wall r = true) := by
  have h1 : g.GameOver = true ↔ ∃ p ∈ g.Players, p.HasCompletedRow = true := by
    rw [hs.over, List.any_eq_true]
  refine ⟨h1, h1.trans ?_⟩
  constructor
  · rintro ⟨p, hp, hc⟩
    exact ⟨p, hp, (hasCompletedRow_iff p).1 hc⟩
  · rintro ⟨p, hp, hc⟩
    exact ⟨p, hp, (hasCompletedRow_iff p).2 hc⟩

theorem gameOver_rows (raw : Int → Nat → Nat) (g0 g : Game) (hnew : IsNewGame raw g0)
    (hplay : AnyPlay raw g0 g) :
    (g.GameOver = true ↔ ∃ p ∈ g.Players, p.HasCompletedRow = true) ∧
    (g.GameOver = true ↔ ∃ p ∈ g.Players, ∃ r ∈ range5, rowFull p.Wall r = true) ∧
    (∀ (m : Move) (g1 : Game), Game.ApplyMove raw g m = some (g1, false) →
      ∀ p ∈ g.Players, p.HasCompletedRow = false) := by
  have hs := anyPlay_settled raw g0 g (isNewGame_settled raw g0 hnew) hplay
  obtain ⟨h1, h2⟩ := settled_rows g hs
  refine ⟨h1, h2, ?_⟩
  intro m g1 happ p hp
  obtain ⟨_, _, hov, _⟩ := applyMove_settled raw g g1 m false hs happ
  cases hc : p.HasCompletedRow with
  | false => rfl
  | true =>
    have := hov (h1.2 ⟨p, hp, hc⟩)
    exact Bool.noConfusion this

theorem settled_over (raw : Int → Nat → Nat) (g : Game) (hs : g.Settled)
    (hover : g.GameOver = true) :
    (∀ f ∈ g.Factories, f.Tiles = []) ∧ g.Center.Tiles = [] ∧ g.GetValidMoves = some [] ∧
    (∀ m : Move, (m.FactoryIdx = -1 ∨ (0 ≤ m.FactoryIdx ∧ m.FactoryIdx < g.Factories.length)) →
      ∃ g1, Game.ApplyMove raw g m = some (g1, true) ∧ g1.GameOver = true ∧
        g1.Players.map (fun p => p.Score) = g.Players.map (fun p => p.Score) ∧
        g1.Players.map (fun p => p.Wall) = g.Players.map (fun p => p.Wall)) := by
  obtain ⟨hf, hc⟩ := (isRoundOver_iff g).1 (hs.done hover)
  obtain ⟨player, hp⟩ := idx?_isSome g.Players g.CurrentPlayer hs.cur0 hs.cur1
  have hgc : g.Center.GetColors = [] := by
    unfold Center.GetColors
    rw [hc]
    rfl
  have hfm : ∀ (fs : List Factory) (k : Int), (∀ f ∈ fs, f.Tiles = []) →
      factoryMoves player fs k = some [] := by
    intro fs
    induction fs with
    | nil => intro k _; rfl
    | cons f fs ih =>
      intro k h
      have hfe : f.GetColors = [] := by
        unfold Factory.GetColors
        rw [h f (List.mem_cons_self _ _)]
        rfl
      unfold factoryMoves
      rw [hfe, ih (k + 1) (fun f2 hf2 => h f2 (List.mem_cons_of_mem _ hf2))]
      rfl
  refine ⟨hf, hc, ?_, ?_⟩
  · unfold Game.GetValidMoves
    rw [hp]
    simp only []
    rw [hfm g.Factories 0 hf, hgc]
    rfl
  · intro m hm
    obtain ⟨tiles0, hsrc⟩ := sourceTiles_isSome g m.FactoryIdx hm
    have hempty : tiles0 = [] := by
      unfold Game.sourceTiles at hsrc
      split_ifs at hsrc with h1
      · simp only [Option.some.injEq] at hsrc
        rw [← hsrc]; exact hc
      · cases hfi : idx? g.Factories m.FactoryIdx with
        | none => simp [hfi] at hsrc
        | some f =>
          simp only [hfi, Option.some.injEq] at hsrc
          rw [← hsrc]
          exact hf f (idx?_mem _ _ _ hfi)
    obtain ⟨g1, hg1⟩ := (applyMove_error_iff raw g m tiles0 hs.cur0 hs.cur1 hsrc).2
      (by rw [hempty]; rfl)
    obtain ⟨pl2, p1, hp2, ht⟩ := applyMove_error raw g g1 m hg1
    obtain ⟨_, _, e3, _, _, e6, _, e8, _⟩ := takeTiles_frame g g1 pl2 p1 m [] hp2 ht
    exact ⟨g1, hg1, by rw [e3]; exact hover, e6, e8⟩

theorem anyPlay_over (raw : Int → Nat → Nat) (g g1 : Game) (hs : g.Settled)
    (hover : g.GameOver = true) (h : AnyPlay raw g g1) :
    g1.Settled ∧ g1.GameOver = true ∧
    g1.Players.map (fun p => p.Score) = g.Players.map (fun p => p.Score) ∧
    g1.Players.map (fun p => p.Wall) = g.Players.map (fun p => p.Wall) := by
  induction h with
  | start => exact ⟨hs, hover, rfl, rfl⟩
  | step ga gb m e _ happ ih =>
    obtain ⟨ihs, iho, ihsc, ihw⟩ := ih
    obtain ⟨hsb, _, hov, _⟩ := applyMove_settled raw ga gb m e ihs happ
    have he := hov iho
    subst he
    obtain ⟨pl2, p1, hp2, ht⟩ := applyMove_error raw ga gb m happ
    obtain ⟨_, _, e3, _, _, e6, _, e8, _⟩ := takeTiles_frame ga gb pl2 p1 m [] hp2 ht
    exact ⟨hsb, by rw [e3]; exact iho, e6.trans ihsc, e8.trans ihw⟩

/-- C36: `GameOver` tracks completed rows.  In every state reached from a new game by
calls of `ApplyMove`, with any moves, `GameOver` is true if and only if some board has
`HasCompletedRow`, that is a wall row with all five cells occupied; so whenever a move is
applied without an error no board has a completed row. -/
theorem C36_gameOver_rows (raw : Int → Nat → Nat) (g0 g : Game) (hnew : IsNewGame raw g0)
    (hplay : AnyPlay raw g0 g) :
    (g.GameOver = true ↔ ∃ p ∈ g.Players, p.HasCompletedRow = true) ∧
    (g.GameOver = true ↔ ∃ p ∈ g.Players, ∃ r ∈ range5, rowFull p.Wall r = true) ∧
    (∀ (m : Move) (g1 : Game), Game.ApplyMove raw g m = some (g1, false) →
      ∀ p ∈ g.Players, p.HasCompletedRow = false) :=
  gameOver_rows raw g0 g hnew hplay

/-- C37: `GameOver` is terminal.  In every state reached from a new game by calls of
`ApplyMove` in which `GameOver` is true, every factory is empty and the center holds no
tiles, `GetValidMoves` returns the empty list, and `ApplyMove` with a move whose source is
the center or an existing factory returns an error, with `GameOver`, the scores and the
walls unchanged; hence in every state reached from there by further calls of `ApplyMove`
`GameOver` is still true and every score and wall is the same, so that the end of game
bonus is not applied again. -/
theorem C37_gameOver_terminal (raw : Int → Nat → Nat) (g0 g : Game)
    (hnew : IsNewGame raw g0) (hplay : AnyPlay raw g0 g) (hover : g.GameOver = true) :
    (∀ f ∈ g.Factories, f.Tiles = []) ∧ g.Center.Tiles = [] ∧ g.GetValidMoves = some [] ∧
    (∀ m : Move, (m.FactoryIdx = -1 ∨ (0 ≤ m.FactoryIdx ∧ m.FactoryIdx < g.Factories.length)) →
      ∃ g1, Game.ApplyMove raw g m = some (g1, true) ∧ g1.GameOver = true ∧
        g1.Players.map (fun p => p.Score) = g.Players.map (fun p => p.Score) ∧
        g1.Players.map (fun p => p.Wall) = g.Players.map (fun p => p.Wall)) ∧
    (∀ (m : Move) (g1 : Game) (e : Bool), Game.ApplyMove raw g m = some (g1, e) → e = true) ∧
    (∀ g1, AnyPlay raw g g1 → g1.GameOver = true ∧
      g1.Players.map (fun p => p.Score) = g.Players.map (fun p => p.Score) ∧
      g1.Players.map (fun p => p.Wall) = g.Players.map (fun p => p.Wall)) := by
  have hs := anyPlay_settled raw g0 g (isNewGame_settled raw g0 hnew) hplay
  obtain ⟨h1, h2, h3, h4⟩ := settled_over raw g hs hover
  refine ⟨h1, h2, h3, h4, ?_, ?_⟩
  · intro m g1 e happ
    exact (applyMove_settled raw g g1 m e hs happ).2.2.1 hover
  · intro g1 hp
    exact (anyPlay_over raw g g1 hs hover hp).2

set_option maxRecDepth 1000000 in
theorem anyPlay_over25 :
    IsNewGame rawId mono0 ∧ AnyPlay rawId mono0 over25 ∧ over25.GameOver = true ∧
    over20.GameOver = false ∧ AnyPlay rawId mono0 over20 := by
  have h0 : AnyPlay rawId mono0 mono0 := AnyPlay.start
  have h1 : AnyPlay rawId mono0 over1 :=
    AnyPlay.step mono0 over1 ⟨0, TileColor.White, 0⟩ false h0 (by decide)
  have h2 : AnyPlay rawId mono0 over2 :=
    AnyPlay.step over1 over2 ⟨1, TileColor.White, -1⟩ false h1 (by decide)
  have h3 : AnyPlay rawId mono0 over3 :=
    AnyPlay.step over2 over3 ⟨2, TileColor.White, -1⟩ false h2 (by decide)
  have h4 : AnyPlay rawId mono0 over4 :=
    AnyPlay.step over3 over4 ⟨3, TileColor.White, -1⟩ false h3 (by decide)
  have h5 : AnyPlay rawId mono0 over5 :=
    AnyPlay.step over4 over5 ⟨4, TileColor.White, -1⟩ false h4 (by decide)
  have h6 : AnyPlay rawId mono0 over6 :=
    AnyPlay.step over5 over6 ⟨0, TileColor.Black, 0⟩ false h5 (by decide)
  have h7 : AnyPlay rawId mono0 over7 :=
    AnyPlay.step over6 over7 ⟨1, TileColor.Black, -1⟩ false h6 (by decide)
  have h8 : AnyPlay rawId mono0 over8 :=
    AnyPlay.step over7 over8 ⟨2, TileColor.Black, -1⟩ false h7 (by decide)
  have h9 : AnyPlay rawId mono0 over9 :=
    AnyPlay.step over8 over9 ⟨3, TileColor.Black, -1⟩ false h8 (by decide)
  have h10 : AnyPlay rawId mono0 over10 :=
    AnyPlay.step over9 over10 ⟨4, TileColor.Black, -1⟩ false h9 (by decide)
  have h11 : AnyPlay rawId mono0 over11 :=
    AnyPlay.step over10 over11 ⟨0, TileColor.Red, 0⟩ false h10 (by decide)
  have h12 : AnyPlay rawId mono0 over12 :=
    AnyPlay.step over11 over12 ⟨1, TileColor.Red, -1⟩ false h11 (by decide)
  have h13 : AnyPlay rawId mono0 over13 :=
    AnyPlay.step over12 over13 ⟨2, TileColor.Red, -1⟩ false h12 (by decide)
  have h14 : AnyPlay rawId mono0 over14 :=
    AnyPlay.step over13 over14 ⟨3, TileColor.Red, -1⟩ false h13 (by decide)
  have h15 : AnyPlay rawId mono0 over15 :=
    AnyPlay.step over14 over15 ⟨4, TileColor.Red, -1⟩ false h14 (by decide)
  have h16 : AnyPlay rawId mono0 over16 :=
    AnyPlay.step over15 over16 ⟨0, TileColor.Yellow, 0⟩ false h15 (by decide)
  have h17 : AnyPlay rawId mono0 over17 :=
    AnyPlay.step over16 over17 ⟨1, TileColor.Yellow, -1⟩ false h16 (by decide)
  have h18 : AnyPlay rawId mono0 over18 :=
    AnyPlay.step over17 over18 ⟨2, TileColor.Yellow, -1⟩ false h17 (by decide)
  have h19 : AnyPlay rawId mono0 over19 :=
    AnyPlay.step over18 over19 ⟨3, TileColor.Yellow, -1⟩ false h18 (by decide)
  have h20 : AnyPlay rawId mono0 over20 :=
    AnyPlay.step over19 over20 ⟨4, TileColor.Yellow, -1⟩ false h19 (by decide)
  have h21 : AnyPlay rawId mono0 over21 :=
    AnyPlay.step over20 over21 ⟨0, TileColor.Blue, 0⟩ false h20 (by decide)
  have h22 : AnyPlay rawId mono0 over22 :=
    AnyPlay.step over21 over22 ⟨1, TileColor.Blue, -1⟩ false h21 (by decide)
  have h23 : AnyPlay rawId mono0 over23 :=
    AnyPlay.step over22 over23 ⟨2, TileColor.Blue, -1⟩ false h22 (by decide)
  have h24 : AnyPlay rawId mono0 over24 :=
    AnyPlay.step over23 over24 ⟨3, TileColor.Blue, -1⟩ false h23 (by decide)
  have h25 : AnyPlay rawId mono0 over25 :=
    AnyPlay.step over24 over25 ⟨4, TileColor.Blue, -1⟩ false h24 (by decide)
  exact ⟨Or.inr ⟨0, 2, 42, by decide⟩, h25, by decide, by decide, h20⟩

/-- Witness of C36 on the play of five rounds in which player 0 fills line 0 with a new
colour each round: after 20 moves the game is not over and no board has a completed row,
after 25 it is over and some board has one. -/
theorem C36_gameOver_rows_witness :
    IsNewGame rawId mono0 ∧ AnyPlay rawId mono0 over20 ∧ AnyPlay rawId mono0 over25 ∧
    over20.GameOver = false ∧ (¬ ∃ p ∈ over20.Players, p.HasCompletedRow = true) ∧
    over25.GameOver = true ∧ (∃ p ∈ over25.Players, p.HasCompletedRow = true) := by
  obtain ⟨hnew, h25, ho25, ho20, h20⟩ := anyPlay_over25
  refine ⟨hnew, h20, h25, ho20, ?_, ho25, ?_⟩
  · intro hx
    have := (C36_gameOver_rows rawId mono0 over20 hnew h20).1.2 hx
    rw [ho20] at this
    exact Bool.noConfusion this
  · exact (C36_gameOver_rows rawId mono0 over25 hnew h25).1.1 ho25

/-- Witness of C37 on the state after the 25 moves of the same play, in which the game is
over. -/
theorem C37_gameOver_terminal_witness :
    IsNewGame rawId mono0 ∧ AnyPlay rawId mono0 over25 ∧ over25.GameOver = true ∧
    (∀ f ∈ over25.Factories, f.Tiles = []) ∧ over25.Center.Tiles = [] ∧
    over25.GetValidMoves = some [] ∧
    (∃ g1, Game.ApplyMove rawId over25 ⟨-1, TileColor.Blue, 0⟩ = some (g1, true) ∧
      g1.GameOver = true ∧
      g1.Players.map (fun p => p.Score) = over25.Players.map (fun p => p.Score)) := by
  obtain ⟨hnew, h25, ho25, _, _⟩ := anyPlay_over25
  obtain ⟨a, b, c, d, _, _⟩ := C37_gameOver_terminal rawId mono0 over25 hnew h25 ho25
  obtain ⟨g1, e1, e2, e3, _⟩ := d ⟨-1, TileColor.Blue, 0⟩ (Or.inl rfl)
  exact ⟨hnew, h25, ho25, a, b, c, g1, e1, e2, e3⟩

/-! ## The float64 expression of evaluateState -/

theorem roundEven_intCast (k : Int) : roundEven (k : ℚ) = k := by
  unfold roundEven
  simp

theorem roundEven_nonneg (q : ℚ) (h : 0 ≤ q) : 0 ≤ roundEven q := by
  have := Int.floor_nonneg.2 h
  unfold roundEven
  split_ifs <;> omega

theorem roundEven_le (q : ℚ) (M : Int) (h : q ≤ M) : roundEven q ≤ M := by
  have hf : ⌊q⌋ ≤ M := Int.cast_le.1 ((Int.floor_le q).trans h)
  rcases lt_or_eq_of_le hf with hlt | heq
  · unfold roundEven
    split_ifs <;> omega
  · unfold roundEven
    rw [if_pos]
    · exact hf
    · rw [heq]
      linarith

theorem float64_zero : float64 0 = 0 := by
  unfold float64
  simp

theorem float64_nonneg (x : ℚ) (h : 0 ≤ x) : 0 ≤ float64 x := by
  unfold float64
  split_ifs
  · exact le_refl _
  · apply div_nonneg
    · exact_mod_cast roundEven_nonneg _ (mul_nonneg h (zpow_nonneg (by norm_num) _))
    · exact zpow_nonneg (by norm_num) _

theorem log_le_52 (x : ℚ) (N : Nat) (h0 : 0 < x) (h : x ≤ N) (hN : N < 2 ^ 53) :
    Int.log 2 |x| ≤ 52 := by
  rw [abs_of_pos h0]
  have h1 : Int.log 2 x ≤ Int.log 2 (N : ℚ) := Int.log_mono_right h0 h
  rw [Int.log_natCast] at h1
  have h2 : Nat.log 2 N < 53 := by
    rcases Nat.eq_zero_or_pos N with hz | hp
    · subst hz; simp
    · exact Nat.log_lt_of_lt_pow (by omega) hN
  omega

theorem float64_le (x : ℚ) (N : Nat) (h0 : 0 ≤ x) (h : x ≤ N) (hN : N < 2 ^ 53) :
    float64 x ≤ N := by
  rcases eq_or_lt_of_le h0 with hz | hp
  · rw [← hz, float64_zero]
    exact Nat.cast_nonneg N
  · have he := log_le_52 x N hp h hN
    unfold float64
    rw [if_neg (ne_of_gt hp)]
    obtain ⟨k, hk⟩ : ∃ k : Nat, 52 - Int.log 2 |x| = (k : Int) :=
      ⟨(52 - Int.log 2 |x|).toNat, by omega⟩
    rw [hk, zpow_natCast]
    have hpos : (0 : ℚ) < 2 ^ k := by positivity
    rw [div_le_iff₀ hpos]
    have h3 : roundEven (x * 2 ^ k) ≤ (N : Int) * 2 ^ k := by
      apply roundEven_le
      push_cast
      exact mul_le_mul_of_nonneg_right h (le_of_lt hpos)
    have h4 : ((roundEven (x * 2 ^ k) : Int) : ℚ) ≤ (((N : Int) * 2 ^ k : Int) : ℚ) :=
      Int.cast_le.2 h3
    push_cast at h4
    exact h4

theorem float64_natCast (n : Nat) (hN : n < 2 ^ 53) : float64 (n : ℚ) = n := by
  rcases Nat.eq_zero_or_pos n with hz | hp
  · subst hz
    simp [float64_zero]
  · have hq : (0 : ℚ) < n := by exact_mod_cast hp
    have he := log_le_52 (n : ℚ) n hq (le_refl _) hN
    unfold float64
    rw [if_neg (ne_of_gt hq)]
    obtain ⟨k, hk⟩ : ∃ k : Nat, 52 - Int.log 2 |(n : ℚ)| = (k : Int) :=
      ⟨(52 - Int.log 2 |(n : ℚ)|).toNat, by omega⟩
    rw [hk, zpow_natCast]
    have hpos : (0 : ℚ) < 2 ^ k := by positivity
    have h3 : ((n : ℚ) * 2 ^ k) = (((n : Int) * 2 ^ k : Int) : ℚ) := by push_cast; rfl
    rw [h3, roundEven_intCast]
    push_cast
    field_simp

theorem float64_intCast (z : Int) (h0 : 0 ≤ z) (h : z < 2 ^ 53) : float64 (z : ℚ) = z := by
  obtain ⟨n, rfl⟩ := Int.eq_ofNat_of_zero_le h0
  have hn : n < 2 ^ 53 := by exact_mod_cast h
  have := float64_natCast n hn
  simpa using this

theorem truncInt_bounds (x : ℚ) (N : Int) (h0 : 0 ≤ x) (h : x ≤ N) :
    0 ≤ truncInt x ∧ truncInt x ≤ N := by
  unfold truncInt
  rw [if_pos h0]
  exact ⟨Int.floor_nonneg.2 h0, Int.cast_le.1 ((Int.floor_le x).trans h)⟩

theorem progressCredit_bounds (filled size k : Int) (h1 : 0 < filled) (h2 : filled ≤ size)
    (h3 : size ≤ 5) (hk0 : 0 ≤ k) (hk : k ≤ 5) :
    ∃ c, progressCredit filled size k = some c ∧ 0 ≤ c ∧ c ≤ 5 * k := by
  have ea : float64 (filled : ℚ) = filled := float64_intCast filled (by omega) (by omega)
  have eb : float64 (size : ℚ) = size := float64_intCast size (by omega) (by omega)
  have ek : float64 (k : ℚ) = k := float64_intCast k hk0 (by omega)
  have e5 : float64 (5 : ℚ) = 5 := by
    have := float64_natCast 5 (by norm_num)
    simpa using this
  have hs : (0 : ℚ) < size := by exact_mod_cast (by omega : (0 : Int) < size)
  have hfq : (0 : ℚ) < filled := by exact_mod_cast h1
  have hle : (filled : ℚ) ≤ size := by exact_mod_cast h2
  have hkq : (0 : ℚ) ≤ k := by exact_mod_cast hk0
  unfold progressCredit
  rw [eb, if_neg (ne_of_gt hs), ea, ek, e5]
  have p0 : (0 : ℚ) ≤ (filled : ℚ) / size := le_of_lt (div_pos hfq hs)
  have p1 : (filled : ℚ) / size ≤ ((1 : Nat) : ℚ) := by
    rw [div_le_iff₀ hs]; simpa using hle
  have q0 := float64_nonneg _ p0
  have q1 := float64_le _ 1 p0 p1 (by norm_num)
  obtain ⟨n, hn⟩ := Int.eq_ofNat_of_zero_le hk0
  have hnq : (k : ℚ) = (n : ℚ) := by rw [hn]; simp
  have r0 : (0 : ℚ) ≤ float64 ((filled : ℚ) / size) * k := mul_nonneg q0 hkq
  have r1 : float64 ((filled : ℚ) / size) * k ≤ (n : ℚ) := by
    rw [← hnq]
    have : float64 ((filled : ℚ) / size) * k ≤ 1 * k :=
      mul_le_mul_of_nonneg_right (by simpa using q1) hkq
    simpa using this
  have s0 := float64_nonneg _ r0
  have s1 := float64_le _ n r0 r1 (by have : (n : Int) ≤ 5 := by omega
                                      have : n ≤ 5 := by exact_mod_cast this
                                      omega)
  have t0 : (0 : ℚ) ≤ float64 (float64 ((filled : ℚ) / size) * k) * 5 :=
    mul_nonneg s0 (by norm_num)
  have t1 : float64 (float64 ((filled : ℚ) / size) * k) * 5 ≤ ((5 * n : Nat) : ℚ) := by
    push_cast
    linarith
  have u0 := float64_nonneg _ t0
  have u1 := float64_le _ (5 * n) t0 t1 (by have : (n : Int) ≤ 5 := by omega
                                            have : n ≤ 5 := by exact_mod_cast this
                                            omega)
  refine ⟨_, rfl, ?_⟩
  apply truncInt_bounds _ _ u0
  have e : (((5 * k : Int) : Int) : ℚ) = ((5 * n : Nat) : ℚ) := by
    rw [hn]; push_cast; rfl
  rw [e]
  exact u1

/-! ## Bounds on the evaluation of a state -/

theorem foldl_bounded {α : Type} (f : Int → α → Int) (k : Int)
    (hstep : ∀ s a, s ≤ f s a ∧ f s a ≤ s + k) :
    ∀ (l : List α) (s : Int), s ≤ l.foldl f s ∧ l.foldl f s ≤ s + k * l.length := by
  intro l
  induction l with
  | nil => intro s; simp
  | cons a l ih =>
    intro s
    obtain ⟨h1, h2⟩ := hstep s a
    obtain ⟨h3, h4⟩ := ih (f s a)
    simp only [List.foldl_cons, List.length_cons]
    push_cast
    constructor
    · omega
    · nlinarith

theorem foldlM_bounded {α : Type} (f : Int → α → Option Int) (k : Int) :
    ∀ (l : List α), (∀ s a, a ∈ l → ∃ s', f s a = some s' ∧ s ≤ s' ∧ s' ≤ s + k) →
      ∀ s : Int, ∃ s', l.foldlM f s = some s' ∧ s ≤ s' ∧ s' ≤ s + k * l.length := by
  intro l
  induction l with
  | nil => intro _ s; exact ⟨s, rfl, le_refl _, by simp⟩
  | cons a l ih =>
    intro hstep s
    obtain ⟨s1, e1, h1, h2⟩ := hstep s a (List.mem_cons_self _ _)
    obtain ⟨s2, e2, h3, h4⟩ := ih (fun s b hb => hstep s b (List.mem_cons_of_mem _ hb)) s1
    refine ⟨s2, ?_, by omega, ?_⟩
    · simp only [List.foldlM_cons, e1, Option.bind_eq_bind, Option.some_bind, e2]
    · simp only [List.length_cons]
      push_cast
      nlinarith

theorem allColors_real : ∀ c ∈ AllColors, c.IsReal = true := by decide

theorem evaluateWallPotential_bounds (ai : AIPlayer) (player : PlayerBoard) :
    ∃ v, ai.evaluateWallPotential player = some v ∧ 0 ≤ v ∧ v ≤ 275 := by
  have h1 := foldl_bounded (fun (score : Int) (row : Fin 5) =>
    if rowFilled player.Wall row ≥ 4 then score + 10
    else if rowFilled player.Wall row ≥ 3 then score + 5 else score) 10
    (by intro s a; simp only []; split_ifs <;> omega) fin5 0
  have h2 := foldl_bounded (fun (score : Int) (col : Fin 5) =>
    if colFilled player.Wall col ≥ 4 then score + 20
    else if colFilled player.Wall col ≥ 3 then score + 10 else score) 20
    (by intro s a; simp only []; split_ifs <;> omega) fin5
    (fin5.foldl (fun (score : Int) row =>
      if rowFilled player.Wall row ≥ 4 then score + 10
      else if rowFilled player.Wall row ≥ 3 then score + 5 else score) 0)
  obtain ⟨v, hv, h3, h4⟩ := foldlM_bounded (fun (score : Int) (color : TileColor) => do
    let count ← player.colorCount color
    pure (if count ≥ 4 then score + 25 else if count ≥ 3 then score + 12 else score)) 25
    AllColors
    (by
      intro s c hc
      obtain ⟨n, hn⟩ := colorCount_isSome player c (allColors_real c hc)
      refine ⟨_, by simp only [hn, Option.bind_eq_bind, Option.some_bind]; rfl, ?_⟩
      split_ifs <;> omega)
    (fin5.foldl (fun (score : Int) col =>
      if colFilled player.Wall col ≥ 4 then score + 20
      else if colFilled player.Wall col ≥ 3 then score + 10 else score)
      (fin5.foldl (fun (score : Int) row =>
        if rowFilled player.Wall row ≥ 4 then score + 10
        else if rowFilled player.Wall row ≥ 3 then score + 5 else score) 0))
  refine ⟨v, hv, ?_, ?_⟩
  · omega
  · have e1 : (fin5.length : Int) = 5 := rfl
    have e2 : (AllColors.length : Int) = 5 := rfl
    rw [e1] at h1 h2
    rw [e2] at h4
    omega

theorem progressLoop_bounds :
    ∀ (l : List (Int × PatternLine)) (s : Int),
      (∀ x ∈ l, 0 ≤ x.2.Filled ∧ x.2.Filled ≤ x.2.Size ∧ x.2.Size ≤ 5 ∧ 0 ≤ x.1 ∧ x.1 ≤ 4) →
      ∃ s', AIPlayer.progressLoop l s = some s' ∧ s ≤ s' ∧ s' ≤ s + 25 * l.length := by
  intro l
  induction l with
  | nil => intro s _; exact ⟨s, rfl, le_refl _, by simp⟩
  | cons x l ih =>
    intro s h
    obtain ⟨i, pl⟩ := x
    obtain ⟨a1, a2, a3, a4, a5⟩ := h (i, pl) (List.mem_cons_self _ _)
    simp only at a1 a2 a3 a4 a5
    have hrest := fun y hy => h y (List.mem_cons_of_mem _ hy)
    by_cases hf : pl.Filled > 0
    · obtain ⟨c, hc, c0, c1⟩ :=
        progressCredit_bounds pl.Filled pl.Size (i + 1) hf a2 a3 (by omega) (by omega)
      obtain ⟨s2, e2, h3, h4⟩ := ih (s + c) hrest
      refine ⟨s2, ?_, by omega, ?_⟩
      · rw [AIPlayer.progressLoop, if_pos hf, hc]
        exact e2
      · simp only [List.length_cons]
        push_cast
        omega
    · obtain ⟨s2, e2, h3, h4⟩ := ih s hrest
      refine ⟨s2, ?_, by omega, ?_⟩
      · rw [AIPlayer.progressLoop, if_neg hf]
        exact e2
      · simp only [List.length_cons]
        push_cast
        omega

theorem opponentLoop_bounds (ai : AIPlayer) (k : Int) (hk : 0 ≤ k) :
    ∀ (ps : List PlayerBoard) (i s : Int), (∀ p ∈ ps, 0 ≤ p.Score ∧ p.Score ≤ k) →
      s - 8 * k * ps.length ≤ ai.opponentLoop ps i s ∧ ai.opponentLoop ps i s ≤ s := by
  intro ps
  induction ps with
  | nil => intro i s _; simp [AIPlayer.opponentLoop]
  | cons p ps ih =>
    intro i s h
    obtain ⟨p0, p1⟩ := h p (List.mem_cons_self _ _)
    have hrest := fun q hq => h q (List.mem_cons_of_mem _ hq)
    rw [AIPlayer.opponentLoop]
    simp only [List.length_cons]
    push_cast
    obtain ⟨h1, h2⟩ := ih (i + 1) (if i ≠ ai.playerIdx then s - p.Score * 8 else s) hrest
    split_ifs at h1 h2 ⊢ <;> constructor <;> nlinarith

theorem evaluateState_bounds (ai : AIPlayer) (g : Game) (h0 : 0 ≤ ai.playerIdx)
    (h1 : ai.playerIdx < g.Players.length) (hlen : g.Players.length ≤ 4)
    (hp : ∀ p ∈ g.Players, p.Inv ∧ 0 ≤ p.Score ∧ p.Score ≤ 345 ∧ p.FloorLine.length ≤ 101) :
    ∃ v, ai.evaluateState g = some v ∧ -11545 ≤ v ∧ v ≤ 4125 := by
  obtain ⟨me, hme⟩ := idx?_isSome g.Players ai.playerIdx h0 h1
  obtain ⟨hinv, s0, s1, hfl⟩ := hp me (idx?_mem _ _ _ hme)
  have hline : ∀ i pl, me.PatternLines.get? i = some pl →
      0 ≤ pl.Filled ∧ pl.Filled ≤ pl.Size ∧ pl.Size ≤ 5 := by
    intro i pl hget
    obtain ⟨i0, i5⟩ := (Arr5.get?_isSome_iff _ _).1 ⟨pl, hget⟩
    obtain ⟨k1, k2, k3, _⟩ := hinv.lines i pl hget
    exact ⟨k2, k3, by omega⟩
  obtain ⟨a, ha, a0, a1⟩ := progressLoop_bounds
    [(0, me.PatternLines.e0), (1, me.PatternLines.e1), (2, me.PatternLines.e2),
     (3, me.PatternLines.e3), (4, me.PatternLines.e4)] (me.Score * 10) (by
      intro x hx
      simp only [List.mem_cons, List.mem_singleton, List.not_mem_nil, or_false] at hx
      rcases hx with rfl | rfl | rfl | rfl | rfl
      · obtain ⟨b1, b2, b3⟩ := hline 0 _ rfl; exact ⟨b1, b2, b3, by norm_num, by norm_num⟩
      · obtain ⟨b1, b2, b3⟩ := hline 1 _ rfl; exact ⟨b1, b2, b3, by norm_num, by norm_num⟩
      · obtain ⟨b1, b2, b3⟩ := hline 2 _ rfl; exact ⟨b1, b2, b3, by norm_num, by norm_num⟩
      · obtain ⟨b1, b2, b3⟩ := hline 3 _ rfl; exact ⟨b1, b2, b3, by norm_num, by norm_num⟩
      · obtain ⟨b1, b2, b3⟩ := hline 4 _ rfl; exact ⟨b1, b2, b3, by norm_num, by norm_num⟩)
  obtain ⟨w, hw, w0, w1⟩ := evaluateWallPotential_bounds ai me
  obtain ⟨o0, o1⟩ := opponentLoop_bounds ai 345 (by norm_num) g.Players 0 (a + w * 2)
    (fun p hp1 => ⟨(hp p hp1).2.1, (hp p hp1).2.2.1⟩)
  refine ⟨ai.opponentLoop g.Players 0 (a + w * 2) - (me.FloorLine.length : Int) * 5, ?_, ?_, ?_⟩
  · unfold AIPlayer.evaluateState
    simp only [hme, ha, hw, Option.bind_eq_bind, Option.some_bind]
    rfl
  · have : (g.Players.length : Int) ≤ 4 := by exact_mod_cast hlen
    have : (me.FloorLine.length : Int) ≤ 101 := by exact_mod_cast hfl
    simp only [List.length_cons, List.length_nil] at a1
    push_cast at a1
    omega
  · have : (0 : Int) ≤ me.FloorLine.length := Int.natCast_nonneg _
    simp only [List.length_cons, List.length_nil] at a1
    push_cast at a1
    omega

/-! ## Bounds on the tiles of a state and on the evaluation of a move -/

theorem cellCount_bounds (b : Bool) : 0 ≤ cellCount b ∧ cellCount b ≤ 1 := by
  cases b <;> simp [cellCount]

theorem rowCount_bounds (row : Arr5 Bool) :
    0 ≤ row.sum cellCount ∧ row.sum cellCount ≤ 5 := by
  have h0 := cellCount_bounds row.e0
  have h1 := cellCount_bounds row.e1
  have h2 := cellCount_bounds row.e2
  have h3 := cellCount_bounds row.e3
  have h4 := cellCount_bounds row.e4
  unfold Arr5.sum
  omega

theorem wallCount_bounds (w : Arr5 (Arr5 Bool)) : 0 ≤ wallCount w ∧ wallCount w ≤ 25 := by
  have h0 := rowCount_bounds w.e0
  have h1 := rowCount_bounds w.e1
  have h2 := rowCount_bounds w.e2
  have h3 := rowCount_bounds w.e3
  have h4 := rowCount_bounds w.e4
  unfold wallCount
  rw [Arr5.sum]
  omega

theorem tileCount_floor (p : PlayerBoard) (h : p.Inv) :
    ((p.FloorLine.filter (fun t => decide (t ≠ TileColor.FirstPlayerMarker))).length : Int) ≤
      p.tileCount := by
  have h0 := (h.lines 0 p.PatternLines.e0 rfl).2.1
  have h1 := (h.lines 1 p.PatternLines.e1 rfl).2.1
  have h2 := (h.lines 2 p.PatternLines.e2 rfl).2.1
  have h3 := (h.lines 3 p.PatternLines.e3 rfl).2.1
  have h4 := (h.lines 4 p.PatternLines.e4 rfl).2.1
  have hw := (wallCount_bounds p.Wall).1
  simp only [PlayerBoard.tileCount, Arr5.sum]
  omega

theorem inv_parts (g : Game) (h : g.Inv) :
    (∀ p ∈ g.Players, p.tileCount ≤ 100) ∧ (∀ f ∈ g.Factories, f.Tiles.length ≤ 100) ∧
    g.Center.Tiles.length ≤ 100 := by
  have hc := h.count
  unfold Game.tileCount at hc
  have hp0 : ∀ x ∈ g.Players.map (fun pb => pb.tileCount), 0 ≤ x := by
    intro x hx
    obtain ⟨p, hp, rfl⟩ := List.mem_map.1 hx
    have := tileCount_floor p (h.boards p hp)
    omega
  have hf0 : ∀ x ∈ g.Factories.map (fun f => (f.Tiles.length : Int)), 0 ≤ x := by
    intro x hx
    obtain ⟨f, _, rfl⟩ := List.mem_map.1 hx
    exact Int.natCast_nonneg _
  have hps := List.sum_nonneg hp0
  have hfs := List.sum_nonneg hf0
  refine ⟨?_, ?_, ?_⟩
  · intro p hp
    have := List.single_le_sum hp0 _ (List.mem_map_of_mem (fun pb => pb.tileCount) hp)
    omega
  · intro f hf
    have := List.single_le_sum hf0 _
      (List.mem_map_of_mem (fun f : Factory => (f.Tiles.length : Int)) hf)
    simp only at this
    omega
  · omega

theorem source_length (g : Game) (h : g.Inv) (fIdx : Int) (tiles : List TileColor)
    (hs : g.sourceTiles fIdx = some tiles) : tiles.length ≤ 100 := by
  obtain ⟨_, hf, hc⟩ := inv_parts g h
  unfold Game.sourceTiles at hs
  split_ifs at hs
  · simp only [Option.some.injEq] at hs
    subst hs; exact hc
  · cases hi : idx? g.Factories fIdx with
    | none => simp [hi] at hs
    | some f =>
      simp only [hi, Option.some.injEq] at hs
      subst hs
      exact hf f (idx?_mem _ _ _ hi)

theorem countColor_bounds (tiles : List TileColor) (color : TileColor) :
    0 ≤ countColor tiles color ∧ countColor tiles color ≤ tiles.length := by
  have := foldl_bounded (fun (n : Int) (t : TileColor) => if t = color then n + 1 else n) 1
    (by intro s a; simp only []; split_ifs <;> omega) tiles 0
  unfold countColor
  omega

theorem cellLoop_bounds (cell : Int → Option Bool) (hcell : ∀ i ∈ range5, ∃ b, cell i = some b) :
    ∃ n, cellLoop cell = some n ∧ 0 ≤ n ∧ n ≤ 5 := by
  obtain ⟨n, hn, h0, h1⟩ := foldlM_bounded (fun (n : Int) (c : Int) => do
      let b ← cell c
      pure (if b then n + 1 else n)) 1 range5 (by
      intro s c hc
      obtain ⟨b, hb⟩ := hcell c hc
      refine ⟨_, by simp only [hb, Option.bind_eq_bind, Option.some_bind]; rfl, ?_⟩
      split_ifs <;> omega) 0
  have e : (range5.length : Int) = 5 := rfl
  rw [e] at h1
  exact ⟨n, hn, h0, by omega⟩

theorem evaluateBoardProgress_bounds (ai : AIPlayer) (player : PlayerBoard) (m : Move)
    (hl4 : m.LineIdx ≤ 4) (hc : m.Color.IsReal = true) :
    ∃ v, ai.evaluateBoardProgress player m = some v ∧ 0 ≤ v ∧ v ≤ 45 := by
  unfold AIPlayer.evaluateBoardProgress
  by_cases hneg : m.LineIdx < 0
  · rw [if_pos hneg]
    exact ⟨0, rfl, by norm_num, by norm_num⟩
  · rw [if_neg hneg]
    obtain ⟨col, hcol, c0, c5, _⟩ :=
      wallColumn_real m.LineIdx m.Color (by omega) (by omega) hc player
    obtain ⟨rowN, hrow, _, _⟩ := cellLoop_bounds (fun c => player.Wall.get2? m.LineIdx c) (by
      intro i hi
      obtain ⟨i0, i5⟩ := (mem_range5 i).1 hi
      exact Arr5.get2?_isSome _ _ _ (by omega) (by omega) i0 i5)
    obtain ⟨colN, hcolN, _, _⟩ := cellLoop_bounds (fun r => player.Wall.get2? r col) (by
      intro i hi
      obtain ⟨i0, i5⟩ := (mem_range5 i).1 hi
      exact Arr5.get2?_isSome _ _ _ i0 i5 c0 c5)
    obtain ⟨cn, hcn⟩ := colorCount_isSome player m.Color hc
    refine ⟨_, by simp only [hcol, hrow, hcolN, hcn, Option.bind_eq_bind, Option.some_bind]; rfl,
      ?_⟩
    split_ifs <;> omega

theorem evaluateMove_bounds (ai : AIPlayer) (g : Game) (ms : List Move) (m : Move)
    (hinv : g.Inv) (h0 : 0 ≤ ai.playerIdx) (h1 : ai.playerIdx < g.Players.length)
    (hms : g.GetValidMoves = some ms) (hm : m ∈ ms) :
    ∃ s, ai.evaluateMove g m = some s ∧ -1600 ≤ s ∧ s ≤ 200 := by
  obtain ⟨tiles0, hs, _, hf, hl0, hl4, _⟩ := sourceTiles_of_valid g ms m hms hm
  have hreal := validMove_real g hinv ms m hms hm
  have hlen := source_length g hinv _ _ hs
  obtain ⟨me, hme⟩ := idx?_isSome g.Players ai.playerIdx h0 h1
  have hmeInv := hinv.boards me (idx?_mem _ _ _ hme)
  obtain ⟨bp, hbp, b0, b1⟩ := evaluateBoardProgress_bounds ai me m hl4 hreal
  have hcnt := countColor_bounds tiles0 m.Color
  have hlen2 : (tiles0.length : Int) ≤ 100 := by exact_mod_cast hlen
  unfold AIPlayer.evaluateMove
  simp only [hme, hbp, Option.bind_eq_bind, Option.some_bind]
  by_cases hline : m.LineIdx ≥ 0
  · obtain ⟨pl, hpl⟩ := (Arr5.get?_isSome_iff me.PatternLines m.LineIdx).2 ⟨hline, by omega⟩
    obtain ⟨k1, k2, k3, _⟩ := hmeInv.lines _ _ hpl
    rw [if_pos hline]
    simp only [hpl, Option.bind_eq_bind, Option.some_bind]
    unfold Game.sourceTiles at hs
    by_cases hfi : m.FactoryIdx = -1
    · rw [if_pos hfi] at hs
      simp only [Option.some.injEq] at hs
      subst hs
      rw [if_pos hfi]
      simp only [Option.bind_eq_bind, Option.some_bind, Option.pure_def]
      refine ⟨_, rfl, ?_⟩
      split_ifs <;> constructor <;> omega
    · rw [if_neg hfi] at hs
      rw [if_neg hfi]
      cases hi : idx? g.Factories m.FactoryIdx with
      | none => simp [hi] at hs
      | some f =>
        simp only [hi, Option.some.injEq] at hs
        subst hs
        simp only [Option.map_some', Option.bind_eq_bind, Option.some_bind, Option.pure_def]
        refine ⟨_, rfl, ?_⟩
        split_ifs <;> constructor <;> omega
  · rw [if_neg hline]
    refine ⟨_, rfl, ?_⟩
    split_ifs <;> constructor <;> omega

/-! ## The heuristic tier -/

theorem intn_spec (raw : Int → Nat → Nat) (r : Rand) (l : List Move) (hne : l ≠ []) :
    ∃ i, r.Intn raw l.length = some i ∧ i < l.length ∧ i = raw r.seed r.pos % l.length := by
  have hpos : 0 < l.length := List.length_pos.2 hne
  refine ⟨raw r.seed r.pos % l.length, ?_, Nat.mod_lt _ hpos, rfl⟩
  unfold Rand.Intn
  rw [if_neg (by omega)]
  simp

theorem heuristicLoop_spec (ai : AIPlayer) (g : Game) :
    ∀ (ms : List Move) (b0 : Int) (l0 : List Move),
      (∀ m ∈ ms, ∃ s, ai.evaluateMove g m = some s) →
      ∃ B L, ai.heuristicLoop g ms b0 l0 = some (B, L) ∧ b0 ≤ B ∧
        (∀ m ∈ ms, ∀ s, ai.evaluateMove g m = some s → s ≤ B) ∧
        (B = b0 ∨ ∃ m ∈ ms, ai.evaluateMove g m = some B) ∧
        L = (if B = b0 then l0 else []) ++
          ms.filter (fun m => decide (ai.evaluateMove g m = some B)) := by
  intro ms
  induction ms with
  | nil =>
    intro b0 l0 _
    exact ⟨b0, l0, rfl, le_refl _, by simp, Or.inl rfl, by simp⟩
  | cons m ms ih =>
    intro b0 l0 h
    obtain ⟨s, hs⟩ := h m (List.mem_cons_self _ _)
    have hrest := fun q hq => h q (List.mem_cons_of_mem _ hq)
    rw [AIPlayer.heuristicLoop, hs]
    simp only []
    by_cases h1 : s > b0
    · rw [if_pos h1]
      obtain ⟨B, L, e, hb, hmax, hatt, hL⟩ := ih s [m] hrest
      refine ⟨B, L, e, by omega, ?_, ?_, ?_⟩
      · intro q hq t ht
        rcases List.mem_cons.1 hq with rfl | hq
        · rw [hs] at ht
          simp only [Option.some.injEq] at ht
          omega
        · exact hmax q hq t ht
      · right
        rcases hatt with rfl | ⟨q, hq, hqB⟩
        · exact ⟨m, List.mem_cons_self _ _, hs⟩
        · exact ⟨q, List.mem_cons_of_mem _ hq, hqB⟩
      · rw [hL, if_neg (by omega : ¬ B = b0), List.filter_cons, hs]
        by_cases hBs : B = s
        · subst hBs; simp
        · have : ¬ s = B := fun e => hBs e.symm
          simp [hBs, this]
    · rw [if_neg h1]
      by_cases h2 : s = b0
      · rw [if_pos h2]
        obtain ⟨B, L, e, hb, hmax, hatt, hL⟩ := ih b0 (l0 ++ [m]) hrest
        refine ⟨B, L, e, hb, ?_, ?_, ?_⟩
        · intro q hq t ht
          rcases List.mem_cons.1 hq with rfl | hq
          · rw [hs] at ht
            simp only [Option.some.injEq] at ht
            omega
          · exact hmax q hq t ht
        · rcases hatt with hB | ⟨q, hq, hqB⟩
          · exact Or.inl hB
          · exact Or.inr ⟨q, List.mem_cons_of_mem _ hq, hqB⟩
        · rw [hL, List.filter_cons, hs]
          by_cases hBb : B = b0
          · subst hBb; subst h2; simp
          · have : ¬ s = B := fun e => hBb (by omega)
            simp [hBb, this]
      · rw [if_neg h2]
        obtain ⟨B, L, e, hb, hmax, hatt, hL⟩ := ih b0 l0 hrest
        refine ⟨B, L, e, hb, ?_, ?_, ?_⟩
        · intro q hq t ht
          rcases List.mem_cons.1 hq with rfl | hq
          · rw [hs] at ht
            simp only [Option.some.injEq] at ht
            omega
          · exact hmax q hq t ht
        · rcases hatt with hB | ⟨q, hq, hqB⟩
          · exact Or.inl hB
          · exact Or.inr ⟨q, List.mem_cons_of_mem _ hq, hqB⟩
        · rw [hL, List.filter_cons, hs]
          have : ¬ s = B := by omega
          simp [this]

theorem heuristicMove_spec (ai : AIPlayer) (g : Game) (moves : List Move)
    (hall : ∀ m ∈ moves, ∃ s, ai.evaluateMove g m = some s)
    (hsome : ∃ m ∈ moves, ∃ s, ai.evaluateMove g m = some s ∧ MinInt32 ≤ s) :
    ∃ B, (∃ m ∈ moves, ai.evaluateMove g m = some B) ∧
      (∀ m ∈ moves, ∀ s, ai.evaluateMove g m = some s → s ≤ B) ∧
      (∀ raw, ∃ m, ai.heuristicMove raw g moves = some m ∧ m ∈ moves ∧
        ai.evaluateMove g m = some B) ∧
      (∀ m ∈ moves, ai.evaluateMove g m = some B →
        ∃ raw, ai.heuristicMove raw g moves = some m) := by
  obtain ⟨B, L, e, hb, hmax, hatt, hL⟩ := heuristicLoop_spec ai g moves MinInt32 [] hall
  have hL2 : L = moves.filter (fun m => decide (ai.evaluateMove g m = some B)) := by
    rw [hL]; split_ifs <;> simp
  have hattained : ∃ m ∈ moves, ai.evaluateMove g m = some B := by
    rcases hatt with hB | h
    · obtain ⟨m, hm, s, hs, hge⟩ := hsome
      have := hmax m hm s hs
      have : s = B := by omega
      exact ⟨m, hm, by rw [hs, this]⟩
    · exact h
  have hmemL : ∀ m, m ∈ L ↔ m ∈ moves ∧ ai.evaluateMove g m = some B := by
    intro m
    rw [hL2, List.mem_filter]
    simp
  have hne : L ≠ [] := by
    obtain ⟨m, hm, hmB⟩ := hattained
    exact List.ne_nil_of_mem ((hmemL m).2 ⟨hm, hmB⟩)
  refine ⟨B, hattained, hmax, ?_, ?_⟩
  · intro raw
    obtain ⟨i, hi, hlt, _⟩ := intn_spec raw ai.rng L hne
    refine ⟨L[i], ?_, ((hmemL _).1 (List.getElem_mem hlt)).1,
      ((hmemL _).1 (List.getElem_mem hlt)).2⟩
    unfold AIPlayer.heuristicMove
    simp only [e, hi]
    exact List.getElem?_eq_getElem hlt
  · intro m hm hmB
    obtain ⟨k, hk, hkm⟩ := List.getElem_of_mem ((hmemL m).2 ⟨hm, hmB⟩)
    refine ⟨fun _ _ => k, ?_⟩
    obtain ⟨i, hi, hlt, hieq⟩ := intn_spec (fun _ _ => k) ai.rng L hne
    have hik : i = k := by rw [hieq]; exact Nat.mod_eq_of_lt hk
    subst hik
    unfold AIPlayer.heuristicMove
    simp only [e, hi]
    rw [List.getElem?_eq_getElem hlt, hkm]

/-! ## The invariant of the states of the search -/

theorem inv_wellFormed (g : Game) (h : g.Inv) : g.WellFormed := by
  refine ⟨h.cur0, h.cur1, h.num, h.factories, h.center, ?_⟩
  intro pb hpb
  rw [wellFormed_iff]
  intro i pl hget
  obtain ⟨k1, k2, k3, _, k5⟩ := (h.boards pb hpb).lines i pl hget
  exact ⟨k1, k2, k3, fun hne => (k5 hne).1⟩

theorem runLength_le (cells : List Bool) : runLength cells ≤ cells.length := by
  unfold runLength
  exact_mod_cast (List.takeWhile_sublist (fun b => b)).length_le

theorem indicesBelow_length (k : Int) : (indicesBelow k).length = k.toNat := by
  simp [indicesBelow]

theorem indicesAbove_length (k : Int) : (indicesAbove k).length = (4 - k).toNat := by
  simp [indicesAbove]

theorem rowRun_le (w : Arr5 (Arr5 Bool)) (row col : Int) (h0 : 0 ≤ col) (h5 : col < 5) :
    rowRun w row col ≤ 5 := by
  have h1 := runLength_le ((indicesBelow col).map (fun c => occupied w row c))
  have h2 := runLength_le ((indicesAbove col).map (fun c => occupied w row c))
  rw [List.length_map, indicesBelow_length] at h1
  rw [List.length_map, indicesAbove_length] at h2
  unfold rowRun
  omega

theorem colRun_le (w : Arr5 (Arr5 Bool)) (row col : Int) (h0 : 0 ≤ row) (h5 : row < 5) :
    colRun w row col ≤ 5 := by
  have h1 := runLength_le ((indicesBelow row).map (fun r => occupied w r col))
  have h2 := runLength_le ((indicesAbove row).map (fun r => occupied w r col))
  rw [List.length_map, indicesBelow_length] at h1
  rw [List.length_map, indicesAbove_length] at h2
  unfold colRun
  omega

theorem scoreWallTile_le (pb : PlayerBoard) (row col pts : Int)
    (hr0 : 0 ≤ row) (hr5 : row < 5) (hc0 : 0 ≤ col) (hc5 : col < 5)
    (h : pb.ScoreWallTile row col = some pts) : pts ≤ 10 := by
  rw [scoreWallTile_eq pb row col hr0 hr5 hc0 hc5] at h
  simp only [Option.some.injEq] at h
  have a1 := rowRun_pos pb.Wall row col
  have a2 := colRun_pos pb.Wall row col
  have a3 := rowRun_le pb.Wall row col hc0 hc5
  have a4 := colRun_le pb.Wall row col hr0 hr5
  rw [scorePoints_eq _ _ a1 a2] at h
  split_ifs at h <;> omega

theorem tileWallRow_cap (s s' : PlayerBoard × List TileColor) (row : Int)
    (hrow : row ∈ range5) (hinv : s.1.Inv) (h : PlayerBoard.tileWallRow s row = some s') :
    s'.1.Score - 10 * wallCount s'.1.Wall ≤ s.1.Score - 10 * wallCount s.1.Wall := by
  obtain ⟨h0, h5⟩ := (mem_range5 row).1 hrow
  obtain ⟨pl, hpl⟩ := (Arr5.get?_isSome_iff s.1.PatternLines row).2 ⟨h0, h5⟩
  obtain ⟨l1, l2, l3, l4, l5⟩ := hinv.lines row pl hpl
  cases hf : pl.IsFull with
  | false =>
    rw [tileWallRow_notFull s row pl hpl hf] at h
    simp only [Option.some.injEq] at h
    subst h
    exact le_refl _
  | true =>
    have hfull : pl.Filled = pl.Size := by simpa [PatternLine.IsFull] using hf
    have hne : pl.Filled ≠ 0 := by omega
    obtain ⟨hcol, hfree⟩ := l5 hne
    obtain ⟨lines, col, wall, pts, hlines, hgc, hc0, hc5, hpat, hwall, hres⟩ :=
      tileWallRow_full s row pl hpl hf hcol
    have hpts : PlayerBoard.ScoreWallTile
        { s.1 with PatternLines := lines, Wall := wall } row col =
        some (scorePoints (rowRun wall row col) (colRun wall row col)) :=
      scoreWallTile_eq _ row col h0 h5 hc0 hc5
    have hres2 : PlayerBoard.tileWallRow s row =
        some ({ PatternLines := lines, Wall := wall, FloorLine := s.1.FloorLine,
                Score := s.1.Score + scorePoints (rowRun wall row col) (colRun wall row col) },
              s.2 ++ List.replicate (pl.Filled - 1).toNat pl.Color) := by
      simp [PlayerBoard.tileWallRow, hpl, hf, PatternLine.Clear, hlines, hgc, hwall, hpts]
    rw [hres2] at h
    simp only [Option.some.injEq] at h
    subst h
    have hle := scoreWallTile_le _ row col _ h0 h5 hc0 hc5 hpts
    simp only []
    rw [wallCount_set2? _ _ _ _ false true hwall (hfree col hpat)]
    simp only [cellCount]
    simp
    omega

theorem tileWall_cap (pb : PlayerBoard) (hinv : pb.Inv) (r : PlayerBoard × List TileColor)
    (h : pb.TileWall = some r) :
    r.1.Inv ∧ r.1.Score - 10 * wallCount r.1.Wall ≤ pb.Score - 10 * wallCount pb.Wall := by
  obtain ⟨r2, hr2, ⟨hi, _, _⟩, hcap⟩ := foldlM_inv PlayerBoard.tileWallRow
    (fun s => (s.1.Inv ∧ (∀ t ∈ s.2, t.IsReal = true) ∧
      s.1.tileCount + (s.2.length : Int) = pb.tileCount) ∧
      s.1.Score - 10 * wallCount s.1.Wall ≤ pb.Score - 10 * wallCount pb.Wall) range5
    (fun s row hrow hs => by
      obtain ⟨s', hs', hP⟩ := tileWallRow_inv pb.tileCount s row hrow hs.1
      have := tileWallRow_cap s s' row hrow hs.1.1 hs'
      exact ⟨s', hs', hP, by omega⟩) (pb, [])
    ⟨⟨hinv, by simp, by simp⟩, le_refl _⟩
  unfold PlayerBoard.TileWall at h
  rw [hr2] at h
  simp only [Option.some.injEq] at h
  subst h
  exact ⟨hi, hcap⟩

theorem scoreFloorLine_cap (pb : PlayerBoard)
    (h : pb.Score ≤ 10 * wallCount pb.Wall) :
    pb.ScoreFloorLine.1.Score ≤ 10 * wallCount pb.ScoreFloorLine.1.Wall := by
  rw [scoreFloorLine_score, (scoreFloorLine_spec pb).2.1]
  have h1 := (floorPenalties_take_bounds (min pb.FloorLine.length 7)).2.1
  have h2 := (wallCount_bounds pb.Wall).1
  omega

theorem endRoundLoop_cap :
    ∀ (ps : List PlayerBoard) (b : Bag) (r : List PlayerBoard × Bag),
      (∀ p ∈ ps, p.Inv ∧ p.Score ≤ 10 * wallCount p.Wall) →
      endRoundLoop ps b = some r → ∀ p ∈ r.1, p.Score ≤ 10 * wallCount p.Wall := by
  intro ps
  induction ps with
  | nil =>
    intro b r _ h
    simp only [endRoundLoop, Option.some.injEq] at h
    subst h
    intro p hp
    simp at hp
  | cons q ps ih =>
    intro b r hall h
    obtain ⟨hq1, hq2⟩ := hall q (List.mem_cons_self _ _)
    rw [endRoundLoop] at h
    cases htw : q.TileWall with
    | none => simp [htw] at h
    | some tw =>
      simp only [htw] at h
      cases hrest : endRoundLoop ps ((b.Discard tw.2).Discard tw.1.ScoreFloorLine.2) with
      | none => simp [hrest] at h
      | some r2 =>
        simp only [hrest, Option.some.injEq] at h
        subst h
        obtain ⟨_, hcap⟩ := tileWall_cap q hq1 tw htw
        intro p hp
        rcases List.mem_cons.1 hp with rfl | hp
        · exact scoreFloorLine_cap tw.1 (by omega)
        · exact ih _ r2 (fun x hx => hall x (List.mem_cons_of_mem _ hx)) hrest p hp

theorem endGameBonus_le (w : Arr5 (Arr5 Bool)) : endGameBonus w ≤ 95 := by
  unfold endGameBonus
  have h1 : (range5.filter (fun r => rowFull w r)).length ≤ 5 := List.length_filter_le _ _
  have h2 : (range5.filter (fun c => colFull w c)).length ≤ 5 := List.length_filter_le _ _
  have h3 : (AllColors.filter (fun color => colorFull w color)).length ≤ 5 :=
    List.length_filter_le _ _
  omega

theorem markers_zero (ps : List PlayerBoard) (h : ∀ p ∈ ps, p.FloorLine = []) :
    (ps.map floorMarkers).sum = 0 := by
  induction ps with
  | nil => rfl
  | cons p ps ih =>
    simp only [List.map_cons, List.sum_cons]
    rw [ih (fun q hq => h q (List.mem_cons_of_mem _ hq))]
    simp [floorMarkers, h p (List.mem_cons_self _ _)]

theorem markers_zero_le (ps : List PlayerBoard) (h : ∀ p ∈ ps, p.FloorLine = []) (c : Bool) :
    (ps.map floorMarkers).sum + (if c = true then 1 else 0) ≤ 1 := by
  rw [markers_zero ps h]
  split_ifs <;> omega

theorem endRound_cap (raw : Int → Nat → Nat) (g g1 : Game)
    (hall : ∀ p ∈ g.Players, p.Inv ∧ p.Score ≤ 10 * wallCount p.Wall)
    (h : Game.EndRound raw g = some g1) :
    (∀ p ∈ g1.Players,
      p.Score ≤ 10 * wallCount p.Wall + (if g1.GameOver = true then 95 else 0)) ∧
    g1.markers.sum + (if g1.Center.HasFirstPlayerTile = true then 1 else 0) ≤ 1 := by
  unfold Game.EndRound at h
  cases hr : endRoundLoop g.Players g.Bag with
  | none => simp [hr] at h
  | some r =>
    have hcap := endRoundLoop_cap g.Players g.Bag r hall hr
    have hfloor := endRoundLoop_floor g.Players g.Bag r hr
    simp only [hr] at h
    split_ifs at h with hany
    · simp only [Game.EndGame, endGameLoop_eq, Option.some.injEq] at h
      subst h
      constructor
      · intro p hp
        simp only [List.mem_map] at hp
        obtain ⟨q, hq, rfl⟩ := hp
        have := hcap q hq
        have := endGameBonus_le q.Wall
        simp only [if_true]
        omega
      · refine markers_zero_le _ ?_ _
        intro p hp
        simp only [List.mem_map] at hp
        obtain ⟨q, hq, rfl⟩ := hp
        exact hfloor q hq
    · obtain ⟨fs, b, hsetup, _, _⟩ := setupRound_spec raw
        { g with Players := r.1, Bag := r.2, Round := g.Round + 1,
                 CurrentPlayer := g.FirstPlayer }
      rw [hsetup] at h
      simp only [Option.some.injEq] at h
      subst h
      constructor
      · intro p hp
        have := hcap p hp
        simp only []
        split_ifs <;> omega
      · exact markers_zero_le _ hfloor _

theorem placeMove_inv (g : Game) (ms : List Move) (m : Move) (hinv : g.Inv)
    (hms : g.GetValidMoves = some ms) (hm : m ∈ ms) :
    ∃ g2, g.placeMove m = some g2 ∧ g2.Inv := by
  obtain ⟨tiles0, hs, hc, _, _, _, player, hp, hok⟩ := sourceTiles_of_valid g ms m hms hm
  obtain ⟨hp0, hp1⟩ := (idx?_eq_some _ _ _).1 hp
  obtain ⟨⟨ga, p1, tiles⟩, ht⟩ := takeTiles_isSome g player m tiles0 hs
  obtain ⟨e1, _, _, e4, e5, _, _, _, e9, _, e11, e12, _, e14⟩ :=
    takeTiles_frame g ga player p1 m tiles hp ht
  obtain ⟨t1, t2, t3, t4, t5, t6, t7⟩ := takeTiles_inv g hinv player hp m ga p1 tiles ht
  have htiles : tiles = tiles0.filter (fun t => decide (t = m.Color)) := e14 tiles0 hs
  have hmem : m.Color ∈ tiles := by
    rw [htiles]; exact List.mem_filter.2 ⟨hc, by simp⟩
  have hlen : tiles.length ≠ 0 := by
    intro h0
    rw [List.length_eq_zero.1 h0] at hmem
    exact List.not_mem_nil _ hmem
  have hreal : m.Color.IsReal = true := validMove_real g hinv ms m hms hm
  have hp1inv : p1.Inv := t5 p1 (List.getElem?_mem t6)
  have hok1 : m.PlacementOk p1 := by
    rcases hok with h1 | h1
    · exact Or.inl h1
    · right
      rw [canPlaceOnLine_congr player p1 e11 e12]
      exact h1
  obtain ⟨p2, hp2, hp2inv, hp2count⟩ :=
    placeTiles_inv p1 m (tiles.length : Int) (by omega) hp1inv hreal hok1
  have hg2 : (Game.setPlayer ga p2).Inv := by
    refine ⟨?_, ?_, ?_, t1, ?_, t3, t4, ?_, ?_, ?_, ?_⟩
    · show 0 ≤ ga.CurrentPlayer
      rw [e1]; exact hinv.cur0
    · show ga.CurrentPlayer < ((ga.Players.set _ p2).length : Int)
      rw [List.length_set, e1, e9]; exact hinv.cur1
    · show ga.NumPlayers = ((ga.Players.set _ p2).length : Int)
      rw [List.length_set, e4, e9]; exact hinv.num
    · show ga.FirstPlayer < ((ga.Players.set _ p2).length : Int)
      rw [List.length_set]; exact t2
    · show ∀ t ∈ ga.Bag.tiles, t.IsReal = true
      rw [e5]; exact hinv.bagTiles
    · show ∀ t ∈ ga.Bag.discards, t.IsReal = true
      rw [e5]; exact hinv.bagDiscards
    · exact mem_set_inv _ _ _ t5 hp2inv
    · have h7 := t7
      unfold Game.tileCount at h7 ⊢
      simp only [Game.setPlayer]
      rw [e1, sum_map_set _ _ _ p1 _ t6, hp2count]
      have hc100 := hinv.count
      unfold Game.tileCount at hc100
      omega
  refine ⟨Game.setPlayer ga p2, ?_, hg2⟩
  unfold Game.placeMove
  simp only [hp, ht, hlen, if_false, hp2]

theorem nat_sum_set (l : List Nat) (i : Nat) (u v : Nat) (hi : l[i]? = some u) :
    (l.set i v).sum + u = l.sum + v := by
  induction l generalizing i with
  | nil => simp at hi
  | cons a l ih =>
    cases i with
    | zero =>
      simp only [List.getElem?_cons_zero, Option.some.injEq] at hi
      subst hi
      simp only [List.set_cons_zero, List.sum_cons]
      omega
    | succ i =>
      simp only [List.getElem?_cons_succ] at hi
      have := ih i hi
      simp only [List.set_cons_succ, List.sum_cons]
      omega

theorem cap_of_map_eq (P : Int → Arr5 (Arr5 Bool) → Prop) :
    ∀ (ps qs : List PlayerBoard),
      ps.map (fun p => p.Score) = qs.map (fun p => p.Score) →
      ps.map (fun p => p.Wall) = qs.map (fun p => p.Wall) →
      (∀ q ∈ qs, P q.Score q.Wall) → ∀ p ∈ ps, P p.Score p.Wall := by
  intro ps
  induction ps with
  | nil => intro qs _ _ _ p hp; simp at hp
  | cons a ps ih =>
    intro qs hs hw hq p hp
    cases qs with
    | nil => simp at hs
    | cons b qs =>
      simp only [List.map_cons, List.cons.injEq] at hs hw
      rcases List.mem_cons.1 hp with rfl | hp
      · rw [hs.1, hw.1]
        exact hq b (List.mem_cons_self _ _)
      · exact ih qs hs.2 hw.2 (fun q hq1 => hq q (List.mem_cons_of_mem _ hq1)) p hp

theorem applyMove_bounded (raw : Int → Nat → Nat) (g g1 : Game) (ms : List Move) (m : Move)
    (hb : g.Bounded) (hms : g.GetValidMoves = some ms) (hm : m ∈ ms)
    (h : Game.ApplyMove raw g m = some (g1, false)) : g1.Bounded := by
  have hinv1 := applyMove_inv raw g g1 ms m hb.inv hms hm h
  obtain ⟨hset1, hlen1, hover, _⟩ := applyMove_settled raw g g1 m false hb.settled h
  have hsc1 := applyMove_score raw g g1 m false hb.score0 h
  have hgo : g.GameOver = false := by
    cases hgo : g.GameOver with
    | false => rfl
    | true => exact absurd (hover hgo) (by decide)
  have hreal := validMove_real g hb.inv ms m hms hm
  obtain ⟨g2, hplace, hbranch⟩ := (applyMove_placeMove raw g m g1).1 h
  obtain ⟨g2', hplace', hinv2⟩ := placeMove_inv g ms m hb.inv hms hm
  rw [hplace] at hplace'
  simp only [Option.some.injEq] at hplace'
  subst hplace'
  obtain ⟨_, _, _, _, f5, _, _, f8, f9, _, _⟩ := placeMove_frame g g2 m hplace
  have hcap2 : ∀ p ∈ g2.Players, p.Score ≤ 10 * wallCount p.Wall := by
    apply cap_of_map_eq (fun s w => s ≤ 10 * wallCount w) g2.Players g.Players f8 f9
    intro q hq
    have := hb.score1 q hq
    rw [hgo] at this
    simpa using this
  have hmarks2 : g2.markers.sum + (if g2.Center.HasFirstPlayerTile = true then 1 else 0) ≤ 1 := by
    obtain ⟨player, hp, _, _, _, _, hyes, hno⟩ :=
      placeMove_markers g g2 m (real_ne_marker _ hreal) hplace
    have hm0 := hb.marks
    by_cases hc : m.FactoryIdx = -1 ∧ g.Center.HasFirstPlayerTile = true
    · obtain ⟨k1, _, k3⟩ := hyes hc
      rw [k1, k3]
      have hget : g.markers[g.CurrentPlayer.toNat]? = some (floorMarkers player) := by
        rw [idx?_eq_some] at hp
        unfold Game.markers
        rw [List.getElem?_map, hp.2]
        rfl
      have := nat_sum_set g.markers _ _ (floorMarkers player + 1) hget
      rw [hc.2] at hm0
      simp only [if_true] at hm0
      simp
      omega
    · obtain ⟨k1, _, k3⟩ := hno hc
      rw [k1, k3]
      by_cases hf : m.FactoryIdx = -1
      · rw [if_pos hf]
        simp only [Bool.false_eq_true, if_false]
        split_ifs at hm0 <;> omega
      · rw [if_neg hf]
        exact hm0
  by_cases hro : g2.IsRoundOver = true
  · rw [if_pos hro] at hbranch
    obtain ⟨c1, c2⟩ := endRound_cap raw g2 g1
      (fun p hp => ⟨hinv2.boards p hp, hcap2 p hp⟩) hbranch
    exact ⟨hinv1, hset1, by rw [hlen1]; exact hb.players, hsc1, c1, c2⟩
  · rw [if_neg hro] at hbranch
    unfold Game.NextPlayer at hbranch
    split_ifs at hbranch
    simp only [Option.some.injEq] at hbranch
    subst hbranch
    refine ⟨hinv1, hset1, by rw [hlen1]; exact hb.players, hsc1, ?_, hmarks2⟩
    intro p hp
    have := hcap2 p hp
    simp only []
    split_ifs <;> omega

theorem clone_bounded (g : Game) (hb : g.Bounded) :
    ∃ c, g.Clone = some c ∧ c.Bounded ∧ c.GetValidMoves = g.GetValidMoves ∧
      c.Players = g.Players ∧ c.CurrentPlayer = g.CurrentPlayer ∧
      c.GameOver = g.GameOver := by
  refine ⟨_, clone_eq g hb.inv.num, ?_, clone_getValidMoves g, rfl, rfl, rfl⟩
  have hi := hb.inv
  have hs := hb.settled
  exact ⟨⟨hi.cur0, hi.cur1, hi.num, hi.first0, hi.first1, hi.factories, hi.center,
      hi.bagTiles, hi.bagDiscards, hi.boards, hi.count⟩,
    ⟨hs.cur0, hs.cur1, hs.num, hs.first0, hs.first1, hs.over, hs.done⟩,
    hb.players, hb.score0, hb.score1, hb.marks⟩

theorem isNewGame_bounded (raw : Int → Nat → Nat) (g : Game) (h : IsNewGame raw g) :
    g.Bounded := by
  have hinv := isNewGame_inv raw g h
  have hset := isNewGame_settled raw g h
  have hsc := isNewGame_score raw g h
  have hshape : ∃ n2 : Int, n2 ≤ 4 ∧ g.Players = List.replicate n2.toNat NewPlayerBoard ∧
      g.Center = Center.NewCenter := by
    rcases h with ⟨now, n, h⟩ | ⟨now, n, seed, h⟩
    · obtain ⟨n2, fs, b, _, h4, _, heq, _, _⟩ := newGame_spec raw now n
      rw [heq] at h
      simp only [Option.some.injEq] at h
      subst h
      exact ⟨n2, h4, rfl, rfl⟩
    · obtain ⟨n2, fs, b, _, h4, _, heq, _⟩ := newGameWithSeed_spec raw now n seed
      rw [heq] at h
      simp only [Option.some.injEq] at h
      subst h
      exact ⟨n2, h4, rfl, rfl⟩
  obtain ⟨n2, h4, hpl, hce⟩ := hshape
  refine ⟨hinv, hset, ?_, ?_, ?_, ?_⟩
  · rw [hpl, List.length_replicate]; omega
  · intro p hp; rw [hsc p hp]
  · intro p hp
    rw [hsc p hp]
    have := (wallCount_bounds p.Wall).1
    split_ifs <;> omega
  · unfold Game.markers
    rw [hce]
    refine markers_zero_le _ ?_ _
    intro p hp
    rw [hpl] at hp
    rw [(List.mem_replicate.1 hp).2]
    rfl

theorem validPlay_bounded (raw : Int → Nat → Nat) (g0 g : Game) (h0 : g0.Bounded)
    (h : ValidPlay raw g0 g) : g.Bounded := by
  induction h with
  | start => exact h0
  | step g g1 ms m _ hms hm happ ih => exact applyMove_bounded raw g g1 ms m ih hms hm happ

theorem search_bounded (raw : Int → Nat → Nat) (g0 g : Game) (h0 : g0.Bounded)
    (h : Search raw g0 g) : g.Bounded := by
  induction h with
  | start => exact h0
  | step g c g1 ms m _ hms hm hc happ ih =>
    obtain ⟨c2, hc2, hcb, hcm, _⟩ := clone_bounded g ih
    rw [hc] at hc2
    simp only [Option.some.injEq] at hc2
    subst hc2
    exact applyMove_bounded raw c g1 ms m hcb (hcm.trans hms) hm happ

theorem bounded_board (g : Game) (hb : g.Bounded) :
    ∀ p ∈ g.Players, p.Inv ∧ 0 ≤ p.Score ∧ p.Score ≤ 345 ∧ p.FloorLine.length ≤ 101 := by
  intro p hp
  have hinv := hb.inv.boards p hp
  have h1 := hb.score1 p hp
  have h2 := (wallCount_bounds p.Wall).2
  refine ⟨hinv, hb.score0 p hp, by split_ifs at h1 <;> omega, ?_⟩
  have h3 := tileCount_floor p hinv
  have h4 := (inv_parts g hb.inv).1 p hp
  have h5 := filter_marker_length p.FloorLine
  have h6 : floorMarkers p ≤ g.markers.sum :=
    List.single_le_sum (fun _ _ => Nat.zero_le _) _ (List.mem_map_of_mem floorMarkers hp)
  have h7 := hb.marks
  unfold floorMarkers at h6
  omega

theorem bounded_evaluateState (ai : AIPlayer) (g : Game) (hb : g.Bounded)
    (h0 : 0 ≤ ai.playerIdx) (h1 : ai.playerIdx < g.Players.length) :
    ∃ v, ai.evaluateState g = some v ∧ -11545 ≤ v ∧ v ≤ 4125 :=
  evaluateState_bounds ai g h0 h1 hb.players (bounded_board g hb)

/-! ## Alpha-beta pruning against the plain recursion -/

theorem maxLoopPlain_any (raw : Int → Nat → Nat) (child : Game → Int → Int → Option Int)
    (g : Game) (beta : Int) :
    ∀ (moves : List Move) (a m : Int) (any : Bool) (r : Int × Bool),
      AIPlayer.maxLoopPlain raw child g beta moves a m any = some r →
      m ≤ r.1 ∧ (any = true → r.2 = true) := by
  intro moves
  induction moves with
  | nil =>
    intro a m any r h
    simp only [AIPlayer.maxLoopPlain, Option.some.injEq] at h
    subst h
    exact ⟨le_refl _, fun h => h⟩
  | cons move rest ih =>
    intro a m any r h
    rw [AIPlayer.maxLoopPlain] at h
    cases hc : g.Clone with
    | none => simp [hc] at h
    | some c =>
      simp only [hc] at h
      cases ha : Game.ApplyMove raw c move with
      | none => simp [ha] at h
      | some x =>
        obtain ⟨c1, e⟩ := x
        cases e with
        | true =>
          simp only [ha] at h
          exact ih a m any r h
        | false =>
          simp only [ha] at h
          cases hv : child c1 a beta with
          | none => simp [hv] at h
          | some v =>
            simp only [hv] at h
            obtain ⟨h1, h2⟩ := ih _ _ _ r h
            exact ⟨by omega, fun _ => h2 rfl⟩

theorem minLoopPlain_any (raw : Int → Nat → Nat) (child : Game → Int → Int → Option Int)
    (g : Game) (alpha : Int) :
    ∀ (moves : List Move) (b m : Int) (any : Bool) (r : Int × Bool),
      AIPlayer.minLoopPlain raw child g alpha moves b m any = some r →
      r.1 ≤ m ∧ (any = true → r.2 = true) := by
  intro moves
  induction moves with
  | nil =>
    intro b m any r h
    simp only [AIPlayer.minLoopPlain, Option.some.injEq] at h
    subst h
    exact ⟨le_refl _, fun h => h⟩
  | cons move rest ih =>
    intro b m any r h
    rw [AIPlayer.minLoopPlain] at h
    cases hc : g.Clone with
    | none => simp [hc] at h
    | some c =>
      simp only [hc] at h
      cases ha : Game.ApplyMove raw c move with
      | none => simp [ha] at h
      | some x =>
        obtain ⟨c1, e⟩ := x
        cases e with
        | true =>
          simp only [ha] at h
          exact ih b m any r h
        | false =>
          simp only [ha] at h
          cases hv : child c1 alpha b with
          | none => simp [hv] at h
          | some v =>
            simp only [hv] at h
            obtain ⟨h1, h2⟩ := ih _ _ _ r h
            exact ⟨by omega, fun _ => h2 rfl⟩

theorem maxLoop_refines (raw : Int → Nat → Nat)
    (child pchild : Game → Int → Int → Option Int) (g : Game) (alpha beta beta' : Int)
    (hchild : ∀ c a b a' b' v, MinInt32 ≤ a → a < b → b ≤ MaxInt32 →
      pchild c a' b' = some v → ∃ r, child c a b = some r ∧ windowSpec a b v r)
    (ha0 : MinInt32 ≤ alpha) (hb1 : beta ≤ MaxInt32) :
    ∀ (moves : List Move) (a m a' M : Int) (any : Bool) (R : Int × Bool),
      a = max alpha m → a = max alpha M → a < beta →
      AIPlayer.maxLoopPlain raw pchild g beta' moves a' M any = some R →
      ∃ r, AIPlayer.maxLoop raw child g beta moves a m any = some (r, R.2) ∧
        windowSpec alpha beta R.1 r := by
  intro moves
  induction moves with
  | nil =>
    intro a m a' M any R h1 h2 h3 h
    simp only [AIPlayer.maxLoopPlain, Option.some.injEq] at h
    subst h
    refine ⟨m, rfl, ?_, ?_, ?_⟩ <;> intros <;> omega
  | cons move rest ih =>
    intro a m a' M any R h1 h2 h3 h
    rw [AIPlayer.maxLoopPlain] at h
    rw [AIPlayer.maxLoop]
    cases hc : g.Clone with
    | none => simp [hc] at h
    | some c =>
      simp only [hc] at h ⊢
      cases hap : Game.ApplyMove raw c move with
      | none => simp [hap] at h
      | some x =>
        obtain ⟨c1, e⟩ := x
        cases e with
        | true =>
          simp only [hap] at h ⊢
          exact ih a m a' M any R h1 h2 h3 h
        | false =>
          simp only [hap] at h ⊢
          cases hv : pchild c1 a' beta' with
          | none => simp [hv] at h
          | some v =>
            simp only [hv] at h
            obtain ⟨e, he, s1, s2, s3⟩ := hchild c1 a beta a' beta' v (by omega) h3 hb1 hv
            simp only [he]
            obtain ⟨g1, g2⟩ := maxLoopPlain_any raw pchild g beta' rest _ _ _ R h
            by_cases hcut : beta ≤ max a e
            · rw [if_pos hcut]
              have hR : R.2 = true := g2 rfl
              rw [hR]
              have hv2 : beta ≤ v := by
                by_contra hlt
                rcases le_or_lt v a with h5 | h5
                · have := s2 h5; omega
                · have := s1 h5 (by omega); omega
              refine ⟨_, rfl, ?_, ?_, ?_⟩ <;> intros <;> omega
            · rw [if_neg hcut]
              have hae : max a e = max a v := by
                rcases le_or_lt v a with h5 | h5
                · have := s2 h5; omega
                · rcases lt_or_le v beta with h6 | h6
                  · have := s1 h5 h6; omega
                  · have := s3 h6; omega
              exact ih (max a e) (max m e) _ (max M v) true R (by omega) (by omega) (by omega) h

theorem minLoop_refines (raw : Int → Nat → Nat)
    (child pchild : Game → Int → Int → Option Int) (g : Game) (alpha beta alpha' : Int)
    (hchild : ∀ c a b a' b' v, MinInt32 ≤ a → a < b → b ≤ MaxInt32 →
      pchild c a' b' = some v → ∃ r, child c a b = some r ∧ windowSpec a b v r)
    (ha0 : MinInt32 ≤ alpha) (hb1 : beta ≤ MaxInt32) :
    ∀ (moves : List Move) (b m b' M : Int) (any : Bool) (R : Int × Bool),
      b = min beta m → b = min beta M → alpha < b →
      AIPlayer.minLoopPlain raw pchild g alpha' moves b' M any = some R →
      ∃ r, AIPlayer.minLoop raw child g alpha moves b m any = some (r, R.2) ∧
        windowSpec alpha beta R.1 r := by
  intro moves
  induction moves with
  | nil =>
    intro b m b' M any R h1 h2 h3 h
    simp only [AIPlayer.minLoopPlain, Option.some.injEq] at h
    subst h
    refine ⟨m, rfl, ?_, ?_, ?_⟩ <;> intros <;> omega
  | cons move rest ih =>
    intro b m b' M any R h1 h2 h3 h
    rw [AIPlayer.minLoopPlain] at h
    rw [AIPlayer.minLoop]
    cases hc : g.Clone with
    | none => simp [hc] at h
    | some c =>
      simp only [hc] at h ⊢
      cases hap : Game.ApplyMove raw c move with
      | none => simp [hap] at h
      | some x =>
        obtain ⟨c1, e⟩ := x
        cases e with
        | true =>
          simp only [hap] at h ⊢
          exact ih b m b' M any R h1 h2 h3 h
        | false =>
          simp only [hap] at h ⊢
          cases hv : pchild c1 alpha' b' with
          | none => simp [hv] at h
          | some v =>
            simp only [hv] at h
            obtain ⟨e, he, s1, s2, s3⟩ := hchild c1 alpha b alpha' b' v ha0 h3 (by omega) hv
            simp only [he]
            obtain ⟨g1, g2⟩ := minLoopPlain_any raw pchild g alpha' rest _ _ _ R h
            by_cases hcut : min b e ≤ alpha
            · rw [if_pos hcut]
              have hR : R.2 = true := g2 rfl
              rw [hR]
              have hv2 : v ≤ alpha := by
                by_contra hlt
                rcases le_or_lt b v with h5 | h5
                · have := s3 h5; omega
                · have := s1 (by omega) h5; omega
              refine ⟨_, rfl, ?_, ?_, ?_⟩ <;> intros <;> omega
            · rw [if_neg hcut]
              have hbe : min b e = min b v := by
                rcases le_or_lt b v with h5 | h5
                · have := s3 h5; omega
                · rcases lt_or_le alpha v with h6 | h6
                  · have := s1 h6 h5; omega
                  · have := s2 h6; omega
              exact ih (min b e) (min m e) _ (min M v) true R (by omega) (by omega) (by omega) h

theorem minimax_refines (raw : Int → Nat → Nat) (ai : AIPlayer) :
    ∀ (fuel : Nat) (g : Game) (depth a b a' b' : Int) (mx : Bool) (v : Int),
      MinInt32 ≤ a → a < b → b ≤ MaxInt32 →
      ai.minimaxPlain raw fuel g depth a' b' mx = some v →
      ∃ r, ai.minimax raw fuel g depth a b mx = some r ∧ windowSpec a b v r := by
  intro fuel
  induction fuel with
  | zero =>
    intro g depth a b a' b' mx v _ _ _ h
    simp [AIPlayer.minimaxPlain] at h
  | succ fuel ih =>
    intro g depth a b a' b' mx v h0 h1 h2 h
    have hself : ∀ x : Int, windowSpec a b x x := fun x => ⟨fun _ _ => rfl, fun h => h, fun h => h⟩
    rw [AIPlayer.minimaxPlain] at h
    rw [AIPlayer.minimax]
    by_cases hleaf : depth = 0 ∨ g.GameOver = true ∨ g.IsRoundOver = true
    · rw [if_pos hleaf] at h ⊢
      exact ⟨v, h, hself v⟩
    · rw [if_neg hleaf] at h ⊢
      cases hms : g.GetValidMoves with
      | none => simp [hms] at h
      | some moves =>
        simp only [hms] at h ⊢
        by_cases hemp : moves.length = 0
        · rw [if_pos hemp] at h ⊢
          exact ⟨v, h, hself v⟩
        · rw [if_neg hemp] at h ⊢
          cases mx with
          | true =>
            simp only [if_true] at h ⊢
            cases hl : AIPlayer.maxLoopPlain raw (fun c a b => ai.minimaxPlain raw fuel c
                (depth - 1) a b (decide (c.CurrentPlayer = ai.playerIdx))) g b' moves a'
                MinInt32 false with
            | none => simp [hl] at h
            | some R =>
              simp only [hl] at h
              obtain ⟨r, hr, hs⟩ := maxLoop_refines raw
                (fun c a b => ai.minimax raw fuel c (depth - 1) a b
                  (decide (c.CurrentPlayer = ai.playerIdx)))
                (fun c a b => ai.minimaxPlain raw fuel c (depth - 1) a b
                  (decide (c.CurrentPlayer = ai.playerIdx))) g a b b'
                (fun c x y x' y' w k0 k1 k2 hw => ih c (depth - 1) x y x' y' _ w k0 k1 k2 hw)
                h0 h2 moves a MinInt32 a' MinInt32 false R (by omega) (by omega) h1 hl
              simp only [hr]
              cases hany : R.2 with
              | false =>
                simp only [hany, Bool.not_false, if_true] at h ⊢
                exact ⟨v, h, hself v⟩
              | true =>
                simp only [hany, Bool.not_true, Bool.false_eq_true, if_false,
                  Option.some.injEq] at h ⊢
                subst h
                exact ⟨r, rfl, hs⟩
          | false =>
            simp only [Bool.false_eq_true, if_false] at h ⊢
            cases hl : AIPlayer.minLoopPlain raw (fun c a b => ai.minimaxPlain raw fuel c
                (depth - 1) a b (decide (c.CurrentPlayer = ai.playerIdx))) g a' moves b'
                MaxInt32 false with
            | none => simp [hl] at h
            | some R =>
              simp only [hl] at h
              obtain ⟨r, hr, hs⟩ := minLoop_refines raw
                (fun c a b => ai.minimax raw fuel c (depth - 1) a b
                  (decide (c.CurrentPlayer = ai.playerIdx)))
                (fun c a b => ai.minimaxPlain raw fuel c (depth - 1) a b
                  (decide (c.CurrentPlayer = ai.playerIdx))) g a b a'
                (fun c x y x' y' w k0 k1 k2 hw => ih c (depth - 1) x y x' y' _ w k0 k1 k2 hw)
                h0 h2 moves b MaxInt32 b' MaxInt32 false R (by omega) (by omega) h1 hl
              simp only [hr]
              cases hany : R.2 with
              | false =>
                simp only [hany, Bool.not_false, if_true] at h ⊢
                exact ⟨v, h, hself v⟩
              | true =>
                simp only [hany, Bool.not_true, Bool.false_eq_true, if_false,
                  Option.some.injEq] at h ⊢
                subst h
                exact ⟨r, rfl, hs⟩

/-! ## The plain recursion returns, and its value is a leaf evaluation -/

theorem search_child (raw : Int → Nat → Nat) (g0 g c c1 : Game) (ms : List Move) (m : Move)
    (hs : Search raw g0 g) (hms : g.GetValidMoves = some ms) (hm : m ∈ ms)
    (hc : g.Clone = some c) (ha : Game.ApplyMove raw c m = some (c1, false)) :
    Search raw g0 c1 := Search.step g c c1 ms m hs hms hm hc ha

theorem search_length (raw : Int → Nat → Nat) (g0 g : Game) (h0 : g0.Bounded)
    (h : Search raw g0 g) : g.Players.length = g0.Players.length := by
  induction h with
  | start => rfl
  | step g c g1 ms m hs hms hm hc happ ih =>
    have hb := search_bounded raw g0 g h0 hs
    obtain ⟨c2, hc2, hcb, _, hpl, _⟩ := clone_bounded g hb
    rw [hc] at hc2
    simp only [Option.some.injEq] at hc2
    subst hc2
    obtain ⟨_, hlen, _, _⟩ := applyMove_settled raw c g1 m false hcb.settled happ
    rw [hlen, hpl, ih]

theorem bounded_leaf (raw : Int → Nat → Nat) (ai : AIPlayer) (g : Game) (hb : g.Bounded)
    (h0 : 0 ≤ ai.playerIdx) (h1 : ai.playerIdx < g.Players.length) :
    ∀ g', Search raw g g' → ∃ v, ai.evaluateState g' = some v ∧ MinInt32 < v ∧ v < MaxInt32 := by
  intro g' hs
  have hb' := search_bounded raw g g' hb hs
  have hl := search_length raw g g' hb hs
  obtain ⟨v, hv, v0, v1⟩ := bounded_evaluateState ai g' hb' h0 (by rw [hl]; exact h1)
  refine ⟨v, hv, ?_, ?_⟩
  · unfold MinInt32; omega
  · unfold MaxInt32; omega

theorem maxLoopPlain_range (raw : Int → Nat → Nat) (pchild : Game → Int → Int → Option Int)
    (g : Game) (beta : Int) (c : Game) (hc : g.Clone = some c) :
    ∀ (moves : List Move),
      (∀ m ∈ moves, ∀ c1, Game.ApplyMove raw c m = some (c1, false) →
        ∀ a b v, pchild c1 a b = some v → MinInt32 < v ∧ v < MaxInt32) →
      ∀ (a M : Int) (any : Bool) (R : Int × Bool),
      (any = false → M = MinInt32) → (any = true → MinInt32 < M ∧ M < MaxInt32) →
      AIPlayer.maxLoopPlain raw pchild g beta moves a M any = some R →
      R.2 = true → MinInt32 < R.1 ∧ R.1 < MaxInt32 := by
  intro moves
  induction moves with
  | nil =>
    intro _ a M any R j1 j2 h hR
    simp only [AIPlayer.maxLoopPlain, Option.some.injEq] at h
    subst h
    exact j2 hR
  | cons move rest ih =>
    intro hch a M any R j1 j2 h hR
    have hrest := fun m hm => hch m (List.mem_cons_of_mem _ hm)
    rw [AIPlayer.maxLoopPlain] at h
    simp only [hc] at h
    cases hap : Game.ApplyMove raw c move with
    | none => simp [hap] at h
    | some x =>
      obtain ⟨c1, e⟩ := x
      cases e with
      | true =>
        simp only [hap] at h
        exact ih hrest a M any R j1 j2 h hR
      | false =>
        simp only [hap] at h
        cases hv : pchild c1 a beta with
        | none => simp [hv] at h
        | some v =>
          simp only [hv] at h
          obtain ⟨v0, v1⟩ := hch move (List.mem_cons_self _ _) c1 hap a beta v hv
          refine ih hrest _ _ true R (fun h => by simp at h) (fun _ => ?_) h hR
          cases any with
          | false => rw [j1 rfl]; constructor <;> omega
          | true => obtain ⟨m0, m1⟩ := j2 rfl; constructor <;> omega

theorem minLoopPlain_range (raw : Int → Nat → Nat) (pchild : Game → Int → Int → Option Int)
    (g : Game) (alpha : Int) (c : Game) (hc : g.Clone = some c) :
    ∀ (moves : List Move),
      (∀ m ∈ moves, ∀ c1, Game.ApplyMove raw c m = some (c1, false) →
        ∀ a b v, pchild c1 a b = some v → MinInt32 < v ∧ v < MaxInt32) →
      ∀ (b M : Int) (any : Bool) (R : Int × Bool),
      (any = false → M = MaxInt32) → (any = true → MinInt32 < M ∧ M < MaxInt32) →
      AIPlayer.minLoopPlain raw pchild g alpha moves b M any = some R →
      R.2 = true → MinInt32 < R.1 ∧ R.1 < MaxInt32 := by
  intro moves
  induction moves with
  | nil =>
    intro _ b M any R j1 j2 h hR
    simp only [AIPlayer.minLoopPlain, Option.some.injEq] at h
    subst h
    exact j2 hR
  | cons move rest ih =>
    intro hch b M any R j1 j2 h hR
    have hrest := fun m hm => hch m (List.mem_cons_of_mem _ hm)
    rw [AIPlayer.minLoopPlain] at h
    simp only [hc] at h
    cases hap : Game.ApplyMove raw c move with
    | none => simp [hap] at h
    | some x =>
      obtain ⟨c1, e⟩ := x
      cases e with
      | true =>
        simp only [hap] at h
        exact ih hrest b M any R j1 j2 h hR
      | false =>
        simp only [hap] at h
        cases hv : pchild c1 alpha b with
        | none => simp [hv] at h
        | some v =>
          simp only [hv] at h
          obtain ⟨v0, v1⟩ := hch move (List.mem_cons_self _ _) c1 hap alpha b v hv
          refine ih hrest _ _ true R (fun h => by simp at h) (fun _ => ?_) h hR
          cases any with
          | false => rw [j1 rfl]; constructor <;> omega
          | true => obtain ⟨m0, m1⟩ := j2 rfl; constructor <;> omega

theorem minimaxPlain_range (raw : Int → Nat → Nat) (ai : AIPlayer) (g0 : Game)
    (hleaf : ∀ g', Search raw g0 g' → ∀ v, ai.evaluateState g' = some v →
      MinInt32 < v ∧ v < MaxInt32) :
    ∀ (fuel : Nat) (g : Game) (depth a b : Int) (mx : Bool) (v : Int),
      Search raw g0 g → ai.minimaxPlain raw fuel g depth a b mx = some v →
      MinInt32 < v ∧ v < MaxInt32 := by
  intro fuel
  induction fuel with
  | zero =>
    intro g depth a b mx v _ h
    simp [AIPlayer.minimaxPlain] at h
  | succ fuel ih =>
    intro g depth a b mx v hs h
    rw [AIPlayer.minimaxPlain] at h
    by_cases hl : depth = 0 ∨ g.GameOver = true ∨ g.IsRoundOver = true
    · rw [if_pos hl] at h
      exact hleaf g hs v h
    · rw [if_neg hl] at h
      cases hms : g.GetValidMoves with
      | none => simp [hms] at h
      | some moves =>
        simp only [hms] at h
        by_cases hemp : moves.length = 0
        · rw [if_pos hemp] at h
          exact hleaf g hs v h
        · rw [if_neg hemp] at h
          cases hc : g.Clone with
          | none =>
            cases moves with
            | nil => simp at hemp
            | cons m rest =>
              cases mx <;> simp [AIPlayer.maxLoopPlain, AIPlayer.minLoopPlain, hc] at h
          | some c =>
            have hch : ∀ m ∈ moves, ∀ c1, Game.ApplyMove raw c m = some (c1, false) →
                ∀ x y w, ai.minimaxPlain raw fuel c1 (depth - 1) x y
                  (decide (c1.CurrentPlayer = ai.playerIdx)) = some w →
                MinInt32 < w ∧ w < MaxInt32 := by
              intro m hm c1 hap x y w hw
              exact ih c1 (depth - 1) x y _ w (search_child raw g0 g c c1 moves m hs hms hm hc hap) hw
            cases mx with
            | true =>
              simp only [if_true] at h
              cases hl2 : AIPlayer.maxLoopPlain raw (fun c a b => ai.minimaxPlain raw fuel c
                  (depth - 1) a b (decide (c.CurrentPlayer = ai.playerIdx))) g b moves a
                  MinInt32 false with
              | none => simp [hl2] at h
              | some R =>
                simp only [hl2] at h
                cases hany : R.2 with
                | false =>
                  simp only [hany, Bool.not_false, if_true] at h
                  exact hleaf g hs v h
                | true =>
                  simp only [hany, Bool.not_true, Bool.false_eq_true, if_false,
                    Option.some.injEq] at h
                  subst h
                  exact maxLoopPlain_range raw _ g b c hc moves hch a MinInt32 false R
                    (fun _ => rfl) (fun h => by simp at h) hl2 hany
            | false =>
              simp only [Bool.false_eq_true, if_false] at h
              cases hl2 : AIPlayer.minLoopPlain raw (fun c a b => ai.minimaxPlain raw fuel c
                  (depth - 1) a b (decide (c.CurrentPlayer = ai.playerIdx))) g a moves b
                  MaxInt32 false with
              | none => simp [hl2] at h
              | some R =>
                simp only [hl2] at h
                cases hany : R.2 with
                | false =>
                  simp only [hany, Bool.not_false, if_true] at h
                  exact hleaf g hs v h
                | true =>
                  simp only [hany, Bool.not_true, Bool.false_eq_true, if_false,
                    Option.some.injEq] at h
                  subst h
                  exact minLoopPlain_range raw _ g a c hc moves hch b MaxInt32 false R
                    (fun _ => rfl) (fun h => by simp at h) hl2 hany

theorem maxLoopPlain_total (raw : Int → Nat → Nat) (pchild : Game → Int → Int → Option Int)
    (g : Game) (beta : Int) (c : Game) (hc : g.Clone = some c) :
    ∀ (moves : List Move),
      (∀ m ∈ moves, ∃ c1, Game.ApplyMove raw c m = some (c1, false) ∧
        ∀ a b, ∃ v, pchild c1 a b = some v) →
      ∀ (a M : Int) (any : Bool),
        ∃ R, AIPlayer.maxLoopPlain raw pchild g beta moves a M any = some R := by
  intro moves
  induction moves with
  | nil => intro _ a M any; exact ⟨_, rfl⟩
  | cons move rest ih =>
    intro hch a M any
    obtain ⟨c1, hap, hv⟩ := hch move (List.mem_cons_self _ _)
    obtain ⟨v, hv⟩ := hv a beta
    rw [AIPlayer.maxLoopPlain]
    simp only [hc, hap, hv]
    exact ih (fun m hm => hch m (List.mem_cons_of_mem _ hm)) _ _ _

theorem minLoopPlain_total (raw : Int → Nat → Nat) (pchild : Game → Int → Int → Option Int)
    (g : Game) (alpha : Int) (c : Game) (hc : g.Clone = some c) :
    ∀ (moves : List Move),
      (∀ m ∈ moves, ∃ c1, Game.ApplyMove raw c m = some (c1, false) ∧
        ∀ a b, ∃ v, pchild c1 a b = some v) →
      ∀ (b M : Int) (any : Bool),
        ∃ R, AIPlayer.minLoopPlain raw pchild g alpha moves b M any = some R := by
  intro moves
  induction moves with
  | nil => intro _ b M any; exact ⟨_, rfl⟩
  | cons move rest ih =>
    intro hch b M any
    obtain ⟨c1, hap, hv⟩ := hch move (List.mem_cons_self _ _)
    obtain ⟨v, hv⟩ := hv alpha b
    rw [AIPlayer.minLoopPlain]
    simp only [hc, hap, hv]
    exact ih (fun m hm => hch m (List.mem_cons_of_mem _ hm)) _ _ _

theorem bounded_child (raw : Int → Nat → Nat) (g : Game) (hb : g.Bounded) (ms : List Move)
    (hms : g.GetValidMoves = some ms) :
    ∃ c, g.Clone = some c ∧ ∀ m ∈ ms, ∃ c1, Game.ApplyMove raw c m = some (c1, false) ∧
      c1.Bounded ∧ c1.Players.length = g.Players.length := by
  obtain ⟨c, hc, hcb, hcm, hpl, _⟩ := clone_bounded g hb
  refine ⟨c, hc, ?_⟩
  intro m hm
  have hcms : c.GetValidMoves = some ms := hcm.trans hms
  obtain ⟨_, _, _, hf, hl0, hl4, _⟩ := sourceTiles_of_valid c ms m hcms hm
  obtain ⟨⟨c1, e⟩, hr⟩ := applyMove_isSome raw c m (inv_wellFormed c hcb.inv) hf hl0 hl4
  have he := applyMove_valid_no_error raw c ms m hcms hm c1 e hr
  subst he
  obtain ⟨_, hlen, _, _⟩ := applyMove_settled raw c c1 m false hcb.settled hr
  exact ⟨c1, hr, applyMove_bounded raw c c1 ms m hcb hcms hm hr, by rw [hlen, hpl]⟩

theorem minimaxPlain_total (raw : Int → Nat → Nat) (ai : AIPlayer) (h0 : 0 ≤ ai.playerIdx) :
    ∀ (fuel : Nat) (g : Game) (depth a b : Int) (mx : Bool),
      g.Bounded → ai.playerIdx < g.Players.length → 0 ≤ depth → depth.toNat < fuel →
      ∃ v, ai.minimaxPlain raw fuel g depth a b mx = some v := by
  intro fuel
  induction fuel with
  | zero => intro g depth a b mx _ _ _ hf; omega
  | succ fuel ih =>
    intro g depth a b mx hb h1 hd hf
    obtain ⟨w, hw, _, _⟩ := bounded_evaluateState ai g hb h0 h1
    rw [AIPlayer.minimaxPlain]
    by_cases hl : depth = 0 ∨ g.GameOver = true ∨ g.IsRoundOver = true
    · rw [if_pos hl]; exact ⟨w, hw⟩
    · rw [if_neg hl]
      obtain ⟨moves, hms⟩ := getValidMoves_isSome g (inv_wellFormed g hb.inv)
      simp only [hms]
      by_cases hemp : moves.length = 0
      · rw [if_pos hemp]; exact ⟨w, hw⟩
      · rw [if_neg hemp]
        have hd0 : depth ≠ 0 := fun h => hl (Or.inl h)
        obtain ⟨c, hc, hch⟩ := bounded_child raw g hb moves hms
        have hch2 : ∀ m ∈ moves, ∃ c1, Game.ApplyMove raw c m = some (c1, false) ∧
            ∀ x y, ∃ v, ai.minimaxPlain raw fuel c1 (depth - 1) x y
              (decide (c1.CurrentPlayer = ai.playerIdx)) = some v := by
          intro m hm
          obtain ⟨c1, hap, hcb, hlen⟩ := hch m hm
          exact ⟨c1, hap, fun x y => ih c1 (depth - 1) x y _ hcb (by rw [hlen]; exact h1)
            (by omega) (by omega)⟩
        cases mx with
        | true =>
          simp only [if_true]
          obtain ⟨R, hR⟩ := maxLoopPlain_total raw (fun c a b => ai.minimaxPlain raw fuel c
            (depth - 1) a b (decide (c.CurrentPlayer = ai.playerIdx))) g b c hc moves hch2
            a MinInt32 false
          simp only [hR]
          split_ifs
          · exact ⟨w, hw⟩
          · exact ⟨_, rfl⟩
        | false =>
          simp only [Bool.false_eq_true, if_false]
          obtain ⟨R, hR⟩ := minLoopPlain_total raw (fun c a b => ai.minimaxPlain raw fuel c
            (depth - 1) a b (decide (c.CurrentPlayer = ai.playerIdx))) g a c hc moves hch2
            b MaxInt32 false
          simp only [hR]
          split_ifs
          · exact ⟨w, hw⟩
          · exact ⟨_, rfl⟩

theorem windowSpec_root (v r : Int) (h : windowSpec MinInt32 MaxInt32 v r)
    (h0 : MinInt32 < v) (h1 : v < MaxInt32) : r = v := h.1 h0 h1

theorem minimax_eq_plain (raw : Int → Nat → Nat) (ai : AIPlayer) (g : Game)
    (hleaf : ∀ g', Search raw g g' → ∀ v, ai.evaluateState g' = some v →
      MinInt32 < v ∧ v < MaxInt32)
    (fuel : Nat) (depth a' b' : Int) (mx : Bool) (v : Int)
    (h : ai.minimaxPlain raw fuel g depth a' b' mx = some v) :
    ai.minimax raw fuel g depth MinInt32 MaxInt32 mx = some v ∧
      MinInt32 < v ∧ v < MaxInt32 := by
  obtain ⟨v0, v1⟩ := minimaxPlain_range raw ai g hleaf fuel g depth _ _ mx v Search.start h
  obtain ⟨r, hr, hs⟩ := minimax_refines raw ai fuel g depth MinInt32 MaxInt32 a' b'
    mx v (le_refl _) (by decide) (le_refl _) h
  rw [windowSpec_root v r hs v0 v1] at hr
  exact ⟨hr, v0, v1⟩

theorem minimax_value (raw : Int → Nat → Nat) (ai : AIPlayer) (g : Game) (hb : g.Bounded)
    (h0 : 0 ≤ ai.playerIdx) (h1 : ai.playerIdx < g.Players.length) (fuel : Nat) (depth : Int)
    (mx : Bool) (hd : 0 ≤ depth) (hf : depth.toNat < fuel) :
    ∃ v, ai.minimaxPlain raw fuel g depth MinInt32 MaxInt32 mx = some v ∧
      ai.minimax raw fuel g depth MinInt32 MaxInt32 mx = some v ∧
      MinInt32 < v ∧ v < MaxInt32 := by
  obtain ⟨v, hv⟩ := minimaxPlain_total raw ai h0 fuel g depth MinInt32 MaxInt32 mx hb h1 hd hf
  have hleaf : ∀ g', Search raw g g' → ∀ v, ai.evaluateState g' = some v →
      MinInt32 < v ∧ v < MaxInt32 := by
    intro g' hs w hw
    obtain ⟨w', hw', w0, w1⟩ := bounded_leaf raw ai g hb h0 h1 g' hs
    rw [hw] at hw'
    simp only [Option.some.injEq] at hw'
    subst hw'
    exact ⟨w0, w1⟩
  obtain ⟨e1, e2, e3⟩ := minimax_eq_plain raw ai g hleaf fuel depth _ _ mx v hv
  exact ⟨v, hv, e1, e2, e3⟩

/-! ## Claims on the computer player -/

theorem randomMove_mem (raw : Int → Nat → Nat) (ai : AIPlayer) (moves : List Move)
    (hne : moves ≠ []) : ∃ m, ai.randomMove raw moves = some m ∧ m ∈ moves := by
  obtain ⟨i, hi, hlt, _⟩ := intn_spec raw ai.rng moves hne
  refine ⟨moves[i], ?_, List.getElem_mem hlt⟩
  unfold AIPlayer.randomMove
  simp only [hi]
  exact List.getElem?_eq_getElem hlt

theorem minimaxMoveLoop_spec (raw : Int → Nat → Nat) (ai : AIPlayer) (g : Game) (depth : Int)
    (ms : List Move) (c : Game) (hc : g.Clone = some c)
    (hch : ∀ m ∈ ms, ∃ c1 v, Game.ApplyMove raw c m = some (c1, false) ∧
      ai.minimax raw depth.toNat c1 (depth - 1) MinInt32 MaxInt32
        (decide (c1.CurrentPlayer = ai.playerIdx)) = some v ∧ MinInt32 < v) :
    ∀ (rest : List Move) (bestScore : Int) (bestMove : Move), (∀ m ∈ rest, m ∈ ms) →
      ((rest ≠ [] ∧ bestScore = MinInt32) ∨ bestMove ∈ ms) →
      ∃ m, ai.minimaxMoveLoop raw g depth rest bestScore bestMove = some m ∧ m ∈ ms := by
  intro rest
  induction rest with
  | nil =>
    intro bestScore bestMove _ h
    rcases h with ⟨h, _⟩ | h
    · exact absurd rfl h
    · exact ⟨bestMove, rfl, h⟩
  | cons move rest ih =>
    intro bestScore bestMove hsub h
    have hmove := hsub move (List.mem_cons_self _ _)
    have hrest := fun m hm => hsub m (List.mem_cons_of_mem _ hm)
    obtain ⟨c1, v, hap, hv, hlt⟩ := hch move hmove
    rw [AIPlayer.minimaxMoveLoop]
    simp only [hc, hap, hv]
    by_cases hgt : v > bestScore
    · rw [if_pos hgt]
      exact ih v move hrest (Or.inr hmove)
    · rw [if_neg hgt]
      refine ih bestScore bestMove hrest (Or.inr ?_)
      rcases h with ⟨_, h⟩ | h
      · omega
      · exact h

theorem minimaxMove_scores (raw : Int → Nat → Nat) (ai : AIPlayer) (g : Game)
    (moves : List Move) (hb : g.Bounded) (h0 : 0 ≤ ai.playerIdx)
    (h1 : ai.playerIdx < g.Players.length) (hms : g.GetValidMoves = some moves)
    (depth : Int) (hd : 1 ≤ depth) :
    ∃ c, g.Clone = some c ∧ ∀ m ∈ moves, ∃ c1 v, Game.ApplyMove raw c m = some (c1, false) ∧
      ai.minimax raw depth.toNat c1 (depth - 1) MinInt32 MaxInt32
        (decide (c1.CurrentPlayer = ai.playerIdx)) = some v ∧ MinInt32 < v := by
  obtain ⟨c, hc, hch⟩ := bounded_child raw g hb moves hms
  refine ⟨c, hc, ?_⟩
  intro m hm
  obtain ⟨c1, hap, hcb, hlen⟩ := hch m hm
  obtain ⟨v, _, hv, v0, _⟩ := minimax_value raw ai c1 hcb h0 (by rw [hlen]; exact h1)
    depth.toNat (depth - 1) (decide (c1.CurrentPlayer = ai.playerIdx)) (by omega) (by omega)
  exact ⟨c1, v, hap, hv, v0⟩

theorem minimaxMove_mem (raw : Int → Nat → Nat) (ai : AIPlayer) (g : Game)
    (moves : List Move) (hb : g.Bounded) (h0 : 0 ≤ ai.playerIdx)
    (h1 : ai.playerIdx < g.Players.length) (hms : g.GetValidMoves = some moves)
    (hne : moves ≠ []) : ∃ m, ai.minimaxMove raw g moves = some m ∧ m ∈ moves := by
  unfold AIPlayer.minimaxMove
  obtain ⟨c, hc, hch⟩ := minimaxMove_scores raw ai g moves hb h0 h1 hms
    (if moves.length > 20 then 3 else 4) (by split_ifs <;> norm_num)
  exact minimaxMoveLoop_spec raw ai g _ moves c hc hch moves MinInt32 _ (fun _ h => h)
    (Or.inl ⟨hne, rfl⟩)

theorem heuristicMove_mem (raw : Int → Nat → Nat) (ai : AIPlayer) (g : Game)
    (moves : List Move) (hb : g.Bounded) (h0 : 0 ≤ ai.playerIdx)
    (h1 : ai.playerIdx < g.Players.length) (hms : g.GetValidMoves = some moves)
    (hne : moves ≠ []) : ∃ m, ai.heuristicMove raw g moves = some m ∧ m ∈ moves := by
  obtain ⟨m0, hm0⟩ := List.exists_mem_of_ne_nil moves hne
  obtain ⟨B, _, _, hraw, _⟩ := heuristicMove_spec ai g moves
    (fun m hm => by
      obtain ⟨s, hs, _⟩ := evaluateMove_bounds ai g moves m hb.inv h0 h1 hms hm
      exact ⟨s, hs⟩)
    (by
      obtain ⟨s, hs, s0, _⟩ := evaluateMove_bounds ai g moves m0 hb.inv h0 h1 hms hm0
      exact ⟨m0, hm0, s, hs, by unfold MinInt32; omega⟩)
  obtain ⟨m, hm, hmem, _⟩ := hraw raw
  exact ⟨m, hm, hmem⟩

theorem chooseMove_mem (raw : Int → Nat → Nat) (ai : AIPlayer) (g : Game)
    (moves : List Move) (hb : g.Bounded) (h0 : 0 ≤ ai.playerIdx)
    (h1 : ai.playerIdx < g.Players.length) (hms : g.GetValidMoves = some moves)
    (hne : moves ≠ []) : ∃ m, ai.ChooseMove raw g moves = some m ∧ m ∈ moves := by
  unfold AIPlayer.ChooseMove
  rw [if_neg (by simpa using hne)]
  split_ifs
  · exact randomMove_mem raw ai moves hne
  · exact heuristicMove_mem raw ai g moves hb h0 h1 hms hne
  · exact minimaxMove_mem raw ai g moves hb h0 h1 hms hne
  · exact randomMove_mem raw ai moves hne

/-- C32: the computer player answers with a legal move.  For every state reached from a
new game by applying moves from `GetValidMoves`, every seat in range, every value of the
difficulty (`Easy`, `Medium`, `Hard` or any other) and every random generator, if
`GetValidMoves` returns the non-empty list `moves` then `ChooseMove` returns, and what it
returns is an element of `moves`.  For the search of the Hard tier every listed move is
applied to the clone without an error and is given a score above `MinInt32`, so that
`bestMove` is assigned at the first move and is never left at the zero value of `Move`. -/
theorem C32_chooseMove (raw0 raw : Int → Nat → Nat) (ai : AIPlayer) (g0 g : Game)
    (moves : List Move) (hnew : IsNewGame raw0 g0) (hplay : ValidPlay raw0 g0 g)
    (h0 : 0 ≤ ai.playerIdx) (h1 : ai.playerIdx < g.Players.length)
    (hms : g.GetValidMoves = some moves) (hne : moves ≠ []) :
    (∃ m, ai.ChooseMove raw g moves = some m ∧ m ∈ moves) ∧
    (∃ m, ai.randomMove raw moves = some m ∧ m ∈ moves) ∧
    (∃ m, ai.heuristicMove raw g moves = some m ∧ m ∈ moves) ∧
    (∃ m, ai.minimaxMove raw g moves = some m ∧ m ∈ moves) ∧
    (∃ c, g.Clone = some c ∧ ∀ m ∈ moves, ∃ c1 v,
      Game.ApplyMove raw c m = some (c1, false) ∧
      ai.minimax raw (if moves.length > 20 then (3 : Int) else 4).toNat c1
        ((if moves.length > 20 then 3 else 4) - 1) MinInt32 MaxInt32
        (decide (c1.CurrentPlayer = ai.playerIdx)) = some v ∧ MinInt32 < v) := by
  have hb := validPlay_bounded raw0 g0 g (isNewGame_bounded raw0 g0 hnew) hplay
  exact ⟨chooseMove_mem raw ai g moves hb h0 h1 hms hne, randomMove_mem raw ai moves hne,
    heuristicMove_mem raw ai g moves hb h0 h1 hms hne,
    minimaxMove_mem raw ai g moves hb h0 h1 hms hne,
    minimaxMove_scores raw ai g moves hb h0 h1 hms _ (by split_ifs <;> norm_num)⟩

theorem minimaxPlain_fuel (raw : Int → Nat → Nat) (ai : AIPlayer) :
    ∀ (fuel fuel' : Nat) (g : Game) (depth a b : Int) (mx : Bool),
      0 ≤ depth → depth.toNat < fuel → depth.toNat < fuel' →
      ai.minimaxPlain raw fuel g depth a b mx = ai.minimaxPlain raw fuel' g depth a b mx := by
  intro fuel
  induction fuel with
  | zero => intro fuel' g depth a b mx _ hf _; omega
  | succ fuel ih =>
    intro fuel' g depth a b mx hd hf hf'
    cases fuel' with
    | zero => omega
    | succ fuel' =>
      rw [AIPlayer.minimaxPlain, AIPlayer.minimaxPlain]
      by_cases hl : depth = 0 ∨ g.GameOver = true ∨ g.IsRoundOver = true
      · rw [if_pos hl, if_pos hl]
      · rw [if_neg hl, if_neg hl]
        have hd0 : depth ≠ 0 := fun h => hl (Or.inl h)
        have hfun : (fun (c : Game) (a b : Int) => ai.minimaxPlain raw fuel c (depth - 1) a b
              (decide (c.CurrentPlayer = ai.playerIdx))) =
            (fun (c : Game) (a b : Int) => ai.minimaxPlain raw fuel' c (depth - 1) a b
              (decide (c.CurrentPlayer = ai.playerIdx))) := by
          funext c x y
          exact ih fuel' c (depth - 1) x y _ (by omega) (by omega) (by omega)
        rw [hfun]

theorem minimax_fuel (raw : Int → Nat → Nat) (ai : AIPlayer) :
    ∀ (fuel fuel' : Nat) (g : Game) (depth a b : Int) (mx : Bool),
      0 ≤ depth → depth.toNat < fuel → depth.toNat < fuel' →
      ai.minimax raw fuel g depth a b mx = ai.minimax raw fuel' g depth a b mx := by
  intro fuel
  induction fuel with
  | zero => intro fuel' g depth a b mx _ hf _; omega
  | succ fuel ih =>
    intro fuel' g depth a b mx hd hf hf'
    cases fuel' with
    | zero => omega
    | succ fuel' =>
      rw [AIPlayer.minimax, AIPlayer.minimax]
      by_cases hl : depth = 0 ∨ g.GameOver = true ∨ g.IsRoundOver = true
      · rw [if_pos hl, if_pos hl]
      · rw [if_neg hl, if_neg hl]
        have hd0 : depth ≠ 0 := fun h => hl (Or.inl h)
        have hfun : (fun (c : Game) (a b : Int) => ai.minimax raw fuel c (depth - 1) a b
              (decide (c.CurrentPlayer = ai.playerIdx))) =
            (fun (c : Game) (a b : Int) => ai.minimax raw fuel' c (depth - 1) a b
              (decide (c.CurrentPlayer = ai.playerIdx))) := by
          funext c x y
          exact ih fuel' c (depth - 1) x y _ (by omega) (by omega) (by omega)
        rw [hfun]

set_option maxRecDepth 1000000 in
theorem play1_search :
    IsNewGame rawZero play0 ∧ ValidPlay rawZero play0 play1 ∧
    (1 : Int) < play1.Players.length ∧
    play1.GetValidMoves = some (play1.GetValidMoves.getD []) ∧
    play1.GetValidMoves.getD [] ≠ [] := by
  have h0 : Game.NewGameWithSeed rawZero 0 2 42 = some play0 := by decide
  refine ⟨Or.inr ⟨0, 2, 42, h0⟩, ?_, by decide, by decide, by decide⟩
  exact ValidPlay.step play0 play1 (play0.GetValidMoves.getD []) ⟨0, TileColor.White, 2⟩
    ValidPlay.start (by decide) (by decide) (by decide)

/-- Witness of C32 on the state after the first move of the sample play, for the player in
seat 1 at each of the three tiers. -/
theorem C32_chooseMove_witness :
    IsNewGame rawZero play0 ∧ ValidPlay rawZero play0 play1 ∧
    play1.GetValidMoves = some (play1.GetValidMoves.getD []) ∧
    play1.GetValidMoves.getD [] ≠ [] ∧
    (∃ m, AIPlayer.ChooseMove rawZero ⟨Easy, 1, ⟨7, 0⟩⟩ play1 (play1.GetValidMoves.getD []) =
      some m ∧ m ∈ play1.GetValidMoves.getD []) ∧
    (∃ m, AIPlayer.ChooseMove rawZero ⟨Medium, 1, ⟨7, 0⟩⟩ play1 (play1.GetValidMoves.getD []) =
      some m ∧ m ∈ play1.GetValidMoves.getD []) ∧
    (∃ m, AIPlayer.ChooseMove rawZero ⟨Hard, 1, ⟨7, 0⟩⟩ play1 (play1.GetValidMoves.getD []) =
      some m ∧ m ∈ play1.GetValidMoves.getD []) := by
  obtain ⟨hnew, hplay, hseat, hms, hne⟩ := play1_search
  exact ⟨hnew, hplay, hms, hne,
    (C32_chooseMove rawZero rawZero ⟨Easy, 1, ⟨7, 0⟩⟩ play0 play1 _ hnew hplay (by decide)
      hseat hms hne).1,
    (C32_chooseMove rawZero rawZero ⟨Medium, 1, ⟨7, 0⟩⟩ play0 play1 _ hnew hplay (by decide)
      hseat hms hne).1,
    (C32_chooseMove rawZero rawZero ⟨Hard, 1, ⟨7, 0⟩⟩ play0 play1 _ hnew hplay (by decide)
      hseat hms hne).1⟩

/-- C33: the heuristic tier picks a maximiser.  For every state and every list of moves
on each of which `evaluateMove` returns, with a score of at least `MinInt32` on one of
them (so the list is not empty), and for every random generator, `heuristicMove` returns a
move of the list whose score is at least the score of every move of the list; and every
move of the list that attains that maximum is returned under some generator. -/
theorem C33_heuristicMove (ai : AIPlayer) (g : Game) (moves : List Move)
    (hall : ∀ m ∈ moves, ∃ s, ai.evaluateMove g m = some s)
    (hsome : ∃ m ∈ moves, ∃ s, ai.evaluateMove g m = some s ∧ MinInt32 ≤ s) :
    (∀ raw, ∃ m s, ai.heuristicMove raw g moves = some m ∧ m ∈ moves ∧
      ai.evaluateMove g m = some s ∧
      ∀ m' ∈ moves, ∀ s', ai.evaluateMove g m' = some s' → s' ≤ s) ∧
    (∀ m ∈ moves, ∀ s, ai.evaluateMove g m = some s →
      (∀ m' ∈ moves, ∀ s', ai.evaluateMove g m' = some s' → s' ≤ s) →
      ∃ raw, ai.heuristicMove raw g moves = some m) := by
  obtain ⟨B, ⟨mB, hmB, hB⟩, hmax, hraw, hposs⟩ := heuristicMove_spec ai g moves hall hsome
  refine ⟨?_, ?_⟩
  · intro raw
    obtain ⟨m, hm, hmem, hval⟩ := hraw raw
    exact ⟨m, B, hm, hmem, hval, hmax⟩
  · intro m hm s hs htop
    have h1 := hmax m hm s hs
    have h2 := htop mB hmB B hB
    have : s = B := by omega
    subst this
    exact hposs m hm hs

theorem startGame_scores :
    (⟨Medium, 0, ⟨7, 0⟩⟩ : AIPlayer).evaluateMove startGame ⟨0, TileColor.Yellow, 0⟩ = some 45 ∧
    (⟨Medium, 0, ⟨7, 0⟩⟩ : AIPlayer).evaluateMove startGame ⟨0, TileColor.Yellow, 1⟩ = some 75 ∧
    (⟨Medium, 0, ⟨7, 0⟩⟩ : AIPlayer).evaluateMove startGame ⟨0, TileColor.Black, 1⟩ = some 75 ∧
    (⟨Medium, 0, ⟨7, 0⟩⟩ : AIPlayer).evaluateMove startGame ⟨0, TileColor.Black, -1⟩ =
      some (-30) := by
  refine ⟨by decide, by decide, by decide, by decide⟩

/-- Witness of C33 on `startGame` and four of its moves, with the scores 45, 75, 75 and
-30: every generator yields a move of score 75, and each of the two moves of score 75 is
returned under some generator. -/
theorem C33_heuristicMove_witness :
    (∀ raw, ∃ m, (⟨Medium, 0, ⟨7, 0⟩⟩ : AIPlayer).heuristicMove raw startGame
        [⟨0, TileColor.Yellow, 0⟩, ⟨0, TileColor.Yellow, 1⟩, ⟨0, TileColor.Black, 1⟩,
         ⟨0, TileColor.Black, -1⟩] = some m ∧
      (⟨Medium, 0, ⟨7, 0⟩⟩ : AIPlayer).evaluateMove startGame m = some 75) ∧
    (∃ raw, (⟨Medium, 0, ⟨7, 0⟩⟩ : AIPlayer).heuristicMove raw startGame
        [⟨0, TileColor.Yellow, 0⟩, ⟨0, TileColor.Yellow, 1⟩, ⟨0, TileColor.Black, 1⟩,
         ⟨0, TileColor.Black, -1⟩] = some ⟨0, TileColor.Yellow, 1⟩) ∧
    (∃ raw, (⟨Medium, 0, ⟨7, 0⟩⟩ : AIPlayer).heuristicMove raw startGame
        [⟨0, TileColor.Yellow, 0⟩, ⟨0, TileColor.Yellow, 1⟩, ⟨0, TileColor.Black, 1⟩,
         ⟨0, TileColor.Black, -1⟩] = some ⟨0, TileColor.Black, 1⟩) := by
  obtain ⟨e1, e2, e3, e4⟩ := startGame_scores
  have hall : ∀ m ∈ ([⟨0, TileColor.Yellow, 0⟩, ⟨0, TileColor.Yellow, 1⟩,
      ⟨0, TileColor.Black, 1⟩, ⟨0, TileColor.Black, -1⟩] : List Move),
      ∃ s, (⟨Medium, 0, ⟨7, 0⟩⟩ : AIPlayer).evaluateMove startGame m = some s ∧ s ≤ 75 := by
    intro m hm
    simp only [List.mem_cons, List.mem_singleton, List.not_mem_nil, or_false] at hm
    rcases hm with rfl | rfl | rfl | rfl
    · exact ⟨45, e1, by norm_num⟩
    · exact ⟨75, e2, by norm_num⟩
    · exact ⟨75, e3, by norm_num⟩
    · exact ⟨-30, e4, by norm_num⟩
  have htop : ∀ m' ∈ ([⟨0, TileColor.Yellow, 0⟩, ⟨0, TileColor.Yellow, 1⟩,
      ⟨0, TileColor.Black, 1⟩, ⟨0, TileColor.Black, -1⟩] : List Move),
      ∀ s', (⟨Medium, 0, ⟨7, 0⟩⟩ : AIPlayer).evaluateMove startGame m' = some s' → s' ≤ 75 := by
    intro m' hm' s' hs'
    obtain ⟨s, hs, hle⟩ := hall m' hm'
    rw [hs'] at hs
    simp only [Option.some.injEq] at hs
    omega
  have key := C33_heuristicMove ⟨Medium, 0, ⟨7, 0⟩⟩ startGame
    [⟨0, TileColor.Yellow, 0⟩, ⟨0, TileColor.Yellow, 1⟩, ⟨0, TileColor.Black, 1⟩,
     ⟨0, TileColor.Black, -1⟩]
    (fun m hm => by obtain ⟨s, hs, _⟩ := hall m hm; exact ⟨s, hs⟩)
    ⟨⟨0, TileColor.Yellow, 1⟩, by simp, 75, e2, by decide⟩
  refine ⟨?_, ?_, ?_⟩
  · intro raw
    obtain ⟨m, s, hm, hmem, hval, hmax⟩ := key.1 raw
    have h1 := hmax ⟨0, TileColor.Yellow, 1⟩ (by simp) 75 e2
    have h2 := htop m hmem s hval
    have : s = 75 := by omega
    subst this
    exact ⟨m, hm, hval⟩
  · exact key.2 ⟨0, TileColor.Yellow, 1⟩ (by simp) 75 e2 htop
  · exact key.2 ⟨0, TileColor.Black, 1⟩ (by simp) 75 e3 htop

/-- C38: alpha-beta pruning does not change the result.  For every seat, state, depth and
flag `maximizing`, if every evaluation of a state of the search lies strictly between
`MinInt32` and `MaxInt32`, then whenever the depth-limited max/min recursion without the
two cut-offs (`minimaxPlain`, with any window) returns a value, `minimax` with the window
`(MinInt32, MaxInt32)` returns the same value.  The recursion terminates: for a depth of at
least zero the results of both no longer depend on the number of nested calls allowed once
it exceeds `depth`, the depth falling by one with each call; and in a state that satisfies
`Game.Bounded`, as every state of a game does, for a seat in range, both then return a
value. -/
theorem C38_alphaBeta (raw : Int → Nat → Nat) (ai : AIPlayer) (g : Game) (depth : Int)
    (maximizing : Bool)
    (hleaf : ∀ g', Search raw g g' → ∀ v, ai.evaluateState g' = some v →
      MinInt32 < v ∧ v < MaxInt32) :
    (∀ (fuel : Nat) (alpha beta v : Int),
      ai.minimaxPlain raw fuel g depth alpha beta maximizing = some v →
      ai.minimax raw fuel g depth MinInt32 MaxInt32 maximizing = some v) ∧
    (0 ≤ depth → ∀ (fuel fuel' : Nat) (alpha beta : Int),
      depth.toNat < fuel → depth.toNat < fuel' →
      ai.minimax raw fuel g depth alpha beta maximizing =
        ai.minimax raw fuel' g depth alpha beta maximizing ∧
      ai.minimaxPlain raw fuel g depth alpha beta maximizing =
        ai.minimaxPlain raw fuel' g depth alpha beta maximizing) ∧
    (g.Bounded → 0 ≤ ai.playerIdx → ai.playerIdx < g.Players.length → 0 ≤ depth →
      ∀ fuel : Nat, depth.toNat < fuel →
        ∃ v, ai.minimaxPlain raw fuel g depth MinInt32 MaxInt32 maximizing = some v ∧
          ai.minimax raw fuel g depth MinInt32 MaxInt32 maximizing = some v ∧
          MinInt32 < v ∧ v < MaxInt32) :=
  ⟨fun fuel alpha beta v h =>
      (minimax_eq_plain raw ai g hleaf fuel depth alpha beta maximizing v h).1,
    fun hd fuel fuel' alpha beta hf hf' =>
      ⟨minimax_fuel raw ai fuel fuel' g depth alpha beta maximizing hd hf hf',
        minimaxPlain_fuel raw ai fuel fuel' g depth alpha beta maximizing hd hf hf'⟩,
    fun hb h0 h1 hd fuel hf => minimax_value raw ai g hb h0 h1 fuel depth maximizing hd hf⟩

theorem play1_leaf (ai : AIPlayer) (h0 : 0 ≤ ai.playerIdx) (h1 : ai.playerIdx < 2) :
    play1.Bounded ∧ ai.playerIdx < play1.Players.length ∧
    ∀ g', Search rawZero play1 g' → ∀ v, ai.evaluateState g' = some v →
      MinInt32 < v ∧ v < MaxInt32 := by
  obtain ⟨hnew, hplay, hseat, _, _⟩ := play1_search
  have hb := validPlay_bounded rawZero play0 play1 (isNewGame_bounded rawZero play0 hnew) hplay
  have hlen : ai.playerIdx < play1.Players.length := by omega
  refine ⟨hb, hlen, ?_⟩
  intro g' hs w hw
  obtain ⟨w', hw', w0, w1⟩ := bounded_leaf rawZero ai play1 hb h0 hlen g' hs
  rw [hw] at hw'
  simp only [Option.some.injEq] at hw'
  subst hw'
  exact ⟨w0, w1⟩

/-- Witness of C38 on the state after the first move of the sample play, at depth 3 with
four nested calls allowed: every evaluation of a state of the search is strictly between
the two constants, and the plain and the pruned recursion return the same value. -/
theorem C38_alphaBeta_witness :
    (∀ g', Search rawZero play1 g' → ∀ v,
      (⟨Hard, 1, ⟨7, 0⟩⟩ : AIPlayer).evaluateState g' = some v →
      MinInt32 < v ∧ v < MaxInt32) ∧
    ∃ v, (⟨Hard, 1, ⟨7, 0⟩⟩ : AIPlayer).minimaxPlain rawZero 4 play1 3 MinInt32 MaxInt32 true =
        some v ∧
      (⟨Hard, 1, ⟨7, 0⟩⟩ : AIPlayer).minimax rawZero 4 play1 3 MinInt32 MaxInt32 true =
        some v := by
  obtain ⟨hb, hlen, hleaf⟩ := play1_leaf ⟨Hard, 1, ⟨7, 0⟩⟩ (by decide) (by decide)
  obtain ⟨v, hv, _, _, _⟩ :=
    (C38_alphaBeta rawZero ⟨Hard, 1, ⟨7, 0⟩⟩ play1 3 true hleaf).2.2 hb (by decide) hlen
      (by decide) 4 (by decide)
  exact ⟨hleaf, v, hv,
    (C38_alphaBeta rawZero ⟨Hard, 1, ⟨7, 0⟩⟩ play1 3 true hleaf).1 4 _ _ v hv⟩

/-! ## Bounds on the points of wall tiling -/

theorem set?_range {α : Type} (a a1 : Arr5 α) (i : Int) (v : α)
    (h : a.set? i v = some a1) : 0 ≤ i ∧ i < 5 := by
  unfold Arr5.set? at h
  split_ifs at h <;> omega

theorem tileWallRow_le (s s' : PlayerBoard × List TileColor) (row : Int)
    (h : PlayerBoard.tileWallRow s row = some s') : s'.1.Score ≤ s.1.Score + 10 := by
  unfold PlayerBoard.tileWallRow at h
  cases hpl : s.1.PatternLines.get? row with
  | none => simp [hpl] at h
  | some pl =>
    simp only [hpl, Option.bind_eq_bind, Option.some_bind, Option.pure_def, bind, pure] at h
    split_ifs at h with hf
    · simp only [Option.some.injEq] at h
      subst h
      omega
    · simp only [Option.bind_eq_some] at h
      obtain ⟨lines, _, col, _, wall, hwall, pts, hpts, hres⟩ := h
      simp only [Option.some.injEq] at hres
      subst hres
      obtain ⟨r0, r5⟩ := (Arr5.get?_isSome_iff _ _).1 ⟨pl, hpl⟩
      obtain ⟨wrow, wrow1, _, hset, _⟩ := Arr5.set2?_some _ _ _ _ _ hwall
      obtain ⟨c0, c5⟩ := set?_range _ _ _ _ hset
      have := scoreWallTile_le _ row col pts r0 r5 c0 c5 hpts
      simp only
      omega

theorem foldlM_le {σ α : Type} (f : σ → α → Option σ) (m : σ → Int) (k : Int)
    (hstep : ∀ s a s', f s a = some s' → m s' ≤ m s + k) :
    ∀ (l : List α) (s s' : σ), l.foldlM f s = some s' → m s' ≤ m s + k * l.length := by
  intro l
  induction l with
  | nil =>
    intro s s' h
    simp only [List.foldlM_nil, Option.pure_def, Option.some.injEq] at h
    subst h
    simp
  | cons a l ih =>
    intro s s' h
    simp only [List.foldlM_cons, Option.bind_eq_bind, Option.bind_eq_some] at h
    obtain ⟨s1, h1, h2⟩ := h
    have e1 := hstep s a s1 h1
    have e2 := ih s1 s' h2
    simp only [List.length_cons]
    push_cast
    nlinarith

theorem tileWall_le (pb : PlayerBoard) (r : PlayerBoard × List TileColor)
    (h : pb.TileWall = some r) : r.1.Score ≤ pb.Score + 50 := by
  have := foldlM_le PlayerBoard.tileWallRow (fun s => s.1.Score) 10
    (fun s a s' h1 => tileWallRow_le s s' a h1) range5 (pb, []) r h
  have e : (range5.length : Int) = 5 := rfl
  rw [e] at this
  simpa using this

theorem forall₂_mem_right {α β : Type} (R : α → β → Prop) :
    ∀ (l1 : List α) (l2 : List β), List.Forall₂ R l1 l2 → ∀ b ∈ l2, ∃ a ∈ l1, R a b := by
  intro l1 l2 h
  induction h with
  | nil => intro b hb; simp at hb
  | cons hab _ ih =>
    intro b hb
    rcases List.mem_cons.1 hb with rfl | hb
    · exact ⟨_, List.mem_cons_self _ _, hab⟩
    · obtain ⟨a, ha, hr⟩ := ih b hb
      exact ⟨a, List.mem_cons_of_mem _ ha, hr⟩

theorem tiled_score (p q : PlayerBoard)
    (h : ∃ tw, p.TileWall = some tw ∧ q = tw.1.ScoreFloorLine.1) :
    0 ≤ q.Score ∧ q.Score ≤ max 0 (p.Score + 50) := by
  obtain ⟨tw, htw, rfl⟩ := h
  have h1 := tileWall_le p tw htw
  have h2 := (floorPenalties_take_bounds (min tw.1.FloorLine.length 7)).2.1
  rw [scoreFloorLine_score]
  constructor
  · exact le_max_left _ _
  · omega

/-! ## Claims on arithmetic, within the range of `int` -/

/-- C11: `PlaceTiles` never silently drops tiles.  For every board, colour and `count`
with `0 ≤ count ≤ MaxInt64`, the size and the fill count of the line, the free space
`Size - Filled` and the overflow `count - min(count, Size - Filled)` being values of `int`
(as they are whenever `0 ≤ Filled ≤ Size`), so that no operation of `Add` wraps: with
`lineIdx = -1` no pattern line changes and exactly `count` copies of the colour are
appended to the floor line; with `lineIdx` in `0..4` the fill count of that line becomes
`min(Size, Filled + count)` and exactly `max(0, Filled + count - Size)` copies are
appended to the floor line, so that the increase of `Filled` plus the increase of the
floor length is `count`; the wall, the score and all other lines are unchanged. -/
theorem C11_placeTiles (pb : PlayerBoard) (lineIdx : Int) (color : TileColor) (count : Int)
    (hcount : 0 ≤ count) (hmax : count ≤ MaxInt64)
    (hline : ∀ pl, pb.PatternLines.get? lineIdx = some pl →
      InInt64 pl.Size ∧ InInt64 pl.Filled ∧ InInt64 (pl.Size - pl.Filled) ∧
      InInt64 (count - min count (pl.Size - pl.Filled))) :
    (lineIdx = -1 →
      ∃ pb', pb.PlaceTiles lineIdx color count = some pb' ∧
        pb'.PatternLines = pb.PatternLines ∧
        pb'.FloorLine = pb.FloorLine ++ List.replicate count.toNat color ∧
        (count.toNat : Int) = count ∧
        pb'.Wall = pb.Wall ∧ pb'.Score = pb.Score) ∧
    (0 ≤ lineIdx → lineIdx ≤ 4 →
      ∃ pl pl' pb', pb.PatternLines.get? lineIdx = some pl ∧
        pb.PlaceTiles lineIdx color count = some pb' ∧
        pb'.PatternLines.get? lineIdx = some pl' ∧
        pl'.Size = pl.Size ∧ pl'.Filled = min pl.Size (pl.Filled + count) ∧
        (∃ k : Nat, (k : Int) = max 0 (pl.Filled + count - pl.Size) ∧
          pb'.FloorLine = pb.FloorLine ++ List.replicate k color) ∧
        (pl'.Filled - pl.Filled) +
          ((pb'.FloorLine.length : Int) - (pb.FloorLine.length : Int)) = count ∧
        (∀ j, j ≠ lineIdx → pb'.PatternLines.get? j = pb.PatternLines.get? j) ∧
        pb'.Wall = pb.Wall ∧ pb'.Score = pb.Score ∧
        InInt64 pl'.Filled ∧ InInt64 (max 0 (pl.Filled + count - pl.Size))) := by
  constructor
  · intro hl
    subst hl
    exact ⟨_, placeTiles_floor pb color count, rfl, rfl, by omega, rfl, rfl⟩
  · intro h0 h4
    obtain ⟨pl, lines, hpl, hlines, hres⟩ := placeTiles_line pb lineIdx color count h0 h4
    obtain ⟨a1, a2, _, a4⟩ := add_spec pl color count
    obtain ⟨⟨b1, b2⟩, ⟨b3, b4⟩, ⟨b5, b6⟩, ⟨b7, b8⟩⟩ := hline pl hpl
    have hget : lines.get? lineIdx = some (pl.Add color count).1 := by
      rw [Arr5.get?_set? _ _ _ _ hlines]; simp
    have hk : (((pl.Add color count).2.toNat : Nat) : Int) =
        max 0 (pl.Filled + count - pl.Size) := by
      rw [a4]
      have : 0 ≤ max 0 (pl.Filled + count - pl.Size) := le_max_left _ _
      omega
    refine ⟨pl, (pl.Add color count).1, _, hpl, hres, hget, a1, a2,
      ⟨(pl.Add color count).2.toNat, hk, rfl⟩, ?_, ?_, rfl, rfl, ?_, ?_⟩
    · simp only [List.length_append, List.length_replicate]
      push_cast
      rw [hk, a2]
      rcases le_total (pl.Filled + count) pl.Size with h | h
      · rw [min_eq_right h, max_eq_left (by omega)]; omega
      · rw [min_eq_left h, max_eq_right (by omega)]; omega
    · intro j hj
      simp only
      rw [Arr5.get?_set? _ _ _ _ hlines, if_neg hj]
    · rw [a2]
      constructor <;> omega
    · constructor <;> omega

/-- Witness of C11: three red tiles on the empty board, line 1 (capacity two). -/
theorem C11_placeTiles_witness :
    ((0 : Int) ≤ 3 ∧ (3 : Int) ≤ MaxInt64) ∧
    ((1 : Int) = -1 →
      ∃ pb', NewPlayerBoard.PlaceTiles 1 TileColor.Red 3 = some pb' ∧
        pb'.PatternLines = NewPlayerBoard.PatternLines ∧
        pb'.FloorLine = NewPlayerBoard.FloorLine ++ List.replicate (3 : Int).toNat TileColor.Red ∧
        (((3 : Int).toNat : Nat) : Int) = 3 ∧
        pb'.Wall = NewPlayerBoard.Wall ∧ pb'.Score = NewPlayerBoard.Score) ∧
    ((0 : Int) ≤ 1 → (1 : Int) ≤ 4 →
      ∃ pl pl' pb', NewPlayerBoard.PatternLines.get? 1 = some pl ∧
        NewPlayerBoard.PlaceTiles 1 TileColor.Red 3 = some pb' ∧
        pb'.PatternLines.get? 1 = some pl' ∧
        pl'.Size = pl.Size ∧ pl'.Filled = min pl.Size (pl.Filled + 3) ∧
        (∃ k : Nat, (k : Int) = max 0 (pl.Filled + 3 - pl.Size) ∧
          pb'.FloorLine = NewPlayerBoard.FloorLine ++ List.replicate k TileColor.Red) ∧
        (pl'.Filled - pl.Filled) +
          ((pb'.FloorLine.length : Int) - (NewPlayerBoard.FloorLine.length : Int)) = 3 ∧
        (∀ j, j ≠ 1 → pb'.PatternLines.get? j = NewPlayerBoard.PatternLines.get? j) ∧
        pb'.Wall = NewPlayerBoard.Wall ∧ pb'.Score = NewPlayerBoard.Score ∧
        InInt64 pl'.Filled ∧ InInt64 (max 0 (pl.Filled + 3 - pl.Size))) :=
  ⟨by decide, C11_placeTiles NewPlayerBoard 1 TileColor.Red 3 (by decide) (by decide)
    (by
      intro pl hpl
      have e : pl = ⟨2, TileColor.NoTile, 0⟩ := by
        have h2 : NewPlayerBoard.PatternLines.get? 1 = some ⟨2, TileColor.NoTile, 0⟩ := rfl
        rw [h2] at hpl
        exact (Option.some.inj hpl).symm
      subst e
      decide)⟩

/-- C16: floor scoring.  For every board with score `s`, `MinInt64 + 14 ≤ s ≤ MaxInt64`,
and floor line `f`, the score after `ScoreFloorLine` is
`max(0, s + sum of FloorPenalties[i] for i < min(len(f), 7))` with
`FloorPenalties = [-1,-1,-2,-2,-2,-3,-3]`, markers counting by position like tiles.
Three entries cost 4, the total never exceeds 14, seven or more entries cost exactly 14,
and the result is never negative.  Within that range every value the loop gives the score
is a value of `int`, so that no addition wraps. -/
theorem C16_scoreFloorLine_score (pb : PlayerBoard) (hlo : MinInt64 + 14 ≤ pb.Score)
    (hhi : pb.Score ≤ MaxInt64) :
    pb.ScoreFloorLine.1.Score =
      max 0 (pb.Score + (FloorPenalties.take (min pb.FloorLine.length 7)).sum) ∧
    FloorPenalties = [-1, -1, -2, -2, -2, -3, -3] ∧
    (FloorPenalties.take 3).sum = -4 ∧
    (∀ n : Nat, -14 ≤ (FloorPenalties.take n).sum ∧ (FloorPenalties.take n).sum ≤ 0 ∧
      (FloorPenalties.take (min (7 + n) 7)).sum = -14) ∧
    0 ≤ pb.ScoreFloorLine.1.Score ∧
    (∀ n : Nat, InInt64 (pb.Score + (FloorPenalties.take n).sum)) ∧
    InInt64 pb.ScoreFloorLine.1.Score := by
  have hsum : ∀ n : Nat, InInt64 (pb.Score + (FloorPenalties.take n).sum) := by
    intro n
    obtain ⟨h1, h2, _⟩ := floorPenalties_take_bounds n
    constructor <;> omega
  refine ⟨scoreFloorLine_score pb, rfl, by decide, ?_, ?_, hsum, ?_⟩
  · intro n
    obtain ⟨h1, h2, _⟩ := floorPenalties_take_bounds n
    refine ⟨h1, h2, ?_⟩
    rw [min_eq_right (by omega)]
    decide
  · rw [scoreFloorLine_score]
    exact le_max_left _ _
  · rw [scoreFloorLine_score]
    obtain ⟨h1, h2⟩ := hsum (min pb.FloorLine.length 7)
    have h3 : MinInt64 ≤ 0 := by decide
    have h4 : (0 : Int) ≤ MaxInt64 := by decide
    constructor
    · exact le_trans h3 (le_max_left _ _)
    · exact max_le h4 h2

/-- Witness of C16 on `tilingBoard`: a score of 3 and two entries on the floor line leave
a score of 1. -/
theorem C16_scoreFloorLine_score_witness :
    (MinInt64 + 14 ≤ tilingBoard.Score ∧ tilingBoard.Score ≤ MaxInt64) ∧
    tilingBoard.ScoreFloorLine.1.Score = 1 ∧
    tilingBoard.ScoreFloorLine.1.Score =
      max 0 (tilingBoard.Score +
        (FloorPenalties.take (min tilingBoard.FloorLine.length 7)).sum) :=
  ⟨by decide, by decide,
    (C16_scoreFloorLine_score tilingBoard (by decide) (by decide)).1⟩

/-- C19: end of game bonus.  For every board with a score `s`,
`MinInt64 ≤ s ≤ MaxInt64 - 95`, `ScoreEndGame` returns the board with its score increased
by exactly `2 x (fully occupied rows) + 7 x (fully occupied columns) + 10 x (colours whose
five cells are all occupied)`, each category counted on its own, and with nothing else
changed; the bonus lies between 0 and 95, a fully occupied wall yields 95, and the new
score is a value of `int`, so that no addition wraps. -/
theorem C19_scoreEndGame (pb : PlayerBoard) (hlo : MinInt64 ≤ pb.Score)
    (hhi : pb.Score ≤ MaxInt64 - 95) :
    (∃ p1, pb.ScoreEndGame = some p1 ∧
      p1.Score = pb.Score +
        (2 * ((range5.filter (fun r => rowFull pb.Wall r)).length : Int) +
          7 * ((range5.filter (fun c => colFull pb.Wall c)).length : Int) +
          10 * ((AllColors.filter (fun color => colorFull pb.Wall color)).length : Int)) ∧
      p1.PatternLines = pb.PatternLines ∧ p1.Wall = pb.Wall ∧
      p1.FloorLine = pb.FloorLine ∧ InInt64 p1.Score) ∧
    (0 ≤ endGameBonus pb.Wall ∧ endGameBonus pb.Wall ≤ 95) ∧
    endGameBonus fullWall = 95 := by
  have h0 := endGameBonus_nonneg pb.Wall
  have h1 := endGameBonus_le pb.Wall
  refine ⟨⟨_, scoreEndGame_eq pb, rfl, rfl, rfl, rfl, ?_⟩, ⟨h0, h1⟩, by decide⟩
  constructor
  · show MinInt64 ≤ pb.Score + endGameBonus pb.Wall
    omega
  · show pb.Score + endGameBonus pb.Wall ≤ MaxInt64
    omega

/-- Witness of C19 on `rowBoard`: one fully occupied row raises the score of 30 to 32. -/
theorem C19_scoreEndGame_witness :
    (MinInt64 ≤ rowBoard.Score ∧ rowBoard.Score ≤ MaxInt64 - 95) ∧
    ∃ p1, rowBoard.ScoreEndGame = some p1 ∧ p1.Score = 32 ∧ InInt64 p1.Score := by
  obtain ⟨⟨p1, h1, h2, _, _, _, h6⟩, _, _⟩ :=
    C19_scoreEndGame rowBoard (by decide) (by decide)
  refine ⟨by decide, p1, h1, ?_, h6⟩
  rw [h2]
  decide

/-- C18. A score is never negative.  In every state `g` reached from a new game `g0` by
calls of `ApplyMove` with any moves, whether they return an error or not, every board has
`Score >= 0`.  `ScoreFloorLine` leaves a score `>= 0` whatever the score before.  On a
board whose score `s` is a value of `int` with `s ≤ MaxInt64 - 50`, `TileWall`, whenever it
returns, and it does on every well formed board, returns a score not below `s` and at most
`s + 50`; on a board with `s ≤ MaxInt64 - 95`, `ScoreEndGame` returns, with a score not
below `s`; in both cases the new score is a value of `int`, so that no addition wraps. -/
theorem C18_score_nonneg (raw : Int → Nat → Nat) (g0 g : Game)
    (hnew : IsNewGame raw g0) (hplay : AnyPlay raw g0 g) :
    (∀ p ∈ g.Players, 0 ≤ p.Score) ∧
    (∀ pb : PlayerBoard, 0 ≤ pb.ScoreFloorLine.1.Score) ∧
    (∀ (pb : PlayerBoard) (r : PlayerBoard × List TileColor),
      InInt64 pb.Score → pb.Score ≤ MaxInt64 - 50 →
      pb.TileWall = some r →
      pb.Score ≤ r.1.Score ∧ r.1.Score ≤ pb.Score + 50 ∧ InInt64 r.1.Score) ∧
    (∀ pb : PlayerBoard, pb.WellFormed → InInt64 pb.Score → pb.Score ≤ MaxInt64 - 50 →
      ∃ r, pb.TileWall = some r ∧ pb.Score ≤ r.1.Score ∧ InInt64 r.1.Score) ∧
    (∀ pb : PlayerBoard, InInt64 pb.Score → pb.Score ≤ MaxInt64 - 95 →
      ∃ p1, pb.ScoreEndGame = some p1 ∧ pb.Score ≤ p1.Score ∧ InInt64 p1.Score) := by
  obtain ⟨c1, c2, c3, c4, c5⟩ := score_nonneg raw g0 g hnew hplay
  have key : ∀ (pb : PlayerBoard) (r : PlayerBoard × List TileColor),
      InInt64 pb.Score → pb.Score ≤ MaxInt64 - 50 → pb.TileWall = some r →
      pb.Score ≤ r.1.Score ∧ r.1.Score ≤ pb.Score + 50 ∧ InInt64 r.1.Score := by
    intro pb r hin hhi hr
    have h1 := c3 pb r hr
    have h2 := tileWall_le pb r hr
    obtain ⟨h3, h4⟩ := hin
    exact ⟨h1, h2, by omega, by omega⟩
  refine ⟨c1, c2, key, ?_, ?_⟩
  · intro pb hwf hin hhi
    obtain ⟨r, hr, _⟩ := c4 pb hwf
    obtain ⟨k1, _, k3⟩ := key pb r hin hhi hr
    exact ⟨r, hr, k1, k3⟩
  · intro pb hin hhi
    refine ⟨_, scoreEndGame_eq pb, ?_, ?_⟩
    · have := endGameBonus_nonneg pb.Wall
      simp only
      omega
    · obtain ⟨h3, h4⟩ := hin
      have h0 := endGameBonus_nonneg pb.Wall
      have h1 := endGameBonus_le pb.Wall
      constructor
      · show MinInt64 ≤ pb.Score + endGameBonus pb.Wall
        omega
      · show pb.Score + endGameBonus pb.Wall ≤ MaxInt64
        omega

/-- Witness of C18 on `play6`, the state after the six moves of round one and its end of
round scoring, and on the board `tilingBoard`. -/
theorem C18_score_nonneg_witness :
    ∃ g0, IsNewGame rawZero g0 ∧ AnyPlay rawZero g0 play6 ∧
      (∀ p ∈ play6.Players, 0 ≤ p.Score) ∧
      0 ≤ tilingBoard.ScoreFloorLine.1.Score ∧
      tilingBoard.WellFormed ∧ InInt64 tilingBoard.Score ∧
      tilingBoard.Score ≤ MaxInt64 - 95 ∧
      (∃ r, tilingBoard.TileWall = some r ∧ tilingBoard.Score ≤ r.1.Score ∧
        InInt64 r.1.Score) ∧
      (∃ p1, tilingBoard.ScoreEndGame = some p1 ∧ tilingBoard.Score ≤ p1.Score ∧
        InInt64 p1.Score) := by
  obtain ⟨g0, hg0, hv⟩ := reachable_validPlay rawZero 0 2 42 play6 reachable_play6.2.1
  have hnew : IsNewGame rawZero g0 := Or.inr ⟨0, 2, 42, hg0⟩
  have hany := validPlay_anyPlay rawZero g0 play6 hv
  have h := C18_score_nonneg rawZero g0 play6 hnew hany
  exact ⟨g0, hnew, hany, h.1, h.2.1 tilingBoard, by decide, by decide, by decide,
    h.2.2.2.1 tilingBoard (by decide) (by decide) (by decide),
    h.2.2.2.2 tilingBoard (by decide) (by decide)⟩

/-- C20. Game-end transition.  Let every board of `g` have a score `s` with
`MinInt64 + 14 ≤ s ≤ MaxInt64 - 145`, so that no addition to a score wraps; let `ps` be
the boards of `g` after each has gone through `TileWall` and then `ScoreFloorLine`, and
let some board of `ps` have a wall row with all five cells occupied.  Then `EndRound`
returns a state with `GameOver` true, whose boards are those of `ps` after one
`ScoreEndGame` each (the score raised by the end of game bonus once, everything else
kept); `Round`, `CurrentPlayer`, the tiles of the bag and its random source, the factories
and the center are those of `g`, so that no tile is drawn and factories that were empty
stay empty.  The scores of `ps` lie between 0 and `MaxInt64 - 95` and the final scores are
values of `int`. -/
theorem C20_endRound_gameOver (raw : Int → Nat → Nat) (g : Game) (ps : List PlayerBoard)
    (hscore : ∀ p ∈ g.Players, MinInt64 + 14 ≤ p.Score ∧ p.Score ≤ MaxInt64 - 145)
    (htile : List.Forall₂
      (fun p q => ∃ tw, p.TileWall = some tw ∧ q = tw.1.ScoreFloorLine.1) g.Players ps)
    (hrow : ∃ p ∈ ps, ∃ r ∈ range5, rowFull p.Wall r = true) :
    ∃ g1, Game.EndRound raw g = some g1 ∧ g1.GameOver = true ∧
      List.Forall₂ (fun q p1 => q.ScoreEndGame = some p1) ps g1.Players ∧
      g1.Players = ps.map (fun p => { p with Score := p.Score + endGameBonus p.Wall }) ∧
      g1.Round = g.Round ∧ g1.CurrentPlayer = g.CurrentPlayer ∧
      g1.FirstPlayer = g.FirstPlayer ∧ g1.NumPlayers = g.NumPlayers ∧
      g1.Bag.tiles = g.Bag.tiles ∧ g1.Bag.rng = g.Bag.rng ∧
      g1.Factories = g.Factories ∧ g1.Center = g.Center ∧
      ((∀ f ∈ g.Factories, f.Tiles = []) → ∀ f ∈ g1.Factories, f.Tiles = []) ∧
      (∀ q ∈ ps, 0 ≤ q.Score ∧ q.Score ≤ MaxInt64 - 95) ∧
      (∀ p ∈ g1.Players, InInt64 p.Score) := by
  obtain ⟨g1, e1, e2, e3, e4, e5, e6, e7, e8, e9, e10, e11, e12, e13⟩ :=
    endRound_gameOver raw g ps htile hrow
  have hps : ∀ q ∈ ps, 0 ≤ q.Score ∧ q.Score ≤ MaxInt64 - 95 := by
    intro q hq
    obtain ⟨p, hp, hrel⟩ := forall₂_mem_right _ _ _ htile q hq
    have := tiled_score p q hrel
    have h95 : (95 : Int) ≤ MaxInt64 := by decide
    have := (hscore p hp).2
    exact ⟨by omega, by omega⟩
  refine ⟨g1, e1, e2, e3, e4, e5, e6, e7, e8, e9, e10, e11, e12, e13, hps, ?_⟩
  intro p hp
  rw [e4] at hp
  obtain ⟨q, hq, rfl⟩ := List.mem_map.1 hp
  obtain ⟨q0, q1⟩ := hps q hq
  have h0 := endGameBonus_nonneg q.Wall
  have h1 := endGameBonus_le q.Wall
  have hmin : MinInt64 ≤ 0 := by decide
  constructor
  · show MinInt64 ≤ q.Score + endGameBonus q.Wall
    omega
  · show q.Score + endGameBonus q.Wall ≤ MaxInt64
    omega

/-- Witness of C20 on `finalRound`, whose first board completes wall row 0 when tiled. -/
theorem C20_endRound_gameOver_witness :
    (∀ p ∈ finalRound.Players, MinInt64 + 14 ≤ p.Score ∧ p.Score ≤ MaxInt64 - 145) ∧
    List.Forall₂ (fun p q => ∃ tw, p.TileWall = some tw ∧ q = tw.1.ScoreFloorLine.1)
      finalRound.Players finalBoards ∧
    (∃ p ∈ finalBoards, ∃ r ∈ range5, rowFull p.Wall r = true) ∧
    (∀ f ∈ finalRound.Factories, f.Tiles = []) ∧
    ∃ g1, Game.EndRound rawZero finalRound = some g1 ∧ g1.GameOver = true ∧
      List.Forall₂ (fun q p1 => q.ScoreEndGame = some p1) finalBoards g1.Players ∧
      g1.Players =
        finalBoards.map (fun p => { p with Score := p.Score + endGameBonus p.Wall }) ∧
      g1.Round = finalRound.Round ∧ g1.CurrentPlayer = finalRound.CurrentPlayer ∧
      g1.FirstPlayer = finalRound.FirstPlayer ∧ g1.NumPlayers = finalRound.NumPlayers ∧
      g1.Bag.tiles = finalRound.Bag.tiles ∧ g1.Bag.rng = finalRound.Bag.rng ∧
      g1.Factories = finalRound.Factories ∧ g1.Center = finalRound.Center ∧
      ((∀ f ∈ finalRound.Factories, f.Tiles = []) → ∀ f ∈ g1.Factories, f.Tiles = []) ∧
      (∀ q ∈ finalBoards, 0 ≤ q.Score ∧ q.Score ≤ MaxInt64 - 95) ∧
      (∀ p ∈ g1.Players, InInt64 p.Score) :=
  ⟨by decide, finalRound_tiled.1, finalRound_tiled.2.1, finalRound_tiled.2.2,
    C20_endRound_gameOver rawZero finalRound finalBoards (by decide) finalRound_tiled.1
      finalRound_tiled.2.1⟩

/-- C21: next-round transition.  Let every board of `g` have a score `s` with
`MinInt64 + 14 ≤ s ≤ MaxInt64 - 50` and let `Round` be a value of `int` below `MaxInt64`,
so that no addition wraps; let `ps` be the boards of `g` after each has gone through
`TileWall` and then `ScoreFloorLine`, and let no board of `ps` have a wall row with all
five cells occupied.  Then `EndRound` returns a state in which `GameOver` is as before (so
it stays false), `Round` is one more, `CurrentPlayer` is the recorded `FirstPlayer`, the
center holds no tiles and the first player marker, the boards are `ps` with every floor
line empty, and the factories, as many as before, hold in turn
`min(4, tiles left in bag and discards)` tiles drawn from the bag, the discards of this
round included: the `k`-th holds `min(4, total - 4k)`, and each holds exactly four when
the total is at least four times the number of factories.  The new round number and the
new scores are values of `int`. -/
theorem C21_endRound_nextRound (raw : Int → Nat → Nat) (g : Game) (ps : List PlayerBoard)
    (hscore : ∀ p ∈ g.Players, MinInt64 + 14 ≤ p.Score ∧ p.Score ≤ MaxInt64 - 50)
    (hround : MinInt64 ≤ g.Round ∧ g.Round < MaxInt64)
    (htile : List.Forall₂
      (fun p q => ∃ tw, p.TileWall = some tw ∧ q = tw.1.ScoreFloorLine.1) g.Players ps)
    (hrow : ∀ p ∈ ps, ∀ r ∈ range5, rowFull p.Wall r = false) :
    ∃ g1, Game.EndRound raw g = some g1 ∧ g1.GameOver = g.GameOver ∧
      g1.Round = g.Round + 1 ∧ g1.CurrentPlayer = g.FirstPlayer ∧
      g1.FirstPlayer = g.FirstPlayer ∧ g1.NumPlayers = g.NumPlayers ∧
      g1.Center = ⟨[], true⟩ ∧ g1.Players = ps ∧ (∀ p ∈ g1.Players, p.FloorLine = []) ∧
      g1.Factories.length = g.Factories.length ∧
      g1.Factories.map (fun f => f.Tiles.length) =
        fillCounts g.Factories.length
          (g.Bag.tiles.length + (g.Bag.discards ++ roundDiscards g.Players).length) ∧
      g1.Factories.map (fun f => f.Tiles.length) =
        (List.range g.Factories.length).map (fun k : Nat =>
          min 4 (g.Bag.tiles.length + (g.Bag.discards ++ roundDiscards g.Players).length - 4 * k)) ∧
      (4 * g.Factories.length ≤
          g.Bag.tiles.length + (g.Bag.discards ++ roundDiscards g.Players).length →
        ∀ f ∈ g1.Factories, f.Tiles.length = 4) ∧
      ((g1.Factories.map (fun f => f.Tiles)).flatten ++
          (g1.Bag.tiles ++ g1.Bag.discards)).Perm
        (g.Bag.tiles ++ (g.Bag.discards ++ roundDiscards g.Players)) ∧
      InInt64 g1.Round ∧ (∀ p ∈ g1.Players, InInt64 p.Score) := by
  obtain ⟨g1, e1, e2, e3, e4, e5, e6, e7, e8, e9, e10, e11, e12, e13, e14⟩ :=
    endRound_nextRound raw g ps htile hrow
  refine ⟨g1, e1, e2, e3, e4, e5, e6, e7, e8, e9, e10, e11, e12, e13, e14, ?_, ?_⟩
  · rw [e3]
    constructor <;> omega
  · intro p hp
    rw [e8] at hp
    obtain ⟨p0, hp0, hrel⟩ := forall₂_mem_right _ _ _ htile p hp
    have := tiled_score p0 p hrel
    have hmin : MinInt64 ≤ 0 := by decide
    have hmax : (0 : Int) ≤ MaxInt64 := by decide
    have := (hscore p0 hp0).2
    constructor <;> omega

/-- Witness of C21 on `midRound`: eleven tiles are left for five factories, which receive
4, 4, 3, 0 and 0 tiles. -/
theorem C21_endRound_nextRound_witness :
    (∀ p ∈ midRound.Players, MinInt64 + 14 ≤ p.Score ∧ p.Score ≤ MaxInt64 - 50) ∧
    (MinInt64 ≤ midRound.Round ∧ midRound.Round < MaxInt64) ∧
    List.Forall₂ (fun p q => ∃ tw, p.TileWall = some tw ∧ q = tw.1.ScoreFloorLine.1)
      midRound.Players midBoards ∧
    (∀ p ∈ midBoards, ∀ r ∈ range5, rowFull p.Wall r = false) ∧
    ∃ g1, Game.EndRound rawZero midRound = some g1 ∧ g1.GameOver = false ∧
      g1.Round = 4 ∧ g1.CurrentPlayer = 1 ∧ g1.Center = ⟨[], true⟩ ∧ g1.Players = midBoards ∧
      (∀ p ∈ g1.Players, p.FloorLine = []) ∧
      g1.Factories.map (fun f => f.Tiles.length) = [4, 4, 3, 0, 0] ∧
      InInt64 g1.Round ∧ (∀ p ∈ g1.Players, InInt64 p.Score) := by
  obtain ⟨g1, h1, h2, h3, h4, _, _, h7, h8, h9, _, h11, _, _, _, h15, h16⟩ :=
    C21_endRound_nextRound rawZero midRound midBoards (by decide) (by decide)
      midRound_tiled.1 midRound_tiled.2.1
  refine ⟨by decide, by decide, midRound_tiled.1, midRound_tiled.2.1, g1, h1, h2, h3, h4,
    h7, h8, h9, ?_, h15, h16⟩
  rw [h11, midRound_tiled.2.2]
  rfl

end Azul
